import Mathlib

/-! # Calculon: resolution and code generation of the AST

A shallow embedding of `src/include/calculon_ast.h`, with `Position` and
`CompilationException` from `src/calculon.h`.  Every `ASTNode` subclass becomes a
constructor of `ASTNode`; the two virtual methods `resolveVariables` and
`codegen` become two functions defined by recursion over the tree.  The
`Compiler&` that every method receives is threaded explicitly as a state; a
C++ `throw` and a crash (null dereference, failed `assert`) are two distinct
non-`ok` outcomes, and the state reached at that point is kept.

Pointers are indices: a `VariableSymbol*` is an index into
`Compiler.variableSymbols`, a `FunctionSymbol*` an index into `Compiler.functionSymbols`,
an `llvm::Function*` an index into `Compiler.module`.  A null pointer is
`none`.

The namespace `Instance` holds the part of `src/calculon.h` that builds the
interface function: `CompilerState::getInternalType`, `getExternalType` and
`Program::init` from the creation of the function to its `ret`.
-/

namespace Calculon

/-! ## Positions and exceptions (`src/calculon.h`) -/

/-- The payload of a numeric literal (`S::Real`).  It is carried, never computed with. -/
abbrev Real := Int

/-- `Instance::Position`. -/
structure Position where
  line : Int
  column : Int
deriving DecidableEq, Repr

/-- `Position::formatError`. -/
def Position.formatError (p : Position) (what : String) : String :=
  what ++ " at " ++ toString p.line ++ ":" ++ toString p.column

/-- The three exception classes the AST throws.  `CompilationException` is declared
in `calculon.h`.  Modelled from the spec (7, error taxonomy) are `SymbolException(id, node)`
and `TypeException(what, node)`, whose declarations are not among the sources:
they carry the identifier or message and the node, of which the model keeps the
position. -/
inductive Exception where
  | SymbolException (id : String) (position : Position)
  | CompilationException (what : String)
  | TypeException (what : String) (position : Position)
deriving DecidableEq, Repr

/-- The two ways the C++ code can crash instead of throwing. -/
inductive Fault where
  | nullDereference
  | assertionFailed
deriving DecidableEq, Repr

/-! ## Types and backend values -/

/-- An `llvm::Type*`, as far as the AST distinguishes them. -/
inductive LType where
  | double
  | i1
  | vector (size : Nat)
  | pointer
  | void
  | function
deriving DecidableEq, Repr

/-- Modelled from the spec: the type catalogue (`Type`, `compiler.types`), which
is not among the sources.  A type is `Real`, `Boolean` or `Vector<N>`, types are
compared by identity, and each has one native representation `llvm`. -/
inductive CalcType where
  | RealType
  | BooleanType
  | VectorType (size : Nat)
deriving DecidableEq, Repr

/-- Modelled from the spec: the field `Type::name`, the name of a type as the
messages print it (`vector*3` for a vector of three lanes). -/
def CalcType.name : CalcType → String
  | .RealType => "real"
  | .BooleanType => "boolean"
  | .VectorType n => "vector*" ++ toString n

/-- Modelled from the spec: the field `Type::llvm`, the one native representation
of a type. -/
def CalcType.llvm : CalcType → LType
  | .RealType => .double
  | .BooleanType => .i1
  | .VectorType n => .vector n

/-- Modelled from the spec: `compiler.types->find(llvm::Type*)`, the lookup of a
catalogue entry by native representation; null when there is none. -/
def TypeRegistry.find : LType → Option CalcType
  | .double => some .RealType
  | .i1 => some .BooleanType
  | .vector n => some (.VectorType n)
  | _ => none

abbrev SymId := Nat
abbrev FnId := Nat
abbrev BlockId := Nat

/-- An `llvm::Value*` that is not null. -/
inductive Val where
  | ConstantFP (value : Real)
  | ConstantInt (value : Bool)
  | Undef (type : LType)
  | InsertElement (vector : Val) (index : Nat) (element : Val)
  | Argument (function : FnId) (index : Nat) (type : LType)
  | Function (function : FnId)
  | Instruction (index : Nat) (type : LType)
deriving DecidableEq, Repr

/-- `llvm::Value::getType`. -/
def Val.getType : Val → LType
  | .ConstantFP _ => .double
  | .ConstantInt _ => .i1
  | .Undef t => t
  | .InsertElement v _ _ => v.getType
  | .Argument _ _ t => t
  | .Function _ => .function
  | .Instruction _ t => t

/-- What `emitCall` calls: a generated function or an intrinsic. -/
inductive Callee where
  | Function (function : FnId)
  | Intrinsic (id : Nat)
deriving DecidableEq, Repr

/-- The instructions the AST asks the builder for. -/
inductive Instr where
  | Ret (value : Option Val)
  | Br (dest : BlockId)
  | CondBr (cond : Val) (iftrue iffalse : BlockId)
  | PHI (type : LType) (incoming : List (Val × Option BlockId))
  | Call (callee : Callee) (parameters : List (Option Val))
  | Store (value : Option Val) (ptr : Option Val)
  | StoreToArray (type : CalcType) (value : Option Val) (ptr : Option Val)
deriving DecidableEq, Repr

/-- The `llvm::IRBuilder<>`: the block it inserts into (every `SetInsertPoint` of
the source selects the end of a block, so the block is the whole insertion
point), the parent function of every block created, and the instructions
emitted so far, oldest first, each with the block it went into. -/
structure Builder where
  insertBlock : Option BlockId
  blocks : List FnId
  code : List (Option BlockId × Instr)
deriving DecidableEq, Repr

/-- An `llvm::Function` created in the module. -/
structure LLVMFunction where
  name : String
  returntype : LType
  params : List LType
deriving DecidableEq, Repr

/-! ## Symbols and symbol tables -/

/-- Modelled from the spec: `VariableSymbol` (declared in `calculon_symbol.h`, not
among the sources) with the fields the AST reads and writes: name, type
(possibly unresolved), owning function, current value. -/
structure VariableSymbol where
  name : String
  type : Option CalcType
  function : Option SymId
  value : Option Val
deriving DecidableEq, Repr

/-- Modelled from the spec: a `Symbol*` as it is stored in a symbol table, with the
capability it has (the class hierarchy is in `calculon_symbol.h`, not among the
sources). -/
inductive Symbol where
  | Variable (id : SymId)
  | Valued (value : Option Val)
  | Function (id : SymId)
  | Intrinsic (id : Nat)
deriving DecidableEq, Repr

/-- Modelled from the spec: `FunctionSymbol` (declared in `calculon_symbol.h`, not
among the sources) with the fields the AST reads and writes; `toplevel` holds
`ToplevelSymbol::returns` when the symbol is a `ToplevelSymbol`; `locals`
(`LocalsMap`) is an insertion-ordered mapping from home variable to local
proxy. -/
structure FunctionSymbol where
  name : String
  arguments : List SymId
  returntype : CalcType
  locals : List (SymId × SymId)
  parent : Option SymId
  function : Option FnId
  toplevel : Option (List Symbol)
deriving DecidableEq, Repr

/-- Modelled from the spec: a callable of the intrinsic catalogue, which is not a
`FunctionSymbol`: a name, a parameter count and the type of its result. -/
structure IntrinsicSymbol where
  name : String
  parameters : Nat
  returntype : LType
deriving DecidableEq, Repr

/-- Modelled from the spec: a `CallableSymbol*`. -/
inductive CallableSymbol where
  | Function (id : SymId)
  | Intrinsic (id : Nat)
deriving DecidableEq, Repr

/-- Modelled from the spec: a `ValuedSymbol*`. -/
inductive ValuedSymbol where
  | Variable (id : SymId)
  | Valued (value : Option Val)
deriving DecidableEq, Repr

/-- Modelled from the spec: the capability check `Symbol::isValued`. -/
def Symbol.isValued : Symbol → Option ValuedSymbol
  | .Variable id => some (.Variable id)
  | .Valued v => some (.Valued v)
  | _ => none

/-- Modelled from the spec: the capability check `Symbol::isVariable`. -/
def Symbol.isVariable : Symbol → Option SymId
  | .Variable id => some id
  | _ => none

/-- Modelled from the spec: the capability check `ValuedSymbol::isVariable`. -/
def ValuedSymbol.isVariable : ValuedSymbol → Option SymId
  | .Variable id => some id
  | _ => none

/-- Modelled from the spec: the capability check `Symbol::isCallable`. -/
def Symbol.isCallable : Symbol → Option CallableSymbol
  | .Function id => some (.Function id)
  | .Intrinsic id => some (.Intrinsic id)
  | _ => none

/-- Modelled from the spec: the capability check `CallableSymbol::isFunction`. -/
def CallableSymbol.isFunction : CallableSymbol → Option SymId
  | .Function id => some id
  | _ => none

/-- Modelled from the spec: one scope of a symbol table, holding exactly one symbol
(`SingletonSymbolTable`) or a set of symbols (`MultipleSymbolTable`). -/
inductive Scope where
  | Singleton (symbol : Option (String × Symbol))
  | Multiple (symbols : List (String × Symbol))
deriving DecidableEq, Repr

/-- Modelled from the spec: a `SymbolTable` is a chain of scopes, innermost
first.  A null `SymbolTable*` is `none : Option SymbolTable`. -/
abbrev SymbolTable := List Scope

/-- Modelled from the spec: the lookup of a name in one scope. -/
def Scope.find (name : String) : Scope → Option Symbol
  | .Singleton none => none
  | .Singleton (some (n, s)) => if n = name then some s else none
  | .Multiple symbols => (symbols.find? (fun e => e.1 = name)).map Prod.snd

/-- Modelled from the spec: `SymbolTable::resolve` walks the chain from the
innermost to the outermost scope and returns the first match. -/
def SymbolTable.resolve (name : String) : SymbolTable → Option Symbol
  | [] => none
  | scope :: next =>
    match scope.find name with
    | some s => some s
    | none => SymbolTable.resolve name next

/-- Modelled from the spec: `new SingletonSymbolTable(next)` followed by
`add(symbol)`, a new innermost scope with one symbol. -/
def SymbolTable.newSingleton (next : Option SymbolTable) (name : String) (s : Symbol) :
    SymbolTable :=
  Scope.Singleton (some (name, s)) :: next.getD []

/-- Modelled from the spec: `new MultipleSymbolTable(next)`, a new innermost scope
without symbols. -/
def SymbolTable.newMultiple (next : Option SymbolTable) : SymbolTable :=
  Scope.Multiple [] :: next.getD []

/-- Modelled from the spec: `SymbolTable::add` on the innermost scope; a name added
again replaces the older entry of that scope. -/
def SymbolTable.add (name : String) (s : Symbol) : SymbolTable → SymbolTable
  | [] => [Scope.Multiple [(name, s)]]
  | Scope.Singleton _ :: next => Scope.Singleton (some (name, s)) :: next
  | Scope.Multiple symbols :: next =>
    Scope.Multiple ((name, s) :: symbols.filter (fun e => e.1 ≠ name)) :: next

/-! ## The compiler state and the monad of the two passes -/

/-- The part of `Compiler` the AST reads and writes. -/
structure Compiler where
  variableSymbols : List VariableSymbol
  functionSymbols : List FunctionSymbol
  intrinsics : List IntrinsicSymbol
  module : List LLVMFunction
  builder : Builder
  position : Position
deriving DecidableEq, Repr

/-- How a method ends: it returns, it throws, or it crashes. -/
inductive Outcome (α : Type) where
  | ok (a : α)
  | thrown (e : Exception)
  | fault (f : Fault)
deriving DecidableEq, Repr

/-- A method receiving `Compiler&`. -/
def M (α : Type) : Type := Compiler → Outcome α × Compiler

/-- Returning a value. -/
def M.pure {α : Type} (a : α) : M α := fun c => (.ok a, c)

/-- Sequencing: the rest runs only after a normal return. -/
def M.bind {α β : Type} (x : M α) (f : α → M β) : M β := fun c =>
  match x c with
  | (.ok a, c1) => f a c1
  | (.thrown e, c1) => (.thrown e, c1)
  | (.fault e, c1) => (.fault e, c1)

instance : Monad M where
  pure := M.pure
  bind := M.bind

/-- A C++ `throw`. -/
def throwEx {α : Type} (e : Exception) : M α := fun c => (.thrown e, c)

/-- A crash. -/
def crash {α : Type} (f : Fault) : M α := fun c => (.fault f, c)

/-- Reading the state. -/
def getCompiler : M Compiler := fun c => (.ok c, c)

/-- Writing the state. -/
def modifyCompiler (f : Compiler → Compiler) : M Unit := fun c => (.ok (), f c)

/-- Dereferencing a pointer that may be null. -/
def deref {α : Type} : Option α → M α
  | some a => pure a
  | none => crash .nullDereference

/-- The C `assert` on a pointer. -/
def assertSome {α : Type} : Option α → M α
  | some a => pure a
  | none => crash .assertionFailed

/-- Following a `VariableSymbol*`. -/
def getVariable (id : SymId) : M VariableSymbol := fun c => deref c.variableSymbols[id]? c

/-- Following a `FunctionSymbol*`. -/
def getFunctionSymbol (id : SymId) : M FunctionSymbol := fun c => deref c.functionSymbols[id]? c

/-- Assigning fields of a `VariableSymbol`. -/
def modifyVariable (id : SymId) (f : VariableSymbol → VariableSymbol) : M Unit := do
  let v ← getVariable id
  modifyCompiler (fun c => { c with variableSymbols := c.variableSymbols.set id (f v) })

/-- Assigning fields of a `FunctionSymbol`. -/
def modifyFunctionSymbol (id : SymId) (f : FunctionSymbol → FunctionSymbol) : M Unit := do
  let s ← getFunctionSymbol id
  modifyCompiler (fun c => { c with functionSymbols := c.functionSymbols.set id (f s) })

/-- The expression `compiler.retain(new VariableSymbol(name, type))`. -/
def newVariableSymbol (name : String) (type : Option CalcType) : M SymId := fun c =>
  (.ok c.variableSymbols.length,
    { c with variableSymbols := c.variableSymbols ++ [{ name := name, type := type, function := none, value := none }] })

/-! ## `FunctionSymbol::locals` -/

/-- Modelled from the spec: the lookup of a key in `locals` (`LocalsMap::find`). -/
def LocalsMap.find (key : SymId) (locals : List (SymId × SymId)) : Option SymId :=
  (List.find? (fun e => e.1 = key) locals).map Prod.snd

/-- Modelled from the spec: the assignment `locals[key] = value`; a new key goes to
the end. -/
def LocalsMap.assign (key value : SymId) (locals : List (SymId × SymId)) : List (SymId × SymId) :=
  match LocalsMap.find key locals with
  | some _ => locals.map (fun e => if e.1 = key then (key, value) else e)
  | none => locals ++ [(key, value)]

/-- The entries both loops over `locals` act on: those with `i->first != i->second`. -/
def upvalues (locals : List (SymId × SymId)) : List (SymId × SymId) :=
  locals.filter (fun e => e.1 ≠ e.2)

/-- Modelled from the spec: `FunctionSymbol::importUpvalue`, which is not among
the sources.  If the home variable is already a key of the function's `locals`
nothing changes; otherwise a fresh proxy with the home's name and type is
appended.  The local symbol the key maps to is returned: it is the symbol
`ASTFunctionBody::codegen` gives a value inside the function (`li->second`) and
the symbol `ASTFunctionCall::codegen` reads in the caller
(`caller->locals[i->first]`), so it is the one `ASTVariable::codegen` can emit. -/
def importUpvalue (function : SymId) (symbol : SymId) : M SymId := do
  let f ← getFunctionSymbol function
  match LocalsMap.find symbol f.locals with
  | some l => pure l
  | none => do
    let v ← getVariable symbol
    let l ← newVariableSymbol v.name v.type
    modifyFunctionSymbol function (fun f => { f with locals := f.locals ++ [(symbol, l)] })
    pure l

/-! ## The tree (`src/include/calculon_ast.h`) -/

/-- The classes derived from `ASTNode`, one constructor each, with their fields.
The `symbolTable` of the four `ASTFrame` classes and the fields the resolution
pass fills in (`symbol`, `_symbol`, `function` of a call) are null in the tree
the parser hands over.  The vector nodes' `typenm` is determined by the element
count and is not stored. -/
inductive ASTNode where
  | ASTConstant (position : Position) (value : Real)
  | ASTBoolean (position : Position) (id : String)
  | ASTVariable (position : Position) (id : String) (symbol : Option ValuedSymbol)
  | ASTVector (position : Position) (elements : List ASTNode)
  | ASTVectorSplat (position : Position) (value : ASTNode) (size : Nat)
  | ASTDefineVariable (position : Position) (symbolTable : Option SymbolTable) (id : String)
      (type : Option CalcType) (value body : ASTNode) (_symbol : Option SymId)
  | ASTFunctionBody (position : Position) (symbolTable : Option SymbolTable) (function : SymId)
      (body : ASTNode)
  | ASTToplevel (position : Position) (symbolTable : Option SymbolTable) (toplevel : SymId)
      (body : ASTNode)
  | ASTReturn (position : Position)
  | ASTDefineFunction (position : Position) (symbolTable : Option SymbolTable) (function : SymId)
      (definition body : ASTNode)
  | ASTFunctionCall (position : Position) (id : String) (arguments : List ASTNode)
      (function : Option CallableSymbol)
  | ASTCondition (position : Position) (condition trueval falseval : ASTNode)
deriving Repr

/-- What the walk along the `parent` links sees of one ancestor: whether it
overrides `getFrame` (the `ASTFrame` classes, with their `symbolTable` as it is
at that moment) and whether it overrides `getFunction` (`ASTFunctionBody` and
`ASTToplevel`). -/
inductive Ancestor where
  | Node
  | Frame (symbolTable : Option SymbolTable)
  | FunctionBody (symbolTable : Option SymbolTable) (function : SymId)
deriving DecidableEq, Repr

/-- `parent->getFrame()->symbolTable` for the chain of ancestors, nearest
first: `ASTNode::getFrame` passes the question on to the parent, `ASTFrame::getFrame`
answers.  The outer `none` is the null `parent` of the root. -/
def getFrame : List Ancestor → Option (Option SymbolTable)
  | [] => none
  | .Node :: parents => getFrame parents
  | .Frame symbolTable :: _ => some symbolTable
  | .FunctionBody symbolTable _ :: _ => some symbolTable

/-- `parent->getFunction()` for the chain of ancestors, nearest first:
`ASTNode::getFunction` passes the question on, `ASTFunctionBody::getFunction`
answers. -/
def getFunction : List Ancestor → Option SymId
  | [] => none
  | .Node :: parents => getFunction parents
  | .Frame _ :: parents => getFunction parents
  | .FunctionBody _ function :: _ => some function

/-! ## The resolution pass -/

/-- The loop of `ASTFunctionBody::resolveVariables` over `function->arguments`. -/
def addArguments (function : SymId) : List SymId → SymbolTable → M SymbolTable
  | [], symbolTable => pure symbolTable
  | symbol :: rest, symbolTable => do
    let v ← getVariable symbol
    modifyVariable symbol (fun v => { v with function := some function })
    addArguments function rest (symbolTable.add v.name (.Variable symbol))

/-- The loop of `ASTFunctionCall::resolveVariables` over `callee->locals`.  (When
caller and callee are the same function every key is already present and the
map is not changed while it is iterated.) -/
def importUpvaluesOf (caller : SymId) : List (SymId × SymId) → M Unit
  | [] => pure ()
  | i :: rest => do
    if i.1 ≠ i.2 then
      let _ ← importUpvalue caller i.1
    importUpvaluesOf caller rest

mutual
/-- The virtual method `resolveVariables`, by class.  `parents` is the chain of
`parent` links of the node; the node with its fields assigned is returned. -/
def resolveVariables : ASTNode → List Ancestor → M ASTNode
  | .ASTConstant position value, _ => pure (.ASTConstant position value)
  | .ASTBoolean position id, _ => pure (.ASTBoolean position id)
  | .ASTVariable position id _, parents => do
    let frame ← deref (getFrame parents)
    let symbolTable ← deref frame
    match symbolTable.resolve id with
    | none => throwEx (.SymbolException id position)
    | some s =>
      match s.isValued with
      | none =>
        throwEx (.CompilationException (position.formatError
          ("attempt to get the value of '" ++ id ++ "', which is not a variable")))
      | some symbol =>
        match symbol.isVariable with
        | some v => do
          let function ← deref (getFunction parents)
          let l ← importUpvalue function v
          pure (.ASTVariable position id (some (.Variable l)))
        | none => pure (.ASTVariable position id (some symbol))
  | .ASTVector position elements, parents => do
    let elements ← resolveVariablesList elements (.Node :: parents)
    pure (.ASTVector position elements)
  | .ASTVectorSplat position value size, parents => do
    let value ← resolveVariables value (.Node :: parents)
    pure (.ASTVectorSplat position value size)
  | .ASTDefineVariable position _ id type value body _, parents => do
    let frame ← deref (getFrame parents)
    let symbol ← newVariableSymbol id type
    let function ← deref (getFunction parents)
    modifyVariable symbol (fun v => { v with function := some function })
    let symbolTable := SymbolTable.newSingleton frame id (.Variable symbol)
    modifyFunctionSymbol function
      (fun f => { f with locals := LocalsMap.assign symbol symbol f.locals })
    -- `value->parent = parent`: the initializer hangs under the parent of this node
    let value ← resolveVariables value parents
    let body ← resolveVariables body (.Frame (some symbolTable) :: parents)
    pure (.ASTDefineVariable position (some symbolTable) id type value body (some symbol))
  | .ASTFunctionBody position symbolTable function body, parents => do
    let symbolTable ←
      match symbolTable with
      | some t => pure t
      | none => do
        let frame ← deref (getFrame parents)
        pure (SymbolTable.newMultiple frame)
    let f ← getFunctionSymbol function
    let symbolTable ← addArguments function f.arguments symbolTable
    let body ← resolveVariables body (.FunctionBody (some symbolTable) function :: parents)
    pure (.ASTFunctionBody position (some symbolTable) function body)
  | .ASTToplevel position symbolTable toplevel body, parents => do
    let body ← resolveVariables body (.FunctionBody symbolTable toplevel :: parents)
    pure (.ASTToplevel position symbolTable toplevel body)
  | .ASTReturn position, parents => do
    let function ← deref (getFunction parents)
    let f ← getFunctionSymbol function
    match f.toplevel with
    | none =>
      throwEx (.CompilationException (position.formatError
        "'return' can only be used in top level code"))
    | some _ => pure (.ASTReturn position)
  | .ASTDefineFunction position _ function definition body, parents => do
    let frame ← deref (getFrame parents)
    let f ← getFunctionSymbol function
    let symbolTable := SymbolTable.newSingleton frame f.name (.Function function)
    let parent ← deref (getFunction parents)
    modifyFunctionSymbol function (fun f => { f with parent := some parent })
    let definition ← resolveVariables definition (.Frame (some symbolTable) :: parents)
    let body ← resolveVariables body (.Frame (some symbolTable) :: parents)
    pure (.ASTDefineFunction position (some symbolTable) function definition body)
  | .ASTFunctionCall position id arguments _, parents => do
    let frame ← deref (getFrame parents)
    let symbolTable ← deref frame
    match symbolTable.resolve id with
    | none => throwEx (.SymbolException id position)
    | some symbol =>
      match symbol.isCallable with
      | none =>
        throwEx (.CompilationException (position.formatError
          ("attempt to call '" ++ id ++ "', which is not a function")))
      | some function => do
        let arguments ← resolveVariablesList arguments (.Node :: parents)
        match function.isFunction with
        | some callee => do
          let caller ← deref (getFunction parents)
          let f ← getFunctionSymbol callee
          importUpvaluesOf caller f.locals
          pure (.ASTFunctionCall position id arguments (some function))
        | none => pure (.ASTFunctionCall position id arguments (some function))
  | .ASTCondition position condition trueval falseval, parents => do
    let condition ← resolveVariables condition (.Node :: parents)
    let trueval ← resolveVariables trueval (.Node :: parents)
    let falseval ← resolveVariables falseval (.Node :: parents)
    pure (.ASTCondition position condition trueval falseval)
/-- The loops `for (...) elements[i]->resolveVariables(compiler)`. -/
def resolveVariablesList : List ASTNode → List Ancestor → M (List ASTNode)
  | [], _ => pure []
  | node :: rest, parents => do
    let node ← resolveVariables node parents
    let rest ← resolveVariablesList rest parents
    pure (node :: rest)
end

/-! ## The builder and the missing symbol methods -/

/-- Any `compiler.builder.Create...`: the instruction goes into the current
block; its index among the emitted instructions is returned. -/
def emit (i : Instr) : M Nat := fun c =>
  (.ok c.builder.code.length,
    { c with builder := { c.builder with code := c.builder.code ++ [(c.builder.insertBlock, i)] } })

/-- `llvm::BasicBlock::Create(compiler.context, "", parent)`. -/
def createBlock (parent : FnId) : M BlockId := fun c =>
  (.ok c.builder.blocks.length,
    { c with builder := { c.builder with blocks := c.builder.blocks ++ [parent] } })

/-- `compiler.builder.GetInsertBlock()`. -/
def getInsertBlock : M (Option BlockId) := fun c => (.ok c.builder.insertBlock, c)

/-- `compiler.builder.SetInsertPoint(block)`. -/
def setInsertPoint (block : Option BlockId) : M Unit :=
  modifyCompiler (fun c => { c with builder := { c.builder with insertBlock := block } })

/-- `llvm::Function::Create(ft, InternalLinkage, name, compiler.module)` for the
function type `ft = FunctionType::get(returntype, params, false)`. -/
def createFunction (name : String) (returntype : LType) (params : List LType) : M FnId := fun c =>
  (.ok c.module.length,
    { c with module := c.module ++ [{ name := name, returntype := returntype, params := params }] })

/-- Modelled from the spec: `ValuedSymbol::emitValue`, a read of the symbol's
current internal value. -/
def emitValue : ValuedSymbol → M (Option Val)
  | .Variable id => do
    let v ← getVariable id
    pure v.value
  | .Valued value => pure value

/-- Following a pointer to an intrinsic. -/
def getIntrinsic (id : Nat) : M IntrinsicSymbol := fun c => deref c.intrinsics[id]? c

/-- Modelled from the spec: `CallableSymbol::checkParameterCount`, which is not
among the sources: the argument count is validated against the declared
parameter count.  It receives the compiler and the count only, so the position
of the message is `compiler.position`. -/
def checkParameterCount (function : CallableSymbol) (calledwith : Nat) : M Unit := do
  let c ← getCompiler
  match function with
  | .Function id => do
    let f ← getFunctionSymbol id
    if f.arguments.length ≠ calledwith then
      throwEx (.CompilationException (c.position.formatError
        ("attempt to call function '" ++ f.name ++ "' with the wrong number of parameters")))
  | .Intrinsic id => do
    let f ← getIntrinsic id
    if f.parameters ≠ calledwith then
      throwEx (.CompilationException (c.position.formatError
        ("attempt to call function '" ++ f.name ++ "' with the wrong number of parameters")))

/-- Modelled from the spec: `CallableSymbol::emitCall`, which is not among the
sources: a call instruction to the callable with exactly the parameters it is
handed; the call is the value. -/
def emitCall (function : CallableSymbol) (parameters : List (Option Val)) : M (Option Val) := do
  match function with
  | .Function id => do
    let f ← getFunctionSymbol id
    let fn ← deref f.function
    let c ← getCompiler
    let llvmf ← deref c.module[fn]?
    let index ← emit (.Call (.Function fn) parameters)
    pure (some (.Instruction index llvmf.returntype))
  | .Intrinsic id => do
    let f ← getIntrinsic id
    let index ← emit (.Call (.Intrinsic id) parameters)
    pure (some (.Instruction index f.returntype))

/-! ## The code generation pass -/

/-- The field `position` of a node. -/
def ASTNode.position : ASTNode → Position
  | .ASTConstant position _ => position
  | .ASTBoolean position _ => position
  | .ASTVariable position _ _ => position
  | .ASTVector position _ => position
  | .ASTVectorSplat position _ _ => position
  | .ASTDefineVariable position _ _ _ _ _ _ => position
  | .ASTFunctionBody position _ _ _ => position
  | .ASTToplevel position _ _ _ => position
  | .ASTReturn position => position
  | .ASTDefineFunction position _ _ _ _ => position
  | .ASTFunctionCall position _ _ _ => position
  | .ASTCondition position _ _ _ => position

/-- `ASTNode::codegen_to_type` from its second line on: what it does with the
`v` that `codegen` returned. -/
def checkType (position : Position) (type : CalcType) (v : Option Val) : M Val := do
  let v ← deref v
  let t ← deref (TypeRegistry.find v.getType)
  if t ≠ type then
    throwEx (.TypeException
      ("type mismatch: expected a " ++ type.name ++ ", but got a " ++ t.name) position)
  pure v

/-- The loop of `ASTVectorSplat::codegen`: `count` more lanes from lane `i` on. -/
def setElements (e : Val) : Nat → Nat → Val → Val
  | _, 0, v => v
  | i, count + 1, v => setElements e (i + 1) count (.InsertElement v i e)

/-- `ASTDefineVariable::codegen` between `value->codegen` and `body->codegen`.
The node's field `type` as it is afterwards is returned. -/
def ASTDefineVariable.assign (position : Position) (type : Option CalcType)
    (_symbol : Option SymId) (v : Option Val) : M CalcType := do
  let symbol ← deref _symbol
  modifyVariable symbol (fun s => { s with value := v })
  match v with
  | none => throwEx (.TypeException "you can't assign 'return' to anything" position)
  | some v => do
    let type ←
      match type with
      | some type => pure type
      | none => do
        let found := TypeRegistry.find v.getType
        modifyVariable symbol (fun s => { s with type := found })
        deref found
    if v.getType ≠ type.llvm then
      let actual ← deref (TypeRegistry.find v.getType)
      throwEx (.TypeException
        ("variable is declared to return a " ++ type.name ++ " but has been set to a "
          ++ actual.name) position)
    pure type

/-- `ASTFunctionBody::codegen`, the loop over the normal parameters. -/
def argumentTypes : List SymId → M (List LType)
  | [] => pure []
  | i :: rest => do
    let symbol ← getVariable i
    let type ← deref symbol.type
    let types ← argumentTypes rest
    pure (type.llvm :: types)

/-- `ASTFunctionBody::codegen`, the loop over the imported upvalues. -/
def upvalueTypes : List (SymId × SymId) → M (List LType)
  | [] => pure []
  | i :: rest =>
    if i.1 ≠ i.2 then do
      let symbol ← getVariable i.1
      let value ← assertSome symbol.value
      let types ← upvalueTypes rest
      pure (value.getType :: types)
    else upvalueTypes rest

/-- `ASTFunctionBody::codegen`, binding the normal parameters: `vi` walks over
the arguments of the created function, whose types are `params`. -/
def bindArguments (f : FnId) (params : List LType) : List SymId → Nat → M Nat
  | [], vi => pure vi
  | symbol :: rest, vi => do
    let type ← assertSome params[vi]?
    modifyVariable symbol (fun s => { s with value := some (.Argument f vi type) })
    bindArguments f params rest (vi + 1)

/-- `ASTFunctionBody::codegen`, binding the upvalues to the proxies. -/
def bindUpvalues (f : FnId) (params : List LType) : List (SymId × SymId) → Nat → M Nat
  | [], vi => pure vi
  | li :: rest, vi =>
    if li.1 ≠ li.2 then do
      let type ← assertSome params[vi]?
      modifyVariable li.2 (fun s => { s with value := some (.Argument f vi type) })
      bindUpvalues f params rest (vi + 1)
    else bindUpvalues f params rest vi

/-- `ASTFunctionBody::codegen` up to and including `assert(vi == f->arg_end())`:
the function is created and its parameters are bound.  The created function
and its return type are returned. -/
def ASTFunctionBody.create (function : SymId) : M (FnId × LType) := do
  let fs ← getFunctionSymbol function
  let normal ← argumentTypes fs.arguments
  let imported ← upvalueTypes fs.locals
  let llvmtypes := normal ++ imported
  let returntype := fs.returntype.llvm
  let f ← createFunction fs.name returntype llvmtypes
  modifyFunctionSymbol function (fun s => { s with function := some f })
  let vi ← bindArguments f llvmtypes fs.arguments 0
  let fs ← getFunctionSymbol function
  let vi ← bindUpvalues f llvmtypes fs.locals vi
  if vi ≠ llvmtypes.length then
    crash .assertionFailed
  pure (f, returntype)

/-- `ASTFunctionBody::codegen` after `body->codegen`: the return instruction,
the check of the return type, and the insertion point put back. -/
def ASTFunctionBody.finish (position : Position) (f : FnId) (returntype : LType)
    (bb : Option BlockId) (v : Option Val) : M (Option Val) := do
  let _ ← emit (.Ret v)
  let v ← deref v
  if v.getType ≠ returntype then
    let declared ← deref (TypeRegistry.find returntype)
    let actual ← deref (TypeRegistry.find v.getType)
    throwEx (.TypeException
      ("function is declared to return a " ++ declared.name ++ " but actually returns a "
        ++ actual.name) position)
  setInsertPoint bb
  pure (some (.Function f))

/-- `ASTToplevel::codegen` after `body->codegen`. -/
def ASTToplevel.finish (position : Position) (v : Option Val) : M (Option Val) := do
  match v with
  | some _ =>
    throwEx (.CompilationException (position.formatError
      "toplevel code must end in a 'return' statement"))
  | none => do
    let _ ← emit (.Ret none)
    pure none

/-- The loop of `ASTReturn::codegen` over `toplevel->returns`. -/
def copyOutputs (position : Position) (symbolTable : Option SymbolTable) : List Symbol → M Unit
  | [] => pure ()
  | out :: rest => do
    let outsym ← assertSome out.isVariable
    let o ← getVariable outsym
    let ptr := o.value
    let table ← deref symbolTable
    match table.resolve o.name with
    | none =>
      throwEx (.CompilationException (position.formatError
        ("output value '" ++ o.name ++ "' was not set")))
    | some insym => do
      let valued ← deref insym.isValued
      let value ← emitValue valued
      let type ← deref o.type
      match type with
      | .VectorType _ => do
        let _ ← emit (.StoreToArray type value ptr)
      | _ => do
        let _ ← emit (.Store value ptr)
      copyOutputs position symbolTable rest

/-- The second loop of `ASTFunctionCall::codegen`: the imported upvalues are
pushed after the formal parameters. -/
def pushUpvalues (caller : SymId) : List (SymId × SymId) → List (Option Val) →
    M (List (Option Val))
  | [], parameters => pure parameters
  | i :: rest, parameters =>
    if i.1 ≠ i.2 then do
      let f ← getFunctionSymbol caller
      -- `caller->locals[i->first]` of a missing key yields null, and `assert(s)` fails
      let s ← assertSome (LocalsMap.find i.1 f.locals)
      let symbol ← getVariable s
      pushUpvalues caller rest (parameters ++ [symbol.value])
    else pushUpvalues caller rest parameters

/-- `ASTFunctionCall::codegen` from the comment "followed by imported upvalues"
to the end. -/
def ASTFunctionCall.finish (position : Position) (function : CallableSymbol)
    (parents : List Ancestor) (parameters : List (Option Val)) : M (Option Val) := do
  let parameters ←
    match function.isFunction with
    | some callee => do
      let caller ← deref (getFunction parents)
      let f ← getFunctionSymbol callee
      pushUpvalues caller f.locals parameters
    | none => pure parameters
  modifyCompiler (fun c => { c with position := position })
  emitCall function parameters

/-- `ASTCondition::codegen` from the two null checks to the end. -/
def ASTCondition.finish (position : Position) (mergeblock : BlockId)
    (trueresult : Option Val) (trueblock : Option BlockId)
    (falseresult : Option Val) (falseblock : Option BlockId) : M (Option Val) := do
  match trueresult, falseresult with
  | some trueresult, some falseresult => do
    if trueresult.getType ≠ falseresult.getType then
      throwEx (.CompilationException (position.formatError
        "the true and false value of a conditional must be the same type"))
    setInsertPoint (some mergeblock)
    let phi ← emit (.PHI trueresult.getType
      [(trueresult, trueblock), (falseresult, falseblock)])
    pure (some (.Instruction phi trueresult.getType))
  | _, _ =>
    throwEx (.CompilationException (position.formatError
      "you can't use 'return' inside conditionals"))

mutual
/-- The virtual method `codegen`, by class, on the chain of `parent` links of
the node.  `none` is the null `llvm::Value*`. -/
def codegen : ASTNode → List Ancestor → M (Option Val)
  | .ASTConstant _ value, _ => pure (some (.ConstantFP value))
  | .ASTBoolean _ id, _ =>
    if id = "true" then pure (some (.ConstantInt true)) else pure (some (.ConstantInt false))
  | .ASTVariable _ _ symbol, _ => do
    let symbol ← deref symbol
    emitValue symbol
  | .ASTVector _ elements, parents => do
    let type := CalcType.VectorType elements.length
    let v ← codegenElements elements (.Node :: parents) 0 (.Undef type.llvm)
    pure (some v)
  | .ASTVectorSplat _ value size, parents => do
    let type := CalcType.VectorType size
    let v := Val.Undef type.llvm
    let e ← codegen value (.Node :: parents)
    let e ← checkType value.position .RealType e
    pure (some (setElements e 0 size v))
  | .ASTDefineVariable position symbolTable _ type value body _symbol, parents => do
    let v ← codegen value parents
    let _ ← ASTDefineVariable.assign position type _symbol v
    codegen body (.Frame symbolTable :: parents)
  | .ASTFunctionBody position symbolTable function body, parents => do
    let (f, returntype) ← ASTFunctionBody.create function
    let toplevel ← createBlock f
    let bb ← getInsertBlock
    setInsertPoint (some toplevel)
    let v ← codegen body (.FunctionBody symbolTable function :: parents)
    ASTFunctionBody.finish position f returntype bb v
  | .ASTToplevel position symbolTable toplevel body, parents => do
    let v ← codegen body (.FunctionBody symbolTable toplevel :: parents)
    ASTToplevel.finish position v
  | .ASTReturn position, parents => do
    let function ← deref (getFunction parents)
    let f ← getFunctionSymbol function
    let returns ← assertSome f.toplevel
    let symbolTable ← deref (getFrame parents)
    copyOutputs position symbolTable returns
    pure none
  | .ASTDefineFunction _ symbolTable _ definition body, parents => do
    let _ ← codegen definition (.Frame symbolTable :: parents)
    codegen body (.Frame symbolTable :: parents)
  | .ASTFunctionCall position _ arguments function, parents => do
    let function ← deref function
    checkParameterCount function arguments.length
    let parameters ← codegenArguments arguments (.Node :: parents)
    ASTFunctionCall.finish position function parents parameters
  | .ASTCondition position condition trueval falseval, parents => do
    let cv ← codegen condition (.Node :: parents)
    let cv ← checkType condition.position .BooleanType cv
    let bb ← getInsertBlock
    let bb ← deref bb
    let c ← getCompiler
    let parent ← deref c.builder.blocks[bb]?
    let trueblock ← createBlock parent
    let falseblock ← createBlock parent
    let mergeblock ← createBlock parent
    let _ ← emit (.CondBr cv trueblock falseblock)
    setInsertPoint (some trueblock)
    let trueresult ← codegen trueval (.Node :: parents)
    let trueblock ← getInsertBlock
    let _ ← emit (.Br mergeblock)
    setInsertPoint (some falseblock)
    let falseresult ← codegen falseval (.Node :: parents)
    let falseblock ← getInsertBlock
    let _ ← emit (.Br mergeblock)
    ASTCondition.finish position mergeblock trueresult trueblock falseresult falseblock
/-- The loop of `ASTVector::codegen`: element `i` is generated by
`codegen_to_real` and set into lane `i` of `v`. -/
def codegenElements : List ASTNode → List Ancestor → Nat → Val → M Val
  | [], _, _, v => pure v
  | element :: rest, parents, i, v => do
    let e ← codegen element parents
    let e ← checkType element.position .RealType e
    codegenElements rest parents (i + 1) (.InsertElement v i e)
/-- The first loop of `ASTFunctionCall::codegen`: every argument is generated
and pushed. -/
def codegenArguments : List ASTNode → List Ancestor → M (List (Option Val))
  | [], _ => pure []
  | argument :: rest, parents => do
    let v ← codegen argument parents
    let parameters ← codegenArguments rest parents
    pure (v :: parameters)
end

/-- `ASTNode::codegen_to_type`. -/
def codegen_to_type (node : ASTNode) (parents : List Ancestor) (type : CalcType) : M Val := do
  let v ← codegen node parents
  checkType node.position type v

/-- `ASTNode::codegen_to_real`. -/
def codegen_to_real (node : ASTNode) (parents : List Ancestor) : M Val :=
  codegen_to_type node parents .RealType

/-- `ASTNode::codegen_to_boolean`. -/
def codegen_to_boolean (node : ASTNode) (parents : List Ancestor) : M Val :=
  codegen_to_type node parents .BooleanType

/-! ## Fixtures: what the parser and the compiler driver hand over -/

/-- Modelled from the spec: a `FunctionSymbol` as the parser creates it (the
constructor is not among the sources): `locals` holds the function's own
parameters, each mapped to itself. -/
def FunctionSymbol.new (name : String) (arguments : List SymId) (returntype : CalcType)
    (toplevel : Option (List Symbol)) : FunctionSymbol :=
  { name := name, arguments := arguments, returntype := returntype,
    locals := arguments.map (fun a => (a, a)), parent := none, function := none,
    toplevel := toplevel }

/-- A compiler at the start of the resolution pass: the given function symbols
(index 0 is the top-level one), no variable yet, the top-level function created
in the module and the builder at its entry block. -/
def startCompiler (functions : List FunctionSymbol) : Compiler :=
  { variableSymbols := [], functionSymbols := functions, intrinsics := [],
    module := [{ name := "toplevel", returntype := .void, params := [] }],
    builder := { insertBlock := some 0, blocks := [0], code := [] },
    position := ⟨0, 0⟩ }

/-- The state after one more instruction went into the current block. -/
def emitted (i : Instr) (c : Compiler) : Compiler :=
  { c with builder := { c.builder with code := c.builder.code ++ [(c.builder.insertBlock, i)] } }

/-- The top-level body `let y = 1.0 in y`, which has no `return`. -/
def missingReturn : ASTNode :=
  .ASTToplevel ⟨1, 1⟩ (some [Scope.Multiple []]) 0
    (.ASTDefineVariable ⟨1, 1⟩ none "y" none (.ASTConstant ⟨1, 9⟩ 1)
      (.ASTVariable ⟨1, 16⟩ "y" none) none)

/-! ## States named in the theorems -/

/-- The state after the fields of one `VariableSymbol` were assigned. -/
def withVariable (symbol : SymId) (s : VariableSymbol) (c : Compiler) : Compiler :=
  { c with variableSymbols := c.variableSymbols.set symbol s }

/-- The variable definition `let y : vector*3 = 1.0 in y`, resolved, with symbol 0. -/
def mistypedDefinition : ASTNode :=
  .ASTDefineVariable ⟨1, 1⟩ none "y" (some (.VectorType 3)) (.ASTConstant ⟨1, 9⟩ 1)
    (.ASTVariable ⟨1, 16⟩ "y" (some (.Variable 0))) (some 0)

/-- The state after `SetInsertPoint(block)`. -/
def withInsertPoint (block : Option BlockId) (c : Compiler) : Compiler :=
  { c with builder := { c.builder with insertBlock := block } }

/-- `GetInsertBlock()->getParent()`. -/
def insertFunction (c : Compiler) : Option FnId :=
  c.builder.insertBlock.bind (fun bb => c.builder.blocks[bb]?)

/-- `ASTCondition::codegen` between the condition and the true branch: three
blocks are created in `parent`, the conditional branch is emitted and the
builder is put at the first of them. -/
def ASTCondition.enterTrue (cv : Val) (parent : FnId) (c : Compiler) : Compiler :=
  withInsertPoint (some c.builder.blocks.length)
    (emitted (.CondBr cv c.builder.blocks.length (c.builder.blocks.length + 1))
      { c with builder := { c.builder with blocks := c.builder.blocks ++ [parent, parent, parent] } })

/-- `ASTCondition::codegen` between the two branches: the true branch jumps to the
merge block and the builder is put at the false block. -/
def ASTCondition.enterFalse (trueblock : BlockId) (c : Compiler) : Compiler :=
  withInsertPoint (some (trueblock + 1)) (emitted (.Br (trueblock + 2)) c)

/-- The conditional `if (true) 1.0 else 2.0`. -/
def sameTypeConditional : ASTNode :=
  .ASTCondition ⟨1, 1⟩ (.ASTBoolean ⟨1, 5⟩ "true") (.ASTConstant ⟨1, 11⟩ 1) (.ASTConstant ⟨1, 20⟩ 2)

/-- The conditional `if (true) 1.0 else false`. -/
def mixedConditional : ASTNode :=
  .ASTCondition ⟨1, 1⟩ (.ASTBoolean ⟨1, 5⟩ "true") (.ASTConstant ⟨1, 11⟩ 1)
    (.ASTBoolean ⟨1, 20⟩ "false")

/-- The conditional `if (true) [1.0, 2.0] else 3.0`: other branch types than in `mixedConditional`. -/
def otherMixedConditional : ASTNode :=
  .ASTCondition ⟨1, 1⟩ (.ASTBoolean ⟨1, 5⟩ "true")
    (.ASTVector ⟨1, 11⟩ [.ASTConstant ⟨1, 12⟩ 1, .ASTConstant ⟨1, 17⟩ 2]) (.ASTConstant ⟨1, 27⟩ 3)

/-! ## Whole programs -/

/-- Modelled from the spec: the driver of the two passes (`Compiler::compile` is
not among the sources): the tree is resolved and, when that returns, the
resolved tree is generated. -/
def resolveAndGenerate (tree : ASTNode) (c : Compiler) : Outcome (Option Val) × Compiler :=
  match resolveVariables tree [] c with
  | (.ok resolved, c1) => codegen resolved [] c1
  | (.thrown e, c1) => (.thrown e, c1)
  | (.fault f, c1) => (.fault f, c1)

/-- Whether a method returned. -/
def Outcome.isOk {α : Type} : Outcome α → Bool
  | .ok _ => true
  | _ => false

/-- A compilation whose only function is the top-level one, without outputs. -/
def toplevelOnly : Compiler :=
  startCompiler [FunctionSymbol.new "toplevel" [] .RealType (some [])]

/-- A compilation with the top-level function and a nested function `f(a : real) : real`. -/
def oneParameterFunction : Compiler :=
  { startCompiler [FunctionSymbol.new "toplevel" [] .RealType (some []),
      FunctionSymbol.new "f" [0] .RealType none] with
    variableSymbols := [{ name := "a", type := some .RealType, function := none, value := none }] }

/-- A compilation with the top-level function and two functions without
parameters, `f` (symbol 1) and `g` (symbol 2). -/
def twoFunctions : Compiler :=
  startCompiler [FunctionSymbol.new "toplevel" [] .RealType (some []),
    FunctionSymbol.new "f" [] .RealType none, FunctionSymbol.new "g" [] .RealType none]

/-- The program `let v = [return] in return`. -/
def returnInVector : ASTNode :=
  .ASTToplevel ⟨1, 1⟩ (some [Scope.Multiple []]) 0
    (.ASTDefineVariable ⟨1, 1⟩ none "v" none (.ASTVector ⟨1, 9⟩ [.ASTReturn ⟨1, 10⟩])
      (.ASTReturn ⟨2, 1⟩) none)

/-- The program `let v = <return splatted to 3 lanes> in return`. -/
def returnInSplat : ASTNode :=
  .ASTToplevel ⟨1, 1⟩ (some [Scope.Multiple []]) 0
    (.ASTDefineVariable ⟨1, 1⟩ none "v" none (.ASTVectorSplat ⟨1, 9⟩ (.ASTReturn ⟨1, 10⟩) 3)
      (.ASTReturn ⟨2, 1⟩) none)

/-- The program `let v = if (return) 1.0 else 2.0 in return`. -/
def returnInCondition : ASTNode :=
  .ASTToplevel ⟨1, 1⟩ (some [Scope.Multiple []]) 0
    (.ASTDefineVariable ⟨1, 1⟩ none "v" none
      (.ASTCondition ⟨1, 9⟩ (.ASTReturn ⟨1, 13⟩) (.ASTConstant ⟨1, 21⟩ 1) (.ASTConstant ⟨1, 30⟩ 2))
      (.ASTReturn ⟨2, 1⟩) none)

/-- The program `let f(a : real) : real = a in let r = f(return) in return`. -/
def returnInArgument : ASTNode :=
  .ASTToplevel ⟨1, 1⟩ (some [Scope.Multiple []]) 0
    (.ASTDefineFunction ⟨1, 1⟩ none 1
      (.ASTFunctionBody ⟨1, 5⟩ none 1 (.ASTVariable ⟨1, 25⟩ "a" none))
      (.ASTDefineVariable ⟨2, 1⟩ none "r" none
        (.ASTFunctionCall ⟨2, 9⟩ "f" [.ASTReturn ⟨2, 11⟩] none)
        (.ASTReturn ⟨3, 1⟩) none))

/-- The program
`let x = 1.0 in let f() : real = (let g() : real = f() in x) in return`:
the nested `g` calls the enclosing `f` before the body of `f` refers to the
outer `x`. -/
def callBeforeCapture : ASTNode :=
  .ASTToplevel ⟨1, 1⟩ (some [Scope.Multiple []]) 0
    (.ASTDefineVariable ⟨1, 1⟩ none "x" none (.ASTConstant ⟨1, 9⟩ 1)
      (.ASTDefineFunction ⟨2, 1⟩ none 1
        (.ASTFunctionBody ⟨2, 5⟩ none 1
          (.ASTDefineFunction ⟨2, 18⟩ none 2
            (.ASTFunctionBody ⟨2, 22⟩ none 2 (.ASTFunctionCall ⟨2, 34⟩ "f" [] none))
            (.ASTVariable ⟨2, 41⟩ "x" none)))
        (.ASTReturn ⟨3, 1⟩)) none)

/-! ## Parameters of functions and calls -/

/-- `(*i)->type->llvm` of a parameter symbol, when both pointers are valid. -/
def Compiler.declaredType (c : Compiler) (symbol : SymId) : Option LType :=
  (c.variableSymbols[symbol]?).bind (fun s => s.type.map CalcType.llvm)

/-- `symbol->value->getType()` of a home variable, when both pointers are valid. -/
def Compiler.valueType (c : Compiler) (symbol : SymId) : Option LType :=
  (c.variableSymbols[symbol]?).bind (fun s => s.value.map Val.getType)

/-- The arguments `f->arg_begin()` to `f->arg_end()` of a created function with
the given parameter types, numbered from `k`. -/
def generatedParameters (f : FnId) : Nat → List LType → List Val
  | _, [] => []
  | k, t :: ts => .Argument f k t :: generatedParameters f (k + 1) ts

/-- The assignments `symbol->value = v`, one after the other. -/
def bindAll : List (SymId × Val) → List VariableSymbol → List VariableSymbol
  | [], vars => vars
  | (symbol, v) :: rest, vars =>
    bindAll rest
      (match vars[symbol]? with
        | some s => vars.set symbol { s with value := some v }
        | none => vars)

/-- `s->value` of a variable symbol; null also when the pointer is not valid. -/
def Compiler.valueOf (c : Compiler) (symbol : SymId) : Option Val :=
  (c.variableSymbols[symbol]?).bind (fun s => s.value)

/-- `caller->locals[home]->value`: the current value of the caller's local
symbol for the home variable. -/
def upvalueArgument (c : Compiler) (caller : FunctionSymbol) (home : SymId) : Option Val :=
  (LocalsMap.find home caller.locals).bind c.valueOf

/-- The program
`let x = 1.0 in let f() : real = x in let x = true in let r = f() in let s = f() in return`. -/
def shadowedCapture : ASTNode :=
  .ASTToplevel ⟨1, 1⟩ (some [Scope.Multiple []]) 0
    (.ASTDefineVariable ⟨1, 1⟩ none "x" none (.ASTConstant ⟨1, 9⟩ 1)
      (.ASTDefineFunction ⟨2, 1⟩ none 1
        (.ASTFunctionBody ⟨2, 5⟩ none 1 (.ASTVariable ⟨2, 17⟩ "x" none))
        (.ASTDefineVariable ⟨3, 1⟩ none "x" none (.ASTBoolean ⟨3, 9⟩ "true")
          (.ASTDefineVariable ⟨4, 1⟩ none "r" none (.ASTFunctionCall ⟨4, 9⟩ "f" [] none)
            (.ASTDefineVariable ⟨5, 1⟩ none "s" none (.ASTFunctionCall ⟨5, 9⟩ "f" [] none)
              (.ASTReturn ⟨6, 1⟩) none) none) none)) none)

/-- A compilation in the middle of code generation: the top-level function owns
`x` (symbol 0, already generated as `1.0`), the nested `f()` captured it through
the proxy 1 and has been generated as function 1 with one parameter. -/
def capturedCall : Compiler :=
  { startCompiler [
      { FunctionSymbol.new "toplevel" [] .RealType (some []) with locals := [(0, 0)] },
      { FunctionSymbol.new "f" [] .RealType none with
        locals := [(0, 1)], parent := some 0, function := some 1 }] with
    variableSymbols := [
      { name := "x", type := some .RealType, function := some 0, value := some (.ConstantFP 1) },
      { name := "x", type := none, function := none, value := some (.Argument 1 0 .double) }]
    module := [{ name := "toplevel", returntype := .void, params := [] },
      { name := "f", returntype := .double, params := [.double] }] }

/-- The values of the explicit arguments of a call in source order, written
after the spec ("generates each argument left-to-right in source order") to
compare `ASTFunctionCall::codegen` with: the first argument is generated by its
own `codegen`, every later one in the state the argument before it left, and
the values stand in the order of the arguments; with them the state the last
argument left.  There is none when an argument does not return. -/
def valuesInSourceOrder : List ASTNode → List Ancestor → Compiler →
    Option (List (Option Val) × Compiler)
  | [], _, c => some ([], c)
  | argument :: rest, parents, c =>
    match codegen argument parents c with
    | (.ok v, c1) => (valuesInSourceOrder rest parents c1).map (fun r => (v :: r.1, r.2))
    | _ => none

/-- A compilation in the middle of code generation: the top-level function owns
`x` (symbol 0, already generated as `1.0`); the nested
`f(a : real, b : boolean) : real` (parameters 1 and 2) captured `x` through the
proxy 3 and has been generated as function 1 with three parameters. -/
def capturedCallOfTwo : Compiler :=
  { startCompiler [
      { FunctionSymbol.new "toplevel" [] .RealType (some []) with locals := [(0, 0)] },
      { FunctionSymbol.new "f" [1, 2] .RealType none with
        locals := [(1, 1), (2, 2), (0, 3)], parent := some 0, function := some 1 }] with
    variableSymbols := [
      { name := "x", type := some .RealType, function := some 0, value := some (.ConstantFP 1) },
      { name := "a", type := some .RealType, function := some 1,
        value := some (.Argument 1 0 .double) },
      { name := "b", type := some .BooleanType, function := some 1,
        value := some (.Argument 1 1 .i1) },
      { name := "x", type := some .RealType, function := none,
        value := some (.Argument 1 2 .double) }]
    module := [{ name := "toplevel", returntype := .void, params := [] },
      { name := "f", returntype := .double, params := [.double, .i1, .double] }] }

/-- A compilation about to generate `f(a : real) : real`, which captured the
outer `x` (symbol 0, generated as `1.0`) through the proxy 2. -/
def beforeCreate : Compiler :=
  { startCompiler [
      { FunctionSymbol.new "toplevel" [] .RealType (some []) with locals := [(0, 0)] },
      { FunctionSymbol.new "f" [1] .RealType none with
        locals := [(1, 1), (0, 2)], parent := some 0 }] with
    variableSymbols := [
      { name := "x", type := some .RealType, function := some 0, value := some (.ConstantFP 1) },
      { name := "a", type := some .RealType, function := some 1, value := none },
      { name := "x", type := some .RealType, function := none, value := none }] }

/-! ## What code generation leaves alone -/

/-- What code generation never assigns: the declared parameters and the
`locals` of every function symbol. -/
def Compiler.captures (c : Compiler) : List (List SymId × List (SymId × SymId)) :=
  c.functionSymbols.map (fun f => (f.arguments, f.locals))

/-- A method that leaves the parameters and the `locals` of every function
symbol as they are, however it ends. -/
def KeepsCaptures {α : Type} (x : M α) : Prop :=
  ∀ c o c', x c = (o, c') → c'.captures = c.captures

/-! ## What the resolution pass binds -/

/-- What the resolution pass wrote into one node: the `symbol` of a variable
reference or the `function` of a call, with the identifier. -/
inductive Binding where
  | Variable (id : String) (symbol : Option ValuedSymbol)
  | Call (id : String) (function : Option CallableSymbol)
deriving DecidableEq, Repr

mutual
/-- The bindings in a tree, in source order. -/
def ASTNode.bindings : ASTNode → List Binding
  | .ASTConstant _ _ => []
  | .ASTBoolean _ _ => []
  | .ASTVariable _ id symbol => [.Variable id symbol]
  | .ASTVector _ elements => bindingsOfList elements
  | .ASTVectorSplat _ value _ => value.bindings
  | .ASTDefineVariable _ _ _ _ value body _ => value.bindings ++ body.bindings
  | .ASTFunctionBody _ _ _ body => body.bindings
  | .ASTToplevel _ _ _ body => body.bindings
  | .ASTReturn _ => []
  | .ASTDefineFunction _ _ _ definition body => definition.bindings ++ body.bindings
  | .ASTFunctionCall _ id arguments function => .Call id function :: bindingsOfList arguments
  | .ASTCondition _ condition trueval falseval =>
    condition.bindings ++ trueval.bindings ++ falseval.bindings
/-- The bindings in a list of trees. -/
def bindingsOfList : List ASTNode → List Binding
  | [] => []
  | node :: rest => node.bindings ++ bindingsOfList rest
end

/-- The outcome of resolving a whole program, with the bindings of the resolved
tree in place of the tree. -/
def resolvedBindings (tree : ASTNode) (c : Compiler) : Outcome (List Binding) :=
  match (resolveVariables tree [] c).1 with
  | .ok resolved => .ok resolved.bindings
  | .thrown e => .thrown e
  | .fault f => .fault f

/-- A compilation with the top-level function and `f() : vector*2`. -/
def vectorFunction : Compiler :=
  startCompiler [FunctionSymbol.new "toplevel" [] .RealType (some []),
    FunctionSymbol.new "f" [] (.VectorType 2) none]

/-- The program `let x = 1.0 in let f() : vector*2 = [x, x] in return`. -/
def capturedTwice : ASTNode :=
  .ASTToplevel ⟨1, 1⟩ (some [Scope.Multiple []]) 0
    (.ASTDefineVariable ⟨1, 1⟩ none "x" none (.ASTConstant ⟨1, 9⟩ 1)
      (.ASTDefineFunction ⟨2, 1⟩ none 1
        (.ASTFunctionBody ⟨2, 5⟩ none 1
          (.ASTVector ⟨2, 22⟩ [.ASTVariable ⟨2, 23⟩ "x" none, .ASTVariable ⟨2, 26⟩ "x" none]))
        (.ASTReturn ⟨3, 1⟩)) none)

/-- The ancestors of a node in the body of `f`, for `let x = ... in let f() = ...`:
the function body of `f` with its scope, the frames of the definitions of `f`
and `x`, and the top-level function body. -/
def insideF : List Ancestor :=
  [.FunctionBody (some [Scope.Multiple [], Scope.Singleton (some ("f", .Function 1)),
      Scope.Singleton (some ("x", .Variable 0)), Scope.Multiple []]) 1,
    .Frame (some [Scope.Singleton (some ("f", .Function 1)),
      Scope.Singleton (some ("x", .Variable 0)), Scope.Multiple []]),
    .Frame (some [Scope.Singleton (some ("x", .Variable 0)), Scope.Multiple []]),
    .FunctionBody (some [Scope.Multiple []]) 0]

/-! ## Scopes of definitions -/

/-- The state after `ASTDefineVariable::resolveVariables` created the symbol of
the variable, in function `function` (whose symbol was `F`), and entered it
into that function's `locals`. -/
def ASTDefineVariable.declared (id : String) (type : Option CalcType) (function : SymId)
    (F : FunctionSymbol) (c : Compiler) : Compiler :=
  { c with
    variableSymbols := c.variableSymbols ++
      [{ name := id, type := type, function := some function, value := none }]
    functionSymbols := c.functionSymbols.set function
      { F with locals :=
          LocalsMap.assign c.variableSymbols.length c.variableSymbols.length F.locals } }

/-- The program `let x = x in return`. -/
def selfInitialized : ASTNode :=
  .ASTToplevel ⟨1, 1⟩ (some [Scope.Multiple []]) 0
    (.ASTDefineVariable ⟨1, 1⟩ none "x" none (.ASTVariable ⟨1, 9⟩ "x" none)
      (.ASTReturn ⟨2, 1⟩) none)

/-- The program `let x = 1.0 in let x = x in let r = x in return`. -/
def shadowedDefinition : ASTNode :=
  .ASTToplevel ⟨1, 1⟩ (some [Scope.Multiple []]) 0
    (.ASTDefineVariable ⟨1, 1⟩ none "x" none (.ASTConstant ⟨1, 9⟩ 1)
      (.ASTDefineVariable ⟨2, 1⟩ none "x" none (.ASTVariable ⟨2, 9⟩ "x" none)
        (.ASTDefineVariable ⟨3, 1⟩ none "r" none (.ASTVariable ⟨3, 9⟩ "x" none)
          (.ASTReturn ⟨4, 1⟩) none) none) none)

/-- The field `name` of a variable symbol (empty when the pointer is not valid). -/
def Compiler.nameOf (c : Compiler) (symbol : SymId) : String :=
  ((c.variableSymbols[symbol]?).map (fun v => v.name)).getD ""

/-- The calls `symbolTable->add(symbol)` for a list of parameters, one after the other. -/
def addAll (c : Compiler) : List SymId → SymbolTable → SymbolTable
  | [], table => table
  | a :: rest, table => addAll c rest (table.add (c.nameOf a) (.Variable a))

/-- The assignments `symbol->function = function` for a list of parameters. -/
def claimAll (function : SymId) : List SymId → List VariableSymbol → List VariableSymbol
  | [], vars => vars
  | a :: rest, vars =>
    claimAll function rest
      (match vars[a]? with
        | some v => vars.set a { v with function := some function }
        | none => vars)

/-- A compilation with the top-level function and `f(f : real) : real`, whose
parameter has the name of the function. -/
def parameterNamedAsFunction : Compiler :=
  { startCompiler [FunctionSymbol.new "toplevel" [] .RealType (some []),
      FunctionSymbol.new "f" [0] .RealType none] with
    variableSymbols := [{ name := "f", type := some .RealType, function := none, value := none }] }

/-- The program `let f(a : real) : real = f(a) in let r = f(1.0) in return`. -/
def selfRecursive : ASTNode :=
  .ASTToplevel ⟨1, 1⟩ (some [Scope.Multiple []]) 0
    (.ASTDefineFunction ⟨1, 1⟩ none 1
      (.ASTFunctionBody ⟨1, 5⟩ none 1
        (.ASTFunctionCall ⟨1, 25⟩ "f" [.ASTVariable ⟨1, 27⟩ "a" none] none))
      (.ASTDefineVariable ⟨2, 1⟩ none "r" none
        (.ASTFunctionCall ⟨2, 9⟩ "f" [.ASTConstant ⟨2, 11⟩ 1] none)
        (.ASTReturn ⟨3, 1⟩) none))

/-- The program `let f(f : real) : real = f(1.0) in return`. -/
def hiddenByParameter : ASTNode :=
  .ASTToplevel ⟨1, 1⟩ (some [Scope.Multiple []]) 0
    (.ASTDefineFunction ⟨1, 1⟩ none 1
      (.ASTFunctionBody ⟨1, 5⟩ none 1
        (.ASTFunctionCall ⟨1, 25⟩ "f" [.ASTConstant ⟨1, 27⟩ 1] none))
      (.ASTReturn ⟨2, 1⟩))

/-! ## Lanes of vector values -/

/-- The lane `j` of a vector value: the element the latest `insertelement` at
index `j` put there; the lanes of `undef` hold nothing. -/
def Val.lane : Val → Nat → Option Val
  | .InsertElement v i e, j => if j = i then some e else v.lane j
  | _, _ => none

/-- The vector `v` after the lanes from `i` on were set to the values `es`, in
order. -/
def insertElements : List Val → Nat → Val → Val
  | [], _, v => v
  | e :: rest, i, v => insertElements rest (i + 1) (.InsertElement v i e)

/-- A compilation with the top-level function and `f() : real`. -/
def noParameterFunction : Compiler :=
  startCompiler [FunctionSymbol.new "toplevel" [] .RealType (some []),
    FunctionSymbol.new "f" [] .RealType none]

/-- The program `let f() : real = 1.0 in let v = [*3 f()] in return`, whose
splat operand is a call. -/
def splatOfCall : ASTNode :=
  .ASTToplevel ⟨1, 1⟩ (some [Scope.Multiple []]) 0
    (.ASTDefineFunction ⟨1, 1⟩ none 1
      (.ASTFunctionBody ⟨1, 5⟩ none 1 (.ASTConstant ⟨1, 18⟩ 1))
      (.ASTDefineVariable ⟨2, 1⟩ none "v" none
        (.ASTVectorSplat ⟨2, 9⟩ (.ASTFunctionCall ⟨2, 13⟩ "f" [] none) 3)
        (.ASTReturn ⟨3, 1⟩) none))

/-- The calls among the instructions emitted so far. -/
def Compiler.calls (c : Compiler) : List Instr :=
  (c.builder.code.map Prod.snd).filter (fun i => match i with | .Call _ _ => true | _ => false)

/-! ## The outputs of the top-level function -/

/-- The current value of a valued symbol (`emitValue`), read from a state; nothing
when the pointer to a variable symbol is not valid. -/
def Compiler.currentValue (c : Compiler) : ValuedSymbol → Option (Option Val)
  | .Variable id => (c.variableSymbols[id]?).map (fun v => v.value)
  | .Valued value => some value

/-- The store one declared output asks for, in the words of the specification:
the symbol of the output's name in the scope chain `table` is looked up, and its
current value is stored to the output's destination, lane by lane when the
output's type is a vector and directly otherwise.  There is none when no symbol
of that name is in scope, when the symbol found is not valued, or when a pointer
is not valid. -/
def outputStore (c : Compiler) (table : SymbolTable) (out : Symbol) : Option Instr :=
  match out.isVariable with
  | none => none
  | some id =>
    match c.variableSymbols[id]? with
    | none => none
    | some o =>
      match table.resolve o.name with
      | none => none
      | some insym =>
        match insym.isValued with
        | none => none
        | some valued =>
          match c.currentValue valued, o.type with
          | some value, some (.VectorType n) =>
            some (.StoreToArray (.VectorType n) value o.value)
          | some value, some _ => some (.Store value o.value)
          | _, _ => none

/-- The name of a declared output for which no symbol is in scope. -/
def unsetOutput (c : Compiler) (table : SymbolTable) (out : Symbol) : Option String :=
  match out.isVariable with
  | none => none
  | some id =>
    match c.variableSymbols[id]? with
    | none => none
    | some o => if (table.resolve o.name).isNone then some o.name else none

/-- The state after the instructions went into the current block, in order. -/
def emittedAll : List Instr → Compiler → Compiler
  | [], c => c
  | i :: rest, c => emittedAll rest (emitted i c)

/-- A compilation whose top-level function declares the outputs `x : real` and
`v : vector*2` (symbols 0 and 1), with the destinations the driver gave them. -/
def twoOutputs : Compiler :=
  { startCompiler [FunctionSymbol.new "toplevel" [] .RealType
      (some [.Variable 0, .Variable 1])] with
    variableSymbols := [
      { name := "x", type := some .RealType, function := none,
        value := some (.Argument 0 0 .pointer) },
      { name := "v", type := some (.VectorType 2), function := none,
        value := some (.Argument 0 1 .pointer) }] }

/-- The program `let x = 1.0 in let v = [x, x] in let x = 2.0 in return`. -/
def shadowedOutput : ASTNode :=
  .ASTToplevel ⟨1, 1⟩ (some [Scope.Multiple []]) 0
    (.ASTDefineVariable ⟨1, 1⟩ none "x" none (.ASTConstant ⟨1, 9⟩ 1)
      (.ASTDefineVariable ⟨2, 1⟩ none "v" none
        (.ASTVector ⟨2, 9⟩ [.ASTVariable ⟨2, 10⟩ "x" none, .ASTVariable ⟨2, 13⟩ "x" none])
        (.ASTDefineVariable ⟨3, 1⟩ none "x" none (.ASTConstant ⟨3, 9⟩ 2)
          (.ASTReturn ⟨4, 1⟩) none) none) none)

/-- The program `let x = 1.0 in return`, which sets no `v`. -/
def missingOutput : ASTNode :=
  .ASTToplevel ⟨1, 1⟩ (some [Scope.Multiple []]) 0
    (.ASTDefineVariable ⟨1, 1⟩ none "x" none (.ASTConstant ⟨1, 9⟩ 1)
      (.ASTReturn ⟨2, 1⟩) none)


/-- The state `twoOutputs` at the `return` of `let x = 1.0 in return`: the
variable `x` (symbol 2) has been generated as `1.0`. -/
def atReturn : Compiler :=
  { twoOutputs with
    variableSymbols := twoOutputs.variableSymbols ++
      [{ name := "x", type := some .RealType, function := some 0,
         value := some (.ConstantFP 1) }] }

/-! ## Calls with a wrong number of arguments -/

/-- A compilation with the top-level function, `g() : real` (symbol 1) and
`f(a : real, b : real) : real` (symbol 2). -/
def twoParameterFunction : Compiler :=
  { startCompiler [FunctionSymbol.new "toplevel" [] .RealType (some []),
      FunctionSymbol.new "g" [] .RealType none,
      FunctionSymbol.new "f" [0, 1] .RealType none] with
    variableSymbols := [
      { name := "a", type := some .RealType, function := none, value := none },
      { name := "b", type := some .RealType, function := none, value := none }] }

/-- The program
`let g() : real = 1.0 in let f(a : real, b : real) : real = a in
 let r = g() in let s = f(1.0, 2.0, 3.0) in return`:
the call of `g` at 3:9 is correct, the call of `f` at 4:9 has one argument too
many. -/
def wrongArityAfterCall : ASTNode :=
  .ASTToplevel ⟨1, 1⟩ (some [Scope.Multiple []]) 0
    (.ASTDefineFunction ⟨1, 1⟩ none 1
      (.ASTFunctionBody ⟨1, 5⟩ none 1 (.ASTConstant ⟨1, 18⟩ 1))
      (.ASTDefineFunction ⟨2, 1⟩ none 2
        (.ASTFunctionBody ⟨2, 5⟩ none 2 (.ASTVariable ⟨2, 38⟩ "a" none))
        (.ASTDefineVariable ⟨3, 1⟩ none "r" none (.ASTFunctionCall ⟨3, 9⟩ "g" [] none)
          (.ASTDefineVariable ⟨4, 1⟩ none "s" none
            (.ASTFunctionCall ⟨4, 9⟩ "f"
              [.ASTConstant ⟨4, 11⟩ 1, .ASTConstant ⟨4, 16⟩ 2, .ASTConstant ⟨4, 21⟩ 3] none)
            (.ASTReturn ⟨5, 1⟩) none) none)))

/-- The same program with the correct call `f(1.0, 2.0)`. -/
def rightArityAfterCall : ASTNode :=
  .ASTToplevel ⟨1, 1⟩ (some [Scope.Multiple []]) 0
    (.ASTDefineFunction ⟨1, 1⟩ none 1
      (.ASTFunctionBody ⟨1, 5⟩ none 1 (.ASTConstant ⟨1, 18⟩ 1))
      (.ASTDefineFunction ⟨2, 1⟩ none 2
        (.ASTFunctionBody ⟨2, 5⟩ none 2 (.ASTVariable ⟨2, 38⟩ "a" none))
        (.ASTDefineVariable ⟨3, 1⟩ none "r" none (.ASTFunctionCall ⟨3, 9⟩ "g" [] none)
          (.ASTDefineVariable ⟨4, 1⟩ none "s" none
            (.ASTFunctionCall ⟨4, 9⟩ "f"
              [.ASTConstant ⟨4, 11⟩ 1, .ASTConstant ⟨4, 16⟩ 2] none)
            (.ASTReturn ⟨5, 1⟩) none) none)))

/-! ## The interface function (`src/calculon.h`) -/

namespace Instance

/-- The settings class `S` an `Instance` is made from: `RealIsDouble` or
`RealIsFloat`, both derived from `SettingsBase`. -/
inductive Settings where
  | RealIsDouble
  | RealIsFloat
deriving DecidableEq, Repr

/-- The type code `S::REAL`. -/
def Settings.REAL : Settings → Char
  | .RealIsDouble => 'D'
  | .RealIsFloat => 'F'

/-- The type code `S::VECTOR`, of `SettingsBase`. -/
def Settings.VECTOR (_ : Settings) : Char := 'V'

/-- The type code `S::BOOLEAN`, of `SettingsBase`. -/
def Settings.BOOLEAN (_ : Settings) : Char := 'B'

/-- An `llvm::Value*` of the interface function: one of its formal arguments,
the aggregate `loadVector` read through a pointer, or the result of the call
instruction at an index of the code. -/
inductive Value where
  | Argument (index : Nat) (type : Option LType)
  | LoadVector (ptr : Value)
  | Call (index : Nat)
deriving DecidableEq, Repr

/-- The instructions `Program::init` asks for. -/
inductive Instr where
  | Call (callee : String) (params : List Value)
  | StoreVector (value : Option Value) (ptr : Option Value)
  | Ret (value : Option Value)
deriving DecidableEq, Repr

/-- An `llvm::Function` with the function type it was created with
(`FunctionType::get(returntype, externaltypes, false)`) and the names given to
its arguments. -/
structure Function where
  name : String
  returntype : Option LType
  params : List (Option LType)
  names : List (Nat × String)
deriving DecidableEq, Repr

/-- Modelled from the spec: a variable symbol as `calculon.h` uses it
(`calculon_symbol.h` is not among the sources): a name and a type code. -/
structure VariableSymbol where
  name : String
  type : Char
deriving DecidableEq, Repr

/-- Modelled from the spec: a function symbol as `calculon.h` uses it: the
declared parameters in order and the type code of the result. -/
structure FunctionSymbol where
  name : String
  arguments : List VariableSymbol
  returntype : Char
deriving DecidableEq, Repr

/-- `Instance::CompilerState`: the module (the functions created in it), the
builder (the function whose entry block it inserts into, and the instructions
emitted), and the other fields. -/
structure CompilerState where
  module : List Function
  insertPoint : Option Nat
  code : List Instr
  position : Position
  intType : Option LType
  xindex : Option Value
  yindex : Option Value
  zindex : Option Value
  realType : Option LType
  vectorType : Option LType
  pointerType : Option LType
  booleanType : Option LType
deriving DecidableEq, Repr

/-- A method of, or receiving, the `CompilerState`. -/
def IM (α : Type) : Type := CompilerState → Outcome α × CompilerState

/-- Returning a value. -/
def IM.pure {α : Type} (a : α) : IM α := fun s => (.ok a, s)

/-- Sequencing: the rest runs only after a normal return. -/
def IM.bind {α β : Type} (x : IM α) (f : α → IM β) : IM β := fun s =>
  match x s with
  | (.ok a, s1) => f a s1
  | (.thrown e, s1) => (.thrown e, s1)
  | (.fault e, s1) => (.fault e, s1)

instance : Monad IM where
  pure := IM.pure
  bind := IM.bind

end Instance

namespace Instance

/-- `CompilerState::getInternalType`: the `switch` over the three type codes,
and `assert(false)` behind it. -/
def getInternalType (S : Settings) (c : Char) : IM (Option LType) := fun s =>
  if c = S.REAL then (.ok s.realType, s)
  else if c = S.VECTOR then (.ok s.vectorType, s)
  else if c = S.BOOLEAN then (.ok s.booleanType, s)
  else (.fault .assertionFailed, s)

/-- `CompilerState::getExternalType`. -/
def getExternalType (S : Settings) (c : Char) : IM (Option LType) := fun s =>
  if c = S.VECTOR then (.ok s.pointerType, s)
  else getInternalType S c s

/-- The loop of `Program::init` over `arguments` that fills `externaltypes`. -/
def pushExternalTypes (S : Settings) :
    List VariableSymbol → List (Option LType) → IM (List (Option LType))
  | [], externaltypes => pure externaltypes
  | symbol :: rest, externaltypes => do
    let t ← getExternalType S symbol.type
    pushExternalTypes S rest (externaltypes ++ [t])

/-- `llvm::Function::Create(ft, ExternalLinkage, name, _module)`, then the entry
block and `compiler.builder.SetInsertPoint(bb)`. -/
def createFunction (name : String) (returntype : Option LType)
    (externaltypes : List (Option LType)) : IM Nat := fun s =>
  (.ok s.module.length,
    { s with
      module := s.module ++
        [{ name := name, returntype := returntype, params := externaltypes, names := [] }]
      insertPoint := some s.module.length })

/-- The formal arguments of a function with the given parameter types, numbered
from `k`. -/
def formalArguments : Nat → List (Option LType) → List Value
  | _, [] => []
  | k, t :: ts => .Argument k t :: formalArguments (k + 1) ts

/-- `v->setName(name)` on a formal argument of function `function`. -/
def setName (function : Nat) (v : Value) (name : String) : IM Unit := fun s =>
  match v, s.module[function]? with
  | .Argument index _, some f =>
    (.ok (),
      { s with
        module := s.module.set function { f with names := f.names ++ [(index, name)] } })
  | _, _ => (.ok (), s)

/-- Modelled from the spec: `compiler.loadVector`, which is not among the
sources: the vector a pointer parameter addresses is loaded into an aggregate
value.  The loads are not listed among the instructions. -/
def loadVector (v : Value) : IM Value := pure (.LoadVector v)

/-- Any `compiler.builder.Create...`: the instruction goes to the end of the code. -/
def emit (i : Instr) : IM Nat := fun s => (.ok s.code.length, { s with code := s.code ++ [i] })

/-- Modelled from the spec: `FunctionSymbol::emitCall`, which is not among the
sources: a call of the compiled function with exactly the values handed over;
the call is the value. -/
def emitCall (f : FunctionSymbol) (params : List Value) : IM (Option Value) := do
  let index ← emit (.Call f.name params)
  pure (some (.Call index))

/-- Modelled from the spec: `compiler.storeVector`, which is not among the
sources: the vector is written through the pointer. -/
def storeVector (value : Option Value) (ptr : Option Value) : IM Unit := do
  let _ ← emit (.StoreVector value ptr)
  pure ()

/-- The marshalling loop of `Program::init`: `ii` runs over the formal arguments
still to come, `i` counts the turns and indexes `arguments`. -/
def marshal (S : Settings) (function : Nat) (arguments : List VariableSymbol) :
    List Value → Nat → List Value → IM (List Value)
  | [], _, params => pure params
  | v :: ii, i, params => do
    let symbol ← (fun s => match arguments[i]? with
      | some symbol => (Outcome.ok symbol, s)
      | none => (Outcome.fault Fault.nullDereference, s) : IM VariableSymbol)
    setName function v symbol.name
    let v ← if symbol.type = S.VECTOR then loadVector v else pure v
    marshal S function arguments ii (i + 1) (params ++ [v])

/-- `Program::init` from "Create the interface function" to `CreateRet`, for the
function symbol `f` that `compiler.compile` returned.  The index of the created
`_function` is returned. -/
def Program.init (S : Settings) (f : FunctionSymbol) : IM Nat := do
  let arguments := f.arguments
  let returntype ← getExternalType S f.returntype
  let (externaltypes, returntype, inputoffset) ←
    if f.returntype = S.VECTOR then do
      let t ← getExternalType S S.VECTOR
      pure ([t], some LType.void, true)
    else pure (([] : List (Option LType)), returntype, false)
  let externaltypes ← pushExternalTypes S arguments externaltypes
  let function ← createFunction "Entrypoint" returntype externaltypes
  let ii := formalArguments 0 externaltypes
  let ii := if inputoffset then ii.drop 1 else ii
  let params ← marshal S function arguments ii 0 []
  let retval ← emitCall f params
  let retval ←
    if f.returntype = S.VECTOR then do
      storeVector retval ((formalArguments 0 externaltypes).head?)
      pure none
    else pure retval
  let _ ← emit (.Ret retval)
  pure function

/-- A state in which the compiler has set up its types and compiled `f`. -/
def compiled : CompilerState :=
  { module := [], insertPoint := none, code := [], position := ⟨0, 0⟩,
    intType := none, xindex := none, yindex := none, zindex := none,
    realType := some .double, vectorType := some (.vector 3), pointerType := some .pointer,
    booleanType := some .i1 }

end Instance

/-! ## The interface function as the specification words it -/

namespace Instance

/-- The external representation of a type code, in the words of the
specification: a pointer for a vector; for a real and a boolean the internal
representation, passed directly. -/
def externalTypeOf (S : Settings) (s : CompilerState) (c : Char) : Option LType :=
  if c = S.VECTOR then s.pointerType
  else if c = S.REAL then s.realType
  else s.booleanType

/-- Whether a character is one of the three type codes. -/
abbrev isTypeCode (S : Settings) (c : Char) : Prop :=
  c = S.REAL ∨ c = S.VECTOR ∨ c = S.BOOLEAN

/-- The values the specification has the interface function forward: the formal
argument `k`, `k + 1`, ... of the given external types, each loaded into an
aggregate when the parameter it stands for is a vector and unchanged otherwise. -/
def forwarded (S : Settings) : Nat → List VariableSymbol → List (Option LType) → List Value
  | k, p :: ps, t :: ts =>
    (if p.type = S.VECTOR then .LoadVector (.Argument k t) else .Argument k t) ::
      forwarded S (k + 1) ps ts
  | _, _, _ => []

/-- The names of the parameters, for the formal arguments `k`, `k + 1`, ... -/
def namesFrom : Nat → List VariableSymbol → List (Nat × String)
  | _, [] => []
  | k, p :: ps => (k, p.name) :: namesFrom (k + 1) ps

/-- The state after the formal arguments of function `function` got names. -/
def withNames (function : Nat) (names : List (Nat × String)) (s : CompilerState) :
    CompilerState :=
  match s.module[function]? with
  | some f => { s with module := s.module.set function { f with names := f.names ++ names } }
  | none => s

/-- The symbol of a compiled `f(a : real, v : vector, b : boolean) : vector`. -/
def vectorResult : FunctionSymbol :=
  { name := "f", arguments := [⟨"a", 'D'⟩, ⟨"v", 'V'⟩, ⟨"b", 'B'⟩], returntype := 'V' }

/-- The symbol of a compiled `f(a : real, v : vector, b : boolean) : real`. -/
def realResult : FunctionSymbol :=
  { name := "f", arguments := [⟨"a", 'D'⟩, ⟨"v", 'V'⟩, ⟨"b", 'B'⟩], returntype := 'D' }

end Instance

/-! ## A `return` as initializer, the result of a function, a function named as an output -/

/-- The program `let f() : real = 1.0 in let v = return in f()`, whose
initializer is a `return` and whose body is a call. -/
def assignedReturn : ASTNode :=
  .ASTToplevel ⟨1, 1⟩ (some [Scope.Multiple []]) 0
    (.ASTDefineFunction ⟨1, 1⟩ none 1
      (.ASTFunctionBody ⟨1, 5⟩ none 1 (.ASTConstant ⟨1, 18⟩ 1))
      (.ASTDefineVariable ⟨2, 1⟩ none "v" none (.ASTReturn ⟨2, 9⟩)
        (.ASTFunctionCall ⟨3, 1⟩ "f" [] none) none))


/-- The state `toplevelOnly` at the code generation of `let v = return in ...`:
the symbol of `v` (symbol 0) has no value yet. -/
def beforeAssignment : Compiler :=
  { toplevelOnly with
    variableSymbols := [{ name := "v", type := none, function := some 0, value := none }] }

/-- The state in which the body of a function is generated: the parameters are
bound (state `c1`), a block was created for the function `f`, and the builder
inserts into it. -/
def ASTFunctionBody.entered (f : FnId) (c1 : Compiler) : Compiler :=
  { c1 with
    builder := { c1.builder with
      blocks := c1.builder.blocks ++ [f]
      insertBlock := some c1.builder.blocks.length } }

/-- The state `noParameterFunction` after `ASTFunctionBody::codegen` created the
function of `f` (function symbol 1). -/
def createdF : Compiler :=
  (ASTFunctionBody.create 1 noParameterFunction).2

/-- A compilation whose top-level function declares the output `x : real`
(symbol 0), with a function that is also named `x` (symbol 1). -/
def functionNamedAsOutput : Compiler :=
  { startCompiler [FunctionSymbol.new "toplevel" [] .RealType (some [.Variable 0]),
      FunctionSymbol.new "x" [] .RealType none] with
    variableSymbols := [
      { name := "x", type := some .RealType, function := none,
        value := some (.Argument 0 0 .pointer) }] }

/-- The program `let x = 1.0 in let x() : real = 2.0 in return`: at the `return`
the innermost symbol named `x` is the function. -/
def outputHiddenByFunction : ASTNode :=
  .ASTToplevel ⟨1, 1⟩ (some [Scope.Multiple []]) 0
    (.ASTDefineVariable ⟨1, 1⟩ none "x" none (.ASTConstant ⟨1, 9⟩ 1)
      (.ASTDefineFunction ⟨2, 1⟩ none 1
        (.ASTFunctionBody ⟨2, 5⟩ none 1 (.ASTConstant ⟨2, 18⟩ 2))
        (.ASTReturn ⟨3, 1⟩)) none)

/-- The program `let x = 1.0 in return`. -/
def outputSet : ASTNode :=
  .ASTToplevel ⟨1, 1⟩ (some [Scope.Multiple []]) 0
    (.ASTDefineVariable ⟨1, 1⟩ none "x" none (.ASTConstant ⟨1, 9⟩ 1)
      (.ASTReturn ⟨2, 1⟩) none)

/-! ## Ownership, enclosure and visibility -/

/-- The field `function` of a variable symbol: the function that owns it. -/
def Compiler.ownerOf (c : Compiler) (symbol : SymId) : Option SymId :=
  (c.variableSymbols[symbol]?).bind (fun v => v.function)

/-- The field `parent` of a function symbol. -/
def Compiler.parentOf (c : Compiler) (function : SymId) : Option SymId :=
  (c.functionSymbols[function]?).bind (fun f => f.parent)

/-- The field `locals` of a function symbol. -/
def Compiler.localsOf (c : Compiler) (function : SymId) : List (SymId × SymId) :=
  match c.functionSymbols[function]? with
  | some f => f.locals
  | none => []

/-- The field `arguments` of a function symbol. -/
def Compiler.argumentsOf (c : Compiler) (function : SymId) : List SymId :=
  match c.functionSymbols[function]? with
  | some f => f.arguments
  | none => []

/-- Function `E` is `F` or lexically encloses it: `F` is reached from `E` along
the `parent` fields that `ASTDefineFunction::resolveVariables` sets. -/
inductive Encloses (c : Compiler) : SymId → SymId → Prop where
  | refl (F : SymId) : Encloses c F F
  | step (E F P : SymId) : c.parentOf F = some P → Encloses c E P → Encloses c E F

/-- Function `E` lexically encloses `F`: it is, or encloses, the parent of `F`. -/
def StrictlyEncloses (c : Compiler) (E F : SymId) : Prop :=
  ∃ P, c.parentOf F = some P ∧ Encloses c E P

/-- The symbols of one scope. -/
def Scope.symbols : Scope → List Symbol
  | .Singleton none => []
  | .Singleton (some (_, s)) => [s]
  | .Multiple symbols => symbols.map Prod.snd

/-- The symbols of all scopes of a chain. -/
def SymbolTable.symbols : SymbolTable → List Symbol
  | [] => []
  | scope :: next => scope.symbols ++ SymbolTable.symbols next

/-- The variable symbols in a list of symbols. -/
def variablesIn : List Symbol → List SymId
  | [] => []
  | .Variable id :: rest => id :: variablesIn rest
  | _ :: rest => variablesIn rest

/-- The function symbols in a list of symbols. -/
def functionsIn : List Symbol → List SymId
  | [] => []
  | .Function id :: rest => id :: functionsIn rest
  | _ :: rest => functionsIn rest

/-- The symbol table of the frame a node with these ancestors is in (empty when
there is none). -/
def frameTable (parents : List Ancestor) : SymbolTable :=
  match getFrame parents with
  | some (some table) => table
  | _ => []

/-- The variable symbols in the scopes visible from a node with these ancestors. -/
def visibleVariables (parents : List Ancestor) : List SymId :=
  variablesIn (SymbolTable.symbols (frameTable parents))

/-- The function symbols in the scopes visible from a node with these ancestors. -/
def visibleFunctions (parents : List Ancestor) : List SymId :=
  functionsIn (SymbolTable.symbols (frameTable parents))

/-- The ancestors of the nearest function body. -/
def outerParents : List Ancestor → List Ancestor
  | [] => []
  | .FunctionBody _ _ :: parents => parents
  | _ :: parents => outerParents parents

/-- The variable symbols visible where the nearest function body stands. -/
def outerVariables (parents : List Ancestor) : List SymId :=
  visibleVariables (outerParents parents)

mutual
/-- The function symbols whose bodies (`ASTFunctionBody` nodes) are in a tree,
in source order. -/
def definedFunctions : ASTNode → List SymId
  | .ASTConstant _ _ => []
  | .ASTBoolean _ _ => []
  | .ASTVariable _ _ _ => []
  | .ASTVector _ elements => definedFunctionsList elements
  | .ASTVectorSplat _ value _ => definedFunctions value
  | .ASTDefineVariable _ _ _ _ value body _ => definedFunctions value ++ definedFunctions body
  | .ASTFunctionBody _ _ function body => function :: definedFunctions body
  | .ASTToplevel _ _ _ body => definedFunctions body
  | .ASTReturn _ => []
  | .ASTDefineFunction _ _ _ definition body =>
    definedFunctions definition ++ definedFunctions body
  | .ASTFunctionCall _ _ arguments _ => definedFunctionsList arguments
  | .ASTCondition _ condition trueval falseval =>
    definedFunctions condition ++ (definedFunctions trueval ++ definedFunctions falseval)
/-- The function symbols whose bodies are in a list of trees. -/
def definedFunctionsList : List ASTNode → List SymId
  | [] => []
  | node :: rest => definedFunctions node ++ definedFunctionsList rest
end

mutual
/-- Whether a tree below the root has the shape the parser builds: a function
body occurs only as the `definition` of the `ASTDefineFunction` of its own
function symbol, with no symbol table yet, and there is no second top level. -/
def wellFormed : ASTNode → Bool
  | .ASTConstant _ _ => true
  | .ASTBoolean _ _ => true
  | .ASTVariable _ _ _ => true
  | .ASTVector _ elements => wellFormedList elements
  | .ASTVectorSplat _ value _ => wellFormed value
  | .ASTDefineVariable _ _ _ _ value body _ => wellFormed value && wellFormed body
  | .ASTFunctionBody _ _ _ _ => false
  | .ASTToplevel _ _ _ _ => false
  | .ASTReturn _ => true
  | .ASTDefineFunction _ _ function (.ASTFunctionBody _ symbolTable function' inner) body =>
    symbolTable.isNone && decide (function' = function) && wellFormed inner && wellFormed body
  | .ASTDefineFunction _ _ _ _ _ => false
  | .ASTFunctionCall _ _ arguments _ => wellFormedList arguments
  | .ASTCondition _ condition trueval falseval =>
    wellFormed condition && wellFormed trueval && wellFormed falseval
/-- Whether all trees of a list have that shape. -/
def wellFormedList : List ASTNode → Bool
  | [] => true
  | node :: rest => wellFormed node && wellFormedList rest
end

/-! ## The invariant of `locals` -/

/-- The invariant of the resolution pass on the symbols. -/
structure LocalsInvariant (c : Compiler) : Prop where
  /-- a variable owned by a function is a key of its `locals`, mapped to itself -/
  own : ∀ V E, c.ownerOf V = some E → LocalsMap.find V (c.localsOf E) = some V
  /-- the home of a non-self entry is owned by a function that lexically encloses
  the function of the entry, and is not that function -/
  captured : ∀ F e, e ∈ c.localsOf F → e.1 ≠ e.2 →
    ∃ E, c.ownerOf e.1 = some E ∧ E ≠ F ∧ StrictlyEncloses c E F
  /-- no variable is a declared parameter of two functions -/
  disjoint : ∀ F G a, F ≠ G → a ∈ c.argumentsOf F → a ∉ c.argumentsOf G

/-- What the resolution pass never takes back: an owner once assigned, a parent
once assigned, the declared parameters, the values, and the symbols there are. -/
structure Extends (c c' : Compiler) : Prop where
  owner : ∀ V E, c.ownerOf V = some E → c'.ownerOf V = some E
  parent : ∀ F P, c.parentOf F = some P → c'.parentOf F = some P
  arguments : ∀ F, c'.argumentsOf F = c.argumentsOf F
  value : ∀ V, V < c.variableSymbols.length → c'.valueOf V = c.valueOf V
  grows : c.variableSymbols.length ≤ c'.variableSymbols.length
  count : c'.functionSymbols.length = c.functionSymbols.length

/-- What resolving a tree that defines the functions `D`, inside function `U`,
leaves alone: the parent of every other function, the `locals` of every function
but `U` and those of `D`, and the variables without owner that are no parameter
of a function of `D`. -/
structure Untouched (D : List SymId) (U : SymId) (c c' : Compiler) : Prop where
  parent : ∀ G, G ∉ D → c'.parentOf G = c.parentOf G
  locals : ∀ G, G ∉ D → G ≠ U → c'.localsOf G = c.localsOf G
  owner : ∀ V, V < c.variableSymbols.length → c.ownerOf V = none →
    (∀ G ∈ D, V ∉ c.argumentsOf G) → c'.ownerOf V = none

/-- A function symbol as the parser made it, before its definition is resolved:
no parent, its parameters are valid pointers to variables without owner, and its
`locals` maps them to themselves and holds nothing else. -/
structure Fresh (c : Compiler) (F : SymId) : Prop where
  parent : c.parentOf F = none
  valid : F < c.functionSymbols.length
  locals : ∀ e ∈ c.localsOf F, e.1 = e.2
  arguments : ∀ a ∈ c.argumentsOf F,
    a < c.variableSymbols.length ∧ c.ownerOf a = none ∧
      LocalsMap.find a (c.localsOf F) = some a

/-- What holds of the ancestors of a node inside function `U` while the tree is
resolved. -/
structure Chain (parents : List Ancestor) (U : SymId) (c : Compiler) : Prop where
  function : getFunction parents = some U
  valid : U < c.functionSymbols.length
  /-- a visible variable is owned by `U` or by a function that encloses `U` -/
  vars : ∀ V ∈ visibleVariables parents, ∃ E, c.ownerOf V = some E ∧ Encloses c E U
  /-- a visible function was defined in `U` or in a function that encloses `U` -/
  funcs : ∀ G ∈ visibleFunctions parents, ∃ P, c.parentOf G = some P ∧ Encloses c P U
  /-- what a visible function has captured is visible -/
  homes : ∀ G ∈ visibleFunctions parents, ∀ e ∈ c.localsOf G, e.1 ≠ e.2 →
    e.1 ∈ visibleVariables parents
  /-- a visible variable is owned by `U` or visible where the body of `U` stands -/
  own : ∀ V ∈ visibleVariables parents, c.ownerOf V = some U ∨ V ∈ outerVariables parents
  /-- what `U` has captured is visible where the body of `U` stands -/
  captured : ∀ e ∈ c.localsOf U, e.1 ≠ e.2 → e.1 ∈ outerVariables parents
  /-- what is visible where the body of `U` stands is visible inside it -/
  nested : ∀ V ∈ outerVariables parents, V ∈ visibleVariables parents

/-- The state `c'` reached from `c` by resolving a tree that defines the
functions `D`, inside function `U`. -/
structure Resolved (D : List SymId) (parents : List Ancestor) (U : SymId)
    (c c' : Compiler) : Prop where
  invariant : LocalsInvariant c'
  extends_ : Extends c c'
  untouched : Untouched D U c c'
  captured : ∀ e ∈ c'.localsOf U, e.1 ≠ e.2 → e.1 ∈ outerVariables parents

mutual
/-- The resolved tree is well scoped, for given `locals` and parameters of the
function symbols: below a node from which the variables `visible` are visible,
every frame's symbol table holds, besides what is visible outside it, at most the
variable the frame defines or the parameters of its function; and what a
function has captured is visible where its body stands. -/
def Scoped (locals : SymId → List (SymId × SymId)) (arguments : SymId → List SymId) :
    List SymId → ASTNode → Prop
  | _, .ASTConstant _ _ => True
  | _, .ASTBoolean _ _ => True
  | _, .ASTVariable _ _ _ => True
  | visible, .ASTVector _ elements => ScopedList locals arguments visible elements
  | visible, .ASTVectorSplat _ value _ => Scoped locals arguments visible value
  | visible, .ASTDefineVariable _ symbolTable _ _ value body _symbol =>
    Scoped locals arguments visible value ∧
    (∃ s, _symbol = some s ∧
      ∀ V ∈ variablesIn (SymbolTable.symbols (symbolTable.getD [])), V = s ∨ V ∈ visible) ∧
    Scoped locals arguments (variablesIn (SymbolTable.symbols (symbolTable.getD []))) body
  | visible, .ASTFunctionBody _ symbolTable function body =>
    (∀ e ∈ locals function, e.1 ≠ e.2 → e.1 ∈ visible) ∧
    (∀ V ∈ variablesIn (SymbolTable.symbols (symbolTable.getD [])),
      V ∈ arguments function ∨ V ∈ visible) ∧
    Scoped locals arguments (variablesIn (SymbolTable.symbols (symbolTable.getD []))) body
  | visible, .ASTToplevel _ symbolTable _ body =>
    (∀ V ∈ variablesIn (SymbolTable.symbols (symbolTable.getD [])), V ∈ visible) ∧
    Scoped locals arguments (variablesIn (SymbolTable.symbols (symbolTable.getD []))) body
  | _, .ASTReturn _ => True
  | visible, .ASTDefineFunction _ symbolTable _ definition body =>
    (∀ V ∈ variablesIn (SymbolTable.symbols (symbolTable.getD [])), V ∈ visible) ∧
    Scoped locals arguments (variablesIn (SymbolTable.symbols (symbolTable.getD []))) definition ∧
    Scoped locals arguments (variablesIn (SymbolTable.symbols (symbolTable.getD []))) body
  | visible, .ASTFunctionCall _ _ arguments' _ => ScopedList locals arguments visible arguments'
  | visible, .ASTCondition _ condition trueval falseval =>
    Scoped locals arguments visible condition ∧ Scoped locals arguments visible trueval ∧
      Scoped locals arguments visible falseval
/-- All trees of a list are well scoped. -/
def ScopedList (locals : SymId → List (SymId × SymId)) (arguments : SymId → List SymId) :
    List SymId → List ASTNode → Prop
  | _, [] => True
  | visible, node :: rest =>
    Scoped locals arguments visible node ∧ ScopedList locals arguments visible rest
end

/-- The state after `ASTDefineFunction::resolveVariables` assigned
`function->parent`, for the function symbol `F` of `function`. -/
def ASTDefineFunction.adopted (function parent : SymId) (F : FunctionSymbol) (c : Compiler) :
    Compiler :=
  { c with functionSymbols := c.functionSymbols.set function { F with parent := some parent } }

/-- The state after the loop of `ASTFunctionBody::resolveVariables` assigned
`symbol->function` for the declared parameters `arguments`. -/
def ASTFunctionBody.claimed (function : SymId) (arguments : List SymId) (c : Compiler) :
    Compiler :=
  { c with variableSymbols := claimAll function arguments c.variableSymbols }

/-! ## What the resolution pass returns -/

/-- A method of the resolution pass, run in state `c` inside function `U`: however
it ends, the state it leaves is `Resolved` from `c`, and when it returns `a`,
`Q a` holds of that state. -/
def Resolves {α : Type} (D : List SymId) (parents : List Ancestor) (U : SymId) (c : Compiler)
    (x : M α) (Q : α → Compiler → Prop) : Prop :=
  ∀ o c', x c = (o, c') → Resolved D parents U c c' ∧ ∀ a, o = .ok a → Q a c'

mutual
/-- The variable definitions of a tree that stands inside function `U`, each with
the function it is in and its field `_symbol`. -/
def definedVariables : SymId → ASTNode → List (SymId × Option SymId)
  | _, .ASTConstant _ _ => []
  | _, .ASTBoolean _ _ => []
  | _, .ASTVariable _ _ _ => []
  | U, .ASTVector _ elements => definedVariablesList U elements
  | U, .ASTVectorSplat _ value _ => definedVariables U value
  | U, .ASTDefineVariable _ _ _ _ value body _symbol =>
    (U, _symbol) :: (definedVariables U value ++ definedVariables U body)
  | _, .ASTFunctionBody _ _ function body => definedVariables function body
  | _, .ASTToplevel _ _ toplevel body => definedVariables toplevel body
  | _, .ASTReturn _ => []
  | U, .ASTDefineFunction _ _ _ definition body =>
    definedVariables U definition ++ definedVariables U body
  | U, .ASTFunctionCall _ _ arguments _ => definedVariablesList U arguments
  | U, .ASTCondition _ condition trueval falseval =>
    definedVariables U condition ++ (definedVariables U trueval ++ definedVariables U falseval)
/-- The variable definitions of a list of trees. -/
def definedVariablesList : SymId → List ASTNode → List (SymId × Option SymId)
  | _, [] => []
  | U, node :: rest => definedVariables U node ++ definedVariablesList U rest
end

/-- Every variable definition in a list has its symbol, owned by the function
the definition is in. -/
def Owned (c : Compiler) (definitions : List (SymId × Option SymId)) : Prop :=
  ∀ p ∈ definitions, ∃ V, p.2 = some V ∧ c.ownerOf V = some p.1

/-- What holds of the tree `node'` that `resolveVariables` returns for `node`
inside function `U`, in the state `c'` it leaves. -/
def Settled (visible : List SymId) (U : SymId) (node node' : ASTNode) (c' : Compiler) : Prop :=
  Scoped c'.localsOf c'.argumentsOf visible node' ∧
    definedFunctions node' = definedFunctions node ∧ Owned c' (definedVariables U node')

/-- The same for a list of trees. -/
def SettledList (visible : List SymId) (U : SymId) (nodes nodes' : List ASTNode)
    (c' : Compiler) : Prop :=
  ScopedList c'.localsOf c'.argumentsOf visible nodes' ∧
    definedFunctionsList nodes' = definedFunctionsList nodes ∧
    Owned c' (definedVariablesList U nodes')

/-! ## What code generation keeps of the values -/

/-- A method that, when it returns, has taken the current value of no variable
symbol away. -/
def KeepsValues {α : Type} (x : M α) : Prop :=
  ∀ c a c', x c = (.ok a, c') → ∀ V, c.valueOf V ≠ none → c'.valueOf V ≠ none

/-! ## Where code generation enters a function body -/

/-- `ASTDefineVariable::codegen` before `body->codegen`: the initializer is
generated and assigned. -/
def ASTDefineVariable.generate (position : Position) (type : Option CalcType)
    (_symbol : Option SymId) (value : ASTNode) (parents : List Ancestor) : M CalcType := do
  let v ← codegen value parents
  ASTDefineVariable.assign position type _symbol v

/-- `ASTFunctionBody::codegen` before `body->codegen`: the function is created,
its parameters are bound and the builder is put at its entry block.  The
function, its return type and the block the builder stood in are returned. -/
def ASTFunctionBody.enter (function : SymId) : M (FnId × LType × Option BlockId) := do
  let (f, returntype) ← ASTFunctionBody.create function
  let toplevel ← createBlock f
  let bb ← getInsertBlock
  setInsertPoint (some toplevel)
  pure (f, returntype, bb)

/-- `ASTFunctionCall::codegen` before the loop over the arguments. -/
def ASTFunctionCall.check (function : Option CallableSymbol) (count : Nat) : M Unit := do
  let function ← deref function
  checkParameterCount function count

/-- `ASTCondition::codegen` before `trueval->codegen`; the false block and the
merge block are returned. -/
def ASTCondition.toTrue (condition : ASTNode) (parents : List Ancestor) :
    M (BlockId × BlockId) := do
  let cv ← codegen condition (.Node :: parents)
  let cv ← checkType condition.position .BooleanType cv
  let bb ← getInsertBlock
  let bb ← deref bb
  let c ← getCompiler
  let parent ← deref c.builder.blocks[bb]?
  let trueblock ← createBlock parent
  let falseblock ← createBlock parent
  let mergeblock ← createBlock parent
  let _ ← emit (.CondBr cv trueblock falseblock)
  setInsertPoint (some trueblock)
  pure (falseblock, mergeblock)

/-- `ASTCondition::codegen` from `trueval->codegen` to before
`falseval->codegen`; the value of the true branch and the block it ended in are
returned. -/
def ASTCondition.toFalse (trueval : ASTNode) (parents : List Ancestor)
    (falseblock mergeblock : BlockId) : M (Option Val × Option BlockId) := do
  let trueresult ← codegen trueval (.Node :: parents)
  let trueblock ← getInsertBlock
  let _ ← emit (.Br mergeblock)
  setInsertPoint (some falseblock)
  pure (trueresult, trueblock)

mutual
/-- The calls of `ASTFunctionBody::codegen` that `codegen` of a tree makes, in
order, each with the function symbol of the body and the state the call starts
in.  A child is reached when everything `codegen` does before it returned; the
theorems `codegen_defineVariable`, `codegen_functionBody`, `codegen_functionCall`,
`codegen_condition` and `codegenElements_cons_eq` show that `codegen` is these
steps followed by the child. -/
def functionEntries : ASTNode → List Ancestor → Compiler → List (SymId × Compiler)
  | .ASTConstant _ _, _, _ => []
  | .ASTBoolean _ _, _, _ => []
  | .ASTVariable _ _ _, _, _ => []
  | .ASTVector _ elements, parents, c => functionEntriesElements elements (.Node :: parents) c
  | .ASTVectorSplat _ value _, parents, c => functionEntries value (.Node :: parents) c
  | .ASTDefineVariable position symbolTable _ type value body _symbol, parents, c =>
    functionEntries value parents c ++
      match ASTDefineVariable.generate position type _symbol value parents c with
      | (.ok _, c1) => functionEntries body (.Frame symbolTable :: parents) c1
      | _ => []
  | .ASTFunctionBody _ symbolTable function body, parents, c =>
    (function, c) ::
      match ASTFunctionBody.enter function c with
      | (.ok _, c1) => functionEntries body (.FunctionBody symbolTable function :: parents) c1
      | _ => []
  | .ASTToplevel _ symbolTable toplevel body, parents, c =>
    functionEntries body (.FunctionBody symbolTable toplevel :: parents) c
  | .ASTReturn _, _, _ => []
  | .ASTDefineFunction _ symbolTable _ definition body, parents, c =>
    functionEntries definition (.Frame symbolTable :: parents) c ++
      match codegen definition (.Frame symbolTable :: parents) c with
      | (.ok _, c1) => functionEntries body (.Frame symbolTable :: parents) c1
      | _ => []
  | .ASTFunctionCall _ _ arguments function, parents, c =>
    match ASTFunctionCall.check function arguments.length c with
    | (.ok _, c1) => functionEntriesArguments arguments (.Node :: parents) c1
    | _ => []
  | .ASTCondition _ condition trueval falseval, parents, c =>
    functionEntries condition (.Node :: parents) c ++
      match ASTCondition.toTrue condition parents c with
      | (.ok (falseblock, mergeblock), c1) =>
        functionEntries trueval (.Node :: parents) c1 ++
          match ASTCondition.toFalse trueval parents falseblock mergeblock c1 with
          | (.ok _, c2) => functionEntries falseval (.Node :: parents) c2
          | _ => []
      | _ => []
/-- The same for the loop of `ASTVector::codegen`. -/
def functionEntriesElements : List ASTNode → List Ancestor → Compiler → List (SymId × Compiler)
  | [], _, _ => []
  | element :: rest, parents, c =>
    functionEntries element parents c ++
      match codegen_to_real element parents c with
      | (.ok _, c1) => functionEntriesElements rest parents c1
      | _ => []
/-- The same for the first loop of `ASTFunctionCall::codegen`. -/
def functionEntriesArguments : List ASTNode → List Ancestor → Compiler → List (SymId × Compiler)
  | [], _, _ => []
  | argument :: rest, parents, c =>
    functionEntries argument parents c ++
      match codegen argument parents c with
      | (.ok _, c1) => functionEntriesArguments rest parents c1
      | _ => []
end

/-! ## The program handed to the resolution pass -/

/-- Modelled from the spec: what the parser and the compiler driver (not among
the sources) hand to the resolution pass, for the root `ASTToplevel` with the
symbol table `st`, the function symbol `top` and the tree `body`.  Every function
definition holds the function body of its own function symbol, the frames have
no symbol table yet, and no function symbol is defined twice.  A function symbol
still to be defined has no parent, and its parameters are variable symbols
without owner.  The `locals` of every function symbol holds its own parameters,
each mapped to itself, and nothing captured; no variable is a parameter of two
functions; a variable that has an owner is a key of the owner's `locals`, mapped
to itself; and the symbol table of the root holds variables of the top-level
function and no function symbol. -/
def Parsed (c : Compiler) (st : Option SymbolTable) (top : SymId) (body : ASTNode) : Prop :=
  wellFormed body = true ∧ (definedFunctions body).Nodup ∧ top ∉ definedFunctions body ∧
  top < c.functionSymbols.length ∧
  (∀ F ∈ definedFunctions body, F < c.functionSymbols.length ∧ c.parentOf F = none ∧
    ∀ a ∈ c.argumentsOf F, a < c.variableSymbols.length ∧ c.ownerOf a = none) ∧
  (∀ F < c.functionSymbols.length, (∀ e ∈ c.localsOf F, e.1 = e.2) ∧
    (∀ a ∈ c.argumentsOf F, LocalsMap.find a (c.localsOf F) = some a) ∧
    ∀ G < c.functionSymbols.length, ∀ a ∈ c.argumentsOf F, a ∈ c.argumentsOf G → F = G) ∧
  (∀ V < c.variableSymbols.length, ∀ E ∈ c.ownerOf V,
    LocalsMap.find V (c.localsOf E) = some V) ∧
  (∀ V ∈ variablesIn (SymbolTable.symbols (st.getD [])), c.ownerOf V = some top) ∧
  functionsIn (SymbolTable.symbols (st.getD [])) = []

/-- Whether a state and a tree are as the parser hands them over can be checked. -/
instance (c : Compiler) (st : Option SymbolTable) (top : SymId) (body : ASTNode) :
    Decidable (Parsed c st top body) := by
  unfold Parsed
  infer_instance

/-- A compilation whose top-level function has the input `a : real` (symbol 0),
already bound to its value, and which declares `f() : vector*2`. -/
def toplevelInput : Compiler :=
  { startCompiler [FunctionSymbol.new "toplevel" [0] .RealType (some []),
      FunctionSymbol.new "f" [] (.VectorType 2) none] with
    variableSymbols := [
      { name := "a", type := some .RealType, function := some 0,
        value := some (.Argument 0 0 .double) }] }

/-- The symbol table of the root for `toplevelInput`: the input `a`. -/
def inputTable : Option SymbolTable :=
  some [Scope.Multiple [("a", .Variable 0)]]

/-- The body of the program `let y = a in let f() : vector*2 = [a, y] in return`. -/
def capturedInput : ASTNode :=
  .ASTDefineVariable ⟨1, 1⟩ none "y" none (.ASTVariable ⟨1, 9⟩ "a" none)
    (.ASTDefineFunction ⟨2, 1⟩ none 1
      (.ASTFunctionBody ⟨2, 5⟩ none 1
        (.ASTVector ⟨2, 22⟩ [.ASTVariable ⟨2, 23⟩ "a" none, .ASTVariable ⟨2, 26⟩ "y" none]))
      (.ASTReturn ⟨3, 1⟩)) none

/-- The outcome and the state of `resolveVariables` for that program in
`toplevelInput`. -/
def capturedInputResolved : Outcome ASTNode × Compiler :=
  resolveVariables (.ASTToplevel ⟨1, 1⟩ inputTable 0 capturedInput) [] toplevelInput

/-! # Theorems -/

@[simp] theorem bind_eq {α β : Type} (x : M α) (f : α → M β) : (x >>= f) = M.bind x f := rfl

@[simp] theorem pure_eq {α : Type} (a : α) : (pure a : M α) = M.pure a := rfl

/-- The walk to the enclosing function passes every ancestor that is not a
function body, however many there are. -/
theorem getFunction_append (inner outer : List Ancestor) (symbolTable : Option SymbolTable)
    (function : SymId)
    (hinner : ∀ a ∈ inner, ∀ st fn, a ≠ Ancestor.FunctionBody st fn) :
    getFunction (inner ++ .FunctionBody symbolTable function :: outer) = some function := by
  induction inner with
  | nil => rfl
  | cons a rest ih =>
    have hrest : ∀ a ∈ rest, ∀ st fn, a ≠ Ancestor.FunctionBody st fn :=
      fun b hb => hinner b (List.mem_cons_of_mem _ hb)
    cases a with
    | Node => simpa [getFunction] using ih hrest
    | Frame st => simpa [getFunction] using ih hrest
    | FunctionBody st fn => exact absurd rfl (hinner _ (List.mem_cons_self _ _) st fn)

/-- `ASTReturn::resolveVariables` under a known enclosing function. -/
theorem resolveVariables_return (position : Position) (parents : List Ancestor) (c : Compiler)
    (function : SymId) (f : FunctionSymbol)
    (hfun : getFunction parents = some function)
    (hf : c.functionSymbols[function]? = some f) :
    resolveVariables (.ASTReturn position) parents c =
      match f.toplevel with
      | none => (.thrown (.CompilationException (position.formatError
          "'return' can only be used in top level code")), c)
      | some _ => (.ok (.ASTReturn position), c) := by
  simp only [resolveVariables, bind_eq, M.bind, hfun, deref, pure_eq, M.pure, getFunctionSymbol, hf]
  cases f.toplevel <;> rfl

/-! ## C9 -/

/-- C9: once its body has been generated, `ASTToplevel::codegen` throws "toplevel
code must end in a 'return' statement" exactly when the body yielded an actual
value; when the body yielded the absent marker it emits a void return and
yields the absent marker itself.  The body `let y = 1.0 in y` resolves and then
fails with that error. -/
theorem ASTToplevel_codegen_must_end_in_return :
    (∀ (position : Position) (symbolTable : Option SymbolTable) (toplevel : SymId)
      (body : ASTNode) (parents : List Ancestor) (c c1 : Compiler) (r : Option Val),
      codegen body (.FunctionBody symbolTable toplevel :: parents) c = (.ok r, c1) →
        (codegen (.ASTToplevel position symbolTable toplevel body) parents c =
            (.thrown (.CompilationException (position.formatError
              "toplevel code must end in a 'return' statement")), c1) ↔ r ≠ none) ∧
        (r = none → codegen (.ASTToplevel position symbolTable toplevel body) parents c =
            (.ok none, emitted (.Ret none) c1))) ∧
    (∃ tree c1,
      resolveVariables missingReturn []
        (startCompiler [FunctionSymbol.new "toplevel" [] .RealType (some [])]) = (.ok tree, c1) ∧
      (codegen tree [] c1).1 = .thrown (.CompilationException
        "toplevel code must end in a 'return' statement at 1:1")) := by
  refine ⟨?_, ?_⟩
  · intro position symbolTable toplevel body parents c c1 r hbody
    cases r with
    | none =>
      simp [codegen, M.bind, hbody, ASTToplevel.finish, emit, M.pure, emitted]
    | some v =>
      simp [codegen, M.bind, hbody, ASTToplevel.finish, throwEx]
  · exact ⟨_, _, rfl, rfl⟩

/-- C9 at a body that is a bare `return` of a top-level function without outputs. -/
theorem ASTToplevel_codegen_must_end_in_return_witness :
    codegen (.ASTToplevel ⟨1, 1⟩ (some [Scope.Multiple []]) 0 (.ASTReturn ⟨1, 1⟩)) []
        (startCompiler [FunctionSymbol.new "toplevel" [] .RealType (some [])]) =
      (.ok none, emitted (.Ret none)
        (startCompiler [FunctionSymbol.new "toplevel" [] .RealType (some [])])) :=
  ((ASTToplevel_codegen_must_end_in_return.1 ⟨1, 1⟩ (some [Scope.Multiple []]) 0
    (.ASTReturn ⟨1, 1⟩) []
    (startCompiler [FunctionSymbol.new "toplevel" [] .RealType (some [])])
    (startCompiler [FunctionSymbol.new "toplevel" [] .RealType (some [])]) none rfl).2 rfl)

/-! ## C10 -/

/-- C10: under a function body of function `function`, at any depth below it
(`inner` holds no further function body), `ASTReturn::resolveVariables` returns
exactly when `function` is a `ToplevelSymbol`; otherwise it throws the
compilation error "'return' can only be used in top level code" and leaves the
compiler state as it was. -/
theorem ASTReturn_resolveVariables_toplevel_only (position : Position)
    (inner outer : List Ancestor) (symbolTable : Option SymbolTable) (function : SymId)
    (f : FunctionSymbol) (c : Compiler)
    (hinner : ∀ a ∈ inner, ∀ st fn, a ≠ Ancestor.FunctionBody st fn)
    (hf : c.functionSymbols[function]? = some f) :
    ((∃ node c1, resolveVariables (.ASTReturn position)
        (inner ++ .FunctionBody symbolTable function :: outer) c = (.ok node, c1))
      ↔ f.toplevel ≠ none) ∧
    (f.toplevel ≠ none →
      resolveVariables (.ASTReturn position)
        (inner ++ .FunctionBody symbolTable function :: outer) c = (.ok (.ASTReturn position), c)) ∧
    (f.toplevel = none →
      resolveVariables (.ASTReturn position)
        (inner ++ .FunctionBody symbolTable function :: outer) c =
      (.thrown (.CompilationException (position.formatError
        "'return' can only be used in top level code")), c)) := by
  have h := resolveVariables_return position _ c function f
    (getFunction_append inner outer symbolTable function hinner) hf
  rw [h]
  cases ht : f.toplevel with
  | none => simp
  | some returns => simp

/-- C10 at a `return` two levels below the body of a nested function. -/
theorem ASTReturn_resolveVariables_toplevel_only_witness :
    resolveVariables (.ASTReturn ⟨2, 3⟩)
        ([.Node, .Frame none] ++ .FunctionBody none 1 :: [.Frame none, .FunctionBody none 0])
        (startCompiler [FunctionSymbol.new "toplevel" [] .RealType (some []),
          FunctionSymbol.new "f" [] .RealType none]) =
      (.thrown (.CompilationException "'return' can only be used in top level code at 2:3"),
        startCompiler [FunctionSymbol.new "toplevel" [] .RealType (some []),
          FunctionSymbol.new "f" [] .RealType none]) :=
  (ASTReturn_resolveVariables_toplevel_only ⟨2, 3⟩ [.Node, .Frame none]
    [.Frame none, .FunctionBody none 0] none 1 (FunctionSymbol.new "f" [] .RealType none)
    (startCompiler [FunctionSymbol.new "toplevel" [] .RealType (some []),
      FunctionSymbol.new "f" [] .RealType none])
    (by intro a ha st fn; simp at ha; rcases ha with rfl | rfl <;> simp) rfl).2.2 rfl

/-! ## Reading and writing a variable symbol -/

/-- Following a valid `VariableSymbol*`. -/
theorem getVariable_eq (symbol : SymId) (s : VariableSymbol) (c : Compiler)
    (hs : c.variableSymbols[symbol]? = some s) : getVariable symbol c = (.ok s, c) := by
  simp [getVariable, hs, deref, M.pure]

/-- Assigning to a valid `VariableSymbol*`. -/
theorem modifyVariable_eq (symbol : SymId) (s : VariableSymbol) (f : VariableSymbol → VariableSymbol)
    (c : Compiler) (hs : c.variableSymbols[symbol]? = some s) :
    modifyVariable symbol f c = (.ok (), withVariable symbol (f s) c) := by
  simp [modifyVariable, M.bind, getVariable_eq symbol s c hs, modifyCompiler, withVariable]

/-- The symbol just assigned is what a read returns. -/
theorem withVariable_get (symbol : SymId) (s s' : VariableSymbol) (c : Compiler)
    (hs : c.variableSymbols[symbol]? = some s) :
    (withVariable symbol s' c).variableSymbols[symbol]? = some s' := by
  have hlt : symbol < c.variableSymbols.length := by
    rcases List.getElem?_eq_some_iff.mp hs with ⟨h, _⟩
    exact h
  simp [withVariable, List.getElem?_set, hlt]

/-- Two assignments to one symbol leave the second. -/
theorem withVariable_withVariable (symbol : SymId) (s s' : VariableSymbol) (c : Compiler) :
    withVariable symbol s' (withVariable symbol s c) = withVariable symbol s' c := by
  simp [withVariable, List.set_set]

/-- The catalogue entry found for a native type has that native type. -/
theorem find_llvm (t : LType) (T : CalcType) (h : TypeRegistry.find t = some T) : T.llvm = t := by
  cases t <;> simp [TypeRegistry.find] at h <;> subst h <;> rfl

/-- Two catalogue entries with one native type are one entry. -/
theorem llvm_injective (D T : CalcType) (h : D.llvm = T.llvm) : D = T := by
  cases D <;> cases T <;> simp [CalcType.llvm] at h <;> simp [h]

/-! ## C5 -/

/-- `ASTDefineVariable::codegen` without a declared type, on an actual value. -/
theorem assign_inferred (position : Position) (symbol : SymId) (v : Val) (T : CalcType)
    (s : VariableSymbol) (c1 : Compiler)
    (hT : TypeRegistry.find v.getType = some T)
    (hs : c1.variableSymbols[symbol]? = some s) :
    ASTDefineVariable.assign position none (some symbol) (some v) c1 =
      (.ok T, withVariable symbol { s with value := some v, type := some T } c1) := by
  have h1 := modifyVariable_eq symbol s (fun s => { s with value := some v }) c1 hs
  have hs2 := withVariable_get symbol s { s with value := some v } c1 hs
  have h2 := modifyVariable_eq symbol { s with value := some v }
    (fun s => { s with type := some T }) _ hs2
  simp [ASTDefineVariable.assign, M.bind, deref, M.pure, h1, h2, hT, find_llvm _ _ hT,
    withVariable_withVariable]

/-- `ASTDefineVariable::codegen` with a declared type, on an actual value. -/
theorem assign_declared (position : Position) (symbol : SymId) (v : Val) (D T : CalcType)
    (s : VariableSymbol) (c1 : Compiler)
    (hT : TypeRegistry.find v.getType = some T)
    (hs : c1.variableSymbols[symbol]? = some s) :
    ASTDefineVariable.assign position (some D) (some symbol) (some v) c1 =
      if D = T then (.ok D, withVariable symbol { s with value := some v } c1)
      else (.thrown (.TypeException ("variable is declared to return a " ++ D.name ++
        " but has been set to a " ++ T.name) position),
        withVariable symbol { s with value := some v } c1) := by
  have h1 := modifyVariable_eq symbol s (fun s => { s with value := some v }) c1 hs
  have hne : (v.getType = D.llvm) ↔ D = T := by
    constructor
    · intro h
      exact llvm_injective D T (by rw [find_llvm _ _ hT, h])
    · intro h
      rw [h, find_llvm _ _ hT]
  by_cases hD : D = T
  · have := hne.mpr hD
    simp [ASTDefineVariable.assign, M.bind, deref, M.pure, h1, hT, hD, this]
  · have : ¬ v.getType = D.llvm := fun h => hD (hne.mp h)
    simp [ASTDefineVariable.assign, M.bind, deref, M.pure, h1, hT, hD, this, throwEx]

/-- C5: when the initializer yields an actual value `v` whose type is the catalogue
entry `T` and the definition's symbol is a valid pointer: with no declared type
the step before the body returns (it throws nothing), the node's `type` and the
symbol's `type` become `T`, and `codegen` is the body's `codegen`; with a
declared type `D` that step throws a `TypeException` exactly when `D ≠ T`, with
the message naming both, and otherwise `codegen` is the body's `codegen` with
the symbol's type as it was.  Either way the body is generated in a state where
the symbol's value is `v`. -/
theorem ASTDefineVariable_codegen_type_check (position : Position)
    (symbolTable : Option SymbolTable) (id : String) (type : Option CalcType)
    (value body : ASTNode) (symbol : SymId) (parents : List Ancestor) (c c1 : Compiler)
    (v : Val) (T : CalcType) (s : VariableSymbol)
    (hvalue : codegen value parents c = (.ok (some v), c1))
    (hT : TypeRegistry.find v.getType = some T)
    (hs : c1.variableSymbols[symbol]? = some s) :
    (type = none →
      ASTDefineVariable.assign position type (some symbol) (some v) c1 =
        (.ok T, withVariable symbol { s with value := some v, type := some T } c1) ∧
      codegen (.ASTDefineVariable position symbolTable id type value body (some symbol)) parents c =
        codegen body (.Frame symbolTable :: parents)
          (withVariable symbol { s with value := some v, type := some T } c1)) ∧
    (∀ D, type = some D →
      ((∃ what c2, ASTDefineVariable.assign position type (some symbol) (some v) c1 =
          (.thrown (.TypeException what position), c2)) ↔ D ≠ T) ∧
      (D ≠ T →
        codegen (.ASTDefineVariable position symbolTable id type value body (some symbol)) parents c =
          (.thrown (.TypeException ("variable is declared to return a " ++ D.name ++
            " but has been set to a " ++ T.name) position),
            withVariable symbol { s with value := some v } c1)) ∧
      (D = T →
        ASTDefineVariable.assign position type (some symbol) (some v) c1 =
          (.ok D, withVariable symbol { s with value := some v } c1) ∧
        codegen (.ASTDefineVariable position symbolTable id type value body (some symbol)) parents c =
          codegen body (.Frame symbolTable :: parents)
            (withVariable symbol { s with value := some v } c1))) := by
  refine ⟨?_, ?_⟩
  · intro htype
    subst htype
    have h := assign_inferred position symbol v T s c1 hT hs
    refine ⟨h, ?_⟩
    simp [codegen, M.bind, hvalue, h]
  · intro D htype
    subst htype
    have h := assign_declared position symbol v D T s c1 hT hs
    refine ⟨?_, ?_, ?_⟩
    · by_cases hD : D = T
      · subst hD
        simp [h]
      · simp [h, hD]
    · intro hD
      simp [codegen, M.bind, hvalue, h, hD]
    · intro hD
      simp only [hD, if_true] at h
      subst hD
      refine ⟨h, ?_⟩
      simp [codegen, M.bind, hvalue, h]

/-- C5 at `let y : vector*3 = 1.0 in y`. -/
theorem ASTDefineVariable_codegen_type_check_witness :
    codegen mistypedDefinition []
        { startCompiler [] with variableSymbols := [⟨"y", some (.VectorType 3), some 0, none⟩] } =
      (.thrown (.TypeException
          "variable is declared to return a vector*3 but has been set to a real" ⟨1, 1⟩),
        { startCompiler [] with
          variableSymbols := [⟨"y", some (.VectorType 3), some 0, some (.ConstantFP 1)⟩] }) :=
  ((ASTDefineVariable_codegen_type_check ⟨1, 1⟩ none "y" (some (.VectorType 3))
    (.ASTConstant ⟨1, 9⟩ 1) (.ASTVariable ⟨1, 16⟩ "y" (some (.Variable 0))) 0 []
    { startCompiler [] with variableSymbols := [⟨"y", some (.VectorType 3), some 0, none⟩] }
    { startCompiler [] with variableSymbols := [⟨"y", some (.VectorType 3), some 0, none⟩] }
    (.ConstantFP 1) .RealType ⟨"y", some (.VectorType 3), some 0, none⟩ rfl rfl rfl).2
      (.VectorType 3) rfl).2.1 (by decide)

/-! ## C6 and C7: conditionals -/

/-- `ASTCondition::codegen` once the condition is a `Boolean` value and both branches returned: what is left is the part after the two branches. -/
theorem ASTCondition_codegen_eq (position : Position) (condition trueval falseval : ASTNode)
    (parents : List Ancestor) (c c1 c2 c3 : Compiler) (cv : Val) (p : FnId)
    (tr fr : Option Val)
    (hcond : codegen condition (.Node :: parents) c = (.ok (some cv), c1))
    (hbool : TypeRegistry.find cv.getType = some .BooleanType)
    (hp : insertFunction c1 = some p)
    (htrue : codegen trueval (.Node :: parents) (ASTCondition.enterTrue cv p c1) = (.ok tr, c2))
    (hfalse : codegen falseval (.Node :: parents)
      (ASTCondition.enterFalse c1.builder.blocks.length c2) = (.ok fr, c3)) :
    codegen (.ASTCondition position condition trueval falseval) parents c =
      ASTCondition.finish position (c1.builder.blocks.length + 2) tr c2.builder.insertBlock
        fr c3.builder.insertBlock (emitted (.Br (c1.builder.blocks.length + 2)) c3) := by
  obtain ⟨bb, hbb, hparent⟩ : ∃ bb, c1.builder.insertBlock = some bb ∧
      c1.builder.blocks[bb]? = some p := by
    unfold insertFunction at hp
    cases hb : c1.builder.insertBlock with
    | none => simp [hb] at hp
    | some bb => exact ⟨bb, rfl, by simpa [hb] using hp⟩
  simp only [ASTCondition.enterTrue, ASTCondition.enterFalse, withInsertPoint, emitted, hbb,
    List.append_assoc, List.singleton_append, List.cons_append, List.nil_append]
    at htrue hfalse
  simp only [codegen, bind_eq, M.bind, hcond, checkType, deref, pure_eq, M.pure, hbool,
    getInsertBlock, hbb, getCompiler, hparent, createBlock, emit, setInsertPoint, modifyCompiler,
    ne_eq, not_true_eq_false, if_false, List.length_append, List.length_singleton,
    List.append_assoc, List.singleton_append, List.cons_append, List.nil_append,
    List.length_cons, List.length_nil, htrue, hfalse, emitted]

/-- `ASTCondition::codegen` leaves through the condition whenever the condition
does not yield a value of type `Boolean`. -/
theorem ASTCondition_codegen_condition_fails (position : Position)
    (condition trueval falseval : ASTNode) (parents : List Ancestor) (c c1 : Compiler)
    (oc : Outcome (Option Val))
    (hcond : codegen condition (.Node :: parents) c = (oc, c1))
    (hoc : ∀ cv, oc = .ok (some cv) → TypeRegistry.find cv.getType ≠ some .BooleanType) :
    ∀ r c', codegen (.ASTCondition position condition trueval falseval) parents c ≠ (.ok r, c') := by
  intro r c'
  cases oc with
  | ok v =>
    cases v with
    | none =>
      simp [codegen, M.bind, hcond, checkType, deref, crash]
    | some cv =>
      have h := hoc cv rfl
      cases ht : TypeRegistry.find cv.getType with
      | none => simp [codegen, M.bind, hcond, checkType, deref, crash, ht, M.pure]
      | some t =>
        have hne : t ≠ .BooleanType := fun e => h (by rw [ht, e])
        simp [codegen, M.bind, hcond, checkType, deref, M.pure, ht, hne, throwEx]
  | thrown e => simp [codegen, M.bind, hcond]
  | fault f => simp [codegen, M.bind, hcond]

/-- `ASTCondition::codegen` leaves through a branch that throws or crashes. -/
theorem ASTCondition_codegen_branch_fails (position : Position)
    (condition trueval falseval : ASTNode) (parents : List Ancestor) (c c1 c2 c3 : Compiler)
    (cv : Val) (p : FnId) (ot of : Outcome (Option Val))
    (hcond : codegen condition (.Node :: parents) c = (.ok (some cv), c1))
    (hbool : TypeRegistry.find cv.getType = some .BooleanType)
    (hp : insertFunction c1 = some p)
    (htrue : codegen trueval (.Node :: parents) (ASTCondition.enterTrue cv p c1) = (ot, c2))
    (hfalse : codegen falseval (.Node :: parents)
      (ASTCondition.enterFalse c1.builder.blocks.length c2) = (of, c3))
    (hfail : (∀ tr, ot ≠ .ok tr) ∨ (∀ fr, of ≠ .ok fr)) :
    ∀ r c', codegen (.ASTCondition position condition trueval falseval) parents c ≠ (.ok r, c') := by
  intro r c'
  obtain ⟨bb, hbb, hparent⟩ : ∃ bb, c1.builder.insertBlock = some bb ∧
      c1.builder.blocks[bb]? = some p := by
    unfold insertFunction at hp
    cases hb : c1.builder.insertBlock with
    | none => simp [hb] at hp
    | some bb => exact ⟨bb, rfl, by simpa [hb] using hp⟩
  simp only [ASTCondition.enterTrue, ASTCondition.enterFalse, withInsertPoint, emitted, hbb,
    List.append_assoc, List.singleton_append, List.cons_append, List.nil_append]
    at htrue hfalse
  simp only [codegen, bind_eq, M.bind, hcond, checkType, deref, pure_eq, M.pure, hbool,
    getInsertBlock, hbb, getCompiler, hparent, createBlock, emit, setInsertPoint, modifyCompiler,
    ne_eq, not_true_eq_false, if_false, List.length_append, List.length_singleton,
    List.append_assoc, List.singleton_append, List.cons_append, List.nil_append,
    List.length_cons, List.length_nil, htrue, emitted]
  cases ot with
  | ok tr =>
    simp only [hfalse]
    cases of with
    | ok fr =>
      rcases hfail with h | h
      · exact absurd rfl (h tr)
      · exact absurd rfl (h fr)
    | thrown e => simp
    | fault f => simp
  | thrown e => simp
  | fault f => simp

/-- The part of `ASTCondition::codegen` after the two branches, case by case. -/
theorem ASTCondition_finish_eq (position : Position) (mergeblock : BlockId)
    (tr fr : Option Val) (tb fb : Option BlockId) (c : Compiler) :
    ASTCondition.finish position mergeblock tr tb fr fb c =
      match tr, fr with
      | some t, some f =>
        if t.getType = f.getType then
          (.ok (some (.Instruction c.builder.code.length t.getType)),
            emitted (.PHI t.getType [(t, tb), (f, fb)]) (withInsertPoint (some mergeblock) c))
        else
          (.thrown (.CompilationException (position.formatError
            "the true and false value of a conditional must be the same type")), c)
      | _, _ =>
        (.thrown (.CompilationException (position.formatError
          "you can't use 'return' inside conditionals")), c) := by
  cases tr with
  | none => cases fr <;> simp [ASTCondition.finish, throwEx]
  | some t =>
    cases fr with
    | none => simp [ASTCondition.finish, throwEx]
    | some f =>
      by_cases h : t.getType = f.getType
      · simp [ASTCondition.finish, M.bind, h, setInsertPoint, modifyCompiler, emit, M.pure,
          emitted, withInsertPoint]
      · simp [ASTCondition.finish, M.bind, h, throwEx]

/-- C6: with the builder standing in a block of a function after the condition,
`ASTCondition::codegen` returns if and only if the condition yields a value of
type `Boolean`, both branches yield an actual value, and the two values have
the same native type.  It then yields the PHI instruction of that type emitted
into the merge block, whose incoming pairs are the true value with the block
the true branch ended in and the false value with the block the false branch
ended in.  When the condition is fine and both branches return but one yields
the absent marker, it throws "you can't use 'return' inside conditionals". -/
theorem ASTCondition_codegen_succeeds_iff (position : Position)
    (condition trueval falseval : ASTNode) (parents : List Ancestor) (c c1 c2 c3 : Compiler)
    (oc ot of : Outcome (Option Val)) (p : FnId)
    (hcond : codegen condition (.Node :: parents) c = (oc, c1))
    (hp : insertFunction c1 = some p)
    (htrue : ∀ cv, oc = .ok (some cv) →
      codegen trueval (.Node :: parents) (ASTCondition.enterTrue cv p c1) = (ot, c2))
    (hfalse : codegen falseval (.Node :: parents)
      (ASTCondition.enterFalse c1.builder.blocks.length c2) = (of, c3)) :
    ((∃ r c', codegen (.ASTCondition position condition trueval falseval) parents c = (.ok r, c')) ↔
      ∃ cv tr fr, oc = .ok (some cv) ∧ TypeRegistry.find cv.getType = some .BooleanType ∧
        ot = .ok (some tr) ∧ of = .ok (some fr) ∧ tr.getType = fr.getType) ∧
    (∀ cv tr fr, oc = .ok (some cv) → TypeRegistry.find cv.getType = some .BooleanType →
      ot = .ok (some tr) → of = .ok (some fr) → tr.getType = fr.getType →
      codegen (.ASTCondition position condition trueval falseval) parents c =
        (.ok (some (.Instruction (c3.builder.code.length + 1) tr.getType)),
          emitted (.PHI tr.getType [(tr, c2.builder.insertBlock), (fr, c3.builder.insertBlock)])
            (withInsertPoint (some (c1.builder.blocks.length + 2))
              (emitted (.Br (c1.builder.blocks.length + 2)) c3)))) ∧
    (∀ cv tr fr, oc = .ok (some cv) → TypeRegistry.find cv.getType = some .BooleanType →
      ot = .ok tr → of = .ok fr → (tr = none ∨ fr = none) →
      codegen (.ASTCondition position condition trueval falseval) parents c =
        (.thrown (.CompilationException (position.formatError
          "you can't use 'return' inside conditionals")),
          emitted (.Br (c1.builder.blocks.length + 2)) c3)) := by
  have hgood : ∀ cv tr fr, oc = .ok (some cv) →
      TypeRegistry.find cv.getType = some .BooleanType → ot = .ok tr → of = .ok fr →
      codegen (.ASTCondition position condition trueval falseval) parents c =
        ASTCondition.finish position (c1.builder.blocks.length + 2) tr c2.builder.insertBlock
          fr c3.builder.insertBlock (emitted (.Br (c1.builder.blocks.length + 2)) c3) := by
    intro cv tr fr hoc hbool hot hof
    subst hoc hot hof
    exact ASTCondition_codegen_eq position condition trueval falseval parents c c1 c2 c3 cv p
      tr fr hcond hbool hp (htrue cv rfl) hfalse
  refine ⟨⟨?_, ?_⟩, ?_, ?_⟩
  · rintro ⟨r, c', hr⟩
    by_cases hoc : ∃ cv, oc = .ok (some cv) ∧ TypeRegistry.find cv.getType = some .BooleanType
    · obtain ⟨cv, hcv, hbool⟩ := hoc
      subst hcv
      by_cases hbr : ∃ tr fr, ot = .ok tr ∧ of = .ok fr
      · obtain ⟨tr, fr, hot, hof⟩ := hbr
        have h := hgood cv tr fr rfl hbool hot hof
        rw [h, ASTCondition_finish_eq] at hr
        cases tr with
        | none => cases fr <;> simp at hr
        | some t =>
          cases fr with
          | none => simp at hr
          | some f =>
            by_cases hty : t.getType = f.getType
            · exact ⟨cv, t, f, rfl, hbool, hot, hof, hty⟩
            · simp [hty] at hr
      · exact absurd hr (ASTCondition_codegen_branch_fails position condition trueval falseval
          parents c c1 c2 c3 cv p ot of hcond hbool hp (htrue cv rfl) hfalse (by
            by_cases h1 : ∃ tr, ot = .ok tr
            · obtain ⟨tr, h1⟩ := h1
              right
              intro fr hfr
              exact hbr ⟨tr, fr, h1, hfr⟩
            · left
              intro tr htr
              exact h1 ⟨tr, htr⟩) r c')
    · exact absurd hr (ASTCondition_codegen_condition_fails position condition trueval falseval
        parents c c1 oc hcond (fun cv hcv hb => hoc ⟨cv, hcv, hb⟩) r c')
  · rintro ⟨cv, tr, fr, hoc, hbool, hot, hof, hty⟩
    have h := hgood cv (some tr) (some fr) hoc hbool hot hof
    rw [h, ASTCondition_finish_eq]
    simp [hty]
  · intro cv tr fr hoc hbool hot hof hty
    have h := hgood cv (some tr) (some fr) hoc hbool hot hof
    rw [h, ASTCondition_finish_eq]
    simp [hty, emitted]
  · intro cv tr fr hoc hbool hot hof hnone
    have h := hgood cv tr fr hoc hbool hot hof
    rw [h, ASTCondition_finish_eq]
    rcases hnone with h1 | h1
    · subst h1
      cases fr <;> rfl
    · subst h1
      cases tr <;> rfl

/-- C6 at `if (true) 1.0 else 2.0`. -/
theorem ASTCondition_codegen_succeeds_iff_witness :
    ∃ c', codegen sameTypeConditional [] toplevelOnly =
      (.ok (some (.Instruction 3 .double)), c') :=
  ⟨_, (ASTCondition_codegen_succeeds_iff ⟨1, 1⟩ (.ASTBoolean ⟨1, 5⟩ "true")
    (.ASTConstant ⟨1, 11⟩ 1) (.ASTConstant ⟨1, 20⟩ 2) [] toplevelOnly toplevelOnly
    (ASTCondition.enterTrue (.ConstantInt true) 0 toplevelOnly)
    (ASTCondition.enterFalse 1 (ASTCondition.enterTrue (.ConstantInt true) 0 toplevelOnly))
    (.ok (some (.ConstantInt true))) (.ok (some (.ConstantFP 1))) (.ok (some (.ConstantFP 2))) 0
    rfl rfl (fun _ h => by cases h; rfl) rfl).2.1 (.ConstantInt true) (.ConstantFP 1) (.ConstantFP 2)
    rfl rfl rfl rfl rfl⟩

/-- C7, as stated, fails: `if (true) 1.0 else false` ends in a `CompilationException`,
which is no `TypeException`, and its message is the same one that
`if (true) [1.0, 2.0] else 3.0` gets, so it names no branch type. -/
theorem ASTCondition_mismatch_not_type_error :
    (codegen mixedConditional [] toplevelOnly).1 =
      .thrown (.CompilationException
        "the true and false value of a conditional must be the same type at 1:1") ∧
    (¬ ∃ what position, (codegen mixedConditional [] toplevelOnly).1 =
      .thrown (.TypeException what position)) ∧
    (codegen otherMixedConditional [] toplevelOnly).1 =
      (codegen mixedConditional [] toplevelOnly).1 := by
  refine ⟨rfl, ?_, rfl⟩
  rintro ⟨what, position, h⟩
  have h2 : (codegen mixedConditional [] toplevelOnly).1 =
      .thrown (.CompilationException
        "the true and false value of a conditional must be the same type at 1:1") := rfl
  rw [h2] at h
  cases h

/-- C7, amended: when the condition is a `Boolean` value and the two branches
yield values of different native types, `ASTCondition::codegen` throws the
`CompilationException` with the fixed message "the true and false value of a
conditional must be the same type" at the position of the conditional. -/
theorem ASTCondition_mismatch_compilation_error (position : Position)
    (condition trueval falseval : ASTNode) (parents : List Ancestor) (c c1 c2 c3 : Compiler)
    (cv tr fr : Val) (p : FnId)
    (hcond : codegen condition (.Node :: parents) c = (.ok (some cv), c1))
    (hbool : TypeRegistry.find cv.getType = some .BooleanType)
    (hp : insertFunction c1 = some p)
    (htrue : codegen trueval (.Node :: parents) (ASTCondition.enterTrue cv p c1) =
      (.ok (some tr), c2))
    (hfalse : codegen falseval (.Node :: parents)
      (ASTCondition.enterFalse c1.builder.blocks.length c2) = (.ok (some fr), c3))
    (hty : tr.getType ≠ fr.getType) :
    codegen (.ASTCondition position condition trueval falseval) parents c =
      (.thrown (.CompilationException (position.formatError
        "the true and false value of a conditional must be the same type")),
        emitted (.Br (c1.builder.blocks.length + 2)) c3) := by
  rw [ASTCondition_codegen_eq position condition trueval falseval parents c c1 c2 c3 cv p
    (some tr) (some fr) hcond hbool hp htrue hfalse, ASTCondition_finish_eq]
  simp [hty]

/-- C7, amended, at `if (true) 1.0 else false`. -/
theorem ASTCondition_mismatch_compilation_error_witness :
    ∃ c', codegen mixedConditional [] toplevelOnly =
      (.thrown (.CompilationException
        "the true and false value of a conditional must be the same type at 1:1"), c') :=
  ⟨_, ASTCondition_mismatch_compilation_error ⟨1, 1⟩ (.ASTBoolean ⟨1, 5⟩ "true")
    (.ASTConstant ⟨1, 11⟩ 1) (.ASTBoolean ⟨1, 20⟩ "false") [] toplevelOnly toplevelOnly
    (ASTCondition.enterTrue (.ConstantInt true) 0 toplevelOnly)
    (ASTCondition.enterFalse 1 (ASTCondition.enterTrue (.ConstantInt true) 0 toplevelOnly))
    (.ConstantInt true) (.ConstantFP 1) (.ConstantInt false) 0
    rfl rfl rfl rfl rfl (by decide)⟩

/-! ## C8 -/

/-- `codegen_to_type` reads the type of what `codegen` returned without looking
whether it is null. -/
theorem codegen_to_type_absent (node : ASTNode) (parents : List Ancestor) (type : CalcType)
    (c c1 : Compiler) (h : codegen node parents c = (.ok none, c1)) :
    codegen_to_type node parents type c = (.fault .nullDereference, c1) := by
  simp [codegen_to_type, M.bind, h, checkType, deref, crash]

/-- C8, the code at the failing inputs: a `return` as a vector element, as a
splat operand and as a condition makes `codegen_to_type` dereference the null
value instead of throwing; a `return` as a call argument is pushed, the call is
emitted with the null parameter, and code generation returns normally. -/
theorem absent_value_is_used :
    (resolveAndGenerate returnInVector toplevelOnly).1 = .fault .nullDereference ∧
    (resolveAndGenerate returnInSplat toplevelOnly).1 = .fault .nullDereference ∧
    (resolveAndGenerate returnInCondition toplevelOnly).1 = .fault .nullDereference ∧
    (resolveAndGenerate returnInArgument oneParameterFunction).1 = .ok none ∧
    (resolveAndGenerate returnInArgument oneParameterFunction).2.builder.code =
      [(some 1, .Ret (some (.Argument 1 0 .double))),
        (some 0, .Call (.Function 1) [none]), (some 0, .Ret none)] := by
  decide!

/-! ## C3 -/

/-- C3, the code at the failing input: `callBeforeCapture` resolves; afterwards
the callee `f` has the captured home variable 0 (`x`) mapped to the proxy 1,
the caller `g` has no entry for it, and code generation stops at the failed
`assert(s)` of `ASTFunctionCall::codegen`. -/
theorem capture_chain_not_materialized :
    (resolveVariables callBeforeCapture [] twoFunctions).1.isOk = true ∧
    (resolveVariables callBeforeCapture [] twoFunctions).2.functionSymbols.map
      (fun f => f.locals) = [[(0, 0)], [(0, 1)], []] ∧
    (resolveAndGenerate callBeforeCapture twoFunctions).1 = .fault .assertionFailed := by
  decide!

/-! ## C2: the parameters of a generated function -/

/-- The first loop of `ASTFunctionBody::codegen` yields the declared native type of every parameter, in order. -/
theorem argumentTypes_eq (c : Compiler) : ∀ (arguments : List SymId) (normal : List LType),
    arguments.map c.declaredType = normal.map some →
    argumentTypes arguments c = (.ok normal, c)
  | [], normal, h => by
    cases normal with
    | nil => rfl
    | cons t ts => simp at h
  | a :: rest, normal, h => by
    cases normal with
    | nil => simp at h
    | cons t ts =>
      simp only [List.map_cons, List.cons.injEq] at h
      obtain ⟨ha, hrest⟩ := h
      have ih := argumentTypes_eq c rest ts hrest
      unfold Compiler.declaredType at ha
      cases hs : c.variableSymbols[a]? with
      | none => simp [hs] at ha
      | some s =>
        cases hty : s.type with
        | none => simp [hs, hty] at ha
        | some T =>
          simp [hs, hty] at ha
          simp [argumentTypes, M.bind, getVariable, hs, deref, M.pure, hty, ih, ha]

/-- The second loop of `ASTFunctionBody::codegen` yields the native type of the current value of every captured home variable, in the order of `locals`. -/
theorem upvalueTypes_eq (c : Compiler) : ∀ (locals : List (SymId × SymId)) (imported : List LType),
    (upvalues locals).map (fun e => c.valueType e.1) = imported.map some →
    upvalueTypes locals c = (.ok imported, c)
  | [], imported, h => by
    cases imported with
    | nil => rfl
    | cons t ts => simp [upvalues] at h
  | e :: rest, imported, h => by
    by_cases hne : e.1 = e.2
    · have h' : (upvalues rest).map (fun e => c.valueType e.1) = imported.map some := by
        simpa [upvalues, hne] using h
      have ih := upvalueTypes_eq c rest imported h'
      simp [upvalueTypes, hne, ih]
    · cases imported with
      | nil => simp [upvalues, hne] at h
      | cons t ts =>
        have h' : c.valueType e.1 = some t ∧
            (upvalues rest).map (fun e => c.valueType e.1) = ts.map some := by
          simpa [upvalues, hne] using h
        obtain ⟨ha, hrest⟩ := h'
        have ih := upvalueTypes_eq c rest ts hrest
        unfold Compiler.valueType at ha
        cases hs : c.variableSymbols[e.1]? with
        | none => simp [hs] at ha
        | some s =>
          cases hv : s.value with
          | none => simp [hs, hv] at ha
          | some v =>
            simp [hs, hv] at ha
            simp [upvalueTypes, hne, M.bind, getVariable, hs, deref, M.pure, hv, assertSome, ih, ha]

/-- The first loop yields one type per declared parameter and changes nothing. -/
theorem argumentTypes_length : ∀ (arguments : List SymId) (c c' : Compiler) (types : List LType),
    argumentTypes arguments c = (.ok types, c') → types.length = arguments.length ∧ c' = c
  | [], c, c', types, h => by
    simp [argumentTypes, M.pure] at h
    simp [h.1, h.2]
  | a :: rest, c, c', types, h => by
    cases hs : c.variableSymbols[a]? with
    | none => simp [argumentTypes, M.bind, getVariable, deref, hs, crash] at h
    | some s =>
      cases hty : s.type with
      | none => simp [argumentTypes, M.bind, getVariable, deref, M.pure, hs, hty, crash] at h
      | some T =>
        cases hr : argumentTypes rest c with
        | mk o c2 =>
          cases o with
          | ok ts =>
            have ih := argumentTypes_length rest c c2 ts hr
            simp [argumentTypes, M.bind, getVariable, deref, M.pure, hs, hty, hr] at h
            obtain ⟨h1, h2⟩ := h
            subst h1
            simp [ih.1, ← h2, ih.2]
          | thrown e => simp [argumentTypes, M.bind, getVariable, deref, M.pure, hs, hty, hr] at h
          | fault f => simp [argumentTypes, M.bind, getVariable, deref, M.pure, hs, hty, hr] at h

/-- The second loop yields one type per non-self entry of `locals` and changes nothing. -/
theorem upvalueTypes_length : ∀ (locals : List (SymId × SymId)) (c c' : Compiler)
    (types : List LType),
    upvalueTypes locals c = (.ok types, c') → types.length = (upvalues locals).length ∧ c' = c
  | [], c, c', types, h => by
    simp [upvalueTypes, M.pure] at h
    simp [h.1, h.2, upvalues]
  | e :: rest, c, c', types, h => by
    by_cases hne : e.1 = e.2
    · simp only [upvalueTypes, hne, ne_eq, not_true_eq_false, if_false] at h
      have ih := upvalueTypes_length rest c c' types h
      simp [upvalues, hne, ih.1, ih.2]
    · cases hs : c.variableSymbols[e.1]? with
      | none => simp [upvalueTypes, hne, M.bind, getVariable, deref, hs, crash] at h
      | some s =>
        cases hv : s.value with
        | none =>
          simp [upvalueTypes, hne, M.bind, getVariable, deref, M.pure, hs, hv, crash, assertSome] at h
        | some v =>
          cases hr : upvalueTypes rest c with
          | mk o c2 =>
            cases o with
            | ok ts =>
              have ih := upvalueTypes_length rest c c2 ts hr
              simp [upvalueTypes, hne, M.bind, getVariable, deref, M.pure, hs, hv, hr, assertSome] at h
              obtain ⟨h1, h2⟩ := h
              subst h1
              simp [upvalues, hne, ← h2, ih.2]
              simpa [upvalues] using ih.1
            | thrown e =>
              simp [upvalueTypes, hne, M.bind, getVariable, deref, M.pure, hs, hv, hr, assertSome] at h
            | fault f =>
              simp [upvalueTypes, hne, M.bind, getVariable, deref, M.pure, hs, hv, hr, assertSome] at h

/-- A created function has one argument per parameter type. -/
theorem generatedParameters_length (f : FnId) : ∀ (types : List LType) (k : Nat),
    (generatedParameters f k types).length = types.length
  | [], _ => rfl
  | _ :: ts, k => by simp [generatedParameters, generatedParameters_length f ts (k + 1)]

/-- Stepping the argument iterator: the argument at `vi` and the rest. -/
theorem generatedParameters_drop (f : FnId) : ∀ (types : List LType) (k i : Nat) (t : LType),
    types[i]? = some t →
    (generatedParameters f k types).drop i =
      .Argument f (k + i) t :: (generatedParameters f k types).drop (i + 1)
  | [], _, _, _, h => by simp at h
  | t0 :: ts, k, 0, t, h => by
    simp at h
    simp [generatedParameters, h]
  | t0 :: ts, k, i + 1, t, h => by
    have h' : ts[i]? = some t := by simpa using h
    have ih := generatedParameters_drop f ts (k + 1) i t h'
    simp only [generatedParameters, List.drop_succ_cons]
    rw [ih]
    congr 2
    omega

/-- Assigning values creates and removes no symbol. -/
theorem bindAll_length : ∀ (l : List (SymId × Val)) (vars : List VariableSymbol),
    (bindAll l vars).length = vars.length
  | [], _ => rfl
  | (symbol, v) :: rest, vars => by
    simp only [bindAll]
    rw [bindAll_length rest]
    cases vars[symbol]? <;> simp

/-- Assignments in sequence. -/
theorem bindAll_append : ∀ (l1 l2 : List (SymId × Val)) (vars : List VariableSymbol),
    bindAll (l1 ++ l2) vars = bindAll l2 (bindAll l1 vars)
  | [], _, _ => rfl
  | (symbol, v) :: rest, l2, vars => by
    simp only [List.cons_append, bindAll]
    exact bindAll_append rest l2 _

/-- The loop binding the normal parameters assigns consecutive arguments of the created function, from `vi` on, and no `assert` fails while there are arguments left. -/
theorem bindArguments_eq (f : FnId) (params : List LType) :
    ∀ (symbols : List SymId) (vi : Nat) (c : Compiler),
    (∀ s ∈ symbols, s < c.variableSymbols.length) →
    vi + symbols.length ≤ params.length →
    bindArguments f params symbols vi c =
      (.ok (vi + symbols.length),
        { c with variableSymbols :=
            bindAll (symbols.zip ((generatedParameters f 0 params).drop vi)) c.variableSymbols })
  | [], vi, c, _, _ => rfl
  | symbol :: rest, vi, c, hvalid, hlen => by
    have hvi : vi < params.length := by
      simp only [List.length_cons] at hlen
      omega
    have ht : params[vi]? = some params[vi] := List.getElem?_eq_getElem hvi
    have hsym : symbol < c.variableSymbols.length := hvalid symbol (List.mem_cons_self _ _)
    have hs : c.variableSymbols[symbol]? = some c.variableSymbols[symbol] :=
      List.getElem?_eq_getElem hsym
    have hdrop := generatedParameters_drop f params 0 vi params[vi] ht
    have hvalid' : ∀ s ∈ rest, s < (withVariable symbol
        { c.variableSymbols[symbol] with value := some (.Argument f vi params[vi]) }
          c).variableSymbols.length := by
      intro s hsmem
      simpa [withVariable] using hvalid s (List.mem_cons_of_mem _ hsmem)
    have hlen' : vi + 1 + rest.length ≤ params.length := by
      simp only [List.length_cons] at hlen
      omega
    have ih := bindArguments_eq f params rest (vi + 1) _ hvalid' hlen'
    have hm := modifyVariable_eq symbol c.variableSymbols[symbol]
      (fun s => { s with value := some (.Argument f vi params[vi]) }) c hs
    simp only [bindArguments, bind_eq, M.bind, ht, assertSome, pure_eq, M.pure, hm, ih, hdrop,
      List.zip_cons_cons, bindAll, hs, Nat.zero_add]
    simp only [withVariable, List.length_cons]
    congr 2
    omega

/-- The loop binding the upvalues assigns consecutive arguments of the created function, from `vi` on, to the proxies of the non-self entries. -/
theorem bindUpvalues_eq (f : FnId) (params : List LType) :
    ∀ (locals : List (SymId × SymId)) (vi : Nat) (c : Compiler),
    (∀ e ∈ upvalues locals, e.2 < c.variableSymbols.length) →
    vi + (upvalues locals).length ≤ params.length →
    bindUpvalues f params locals vi c =
      (.ok (vi + (upvalues locals).length),
        { c with variableSymbols :=
            bindAll (((upvalues locals).map Prod.snd).zip
              ((generatedParameters f 0 params).drop vi)) c.variableSymbols })
  | [], vi, c, _, _ => rfl
  | li :: rest, vi, c, hvalid, hlen => by
    by_cases hne : li.1 = li.2
    · have hup : upvalues (li :: rest) = upvalues rest := by simp [upvalues, hne]
      rw [hup] at hvalid hlen ⊢
      have ih := bindUpvalues_eq f params rest vi c hvalid hlen
      simp only [bindUpvalues, hne, ne_eq, not_true_eq_false, if_false, ih]
    · have hup : upvalues (li :: rest) = li :: upvalues rest := by simp [upvalues, hne]
      rw [hup] at hvalid hlen ⊢
      have hvi : vi < params.length := by
        simp only [List.length_cons] at hlen
        omega
      have ht : params[vi]? = some params[vi] := List.getElem?_eq_getElem hvi
      have hsym : li.2 < c.variableSymbols.length := hvalid li (List.mem_cons_self _ _)
      have hs : c.variableSymbols[li.2]? = some c.variableSymbols[li.2] :=
        List.getElem?_eq_getElem hsym
      have hdrop := generatedParameters_drop f params 0 vi params[vi] ht
      have hvalid' : ∀ e ∈ upvalues rest, e.2 < (withVariable li.2
          { c.variableSymbols[li.2] with value := some (.Argument f vi params[vi]) }
            c).variableSymbols.length := by
        intro e hemem
        simpa [withVariable] using hvalid e (List.mem_cons_of_mem _ hemem)
      have hlen' : vi + 1 + (upvalues rest).length ≤ params.length := by
        simp only [List.length_cons] at hlen
        omega
      have ih := bindUpvalues_eq f params rest (vi + 1) _ hvalid' hlen'
      have hm := modifyVariable_eq li.2 c.variableSymbols[li.2]
        (fun s => { s with value := some (.Argument f vi params[vi]) }) c hs
      simp only [bindUpvalues, hne, ne_eq, not_false_eq_true, if_true, bind_eq, M.bind, ht,
        assertSome, pure_eq, M.pure, hm, ih, hdrop, List.map_cons,
        List.zip_cons_cons, bindAll, hs, Nat.zero_add]
      simp only [withVariable, List.length_cons]
      congr 2
      omega

/-- Pairing two lists laid end to end with one list. -/
theorem zip_append_drop {α β : Type} : ∀ (a b : List α) (g : List β), a.length ≤ g.length →
    (a ++ b).zip g = a.zip g ++ b.zip (g.drop a.length)
  | [], _, _, _ => rfl
  | x :: a, b, [], h => by simp at h
  | x :: a, b, y :: g, h => by
    have h' : a.length ≤ g.length := by simpa using h
    simp [zip_append_drop a b g h']

/-- Following a valid `FunctionSymbol*`. -/
theorem getFunctionSymbol_eq (function : SymId) (fs : FunctionSymbol) (c : Compiler)
    (hf : c.functionSymbols[function]? = some fs) : getFunctionSymbol function c = (.ok fs, c) := by
  simp [getFunctionSymbol, hf, deref, M.pure]

/-- A symbol with a declared type is a valid pointer. -/
theorem declaredType_valid (c : Compiler) (symbol : SymId) (t : LType)
    (h : c.declaredType symbol = some t) : symbol < c.variableSymbols.length := by
  unfold Compiler.declaredType at h
  cases hs : c.variableSymbols[symbol]? with
  | none => simp [hs] at h
  | some s => exact (List.getElem?_eq_some_iff.mp hs).1

/-- C2: for a function symbol whose parameters have declared types and whose
captured home variables have values (and whose proxies are valid pointers), the
parameter type list `ASTFunctionBody::codegen` builds is the declared parameter
types in declaration order followed by the value types of the non-self entries
of `locals` in iteration order; the function is created with exactly these
parameters; the binding loops assign the k-th argument of the created function
to the k-th symbol of the declared parameters followed by the proxies (the
mapped values) of the non-self entries; there are as many of these symbols as
generated arguments, and no `assert` fails. -/
theorem ASTFunctionBody_create_parameters (function : SymId) (fs : FunctionSymbol)
    (c : Compiler) (normal imported : List LType)
    (hf : c.functionSymbols[function]? = some fs)
    (hnormal : fs.arguments.map c.declaredType = normal.map some)
    (himported : (upvalues fs.locals).map (fun e => c.valueType e.1) = imported.map some)
    (hproxies : ∀ e ∈ upvalues fs.locals, e.2 < c.variableSymbols.length) :
    argumentTypes fs.arguments c = (.ok normal, c) ∧
    upvalueTypes fs.locals c = (.ok imported, c) ∧
    ASTFunctionBody.create function c =
      (.ok (c.module.length, fs.returntype.llvm),
        { c with
          module := c.module ++ [⟨fs.name, fs.returntype.llvm, normal ++ imported⟩]
          functionSymbols :=
            c.functionSymbols.set function { fs with function := some c.module.length }
          variableSymbols :=
            bindAll ((fs.arguments ++ (upvalues fs.locals).map Prod.snd).zip
              (generatedParameters c.module.length 0 (normal ++ imported)))
              c.variableSymbols }) ∧
    (fs.arguments ++ (upvalues fs.locals).map Prod.snd).length = (normal ++ imported).length := by
  have h1 := argumentTypes_eq c fs.arguments normal hnormal
  have h2 := upvalueTypes_eq c fs.locals imported himported
  have hl1 : normal.length = fs.arguments.length := by
    have := congrArg List.length hnormal
    simpa using this.symm
  have hl2 : imported.length = (upvalues fs.locals).length := by
    have := congrArg List.length himported
    simpa using this.symm
  refine ⟨h1, h2, ?_, by simp [hl1, hl2]⟩
  have hlt : function < c.functionSymbols.length := (List.getElem?_eq_some_iff.mp hf).1
  have hvalid : ∀ s ∈ fs.arguments, s < c.variableSymbols.length := by
    intro s hs
    have hmem : c.declaredType s ∈ fs.arguments.map c.declaredType := List.mem_map_of_mem _ hs
    rw [hnormal] at hmem
    obtain ⟨t, _, ht⟩ := List.mem_map.mp hmem
    exact declaredType_valid c s t ht.symm
  -- the state in which the parameters are bound
  have hb1 := bindArguments_eq c.module.length (normal ++ imported) fs.arguments 0
    { c with
      module := c.module ++ [⟨fs.name, fs.returntype.llvm, normal ++ imported⟩]
      functionSymbols :=
        c.functionSymbols.set function { fs with function := some c.module.length } }
    hvalid (by simp [hl1])
  have hb2 := bindUpvalues_eq c.module.length (normal ++ imported) fs.locals
    (0 + fs.arguments.length)
    { c with
      module := c.module ++ [⟨fs.name, fs.returntype.llvm, normal ++ imported⟩]
      functionSymbols :=
        c.functionSymbols.set function { fs with function := some c.module.length }
      variableSymbols := bindAll (fs.arguments.zip
        ((generatedParameters c.module.length 0 (normal ++ imported)).drop 0)) c.variableSymbols }
    (by
      intro e he
      simpa [bindAll_length] using hproxies e he)
    (by simp [hl1, hl2])
  have hzip := zip_append_drop fs.arguments ((upvalues fs.locals).map Prod.snd)
    (generatedParameters c.module.length 0 (normal ++ imported))
    (by simp [generatedParameters_length, hl1])
  simp only [Nat.zero_add, List.drop_zero] at hb1 hb2
  simp only [ASTFunctionBody.create, bind_eq, M.bind, getFunctionSymbol_eq function fs c hf,
    h1, h2, createFunction, modifyFunctionSymbol, modifyCompiler, pure_eq, M.pure]
  simp only [getFunctionSymbol, deref, hf, pure_eq, M.pure, hb1]
  simp only [List.getElem?_set, hlt, if_true, hb2, List.length_append, hl1, hl2,
    ne_eq, not_true_eq_false, if_false, M.bind, M.pure, hzip, bindAll_append]

/-- C2 at `f(a : real) : real` capturing one outer variable. -/
theorem ASTFunctionBody_create_parameters_witness :
    ASTFunctionBody.create 1 beforeCreate =
      (.ok (1, .double),
        { beforeCreate with
          module := beforeCreate.module ++ [⟨"f", .double, [.double, .double]⟩]
          functionSymbols := beforeCreate.functionSymbols.set 1
            { FunctionSymbol.new "f" [1] .RealType none with
              locals := [(1, 1), (0, 2)], parent := some 0, function := some 1 }
          variableSymbols := [
            { name := "x", type := some .RealType, function := some 0,
              value := some (.ConstantFP 1) },
            { name := "a", type := some .RealType, function := some 1,
              value := some (.Argument 1 0 .double) },
            { name := "x", type := some .RealType, function := none,
              value := some (.Argument 1 1 .double) }] }) :=
  (ASTFunctionBody_create_parameters 1
    { FunctionSymbol.new "f" [1] .RealType none with
      locals := [(1, 1), (0, 2)], parent := some 0 }
    beforeCreate [.double] [.double] rfl rfl rfl
    (fun e he => by
      simp [upvalues] at he
      subst he
      decide)).2.2.1

/-! ## C1 and C4: the parameters of a call -/

/-- The second loop of `ASTFunctionCall::codegen`, when every captured home variable of the callee is a key of the caller's `locals`: one value per non-self entry, in the order of the callee's `locals`, each the current value of the caller's local symbol for that home variable. -/
theorem pushUpvalues_eq (caller : SymId) (G : FunctionSymbol) (c : Compiler)
    (hG : c.functionSymbols[caller]? = some G) :
    ∀ (locals : List (SymId × SymId)) (parameters : List (Option Val)),
    (∀ e ∈ upvalues locals, ∃ s, LocalsMap.find e.1 G.locals = some s ∧
      s < c.variableSymbols.length) →
    pushUpvalues caller locals parameters c =
      (.ok (parameters ++ (upvalues locals).map (fun e => upvalueArgument c G e.1)), c)
  | [], parameters, _ => by simp [pushUpvalues, upvalues, M.pure]
  | i :: rest, parameters, hmat => by
    by_cases hne : i.1 = i.2
    · have hup : upvalues (i :: rest) = upvalues rest := by simp [upvalues, hne]
      rw [hup] at hmat ⊢
      simp only [pushUpvalues, hne, ne_eq, not_true_eq_false, if_false]
      exact pushUpvalues_eq caller G c hG rest parameters hmat
    · have hup : upvalues (i :: rest) = i :: upvalues rest := by simp [upvalues, hne]
      rw [hup] at hmat ⊢
      obtain ⟨s, hfind, hs⟩ := hmat i (List.mem_cons_self _ _)
      have hget : c.variableSymbols[s]? = some c.variableSymbols[s] :=
        List.getElem?_eq_getElem hs
      have ih := pushUpvalues_eq caller G c hG rest
        (parameters ++ [(c.variableSymbols[s]).value])
        (fun e he => hmat e (List.mem_cons_of_mem _ he))
      simp only [pushUpvalues, hne, ne_eq, not_false_eq_true, if_true, bind_eq, M.bind,
        getFunctionSymbol, hG, deref, pure_eq, M.pure, hfind, assertSome, getVariable, hget, ih]
      simp [upvalueArgument, hfind, Compiler.valueOf, hget]

/-- The first loop of `ASTFunctionCall::codegen` goes from left to right: the
first value pushed is that of the first argument, and the remaining arguments
are generated in the state the first one left. -/
theorem codegenArguments_cons (argument : ASTNode) (rest : List ASTNode)
    (parents : List Ancestor) (c c' : Compiler) (vs : List (Option Val)) :
    codegenArguments (argument :: rest) parents c = (.ok vs, c') ↔
      ∃ v c1 vs', codegen argument parents c = (.ok v, c1) ∧
        codegenArguments rest parents c1 = (.ok vs', c') ∧ vs = v :: vs' := by
  constructor
  · intro h
    cases ha : codegen argument parents c with
    | mk o c2 =>
      cases o with
      | ok v =>
        cases hr : codegenArguments rest parents c2 with
        | mk o2 c3 =>
          cases o2 with
          | ok vs' =>
            simp [codegenArguments, M.bind, ha, hr, M.pure] at h
            exact ⟨v, c2, vs', rfl, by rw [hr, h.2], h.1.symm⟩
          | thrown e => simp [codegenArguments, M.bind, ha, hr] at h
          | fault f => simp [codegenArguments, M.bind, ha, hr] at h
      | thrown e => simp [codegenArguments, M.bind, ha] at h
      | fault f => simp [codegenArguments, M.bind, ha] at h
  · rintro ⟨v, c1, vs', ha, hr, hvs⟩
    simp [codegenArguments, M.bind, ha, hr, M.pure, hvs]

/-- The first loop of `ASTFunctionCall::codegen` pushes one value per argument. -/
theorem codegenArguments_length : ∀ (arguments : List ASTNode) (parents : List Ancestor)
    (c c1 : Compiler) (vs : List (Option Val)),
    codegenArguments arguments parents c = (.ok vs, c1) → vs.length = arguments.length
  | [], _, c, c1, vs, h => by
    simp [codegenArguments, M.pure] at h
    simp [← h.1]
  | a :: rest, parents, c, c1, vs, h => by
    cases ha : codegen a parents c with
    | mk o c2 =>
      cases o with
      | ok v =>
        cases hr : codegenArguments rest parents c2 with
        | mk o2 c3 =>
          cases o2 with
          | ok vs' =>
            have ih := codegenArguments_length rest parents c2 c3 vs' hr
            simp [codegenArguments, M.bind, ha, hr, M.pure] at h
            simp [← h.1, ih]
          | thrown e => simp [codegenArguments, M.bind, ha, hr] at h
          | fault f => simp [codegenArguments, M.bind, ha, hr] at h
      | thrown e => simp [codegenArguments, M.bind, ha] at h
      | fault f => simp [codegenArguments, M.bind, ha] at h

/-- Assigning to a variable symbol touches neither the module nor the function symbols. -/
theorem modifyVariable_frame (symbol : SymId) (g : VariableSymbol → VariableSymbol)
    (c c' : Compiler) (o : Outcome Unit) (h : modifyVariable symbol g c = (o, c')) :
    c'.module = c.module ∧ c'.functionSymbols = c.functionSymbols := by
  cases hs : c.variableSymbols[symbol]? with
  | none =>
    simp [modifyVariable, M.bind, getVariable, deref, hs, crash] at h
    simp [← h.2]
  | some s =>
    simp [modifyVariable, M.bind, getVariable, deref, hs, M.pure, modifyCompiler] at h
    simp [← h.2]

/-- Binding the normal parameters touches neither the module nor the function symbols. -/
theorem bindArguments_frame (f : FnId) (params : List LType) :
    ∀ (symbols : List SymId) (vi : Nat) (c c' : Compiler) (o : Outcome Nat),
    bindArguments f params symbols vi c = (o, c') →
    c'.module = c.module ∧ c'.functionSymbols = c.functionSymbols
  | [], vi, c, c', o, h => by
    simp [bindArguments, M.pure] at h
    simp [← h.2]
  | symbol :: rest, vi, c, c', o, h => by
    cases ht : params[vi]? with
    | none =>
      simp [bindArguments, M.bind, ht, assertSome, crash] at h
      simp [← h.2]
    | some t =>
      cases hm : modifyVariable symbol
          (fun s => { s with value := some (.Argument f vi t) }) c with
      | mk o2 c2 =>
        have hfr := modifyVariable_frame symbol _ c c2 o2 hm
        cases o2 with
        | ok u =>
          simp only [bindArguments, bind_eq, M.bind, ht, assertSome, pure_eq, M.pure, hm] at h
          have ih := bindArguments_frame f params rest (vi + 1) c2 c' o h
          exact ⟨ih.1.trans hfr.1, ih.2.trans hfr.2⟩
        | thrown e =>
          simp [bindArguments, M.bind, ht, assertSome, M.pure, hm] at h
          rw [← h.2]
          exact hfr
        | fault e =>
          simp [bindArguments, M.bind, ht, assertSome, M.pure, hm] at h
          rw [← h.2]
          exact hfr

/-- Binding the upvalues touches neither the module nor the function symbols. -/
theorem bindUpvalues_frame (f : FnId) (params : List LType) :
    ∀ (locals : List (SymId × SymId)) (vi : Nat) (c c' : Compiler) (o : Outcome Nat),
    bindUpvalues f params locals vi c = (o, c') →
    c'.module = c.module ∧ c'.functionSymbols = c.functionSymbols
  | [], vi, c, c', o, h => by
    simp [bindUpvalues, M.pure] at h
    simp [← h.2]
  | li :: rest, vi, c, c', o, h => by
    by_cases hne : li.1 = li.2
    · simp only [bindUpvalues, hne, ne_eq, not_true_eq_false, if_false] at h
      exact bindUpvalues_frame f params rest vi c c' o h
    · cases ht : params[vi]? with
      | none =>
        simp [bindUpvalues, hne, M.bind, ht, assertSome, crash] at h
        simp [← h.2]
      | some t =>
        cases hm : modifyVariable li.2
            (fun s => { s with value := some (.Argument f vi t) }) c with
        | mk o2 c2 =>
          have hfr := modifyVariable_frame li.2 _ c c2 o2 hm
          cases o2 with
          | ok u =>
            simp only [bindUpvalues, hne, ne_eq, not_false_eq_true, if_true, bind_eq, M.bind, ht,
              assertSome, pure_eq, M.pure, hm] at h
            have ih := bindUpvalues_frame f params rest (vi + 1) c2 c' o h
            exact ⟨ih.1.trans hfr.1, ih.2.trans hfr.2⟩
          | thrown e =>
            simp [bindUpvalues, hne, M.bind, ht, assertSome, M.pure, hm] at h
            rw [← h.2]
            exact hfr
          | fault e =>
            simp [bindUpvalues, hne, M.bind, ht, assertSome, M.pure, hm] at h
            rw [← h.2]
            exact hfr

/-- Whenever `ASTFunctionBody::codegen` gets as far as binding the parameters, the
function it created has one parameter per declared parameter and one per
non-self entry of `locals`. -/
theorem ASTFunctionBody_create_module (function : SymId) (F0 : FunctionSymbol)
    (c0 c0' : Compiler) (f : FnId) (returntype : LType)
    (hF0 : c0.functionSymbols[function]? = some F0)
    (h : ASTFunctionBody.create function c0 = (.ok (f, returntype), c0')) :
    ∃ params, c0'.module[f]? = some ⟨F0.name, returntype, params⟩ ∧
      params.length = F0.arguments.length + (upvalues F0.locals).length := by
  have hlt : function < c0.functionSymbols.length := (List.getElem?_eq_some_iff.mp hF0).1
  cases h1 : argumentTypes F0.arguments c0 with
  | mk o1 c1 =>
    cases o1 with
    | ok normal =>
      obtain ⟨hl1, hc1⟩ := argumentTypes_length F0.arguments c0 c1 normal h1
      subst hc1
      cases h2 : upvalueTypes F0.locals c1 with
      | mk o2 c2 =>
        cases o2 with
        | ok imported =>
          obtain ⟨hl2, hc2⟩ := upvalueTypes_length F0.locals c1 c2 imported h2
          subst hc2
          simp only [ASTFunctionBody.create, bind_eq, M.bind, getFunctionSymbol_eq function F0 c2 hF0,
            h1, h2, createFunction, modifyFunctionSymbol, modifyCompiler, pure_eq, M.pure,
            getFunctionSymbol, deref, hF0] at h
          cases h3 : bindArguments c2.module.length (normal ++ imported) F0.arguments 0
              { c2 with
                module := c2.module ++ [⟨F0.name, F0.returntype.llvm, normal ++ imported⟩]
                functionSymbols :=
                  c2.functionSymbols.set function { F0 with function := some c2.module.length } } with
          | mk o3 c3 =>
            obtain ⟨hm3, hf3⟩ := bindArguments_frame _ _ _ _ _ _ _ h3
            rw [h3] at h
            cases o3 with
            | ok vi =>
              have hF3 : c3.functionSymbols[function]? =
                  some { F0 with function := some c2.module.length } := by
                rw [hf3]
                simp [List.getElem?_set, hlt]
              simp only [getFunctionSymbol, deref, hF3, pure_eq, M.pure] at h
              cases h4 : bindUpvalues c2.module.length (normal ++ imported) F0.locals vi c3 with
              | mk o4 c4 =>
                obtain ⟨hm4, hf4⟩ := bindUpvalues_frame _ _ _ _ _ _ _ h4
                rw [h4] at h
                cases o4 with
                | ok vi' =>
                  by_cases hvi : vi' = (normal ++ imported).length
                  · simp only [ne_eq, hvi, not_true_eq_false, if_false, M.bind, M.pure] at h
                    simp at h
                    obtain ⟨⟨hf, hrt⟩, hc⟩ := h
                    refine ⟨normal ++ imported, ?_, by simp [hl1, hl2]⟩
                    rw [← hc, hm4, hm3, ← hf, ← hrt]
                    simp
                  · simp only [ne_eq, hvi, not_false_eq_true, if_true, M.bind, crash] at h
                    simp at h
                | thrown e => simp at h
                | fault e => simp at h
            | thrown e => simp at h
            | fault e => simp at h
        | thrown e =>
          simp [ASTFunctionBody.create, M.bind, getFunctionSymbol_eq function F0 c1 hF0, h1, h2] at h
        | fault e =>
          simp [ASTFunctionBody.create, M.bind, getFunctionSymbol_eq function F0 c1 hF0, h1, h2] at h
    | thrown e =>
      simp [ASTFunctionBody.create, M.bind, getFunctionSymbol_eq function F0 c0 hF0, h1] at h
    | fault e =>
      simp [ASTFunctionBody.create, M.bind, getFunctionSymbol_eq function F0 c0 hF0, h1] at h

/-- The first loop of `ASTFunctionCall::codegen` returns exactly when every
argument, generated from left to right, returns, and what it pushes are the
values of the arguments in source order. -/
theorem codegenArguments_in_source_order : ∀ (arguments : List ASTNode)
    (parents : List Ancestor) (c c1 : Compiler) (vs : List (Option Val)),
    codegenArguments arguments parents c = (.ok vs, c1) ↔
      valuesInSourceOrder arguments parents c = some (vs, c1)
  | [], _, c, c1, vs => by
    simp only [codegenArguments, pure_eq, M.pure, valuesInSourceOrder, Prod.mk.injEq,
      Outcome.ok.injEq, Option.some.injEq]
  | argument :: rest, parents, c, c1, vs => by
    rw [codegenArguments_cons]
    constructor
    · rintro ⟨v, c2, vs', ha, hr, hvs⟩
      have ih := (codegenArguments_in_source_order rest parents c2 c1 vs').mp hr
      simp [valuesInSourceOrder, ha, ih, hvs]
    · intro h
      cases ha : codegen argument parents c with
      | mk o c2 =>
        cases o with
        | ok v =>
          cases hr : valuesInSourceOrder rest parents c2 with
          | none => simp [valuesInSourceOrder, ha, hr] at h
          | some r =>
            simp only [valuesInSourceOrder, ha, hr, Option.map_some', Option.some.injEq,
              Prod.mk.injEq] at h
            refine ⟨v, c2, r.1, rfl, ?_, h.1.symm⟩
            rw [← h.2]
            exact (codegenArguments_in_source_order rest parents c2 r.2 r.1).mpr hr
        | thrown e => simp [valuesInSourceOrder, ha] at h
        | fault f => simp [valuesInSourceOrder, ha] at h

/-- C1: for a resolved call of a `FunctionSymbol` with as many arguments as the
callee declares, whose arguments, each generated by its own `codegen` from left
to right, return the values `vs`, when every captured home variable of the
callee is a key of the caller's `locals`: the call instruction
`ASTFunctionCall::codegen` emits carries `vs`, the values of the explicit
arguments in source order, followed by one value per non-self entry of the
callee's `locals`, in the order of that list; their number is the declared
arity plus the number of non-self entries; and that is the parameter count of
the function `ASTFunctionBody::codegen` creates for the callee from the same
`locals` (code generation never assigns to `locals`, see `keeps_codegen` below,
so they are the same). -/
theorem ASTFunctionCall_codegen_parameters (position : Position) (id : String)
    (arguments : List ASTNode) (callee caller : SymId) (parents : List Ancestor)
    (c c1 : Compiler) (vs : List (Option Val)) (Fc F G : FunctionSymbol) (fn : FnId)
    (llvmf : LLVMFunction)
    (hFc : c.functionSymbols[callee]? = some Fc)
    (hcount : arguments.length = Fc.arguments.length)
    (hvalues : valuesInSourceOrder arguments (.Node :: parents) c = some (vs, c1))
    (hcaller : getFunction parents = some caller)
    (hF : c1.functionSymbols[callee]? = some F)
    (hG : c1.functionSymbols[caller]? = some G)
    (hmat : ∀ e ∈ upvalues F.locals, ∃ s, LocalsMap.find e.1 G.locals = some s ∧
      s < c1.variableSymbols.length)
    (hfn : F.function = some fn)
    (hllvm : c1.module[fn]? = some llvmf) :
    codegen (.ASTFunctionCall position id arguments (some (.Function callee))) parents c =
      (.ok (some (.Instruction c1.builder.code.length llvmf.returntype)),
        emitted (.Call (.Function fn)
          (vs ++ (upvalues F.locals).map (fun e => upvalueArgument c1 G e.1)))
          { c1 with position := position }) ∧
    (vs ++ (upvalues F.locals).map (fun e => upvalueArgument c1 G e.1)).length =
      Fc.arguments.length + (upvalues F.locals).length ∧
    (∀ (c0 c0' : Compiler) (F0 : FunctionSymbol) (f : FnId) (returntype : LType),
      c0.functionSymbols[callee]? = some F0 → F0.arguments.length = Fc.arguments.length →
      F0.locals = F.locals →
      ASTFunctionBody.create callee c0 = (.ok (f, returntype), c0') →
      ∃ generated, c0'.module[f]? = some generated ∧
        generated.params.length =
          (vs ++ (upvalues F.locals).map (fun e => upvalueArgument c1 G e.1)).length) := by
  have hargs := (codegenArguments_in_source_order arguments _ c c1 vs).mpr hvalues
  have hlen := codegenArguments_length arguments _ c c1 vs hargs
  have hpush := pushUpvalues_eq caller G c1 hG F.locals vs hmat
  refine ⟨?_, by simp [hlen, hcount], ?_⟩
  · simp only [codegen, bind_eq, M.bind, deref, pure_eq, M.pure, checkParameterCount, getCompiler,
      getFunctionSymbol, hFc, hcount, ne_eq, not_true_eq_false, if_false, hargs,
      ASTFunctionCall.finish, CallableSymbol.isFunction, hcaller, hF, hpush, modifyCompiler,
      emitCall, hfn, hllvm, emit, emitted]
  · intro c0 c0' F0 f returntype hF0 harity hlocals hcreate
    obtain ⟨params, hmod, hparams⟩ :=
      ASTFunctionBody_create_module callee F0 c0 c0' f returntype hF0 hcreate
    exact ⟨_, hmod, by simp [hparams, harity, hlocals, hlen, hcount]⟩

/-- C1 at the call `f(2.0, true)` of `f(a : real, b : boolean)`, which captured
one variable of the caller: the call carries `2.0`, `true` and then the value
`1.0` of the captured variable, as many values as the function has parameters. -/
theorem ASTFunctionCall_codegen_parameters_witness :
    valuesInSourceOrder [.ASTConstant ⟨4, 11⟩ 2, .ASTBoolean ⟨4, 16⟩ "true"]
        [.Node, .FunctionBody none 0] capturedCallOfTwo =
      some ([some (.ConstantFP 2), some (.ConstantInt true)], capturedCallOfTwo) ∧
    codegen (.ASTFunctionCall ⟨4, 9⟩ "f"
        [.ASTConstant ⟨4, 11⟩ 2, .ASTBoolean ⟨4, 16⟩ "true"] (some (.Function 1)))
        [.FunctionBody none 0] capturedCallOfTwo =
      (.ok (some (.Instruction 0 .double)),
        emitted (.Call (.Function 1)
          [some (.ConstantFP 2), some (.ConstantInt true), some (.ConstantFP 1)])
          { capturedCallOfTwo with position := ⟨4, 9⟩ }) ∧
    (capturedCallOfTwo.module[1]?).map (fun f => f.params.length) = some 3 :=
  ⟨rfl, (ASTFunctionCall_codegen_parameters ⟨4, 9⟩ "f"
    [.ASTConstant ⟨4, 11⟩ 2, .ASTBoolean ⟨4, 16⟩ "true"] 1 0 [.FunctionBody none 0]
    capturedCallOfTwo capturedCallOfTwo [some (.ConstantFP 2), some (.ConstantInt true)]
    { FunctionSymbol.new "f" [1, 2] .RealType none with
      locals := [(1, 1), (2, 2), (0, 3)], parent := some 0, function := some 1 }
    { FunctionSymbol.new "f" [1, 2] .RealType none with
      locals := [(1, 1), (2, 2), (0, 3)], parent := some 0, function := some 1 }
    { FunctionSymbol.new "toplevel" [] .RealType (some []) with locals := [(0, 0)] }
    1 { name := "f", returntype := .double, params := [.double, .i1, .double] }
    rfl rfl rfl rfl rfl rfl
    (fun e he => by
      simp [upvalues] at he
      subst he
      exact ⟨0, rfl, by decide⟩)
    rfl rfl).1, rfl⟩

/-- C4: what `ASTFunctionCall::codegen` does after the explicit arguments depends
on the chain of parents only through the enclosing function, so on no symbol
table; the value passed for a captured home variable is the current value of
the caller's `locals` entry keyed by that symbol; two calls from one caller,
in states that agree on the caller's `locals` and on the values of those local
symbols, pass the same upvalue values.  In `shadowedCapture`, where `x` is
defined again between the definition of `f` and its two calls, both calls pass
the value `1.0` of the first `x`. -/
theorem ASTFunctionCall_upvalue_by_symbol_identity :
    (∀ (position : Position) (function : CallableSymbol) (parents parents' : List Ancestor)
      (parameters : List (Option Val)) (c : Compiler),
      getFunction parents = getFunction parents' →
      ASTFunctionCall.finish position function parents parameters c =
        ASTFunctionCall.finish position function parents' parameters c) ∧
    (∀ (caller : SymId) (G : FunctionSymbol) (c : Compiler) (locals : List (SymId × SymId))
      (parameters : List (Option Val)),
      c.functionSymbols[caller]? = some G →
      (∀ e ∈ upvalues locals, ∃ s, LocalsMap.find e.1 G.locals = some s ∧
        s < c.variableSymbols.length) →
      pushUpvalues caller locals parameters c =
        (.ok (parameters ++ (upvalues locals).map (fun e => upvalueArgument c G e.1)), c)) ∧
    (∀ (caller : SymId) (G G' : FunctionSymbol) (c c' : Compiler)
      (locals : List (SymId × SymId)) (parameters : List (Option Val)),
      c.functionSymbols[caller]? = some G → c'.functionSymbols[caller]? = some G' →
      G'.locals = G.locals →
      (∀ e ∈ upvalues locals, ∃ s, LocalsMap.find e.1 G.locals = some s ∧
        s < c.variableSymbols.length ∧ s < c'.variableSymbols.length ∧
        c'.valueOf s = c.valueOf s) →
      (pushUpvalues caller locals parameters c').1 =
        (pushUpvalues caller locals parameters c).1) ∧
    (resolveAndGenerate shadowedCapture twoFunctions).1 = .ok none ∧
    (resolveAndGenerate shadowedCapture twoFunctions).2.builder.code =
      [(some 1, .Ret (some (.Argument 1 0 .double))),
        (some 0, .Call (.Function 1) [some (.ConstantFP 1)]),
        (some 0, .Call (.Function 1) [some (.ConstantFP 1)]),
        (some 0, .Ret none)] := by
  refine ⟨?_, ?_, ?_, by decide!, by decide!⟩
  · intro position function parents parents' parameters c h
    simp only [ASTFunctionCall.finish, h]
  · intro caller G c locals parameters hG hmat
    exact pushUpvalues_eq caller G c hG locals parameters hmat
  · intro caller G G' c c' locals parameters hG hG' hlocals hmat
    rw [pushUpvalues_eq caller G c hG locals parameters
        (fun e he => (hmat e he).imp (fun s hs => ⟨hs.1, hs.2.1⟩)),
      pushUpvalues_eq caller G' c' hG' locals parameters
        (fun e he => (hmat e he).imp (fun s hs => ⟨hlocals ▸ hs.1, hs.2.2.1⟩))]
    simp only [Outcome.ok.injEq, List.append_cancel_left_eq]
    apply List.map_congr_left
    intro e he
    obtain ⟨s, hfind, _, _, hval⟩ := hmat e he
    simp [upvalueArgument, hlocals, hfind, hval]

/-- C4 at the call of `f()` in `capturedCall`. -/
theorem ASTFunctionCall_upvalue_by_symbol_identity_witness :
    pushUpvalues 0 [(0, 1)] [] capturedCall = (.ok [some (.ConstantFP 1)], capturedCall) :=
  ASTFunctionCall_upvalue_by_symbol_identity.2.1 0
    { FunctionSymbol.new "toplevel" [] .RealType (some []) with locals := [(0, 0)] }
    capturedCall [(0, 1)] [] rfl
    (fun e he => by
      simp [upvalues] at he
      subst he
      exact ⟨0, rfl, by decide⟩)

/-! ## Code generation does not touch `locals`

The callee's `locals` a call site iterates are therefore the `locals` from which
the callee's function was created. -/

/-- Returning a value leaves the parameters and `locals` of every function symbol alone. -/
theorem keeps_pure {α : Type} (a : α) : KeepsCaptures (pure a : M α) := by
  intro c o c' h
  simp [M.pure] at h
  rw [← h.2]

/-- A `throw` leaves the parameters and `locals` of every function symbol alone. -/
theorem keeps_throwEx {α : Type} (e : Exception) : KeepsCaptures (throwEx e : M α) := by
  intro c o c' h
  simp [throwEx] at h
  rw [← h.2]

/-- A crash leaves the parameters and `locals` of every function symbol alone. -/
theorem keeps_crash {α : Type} (f : Fault) : KeepsCaptures (crash f : M α) := by
  intro c o c' h
  simp [crash] at h
  rw [← h.2]

/-- Two steps in sequence leaves the parameters and `locals` of every function symbol alone. -/
theorem keeps_bind {α β : Type} (x : M α) (f : α → M β) (hx : KeepsCaptures x)
    (hf : ∀ a, KeepsCaptures (f a)) : KeepsCaptures (x >>= f) := by
  intro c o c' h
  simp only [bind_eq, M.bind] at h
  cases hxc : x c with
  | mk o1 c1 =>
    have h1 := hx c o1 c1 hxc
    rw [hxc] at h
    cases o1 with
    | ok a => exact (hf a c1 o c' h).trans h1
    | thrown e =>
      simp at h
      rw [← h.2]
      exact h1
    | fault e =>
      simp at h
      rw [← h.2]
      exact h1

/-- Dereferencing a pointer leaves the parameters and `locals` of every function symbol alone. -/
theorem keeps_deref {α : Type} (o : Option α) : KeepsCaptures (deref o) := by
  cases o with
  | none => exact keeps_crash _
  | some a => exact keeps_pure a

/-- An `assert` on a pointer leaves the parameters and `locals` of every function symbol alone. -/
theorem keeps_assertSome {α : Type} (o : Option α) : KeepsCaptures (assertSome o) := by
  cases o with
  | none => exact keeps_crash _
  | some a => exact keeps_pure a

/-- Any step that does not assign to a function symbol leaves the parameters and `locals` of every function symbol alone. -/
theorem keeps_of_state {α : Type} (x : M α)
    (h : ∀ c, (x c).2.functionSymbols = c.functionSymbols) : KeepsCaptures x := by
  intro c o c' hx
  have := h c
  rw [hx] at this
  simp only at this
  rw [Compiler.captures, this, Compiler.captures]

/-- Reading the compiler leaves the parameters and `locals` of every function symbol alone. -/
theorem keeps_getCompiler : KeepsCaptures getCompiler :=
  keeps_of_state _ (fun _ => rfl)

/-- Following a `VariableSymbol*` leaves the parameters and `locals` of every function symbol alone. -/
theorem keeps_getVariable (id : SymId) : KeepsCaptures (getVariable id) := by
  intro c o c' h
  exact keeps_deref _ c o c' h

/-- Following a `FunctionSymbol*` leaves the parameters and `locals` of every function symbol alone. -/
theorem keeps_getFunctionSymbol (id : SymId) : KeepsCaptures (getFunctionSymbol id) := by
  intro c o c' h
  exact keeps_deref _ c o c' h

/-- Following a pointer to an intrinsic leaves the parameters and `locals` of every function symbol alone. -/
theorem keeps_getIntrinsic (id : Nat) : KeepsCaptures (getIntrinsic id) := by
  intro c o c' h
  exact keeps_deref _ c o c' h

/-- Emitting an instruction leaves the parameters and `locals` of every function symbol alone. -/
theorem keeps_emit (i : Instr) : KeepsCaptures (emit i) :=
  keeps_of_state _ (fun _ => rfl)

/-- Creating a block leaves the parameters and `locals` of every function symbol alone. -/
theorem keeps_createBlock (p : FnId) : KeepsCaptures (createBlock p) :=
  keeps_of_state _ (fun _ => rfl)

/-- Reading the insertion block leaves the parameters and `locals` of every function symbol alone. -/
theorem keeps_getInsertBlock : KeepsCaptures getInsertBlock :=
  keeps_of_state _ (fun _ => rfl)

/-- Moving the insertion point leaves the parameters and `locals` of every function symbol alone. -/
theorem keeps_setInsertPoint (b : Option BlockId) : KeepsCaptures (setInsertPoint b) :=
  keeps_of_state _ (fun _ => rfl)

/-- Creating a function in the module leaves the parameters and `locals` of every function symbol alone. -/
theorem keeps_createFunction (n : String) (r : LType) (p : List LType) :
    KeepsCaptures (createFunction n r p) :=
  keeps_of_state _ (fun _ => rfl)

/-- Assigning to a variable symbol leaves the parameters and `locals` of every function symbol alone. -/
theorem keeps_modifyVariable (id : SymId) (g : VariableSymbol → VariableSymbol) :
    KeepsCaptures (modifyVariable id g) := by
  unfold modifyVariable
  exact keeps_bind _ _ (keeps_getVariable id)
    (fun v => keeps_of_state _ (fun _ => rfl))


/-- A branch leaves the parameters and `locals` of every function symbol alone. -/
theorem keeps_ite {α : Type} (p : Prop) [Decidable p] (x y : M α)
    (hx : KeepsCaptures x) (hy : KeepsCaptures y) : KeepsCaptures (if p then x else y) := by
  by_cases h : p
  · simpa [h] using hx
  · simpa [h] using hy

/-- The assignment `function->function = f` leaves the parameters and `locals` of every function symbol alone. -/
theorem keeps_setFunction (id : SymId) (f : FnId) :
    KeepsCaptures (modifyFunctionSymbol id (fun s => { s with function := some f })) := by
  intro c o c' h
  cases hs : c.functionSymbols[id]? with
  | none =>
    simp [modifyFunctionSymbol, M.bind, getFunctionSymbol, deref, hs, crash] at h
    rw [← h.2]
  | some s =>
    simp [modifyFunctionSymbol, M.bind, getFunctionSymbol, deref, hs, M.pure,
      modifyCompiler] at h
    rw [← h.2]
    have hlt : id < c.functionSymbols.length := (List.getElem?_eq_some_iff.mp hs).1
    have hget : c.functionSymbols[id] = s := (List.getElem?_eq_some_iff.mp hs).2
    simp only [Compiler.captures]
    apply List.ext_getElem?
    intro i
    by_cases hi : i = id
    · subst hi
      simp [List.getElem?_set, hlt, List.getElem?_eq_getElem hlt, hget]
    · simp [List.getElem?_set, Ne.symm hi]

/-- `emitValue` leaves the parameters and `locals` of every function symbol alone. -/
theorem keeps_emitValue (s : ValuedSymbol) : KeepsCaptures (emitValue s) := by
  cases s with
  | Variable id =>
    exact keeps_bind _ _ (keeps_getVariable id) (fun v => keeps_pure _)
  | Valued v => exact keeps_pure _

/-- `codegen_to_type` after `codegen` leaves the parameters and `locals` of every function symbol alone. -/
theorem keeps_checkType (position : Position) (type : CalcType) (v : Option Val) :
    KeepsCaptures (checkType position type v) := by
  unfold checkType
  refine keeps_bind _ _ (keeps_deref _) (fun v => ?_)
  refine keeps_bind _ _ (keeps_deref _) (fun t => ?_)
  dsimp only
  exact keeps_ite _ _ _ (keeps_bind _ _ (keeps_throwEx _) (fun _ => keeps_pure _))
    (keeps_bind _ _ (keeps_pure _) (fun _ => keeps_pure _))

/-- `ASTDefineVariable::codegen` before the body leaves the parameters and `locals` of every function symbol alone. -/
theorem keeps_assign (position : Position) (type : Option CalcType)
    (symbol : Option SymId) (v : Option Val) :
    KeepsCaptures (ASTDefineVariable.assign position type symbol v) := by
  unfold ASTDefineVariable.assign
  refine keeps_bind _ _ (keeps_deref _) (fun s => ?_)
  refine keeps_bind _ _ (keeps_modifyVariable _ _) (fun _ => ?_)
  cases v with
  | none => exact keeps_throwEx _
  | some v =>
    have hjp : ∀ t : CalcType, KeepsCaptures (α := CalcType)
        (if v.getType ≠ t.llvm then do
          let actual ← deref (TypeRegistry.find v.getType)
          let y ← (throwEx (.TypeException
            ("variable is declared to return a " ++ t.name ++ " but has been set to a "
              ++ actual.name) position) : M PUnit)
          pure t
        else do
          let y ← (pure PUnit.unit : M PUnit)
          pure t) := by
      intro t
      refine keeps_ite _ _ _ ?_ (keeps_bind _ _ (keeps_pure _) (fun _ => keeps_pure _))
      exact keeps_bind _ _ (keeps_deref _)
        (fun _ => keeps_bind _ _ (keeps_throwEx _) (fun _ => keeps_pure _))
    cases type with
    | some t =>
      dsimp only
      exact keeps_bind _ _ (keeps_pure _) hjp
    | none =>
      dsimp only
      exact keeps_bind _ _ (keeps_modifyVariable _ _)
        (fun _ => keeps_bind _ _ (keeps_deref _) hjp)

/-- The loop over the normal parameters leaves the parameters and `locals` of every function symbol alone. -/
theorem keeps_argumentTypes : ∀ (l : List SymId), KeepsCaptures (argumentTypes l)
  | [] => keeps_pure _
  | i :: rest => by
    unfold argumentTypes
    refine keeps_bind _ _ (keeps_getVariable _) (fun s => ?_)
    refine keeps_bind _ _ (keeps_deref _) (fun t => ?_)
    exact keeps_bind _ _ (keeps_argumentTypes rest) (fun _ => keeps_pure _)

/-- The loop over the imported upvalues leaves the parameters and `locals` of every function symbol alone. -/
theorem keeps_upvalueTypes : ∀ (l : List (SymId × SymId)), KeepsCaptures (upvalueTypes l)
  | [] => keeps_pure _
  | i :: rest => by
    unfold upvalueTypes
    refine keeps_ite _ _ _ ?_ (keeps_upvalueTypes rest)
    refine keeps_bind _ _ (keeps_getVariable _) (fun s => ?_)
    refine keeps_bind _ _ (keeps_assertSome _) (fun t => ?_)
    exact keeps_bind _ _ (keeps_upvalueTypes rest) (fun _ => keeps_pure _)

/-- Binding the normal parameters leaves the parameters and `locals` of every function symbol alone. -/
theorem keeps_bindArguments (f : FnId) (params : List LType) :
    ∀ (l : List SymId) (vi : Nat), KeepsCaptures (bindArguments f params l vi)
  | [], _ => keeps_pure _
  | s :: rest, vi => by
    unfold bindArguments
    refine keeps_bind _ _ (keeps_assertSome _) (fun t => ?_)
    exact keeps_bind _ _ (keeps_modifyVariable _ _)
      (fun _ => keeps_bindArguments f params rest (vi + 1))

/-- Binding the upvalues leaves the parameters and `locals` of every function symbol alone. -/
theorem keeps_bindUpvalues (f : FnId) (params : List LType) :
    ∀ (l : List (SymId × SymId)) (vi : Nat), KeepsCaptures (bindUpvalues f params l vi)
  | [], _ => keeps_pure _
  | li :: rest, vi => by
    unfold bindUpvalues
    refine keeps_ite _ _ _ ?_ (keeps_bindUpvalues f params rest vi)
    refine keeps_bind _ _ (keeps_assertSome _) (fun t => ?_)
    exact keeps_bind _ _ (keeps_modifyVariable _ _)
      (fun _ => keeps_bindUpvalues f params rest (vi + 1))

/-- `ASTFunctionBody::codegen` before the body leaves the parameters and `locals` of every function symbol alone. -/
theorem keeps_create (function : SymId) :
    KeepsCaptures (ASTFunctionBody.create function) := by
  unfold ASTFunctionBody.create
  refine keeps_bind _ _ (keeps_getFunctionSymbol _) (fun fs => ?_)
  refine keeps_bind _ _ (keeps_argumentTypes _) (fun normal => ?_)
  refine keeps_bind _ _ (keeps_upvalueTypes _) (fun imported => ?_)
  refine keeps_bind _ _ (keeps_createFunction _ _ _) (fun f => ?_)
  refine keeps_bind _ _ (keeps_setFunction _ _) (fun _ => ?_)
  refine keeps_bind _ _ (keeps_bindArguments _ _ _ _) (fun vi => ?_)
  refine keeps_bind _ _ (keeps_getFunctionSymbol _) (fun fs => ?_)
  refine keeps_bind _ _ (keeps_bindUpvalues _ _ _ _) (fun vi => ?_)
  dsimp only
  exact keeps_ite _ _ _ (keeps_bind _ _ (keeps_crash _) (fun _ => keeps_pure _))
    (keeps_bind _ _ (keeps_pure _) (fun _ => keeps_pure _))


/-- `ASTFunctionBody::codegen` after the body leaves the parameters and `locals` of every function symbol alone. -/
theorem keeps_finishBody (position : Position) (f : FnId) (returntype : LType)
    (bb : Option BlockId) (v : Option Val) :
    KeepsCaptures (ASTFunctionBody.finish position f returntype bb v) := by
  unfold ASTFunctionBody.finish
  repeat' first
    | exact keeps_pure _ | exact keeps_throwEx _ | exact keeps_crash _ | exact keeps_deref _
    | exact keeps_assertSome _ | exact keeps_getCompiler | exact keeps_getVariable _
    | exact keeps_getFunctionSymbol _ | exact keeps_getIntrinsic _ | exact keeps_emit _
    | exact keeps_createBlock _ | exact keeps_getInsertBlock | exact keeps_setInsertPoint _
    | exact keeps_modifyVariable _ _ | exact keeps_emitValue _
    | exact keeps_of_state _ (fun _ => rfl)
    | refine keeps_bind _ _ ?_ (fun _ => ?_) | refine keeps_ite _ _ _ ?_ ?_

/-- `ASTToplevel::codegen` after the body leaves the parameters and `locals` of every function symbol alone. -/
theorem keeps_finishToplevel (position : Position) (v : Option Val) :
    KeepsCaptures (ASTToplevel.finish position v) := by
  unfold ASTToplevel.finish
  cases v with
  | some v => exact keeps_throwEx _
  | none => exact keeps_bind _ _ (keeps_emit _) (fun _ => keeps_pure _)

/-- The loop of `ASTReturn::codegen` leaves the parameters and `locals` of every function symbol alone. -/
theorem keeps_copyOutputs (position : Position) (symbolTable : Option SymbolTable) :
    ∀ (returns : List Symbol), KeepsCaptures (copyOutputs position symbolTable returns)
  | [] => keeps_pure _
  | out :: rest => by
    unfold copyOutputs
    refine keeps_bind _ _ (keeps_assertSome _) (fun outsym => ?_)
    refine keeps_bind _ _ (keeps_getVariable _) (fun o => ?_)
    dsimp only
    refine keeps_bind _ _ (keeps_deref _) (fun table => ?_)
    cases hres : table.resolve o.name with
    | none => exact keeps_throwEx _
    | some insym =>
      dsimp only
      refine keeps_bind _ _ (keeps_deref _) (fun valued => ?_)
      refine keeps_bind _ _ (keeps_emitValue _) (fun value => ?_)
      refine keeps_bind _ _ (keeps_deref _) (fun type => ?_)
      have ih := keeps_copyOutputs position symbolTable rest
      cases type with
      | RealType =>
        exact keeps_bind _ _ (keeps_emit _) (fun _ => keeps_bind _ _ (keeps_pure _) (fun _ => ih))
      | BooleanType =>
        exact keeps_bind _ _ (keeps_emit _) (fun _ => keeps_bind _ _ (keeps_pure _) (fun _ => ih))
      | VectorType n =>
        exact keeps_bind _ _ (keeps_emit _) (fun _ => keeps_bind _ _ (keeps_pure _) (fun _ => ih))

/-- The upvalue loop of `ASTFunctionCall::codegen` leaves the parameters and `locals` of every function symbol alone. -/
theorem keeps_pushUpvalues (caller : SymId) :
    ∀ (locals : List (SymId × SymId)) (parameters : List (Option Val)),
    KeepsCaptures (pushUpvalues caller locals parameters)
  | [], _ => keeps_pure _
  | i :: rest, parameters => by
    unfold pushUpvalues
    refine keeps_ite _ _ _ ?_ (keeps_pushUpvalues caller rest parameters)
    refine keeps_bind _ _ (keeps_getFunctionSymbol _) (fun f => ?_)
    refine keeps_bind _ _ (keeps_assertSome _) (fun s => ?_)
    exact keeps_bind _ _ (keeps_getVariable _) (fun _ => keeps_pushUpvalues caller rest _)

/-- `checkParameterCount` leaves the parameters and `locals` of every function symbol alone. -/
theorem keeps_checkParameterCount (function : CallableSymbol) (calledwith : Nat) :
    KeepsCaptures (checkParameterCount function calledwith) := by
  unfold checkParameterCount
  refine keeps_bind _ _ keeps_getCompiler (fun c => ?_)
  cases function with
  | Function id =>
    dsimp only
    refine keeps_bind _ _ (keeps_getFunctionSymbol _) (fun f => ?_)
    exact keeps_ite _ _ _ (keeps_throwEx _) (keeps_pure _)
  | Intrinsic id =>
    dsimp only
    refine keeps_bind _ _ (keeps_getIntrinsic _) (fun f => ?_)
    exact keeps_ite _ _ _ (keeps_throwEx _) (keeps_pure _)

/-- `emitCall` leaves the parameters and `locals` of every function symbol alone. -/
theorem keeps_emitCall (function : CallableSymbol) (parameters : List (Option Val)) :
    KeepsCaptures (emitCall function parameters) := by
  unfold emitCall
  cases function with
  | Function id =>
    dsimp only
    refine keeps_bind _ _ (keeps_getFunctionSymbol _) (fun f => ?_)
    refine keeps_bind _ _ (keeps_deref _) (fun fn => ?_)
    refine keeps_bind _ _ keeps_getCompiler (fun c => ?_)
    refine keeps_bind _ _ (keeps_deref _) (fun llvmf => ?_)
    exact keeps_bind _ _ (keeps_emit _) (fun _ => keeps_pure _)
  | Intrinsic id =>
    dsimp only
    refine keeps_bind _ _ (keeps_getIntrinsic _) (fun f => ?_)
    exact keeps_bind _ _ (keeps_emit _) (fun _ => keeps_pure _)

/-- `ASTFunctionCall::codegen` after the arguments leaves the parameters and `locals` of every function symbol alone. -/
theorem keeps_finishCall (position : Position) (function : CallableSymbol)
    (parents : List Ancestor) (parameters : List (Option Val)) :
    KeepsCaptures (ASTFunctionCall.finish position function parents parameters) := by
  unfold ASTFunctionCall.finish
  dsimp only
  cases function.isFunction with
  | none =>
    dsimp only
    exact keeps_bind _ _ (keeps_pure _)
      (fun _ => keeps_bind _ _ (keeps_of_state _ (fun _ => rfl)) (fun _ => keeps_emitCall _ _))
  | some callee =>
    dsimp only
    refine keeps_bind _ _ (keeps_deref _) (fun caller => ?_)
    refine keeps_bind _ _ (keeps_getFunctionSymbol _) (fun f => ?_)
    refine keeps_bind _ _ (keeps_pushUpvalues _ _ _) (fun ps => ?_)
    exact keeps_bind _ _ (keeps_of_state _ (fun _ => rfl)) (fun _ => keeps_emitCall _ _)

/-- `ASTCondition::codegen` after the branches leaves the parameters and `locals` of every function symbol alone. -/
theorem keeps_finishCondition (position : Position) (mergeblock : BlockId)
    (tr : Option Val) (tb : Option BlockId) (fr : Option Val) (fb : Option BlockId) :
    KeepsCaptures (ASTCondition.finish position mergeblock tr tb fr fb) := by
  intro c o c' h
  rw [ASTCondition_finish_eq] at h
  cases tr with
  | none =>
    simp at h
    rw [← h.2]
  | some t =>
    cases fr with
    | none =>
      simp at h
      rw [← h.2]
    | some f =>
      by_cases hty : t.getType = f.getType
      · simp [hty] at h
        rw [← h.2]
        rfl
      · simp [hty] at h
        rw [← h.2]

mutual
/-- Code generation of any tree, however it ends, leaves the declared parameters
and the `locals` of every function symbol as resolution left them. -/
theorem keeps_codegen : ∀ (node : ASTNode) (parents : List Ancestor),
    KeepsCaptures (codegen node parents)
  | .ASTConstant _ _, _ => by
    unfold codegen
    exact keeps_pure _
  | .ASTBoolean _ id, _ => by
    unfold codegen
    exact keeps_ite _ _ _ (keeps_pure _) (keeps_pure _)
  | .ASTVariable _ _ symbol, _ => by
    unfold codegen
    exact keeps_bind _ _ (keeps_deref _) (fun s => keeps_emitValue s)
  | .ASTVector _ elements, parents => by
    unfold codegen
    dsimp only
    exact keeps_bind _ _ (keeps_codegenElements elements _ _ _) (fun _ => keeps_pure _)
  | .ASTVectorSplat _ value size, parents => by
    unfold codegen
    dsimp only
    refine keeps_bind _ _ (keeps_codegen value _) (fun e => ?_)
    exact keeps_bind _ _ (keeps_checkType _ _ _) (fun _ => keeps_pure _)
  | .ASTDefineVariable position symbolTable _ type value body symbol, parents => by
    unfold codegen
    refine keeps_bind _ _ (keeps_codegen value _) (fun v => ?_)
    exact keeps_bind _ _ (keeps_assign _ _ _ _) (fun _ => keeps_codegen body _)
  | .ASTFunctionBody position symbolTable function body, parents => by
    unfold codegen
    refine keeps_bind _ _ (keeps_create _) (fun p => ?_)
    dsimp only
    refine keeps_bind _ _ (keeps_createBlock _) (fun toplevel => ?_)
    refine keeps_bind _ _ keeps_getInsertBlock (fun bb => ?_)
    refine keeps_bind _ _ (keeps_setInsertPoint _) (fun _ => ?_)
    exact keeps_bind _ _ (keeps_codegen body _) (fun v => keeps_finishBody _ _ _ _ _)
  | .ASTToplevel position symbolTable toplevel body, parents => by
    unfold codegen
    exact keeps_bind _ _ (keeps_codegen body _) (fun v => keeps_finishToplevel _ _)
  | .ASTReturn position, parents => by
    unfold codegen
    refine keeps_bind _ _ (keeps_deref _) (fun function => ?_)
    refine keeps_bind _ _ (keeps_getFunctionSymbol _) (fun f => ?_)
    refine keeps_bind _ _ (keeps_assertSome _) (fun returns => ?_)
    refine keeps_bind _ _ (keeps_deref _) (fun symbolTable => ?_)
    exact keeps_bind _ _ (keeps_copyOutputs _ _ _) (fun _ => keeps_pure _)
  | .ASTDefineFunction _ symbolTable _ definition body, parents => by
    unfold codegen
    exact keeps_bind _ _ (keeps_codegen definition _) (fun _ => keeps_codegen body _)
  | .ASTFunctionCall position _ arguments function, parents => by
    unfold codegen
    refine keeps_bind _ _ (keeps_deref _) (fun function => ?_)
    refine keeps_bind _ _ (keeps_checkParameterCount _ _) (fun _ => ?_)
    exact keeps_bind _ _ (keeps_codegenArguments arguments _) (fun _ => keeps_finishCall _ _ _ _)
  | .ASTCondition position condition trueval falseval, parents => by
    unfold codegen
    refine keeps_bind _ _ (keeps_codegen condition _) (fun cv => ?_)
    refine keeps_bind _ _ (keeps_checkType _ _ _) (fun cv => ?_)
    refine keeps_bind _ _ keeps_getInsertBlock (fun bb => ?_)
    refine keeps_bind _ _ (keeps_deref _) (fun bb => ?_)
    refine keeps_bind _ _ keeps_getCompiler (fun c => ?_)
    refine keeps_bind _ _ (keeps_deref _) (fun parent => ?_)
    refine keeps_bind _ _ (keeps_createBlock _) (fun trueblock => ?_)
    refine keeps_bind _ _ (keeps_createBlock _) (fun falseblock => ?_)
    refine keeps_bind _ _ (keeps_createBlock _) (fun mergeblock => ?_)
    refine keeps_bind _ _ (keeps_emit _) (fun _ => ?_)
    refine keeps_bind _ _ (keeps_setInsertPoint _) (fun _ => ?_)
    refine keeps_bind _ _ (keeps_codegen trueval _) (fun trueresult => ?_)
    refine keeps_bind _ _ keeps_getInsertBlock (fun trueblock => ?_)
    refine keeps_bind _ _ (keeps_emit _) (fun _ => ?_)
    refine keeps_bind _ _ (keeps_setInsertPoint _) (fun _ => ?_)
    refine keeps_bind _ _ (keeps_codegen falseval _) (fun falseresult => ?_)
    refine keeps_bind _ _ keeps_getInsertBlock (fun falseblock => ?_)
    exact keeps_bind _ _ (keeps_emit _) (fun _ => keeps_finishCondition _ _ _ _ _ _)
/-- The element loop of `ASTVector::codegen` leaves them alone as well. -/
theorem keeps_codegenElements : ∀ (elements : List ASTNode) (parents : List Ancestor)
    (i : Nat) (v : Val), KeepsCaptures (codegenElements elements parents i v)
  | [], _, _, _ => by
    unfold codegenElements
    exact keeps_pure _
  | element :: rest, parents, i, v => by
    unfold codegenElements
    refine keeps_bind _ _ (keeps_codegen element _) (fun e => ?_)
    exact keeps_bind _ _ (keeps_checkType _ _ _) (fun e => keeps_codegenElements rest _ _ _)
/-- The argument loop of `ASTFunctionCall::codegen` leaves them alone as well. -/
theorem keeps_codegenArguments : ∀ (arguments : List ASTNode) (parents : List Ancestor),
    KeepsCaptures (codegenArguments arguments parents)
  | [], _ => by
    unfold codegenArguments
    exact keeps_pure _
  | argument :: rest, parents => by
    unfold codegenArguments
    refine keeps_bind _ _ (keeps_codegen argument _) (fun v => ?_)
    exact keeps_bind _ _ (keeps_codegenArguments rest _) (fun _ => keeps_pure _)
end

/-- Code generation keeps every function symbol's declared parameters and
`locals`: a symbol found before is found afterwards with the same two fields. -/
theorem codegen_keeps_locals (node : ASTNode) (parents : List Ancestor) (c c' : Compiler)
    (o : Outcome (Option Val)) (id : SymId) (F : FunctionSymbol)
    (h : codegen node parents c = (o, c')) (hF : c.functionSymbols[id]? = some F) :
    ∃ F', c'.functionSymbols[id]? = some F' ∧ F'.arguments = F.arguments ∧
      F'.locals = F.locals := by
  have hk := keeps_codegen node parents c o c' h
  have hget := congrArg (fun l => l[id]?) hk
  simp only [Compiler.captures, List.getElem?_map, hF, Option.map_some'] at hget
  cases hF' : c'.functionSymbols[id]? with
  | none => simp [hF'] at hget
  | some F' =>
    simp only [hF', Option.map_some', Option.some.injEq, Prod.mk.injEq] at hget
    exact ⟨F', rfl, hget.1, hget.2⟩

/-! ## Importing an upvalue -/

/-- A home variable that is a key of `locals` already: the local it is mapped
to is returned and nothing changes. -/
theorem importUpvalue_known (function symbol l : SymId) (F : FunctionSymbol) (c : Compiler)
    (hF : c.functionSymbols[function]? = some F)
    (hl : LocalsMap.find symbol F.locals = some l) :
    importUpvalue function symbol c = (.ok l, c) := by
  simp [importUpvalue, M.bind, getFunctionSymbol, hF, deref, M.pure, hl]

/-- A home variable that is no key of `locals` yet: a proxy with its name and
type is created and entered at the end. -/
theorem importUpvalue_new (function symbol : SymId) (F : FunctionSymbol) (V : VariableSymbol)
    (c : Compiler)
    (hF : c.functionSymbols[function]? = some F)
    (hl : LocalsMap.find symbol F.locals = none)
    (hV : c.variableSymbols[symbol]? = some V) :
    importUpvalue function symbol c =
      (.ok c.variableSymbols.length,
        { c with
          variableSymbols := c.variableSymbols ++
            [{ name := V.name, type := V.type, function := none, value := none }]
          functionSymbols := c.functionSymbols.set function
            { F with locals := F.locals ++ [(symbol, c.variableSymbols.length)] } }) := by
  simp [importUpvalue, M.bind, getFunctionSymbol, hF, deref, M.pure, hl, getVariable, hV,
    newVariableSymbol, modifyFunctionSymbol, modifyCompiler]

/-- Importing an upvalue throws no exception. -/
theorem importUpvalue_not_thrown (function symbol : SymId) (c c' : Compiler) (e : Exception) :
    importUpvalue function symbol c ≠ (.thrown e, c') := by
  cases hF : c.functionSymbols[function]? with
  | none => simp [importUpvalue, M.bind, getFunctionSymbol, hF, deref, crash]
  | some F =>
    cases hl : LocalsMap.find symbol F.locals with
    | some l => simp [importUpvalue_known function symbol l F c hF hl]
    | none =>
      cases hV : c.variableSymbols[symbol]? with
      | none =>
        simp [importUpvalue, M.bind, getFunctionSymbol, hF, deref, M.pure, hl, getVariable, hV,
          crash]
      | some V => simp [importUpvalue_new function symbol F V c hF hl hV]

/-! ## What a variable reference is bound to

`ASTVariable::resolveVariables` binds a reference to a variable to what
`FunctionSymbol::importUpvalue` returns.  That method is not among the sources,
and the spec gives its effect on `locals` but not its result; the theorems of
this section hold for `importUpvalue` as it is modelled above, which returns the
local symbol the key is mapped to. -/

/-- With `importUpvalue` as modelled: in
`let x = 1.0 in let f() : vector*2 = [x, x] in return` the second reference to
`x` is resolved when `x` (symbol 0) is a key of the locals of `f` already, and
the node is bound to the proxy (symbol 1) that key is mapped to; the same at the
single node, in the state `capturedCall` where the locals of `f` are `[(0, 1)]`. -/
theorem ASTVariable_rebinds_to_proxy :
    resolvedBindings capturedTwice vectorFunction =
      .ok [.Variable "x" (some (.Variable 1)), .Variable "x" (some (.Variable 1))] ∧
    (resolveVariables capturedTwice [] vectorFunction).2.functionSymbols.map
      (fun f => f.locals) = [[(0, 0)], [(0, 1)]] ∧
    (capturedCall.functionSymbols[1]?).map (fun f => LocalsMap.find 0 f.locals) =
      some (some 1) ∧
    resolveVariables (.ASTVariable ⟨2, 20⟩ "x" none) insideF capturedCall =
      (.ok (.ASTVariable ⟨2, 20⟩ "x" (some (.Variable 1))), capturedCall) ∧
    ValuedSymbol.Variable 1 ≠ ValuedSymbol.Variable 0 :=
  ⟨by decide!, by decide!, by decide, rfl, by decide⟩

/-- In a frame with a symbol table, `ASTVariable::resolveVariables`
throws the symbol error with the identifier and the position exactly when the
name is bound in no scope of the chain; a symbol that is not valued gives the
compilation error "attempt to get the value of '<id>', which is not a variable";
a valued symbol that is no variable is bound as it is; a Variable symbol is
imported into the function enclosing the reference and the node is bound to
what the import returns, with `importUpvalue` as modelled the local symbol that
function's `locals` maps it to: the mapped symbol, with the
state unchanged, when the variable is a key already (the variable itself for a
self-mapped key, the earlier proxy for a captured one), and a fresh proxy with
the variable's name and type otherwise, entered at the end of `locals`. -/
theorem ASTVariable_resolveVariables_binds (position : Position) (id : String)
    (symbol : Option ValuedSymbol) (parents : List Ancestor) (symbolTable : SymbolTable)
    (c : Compiler) (hframe : getFrame parents = some (some symbolTable)) :
    ((∃ c', resolveVariables (.ASTVariable position id symbol) parents c =
        (.thrown (.SymbolException id position), c')) ↔ symbolTable.resolve id = none) ∧
    (∀ s, symbolTable.resolve id = some s → s.isValued = none →
      resolveVariables (.ASTVariable position id symbol) parents c =
        (.thrown (.CompilationException (position.formatError
          ("attempt to get the value of '" ++ id ++ "', which is not a variable"))), c)) ∧
    (∀ value, symbolTable.resolve id = some (.Valued value) →
      resolveVariables (.ASTVariable position id symbol) parents c =
        (.ok (.ASTVariable position id (some (.Valued value))), c)) ∧
    (∀ v function F l, symbolTable.resolve id = some (.Variable v) →
      getFunction parents = some function → c.functionSymbols[function]? = some F →
      LocalsMap.find v F.locals = some l →
      resolveVariables (.ASTVariable position id symbol) parents c =
        (.ok (.ASTVariable position id (some (.Variable l))), c)) ∧
    (∀ v function F V, symbolTable.resolve id = some (.Variable v) →
      getFunction parents = some function → c.functionSymbols[function]? = some F →
      LocalsMap.find v F.locals = none → c.variableSymbols[v]? = some V →
      resolveVariables (.ASTVariable position id symbol) parents c =
        (.ok (.ASTVariable position id (some (.Variable c.variableSymbols.length))),
          { c with
            variableSymbols := c.variableSymbols ++
              [{ name := V.name, type := V.type, function := none, value := none }]
            functionSymbols := c.functionSymbols.set function
              { F with locals := F.locals ++ [(v, c.variableSymbols.length)] } })) := by
  refine ⟨⟨?_, ?_⟩, ?_, ?_, ?_, ?_⟩
  · rintro ⟨c', h⟩
    cases hres : symbolTable.resolve id with
    | none => rfl
    | some s =>
      exfalso
      cases s with
      | Variable v =>
        cases hfun : getFunction parents with
        | none =>
          simp [resolveVariables, M.bind, hframe, deref, M.pure, hres, Symbol.isValued,
            ValuedSymbol.isVariable, hfun, crash] at h
        | some function =>
          cases himp : importUpvalue function v c with
          | mk o c2 =>
            cases o with
            | ok l =>
              simp [resolveVariables, M.bind, hframe, deref, M.pure, hres, Symbol.isValued,
                ValuedSymbol.isVariable, hfun, himp] at h
            | thrown e => exact importUpvalue_not_thrown function v c c2 e himp
            | fault f =>
              simp [resolveVariables, M.bind, hframe, deref, M.pure, hres, Symbol.isValued,
                ValuedSymbol.isVariable, hfun, himp] at h
      | Valued value =>
        simp [resolveVariables, M.bind, hframe, deref, M.pure, hres, Symbol.isValued,
          ValuedSymbol.isVariable] at h
      | Function f =>
        simp [resolveVariables, M.bind, hframe, deref, M.pure, hres, Symbol.isValued,
          throwEx] at h
      | Intrinsic f =>
        simp [resolveVariables, M.bind, hframe, deref, M.pure, hres, Symbol.isValued,
          throwEx] at h
  · intro h
    exact ⟨c, by simp [resolveVariables, M.bind, hframe, deref, M.pure, h, throwEx]⟩
  · intro s h hs
    simp [resolveVariables, M.bind, hframe, deref, M.pure, h, hs, throwEx]
  · intro value h
    simp [resolveVariables, M.bind, hframe, deref, M.pure, h, Symbol.isValued,
      ValuedSymbol.isVariable]
  · intro v function F l h hfun hF hl
    simp [resolveVariables, M.bind, hframe, deref, M.pure, h, Symbol.isValued,
      ValuedSymbol.isVariable, hfun, importUpvalue_known function v l F c hF hl]
  · intro v function F V h hfun hF hl hV
    simp [resolveVariables, M.bind, hframe, deref, M.pure, h, Symbol.isValued,
      ValuedSymbol.isVariable, hfun, importUpvalue_new function v F V c hF hl hV]

/-- The same at references in the body of `f`: to the captured `x`, and to a name
that no scope binds. -/
theorem ASTVariable_resolveVariables_binds_witness :
    resolveVariables (.ASTVariable ⟨2, 20⟩ "x" none) insideF capturedCall =
      (.ok (.ASTVariable ⟨2, 20⟩ "x" (some (.Variable 1))), capturedCall) ∧
    ∃ c', resolveVariables (.ASTVariable ⟨2, 24⟩ "y" none) insideF capturedCall =
      (.thrown (.SymbolException "y" ⟨2, 24⟩), c') :=
  ⟨(ASTVariable_resolveVariables_binds ⟨2, 20⟩ "x" none insideF _ capturedCall rfl).2.2.2.1
      0 1 _ 1 (by decide) rfl rfl (by decide),
    (ASTVariable_resolveVariables_binds ⟨2, 24⟩ "y" none insideF _ capturedCall rfl).1.2
      (by decide)⟩

/-! ## Scopes and `locals` after an assignment -/

/-- `ASTDefineVariable::resolveVariables` up to the two recursive calls: the
symbol is created and entered into `locals`, the initializer is resolved with the
parents of the definition, the body below the new frame. -/
theorem resolveVariables_defineVariable (position : Position) (st : Option SymbolTable)
    (id : String) (type : Option CalcType) (value body : ASTNode) (sym : Option SymId)
    (parents : List Ancestor) (frame : Option SymbolTable) (function : SymId)
    (F : FunctionSymbol) (c : Compiler)
    (hframe : getFrame parents = some frame) (hfun : getFunction parents = some function)
    (hF : c.functionSymbols[function]? = some F) :
    resolveVariables (.ASTDefineVariable position st id type value body sym) parents c =
      M.bind (resolveVariables value parents) (fun value' =>
        M.bind (resolveVariables body
          (.Frame (some (SymbolTable.newSingleton frame id (.Variable c.variableSymbols.length)))
            :: parents)) (fun body' =>
          M.pure (.ASTDefineVariable position
            (some (SymbolTable.newSingleton frame id (.Variable c.variableSymbols.length)))
            id type value' body' (some c.variableSymbols.length))))
        (ASTDefineVariable.declared id type function F c) := by
  have hget : ∀ (v : VariableSymbol),
      (c.variableSymbols ++ [v])[c.variableSymbols.length]? = some v := by
    intro v
    simp
  simp only [resolveVariables, bind_eq, M.bind, hframe, deref, pure_eq, M.pure, newVariableSymbol,
    hfun, modifyVariable, getVariable, hget, modifyCompiler, modifyFunctionSymbol,
    getFunctionSymbol, hF, ASTDefineVariable.declared]
  simp only [List.set_append_right _ _ (le_refl _), Nat.sub_self, List.set_cons_zero]

/-- The one-symbol scope binds its name. -/
theorem newSingleton_resolve_self (frame : Option SymbolTable) (id : String) (s : Symbol) :
    (SymbolTable.newSingleton frame id s).resolve id = some s := by
  simp [SymbolTable.newSingleton, SymbolTable.resolve, Scope.find]

/-- Every other name is looked up in the scopes of the parent frame. -/
theorem newSingleton_resolve_other (frame : Option SymbolTable) (id name : String) (s : Symbol)
    (h : name ≠ id) :
    (SymbolTable.newSingleton frame id s).resolve name = SymbolTable.resolve name (frame.getD []) := by
  simp [SymbolTable.newSingleton, SymbolTable.resolve, Scope.find, Ne.symm h]

/-- Overwriting the entry of `n` leaves the lookup of other keys alone. -/
theorem LocalsMap_find_map_ne (key n : SymId) (h : key ≠ n) :
    ∀ locals : List (SymId × SymId),
    LocalsMap.find key (locals.map (fun e => if e.1 = n then (n, n) else e)) =
      LocalsMap.find key locals
  | [] => rfl
  | (a, b) :: rest => by
    have ih := LocalsMap_find_map_ne key n h rest
    unfold LocalsMap.find at ih ⊢
    by_cases he : a = n
    · subst he
      have hnk : ¬ a = key := fun x => h x.symm
      simpa [List.find?_cons, hnk] using ih
    · by_cases hek : a = key
      · subst hek
        simp [List.find?_cons, he]
      · simpa [List.find?_cons, he, hek] using ih

/-- Overwriting the entry of `n` with `n` makes the lookup of `n` yield `n`. -/
theorem LocalsMap_find_map_self (n l : SymId) :
    ∀ locals : List (SymId × SymId), LocalsMap.find n locals = some l →
    LocalsMap.find n (locals.map (fun e => if e.1 = n then (n, n) else e)) = some n
  | [], h => by simp [LocalsMap.find] at h
  | (a, b) :: rest, h => by
    by_cases he : a = n
    · subst he
      simp [LocalsMap.find, List.find?_cons]
    · have h' : LocalsMap.find n rest = some l := by
        simpa [LocalsMap.find, List.find?_cons, he] using h
      have ih := LocalsMap_find_map_self n l rest h'
      simpa [LocalsMap.find, List.find?_cons, he] using ih

/-- The assignment `locals[n] = n` leaves the other keys alone. -/
theorem LocalsMap_find_assign_ne (key n : SymId) (locals : List (SymId × SymId))
    (h : key ≠ n) :
    LocalsMap.find key (LocalsMap.assign n n locals) = LocalsMap.find key locals := by
  unfold LocalsMap.assign
  cases hn : LocalsMap.find n locals with
  | none =>
    simp only [LocalsMap.find, List.find?_append]
    cases hk : List.find? (fun e => decide (e.1 = key)) locals with
    | none => simp [hk, Ne.symm h]
    | some e => simp [hk]
  | some l => exact LocalsMap_find_map_ne key n h locals

/-- After `locals[n] = n` the key `n` is mapped to itself. -/
theorem LocalsMap_find_assign_self (n : SymId) (locals : List (SymId × SymId)) :
    LocalsMap.find n (LocalsMap.assign n n locals) = some n := by
  unfold LocalsMap.assign
  cases hn : LocalsMap.find n locals with
  | none =>
    simp only [LocalsMap.find] at hn ⊢
    simp only [Option.map_eq_none'] at hn
    simp [List.find?_append, hn]
  | some l => exact LocalsMap_find_map_self n l locals hn

/-! ## C14 -/

/-- C14: for `let x = e in b` in function `function`, the initializer is resolved
with the parents (and so the frame) of the definition and the body below the new
one-symbol frame; a reference to `x` as initializer fails with the symbol error
for `x` when the parent's scopes do not bind `x`, and is resolved to the outer
`x` (imported into the function) when they do; a reference to `x` in the body is
bound to the newly created symbol, whatever the parent's scopes bind, since that
symbol is mapped to itself in `locals` from the moment it is declared.  On
`let x = x in return` the symbol error is thrown, and in
`let x = 1.0 in let x = x in let r = x in return` the first reference is bound
to the outer and the second to the inner `x`. -/
theorem ASTDefineVariable_resolveVariables_scopes (position : Position)
    (st : Option SymbolTable) (id : String) (type : Option CalcType) (value body : ASTNode)
    (sym : Option SymId) (parents : List Ancestor) (frame : Option SymbolTable)
    (function : SymId) (F : FunctionSymbol) (c : Compiler)
    (hframe : getFrame parents = some frame) (hfun : getFunction parents = some function)
    (hF : c.functionSymbols[function]? = some F) :
    resolveVariables (.ASTDefineVariable position st id type value body sym) parents c =
      M.bind (resolveVariables value parents) (fun value' =>
        M.bind (resolveVariables body
          (.Frame (some (SymbolTable.newSingleton frame id (.Variable c.variableSymbols.length)))
            :: parents)) (fun body' =>
          M.pure (.ASTDefineVariable position
            (some (SymbolTable.newSingleton frame id (.Variable c.variableSymbols.length)))
            id type value' body' (some c.variableSymbols.length))))
        (ASTDefineVariable.declared id type function F c) ∧
    (SymbolTable.newSingleton frame id (.Variable c.variableSymbols.length)).resolve id =
      some (.Variable c.variableSymbols.length) ∧
    (∀ name, name ≠ id →
      (SymbolTable.newSingleton frame id (.Variable c.variableSymbols.length)).resolve name =
        SymbolTable.resolve name (frame.getD [])) ∧
    (∀ p s table, frame = some table → table.resolve id = none →
      resolveVariables (.ASTDefineVariable position st id type (.ASTVariable p id s) body sym)
          parents c =
        (.thrown (.SymbolException id p), ASTDefineVariable.declared id type function F c)) ∧
    (∀ p s table outer, frame = some table → table.resolve id = some (.Variable outer) →
      resolveVariables (.ASTVariable p id s) parents
          (ASTDefineVariable.declared id type function F c) =
        M.bind (importUpvalue function outer)
          (fun l => M.pure (.ASTVariable p id (some (.Variable l))))
          (ASTDefineVariable.declared id type function F c)) ∧
    (∀ p s c1 F1, c1.functionSymbols[function]? = some F1 →
      LocalsMap.find c.variableSymbols.length F1.locals = some c.variableSymbols.length →
      resolveVariables (.ASTVariable p id s)
          (.Frame (some (SymbolTable.newSingleton frame id (.Variable c.variableSymbols.length)))
            :: parents) c1 =
        (.ok (.ASTVariable p id (some (.Variable c.variableSymbols.length))), c1)) ∧
    (∃ F0, (ASTDefineVariable.declared id type function F c).functionSymbols[function]? = some F0 ∧
      LocalsMap.find c.variableSymbols.length F0.locals = some c.variableSymbols.length) ∧
    resolvedBindings selfInitialized toplevelOnly = .thrown (.SymbolException "x" ⟨1, 9⟩) ∧
    resolvedBindings shadowedDefinition toplevelOnly =
      .ok [.Variable "x" (some (.Variable 0)), .Variable "x" (some (.Variable 1))] := by
  have heq := resolveVariables_defineVariable position st id type value body sym parents frame
    function F c hframe hfun hF
  have hlt : function < c.functionSymbols.length := (List.getElem?_eq_some_iff.mp hF).1
  refine ⟨heq, newSingleton_resolve_self _ _ _,
    fun name h => newSingleton_resolve_other _ _ _ _ h, ?_, ?_, ?_, ?_, by decide!, by decide!⟩
  · intro p s table hfr hres
    rw [resolveVariables_defineVariable position st id type (.ASTVariable p id s) body sym
      parents frame function F c hframe hfun hF]
    subst hfr
    simp [resolveVariables, M.bind, hframe, deref, M.pure, hres, throwEx]
  · intro p s table outer hfr hres
    subst hfr
    simp [resolveVariables, M.bind, hframe, deref, M.pure, hres, Symbol.isValued,
      ValuedSymbol.isVariable, hfun]
  · intro p s c1 F1 hF1 hfind
    simp [resolveVariables, M.bind, getFrame, getFunction, deref, M.pure,
      newSingleton_resolve_self, Symbol.isValued, ValuedSymbol.isVariable, hfun,
      importUpvalue_known function _ _ F1 c1 hF1 hfind]
  · refine ⟨{ F with locals :=
        LocalsMap.assign c.variableSymbols.length c.variableSymbols.length F.locals }, ?_,
      LocalsMap_find_assign_self c.variableSymbols.length F.locals⟩
    simp [ASTDefineVariable.declared, List.getElem?_set, hlt]

/-- C14 at `let x = x in return`, directly below the top-level function body. -/
theorem ASTDefineVariable_resolveVariables_scopes_witness :
    resolveVariables (.ASTDefineVariable ⟨1, 1⟩ none "x" none (.ASTVariable ⟨1, 9⟩ "x" none)
        (.ASTReturn ⟨2, 1⟩) none) [.FunctionBody (some [Scope.Multiple []]) 0] toplevelOnly =
      (.thrown (.SymbolException "x" ⟨1, 9⟩),
        ASTDefineVariable.declared "x" none 0
          (FunctionSymbol.new "toplevel" [] .RealType (some [])) toplevelOnly) ∧
    (SymbolTable.newSingleton (some [Scope.Multiple []]) "x" (.Variable 0)).resolve "x" =
      some (.Variable 0) :=
  ⟨(ASTDefineVariable_resolveVariables_scopes ⟨1, 1⟩ none "x" none (.ASTVariable ⟨1, 9⟩ "x" none)
      (.ASTReturn ⟨2, 1⟩) none [.FunctionBody (some [Scope.Multiple []]) 0]
      (some [Scope.Multiple []]) 0 (FunctionSymbol.new "toplevel" [] .RealType (some []))
      toplevelOnly rfl rfl rfl).2.2.2.1 ⟨1, 9⟩ none [Scope.Multiple []] rfl (by decide),
    (ASTDefineVariable_resolveVariables_scopes ⟨1, 1⟩ none "x" none (.ASTVariable ⟨1, 9⟩ "x" none)
      (.ASTReturn ⟨2, 1⟩) none [.FunctionBody (some [Scope.Multiple []]) 0]
      (some [Scope.Multiple []]) 0 (FunctionSymbol.new "toplevel" [] .RealType (some []))
      toplevelOnly rfl rfl rfl).2.1⟩

/-! ## The scope of the parameters -/

/-- Assigning the `function` of a variable symbol changes no name. -/
theorem nameOf_set (c : Compiler) (a : SymId) (v : VariableSymbol)
    (hv : c.variableSymbols[a]? = some v) (function : SymId) (b : SymId) :
    (withVariable a { v with function := some function } c).nameOf b = c.nameOf b := by
  unfold Compiler.nameOf withVariable
  by_cases hb : a = b
  · subst hb
    have hlt : a < c.variableSymbols.length := (List.getElem?_eq_some_iff.mp hv).1
    simp [List.getElem?_set, hlt, hv]
  · simp [List.getElem?_set, hb]

/-- The scope of the parameters depends on the state through the names only. -/
theorem addAll_congr (c c' : Compiler) (h : ∀ b, c'.nameOf b = c.nameOf b) :
    ∀ (l : List SymId) (t : SymbolTable), addAll c' l t = addAll c l t
  | [], _ => rfl
  | a :: rest, t => by
    simp only [addAll, h a]
    exact addAll_congr c c' h rest _

/-- The loop over `function->arguments` with valid parameter pointers: every
parameter is claimed for the function and entered into the scope under its name. -/
theorem addArguments_eq (function : SymId) :
    ∀ (arguments : List SymId) (table : SymbolTable) (c : Compiler),
    (∀ a ∈ arguments, a < c.variableSymbols.length) →
    addArguments function arguments table c =
      (.ok (addAll c arguments table),
        { c with variableSymbols := claimAll function arguments c.variableSymbols })
  | [], _, _, _ => rfl
  | a :: rest, table, c, hvalid => by
    have ha : a < c.variableSymbols.length := hvalid a (List.mem_cons_self _ _)
    have hv : c.variableSymbols[a]? = some c.variableSymbols[a] := List.getElem?_eq_getElem ha
    have hvalid' : ∀ b ∈ rest, b < (withVariable a
        { c.variableSymbols[a] with function := some function } c).variableSymbols.length := by
      intro b hb
      simpa [withVariable] using hvalid b (List.mem_cons_of_mem _ hb)
    have ih := addArguments_eq function rest
      (table.add c.variableSymbols[a].name (.Variable a)) _ hvalid'
    have hm := modifyVariable_eq a c.variableSymbols[a]
      (fun v => { v with function := some function }) c hv
    have hname : c.nameOf a = c.variableSymbols[a].name := by
      simp [Compiler.nameOf, hv]
    simp only [addArguments, bind_eq, M.bind, getVariable_eq a _ c hv, hm, ih, addAll, claimAll,
      hv, hname]
    rw [addAll_congr c _ (fun b => nameOf_set c a _ hv function b)]
    rfl

/-- Removing the entries of another name does not change what a name finds. -/
theorem find_filter_ne (n name : String) (h : ¬ n = name) :
    ∀ syms : List (String × Symbol),
    List.find? (fun e => decide (e.1 = name)) (List.filter (fun e => decide (e.1 ≠ n)) syms) =
      List.find? (fun e => decide (e.1 = name)) syms
  | [] => rfl
  | (a, b) :: rest => by
    have ih := find_filter_ne n name h rest
    by_cases he : a = n
    · subst he
      simpa [List.filter_cons, List.find?_cons, h] using ih
    · by_cases hen : a = name
      · subst hen
        simp [List.filter_cons, he, List.find?_cons]
      · simpa [List.filter_cons, he, List.find?_cons, hen] using ih

/-- A symbol added to the innermost scope is found under its name; other names
resolve as before. -/
theorem add_resolve (syms : List (String × Symbol)) (rest : SymbolTable) (n name : String)
    (s : Symbol) :
    SymbolTable.resolve name (SymbolTable.add n s (Scope.Multiple syms :: rest)) =
      if n = name then some s else SymbolTable.resolve name (Scope.Multiple syms :: rest) := by
  by_cases h : n = name
  · subst h
    simp [SymbolTable.add, SymbolTable.resolve, Scope.find]
  · simp only [SymbolTable.add, SymbolTable.resolve, Scope.find, List.find?_cons, h,
      decide_False, find_filter_ne n name h syms, if_false]

/-- Adding parameters changes the innermost scope only. -/
theorem addAll_shape (c : Compiler) : ∀ (l : List SymId) (syms : List (String × Symbol))
    (rest : SymbolTable), ∃ syms', addAll c l (Scope.Multiple syms :: rest) =
      Scope.Multiple syms' :: rest
  | [], syms, rest => ⟨syms, rfl⟩
  | a :: l, syms, rest => by
    simp only [addAll, SymbolTable.add]
    exact addAll_shape c l _ rest

/-- A name that no parameter has resolves as it did before the parameters were
added. -/
theorem addAll_resolve_absent (c : Compiler) (name : String) :
    ∀ (l : List SymId) (syms : List (String × Symbol)) (rest : SymbolTable),
    (∀ a ∈ l, c.nameOf a ≠ name) →
    SymbolTable.resolve name (addAll c l (Scope.Multiple syms :: rest)) =
      SymbolTable.resolve name (Scope.Multiple syms :: rest)
  | [], _, _, _ => rfl
  | a :: l, syms, rest, h => by
    have ha : c.nameOf a ≠ name := h a (List.mem_cons_self _ _)
    have hadd := add_resolve syms rest (c.nameOf a) name (.Variable a)
    simp only [ha, if_false] at hadd
    simp only [addAll]
    simp only [SymbolTable.add] at hadd ⊢
    rw [addAll_resolve_absent c name l _ rest (fun b hb => h b (List.mem_cons_of_mem _ hb))]
    exact hadd

/-- A name that a parameter has resolves to a parameter of that name. -/
theorem addAll_resolve_present (c : Compiler) (name : String) :
    ∀ (l : List SymId) (syms : List (String × Symbol)) (rest : SymbolTable),
    (∃ a ∈ l, c.nameOf a = name) →
    ∃ a ∈ l, c.nameOf a = name ∧
      SymbolTable.resolve name (addAll c l (Scope.Multiple syms :: rest)) = some (.Variable a)
  | [], _, _, h => by
    obtain ⟨a, ha, _⟩ := h
    simp at ha
  | a :: l, syms, rest, h => by
    by_cases hl : ∃ b ∈ l, c.nameOf b = name
    · simp only [addAll, SymbolTable.add]
      obtain ⟨b, hb, hname, hres⟩ := addAll_resolve_present c name l
        ((c.nameOf a, Symbol.Variable a) :: List.filter (fun e => decide (e.1 ≠ c.nameOf a)) syms)
        rest hl
      exact ⟨b, List.mem_cons_of_mem _ hb, hname, hres⟩
    · have ha : c.nameOf a = name := by
        obtain ⟨b, hb, hname⟩ := h
        rcases List.mem_cons.mp hb with rfl | hb'
        · exact hname
        · exact absurd ⟨b, hb', hname⟩ hl
      have habsent : ∀ b ∈ l, c.nameOf b ≠ name := fun b hb hn => hl ⟨b, hb, hn⟩
      refine ⟨a, List.mem_cons_self _ _, ha, ?_⟩
      have hadd := add_resolve syms rest (c.nameOf a) name (.Variable a)
      simp only [ha, if_true] at hadd
      simp only [addAll]
      simp only [SymbolTable.add] at hadd ⊢
      rw [addAll_resolve_absent c name l _ rest habsent, ha]
      exact hadd

/-! ## C15 -/

/-- C15: `ASTDefineFunction::resolveVariables` sets the parent of the function
symbol to the function enclosing the definition, then resolves the definition
body and after it the continuation body, both below one new frame whose
one-symbol scope binds the function's name to the function symbol.  The function
body resolved below that frame enters the parameters into a new innermost scope:
there the function's name resolves to the function symbol when no parameter has
that name, and to a parameter when one has.  In
`let f(a : real) : real = f(a) in let r = f(1.0) in return` both calls are bound
to the symbol of `f`; in `let f(f : real) : real = f(1.0) in return` the call
finds the parameter and fails as a call of something that is no function. -/
theorem ASTDefineFunction_resolveVariables_scopes (position : Position)
    (st : Option SymbolTable) (function : SymId) (definition body : ASTNode)
    (parents : List Ancestor) (frame : Option SymbolTable) (enclosing : SymId)
    (F : FunctionSymbol) (c : Compiler)
    (hframe : getFrame parents = some frame) (hfun : getFunction parents = some enclosing)
    (hF : c.functionSymbols[function]? = some F) :
    resolveVariables (.ASTDefineFunction position st function definition body) parents c =
      M.bind (resolveVariables definition
        (.Frame (some (SymbolTable.newSingleton frame F.name (.Function function))) :: parents))
        (fun definition' =>
          M.bind (resolveVariables body
            (.Frame (some (SymbolTable.newSingleton frame F.name (.Function function)))
              :: parents))
            (fun body' => M.pure (.ASTDefineFunction position
              (some (SymbolTable.newSingleton frame F.name (.Function function)))
              function definition' body')))
        { c with functionSymbols :=
            c.functionSymbols.set function { F with parent := some enclosing } } ∧
    (c.functionSymbols.set function { F with parent := some enclosing })[function]? =
      some { F with parent := some enclosing } ∧
    (SymbolTable.newSingleton frame F.name (.Function function)).resolve F.name =
      some (.Function function) ∧
    (∀ (p : Position) (b : ASTNode) (c0 : Compiler) (F0 : FunctionSymbol),
      c0.functionSymbols[function]? = some F0 →
      (∀ a ∈ F0.arguments, a < c0.variableSymbols.length) →
      resolveVariables (.ASTFunctionBody p none function b)
          (.Frame (some (SymbolTable.newSingleton frame F.name (.Function function)))
            :: parents) c0 =
        M.bind (resolveVariables b
          (.FunctionBody (some (addAll c0 F0.arguments (SymbolTable.newMultiple
              (some (SymbolTable.newSingleton frame F.name (.Function function))))))
            function ::
            .Frame (some (SymbolTable.newSingleton frame F.name (.Function function)))
              :: parents))
          (fun b' => M.pure (.ASTFunctionBody p
            (some (addAll c0 F0.arguments (SymbolTable.newMultiple
              (some (SymbolTable.newSingleton frame F.name (.Function function))))))
            function b'))
          { c0 with variableSymbols := claimAll function F0.arguments c0.variableSymbols } ∧
      ((∀ a ∈ F0.arguments, c0.nameOf a ≠ F.name) →
        SymbolTable.resolve F.name (addAll c0 F0.arguments (SymbolTable.newMultiple
          (some (SymbolTable.newSingleton frame F.name (.Function function))))) =
          some (.Function function)) ∧
      ((∃ a ∈ F0.arguments, c0.nameOf a = F.name) →
        ∃ a ∈ F0.arguments, c0.nameOf a = F.name ∧
          SymbolTable.resolve F.name (addAll c0 F0.arguments (SymbolTable.newMultiple
            (some (SymbolTable.newSingleton frame F.name (.Function function))))) =
            some (.Variable a))) ∧
    resolvedBindings selfRecursive oneParameterFunction =
      .ok [.Call "f" (some (.Function 1)), .Variable "a" (some (.Variable 0)),
        .Call "f" (some (.Function 1))] ∧
    resolvedBindings hiddenByParameter parameterNamedAsFunction =
      .thrown (.CompilationException "attempt to call 'f', which is not a function at 1:25") := by
  have hlt : function < c.functionSymbols.length := (List.getElem?_eq_some_iff.mp hF).1
  refine ⟨?_, by simp [List.getElem?_set, hlt], newSingleton_resolve_self _ _ _, ?_,
    by decide!, by decide!⟩
  · simp only [resolveVariables, bind_eq, M.bind, hframe, deref, pure_eq, M.pure,
      getFunctionSymbol, hF, hfun, modifyFunctionSymbol, modifyCompiler]
  · intro p b c0 F0 hF0 hvalid
    refine ⟨?_, ?_, ?_⟩
    · simp only [resolveVariables, bind_eq, M.bind, getFrame, deref, pure_eq, M.pure,
        getFunctionSymbol, hF0, addArguments_eq function F0.arguments _ c0 hvalid]
    · intro habsent
      rw [SymbolTable.newMultiple, addAll_resolve_absent c0 F.name F0.arguments [] _ habsent]
      simp [SymbolTable.resolve, Scope.find, SymbolTable.newSingleton]
    · intro hpresent
      exact addAll_resolve_present c0 F.name F0.arguments [] _ hpresent

/-- C15 at the definition of `f(a : real) : real` directly below the top-level
function body. -/
theorem ASTDefineFunction_resolveVariables_scopes_witness :
    (SymbolTable.newSingleton (some [Scope.Multiple []]) "f" (.Function 1)).resolve "f" =
      some (.Function 1) ∧
    SymbolTable.resolve "f" (addAll oneParameterFunction [0] (SymbolTable.newMultiple
      (some (SymbolTable.newSingleton (some [Scope.Multiple []]) "f" (.Function 1))))) =
      some (.Function 1) :=
  ⟨(ASTDefineFunction_resolveVariables_scopes ⟨1, 1⟩ none 1
      (.ASTFunctionBody ⟨1, 5⟩ none 1 (.ASTConstant ⟨1, 25⟩ 1)) (.ASTReturn ⟨2, 1⟩)
      [.FunctionBody (some [Scope.Multiple []]) 0] (some [Scope.Multiple []]) 0
      (FunctionSymbol.new "f" [0] .RealType none) oneParameterFunction rfl rfl rfl).2.2.1,
    ((ASTDefineFunction_resolveVariables_scopes ⟨1, 1⟩ none 1
      (.ASTFunctionBody ⟨1, 5⟩ none 1 (.ASTConstant ⟨1, 25⟩ 1)) (.ASTReturn ⟨2, 1⟩)
      [.FunctionBody (some [Scope.Multiple []]) 0] (some [Scope.Multiple []]) 0
      (FunctionSymbol.new "f" [0] .RealType none) oneParameterFunction rfl rfl rfl).2.2.2.1
      ⟨1, 5⟩ (.ASTConstant ⟨1, 25⟩ 1) oneParameterFunction
      (FunctionSymbol.new "f" [0] .RealType none) rfl (by decide)).2.1 (by decide)⟩

/-! ## C16 -/

/-- C16: in a frame with a symbol table, `ASTFunctionCall::resolveVariables`
throws the symbol error with the identifier when the callee name is bound in no
scope, and the compilation error "attempt to call '<id>', which is not a
function" when the name resolves to a symbol that is not callable, as a variable
is; in both cases the compiler state is the one the call was entered with: no
argument was resolved and no upvalue imported, and no `locals` has changed. -/
theorem ASTFunctionCall_resolveVariables_callee_errors (position : Position) (id : String)
    (arguments : List ASTNode) (function : Option CallableSymbol) (parents : List Ancestor)
    (symbolTable : SymbolTable) (c : Compiler)
    (hframe : getFrame parents = some (some symbolTable)) :
    (symbolTable.resolve id = none →
      resolveVariables (.ASTFunctionCall position id arguments function) parents c =
        (.thrown (.SymbolException id position), c)) ∧
    (∀ s, symbolTable.resolve id = some s → s.isCallable = none →
      resolveVariables (.ASTFunctionCall position id arguments function) parents c =
        (.thrown (.CompilationException (position.formatError
          ("attempt to call '" ++ id ++ "', which is not a function"))), c)) ∧
    (∀ v, (Symbol.Variable v).isCallable = none) := by
  refine ⟨?_, ?_, fun _ => rfl⟩
  · intro h
    simp [resolveVariables, M.bind, hframe, deref, M.pure, h, throwEx]
  · intro s h hs
    simp [resolveVariables, M.bind, hframe, deref, M.pure, h, hs, throwEx]

/-- C16 at calls in the body of `f`: of the variable `x`, and of a name that no
scope binds. -/
theorem ASTFunctionCall_resolveVariables_callee_errors_witness :
    resolveVariables (.ASTFunctionCall ⟨2, 20⟩ "x" [.ASTVariable ⟨2, 22⟩ "x" none] none)
        insideF capturedCall =
      (.thrown (.CompilationException "attempt to call 'x', which is not a function at 2:20"),
        capturedCall) ∧
    resolveVariables (.ASTFunctionCall ⟨2, 20⟩ "y" [.ASTVariable ⟨2, 22⟩ "x" none] none)
        insideF capturedCall =
      (.thrown (.SymbolException "y" ⟨2, 20⟩), capturedCall) :=
  ⟨(ASTFunctionCall_resolveVariables_callee_errors ⟨2, 20⟩ "x" [.ASTVariable ⟨2, 22⟩ "x" none]
      none insideF _ capturedCall rfl).2.1 (.Variable 0) (by decide) rfl,
    (ASTFunctionCall_resolveVariables_callee_errors ⟨2, 20⟩ "y" [.ASTVariable ⟨2, 22⟩ "x" none]
      none insideF _ capturedCall rfl).1 (by decide)⟩

/-! ## Vector literals and splats -/

/-- A value of the expected type passes `codegen_to_type` unchanged. -/
theorem checkType_same (position : Position) (type : CalcType) (e : Val) (c : Compiler)
    (h : TypeRegistry.find e.getType = some type) :
    checkType position type (some e) c = (.ok e, c) := by
  simp [checkType, M.bind, deref, M.pure, h]

/-- A value of another type of the catalogue makes `codegen_to_type` throw the
type error that names both types, at the position of the node. -/
theorem checkType_mismatch (position : Position) (type t : CalcType) (e : Val) (c : Compiler)
    (h : TypeRegistry.find e.getType = some t) (ht : t ≠ type) :
    checkType position type (some e) c =
      (.thrown (.TypeException
        ("type mismatch: expected a " ++ type.name ++ ", but got a " ++ t.name) position), c) := by
  simp [checkType, M.bind, deref, M.pure, h, ht, throwEx]

/-- Setting lanes does not change the type of the vector. -/
theorem insertElements_getType : ∀ (es : List Val) (i : Nat) (v : Val),
    (insertElements es i v).getType = v.getType
  | [], _, _ => rfl
  | e :: rest, i, v => by
    rw [insertElements, insertElements_getType rest (i + 1) _]
    rfl

/-- Lanes below the first one set are as they were. -/
theorem insertElements_lane_below : ∀ (es : List Val) (i : Nat) (v : Val) (j : Nat), j < i →
    (insertElements es i v).lane j = v.lane j
  | [], _, _, _, _ => rfl
  | e :: rest, i, v, j, h => by
    rw [insertElements, insertElements_lane_below rest (i + 1) _ j (by omega)]
    simp [Val.lane, Nat.ne_of_lt h]

/-- The lane `i + k` holds the `k`-th of the values set from lane `i` on. -/
theorem insertElements_lane : ∀ (es : List Val) (i : Nat) (v : Val) (k : Nat), k < es.length →
    (insertElements es i v).lane (i + k) = es[k]?
  | [], _, _, _, h => by simp at h
  | e :: rest, i, v, 0, _ => by
    rw [insertElements, insertElements_lane_below rest (i + 1) _ (i + 0) (by omega)]
    simp [Val.lane]
  | e :: rest, i, v, k + 1, h => by
    have ih := insertElements_lane rest (i + 1) (.InsertElement v i e) k
      (by simpa using h)
    rw [insertElements]
    have hk : i + (k + 1) = i + 1 + k := by omega
    rw [hk, ih]
    simp

/-- The loop of `ASTVector::codegen` on elements that all generate Real values:
the state is threaded as in a plain left-to-right generation of the elements, and
the values are set into consecutive lanes. -/
theorem codegenElements_ok : ∀ (elements : List ASTNode) (parents : List Ancestor) (i : Nat)
    (v : Val) (c : Compiler) (es : List Val) (c' : Compiler),
    codegenArguments elements parents c = (.ok (es.map some), c') →
    (∀ e ∈ es, TypeRegistry.find e.getType = some .RealType) →
    codegenElements elements parents i v c = (.ok (insertElements es i v), c')
  | [], parents, i, v, c, es, c', h, _ => by
    simp [codegenArguments, M.pure] at h
    obtain ⟨h1, h2⟩ := h
    subst h2
    have : es = [] := by simpa using h1.symm
    subst this
    simp [codegenElements, M.pure, insertElements]
  | element :: rest, parents, i, v, c, es, c', h, hreal => by
    obtain ⟨x, c1, vs', hx, hrest, hvs⟩ := (codegenArguments_cons element rest parents c c' _).mp h
    cases es with
    | nil => simp at hvs
    | cons e es' =>
      simp only [List.map_cons, List.cons.injEq] at hvs
      obtain ⟨hxe, hvs'⟩ := hvs
      subst hxe hvs'
      have he := hreal e (List.mem_cons_self _ _)
      have ih := codegenElements_ok rest parents (i + 1) (.InsertElement v i e) c1 es' c' hrest
        (fun a ha => hreal a (List.mem_cons_of_mem _ ha))
      simp [codegenElements, M.bind, hx, checkType_same _ _ e c1 he, ih, insertElements]

/-- The loop of `ASTVector::codegen` stops at the first element whose value is
not Real, in the state that element's generation left. -/
theorem codegenElements_mismatch : ∀ (pre : List ASTNode) (element : ASTNode)
    (post : List ASTNode) (parents : List Ancestor) (i : Nat) (v : Val) (c : Compiler)
    (es : List Val) (c1 : Compiler) (e : Val) (t : CalcType) (c2 : Compiler),
    codegenArguments pre parents c = (.ok (es.map some), c1) →
    (∀ e ∈ es, TypeRegistry.find e.getType = some .RealType) →
    codegen element parents c1 = (.ok (some e), c2) →
    TypeRegistry.find e.getType = some t → t ≠ .RealType →
    codegenElements (pre ++ element :: post) parents i v c =
      (.thrown (.TypeException
        ("type mismatch: expected a real, but got a " ++ t.name) element.position), c2)
  | [], element, post, parents, i, v, c, es, c1, e, t, c2, h, _, helem, ht, hne => by
    simp [codegenArguments, M.pure] at h
    obtain ⟨_, h2⟩ := h
    subst h2
    simp [codegenElements, M.bind, helem, checkType_mismatch _ _ t e c2 ht hne, CalcType.name]
  | first :: pre, element, post, parents, i, v, c, es, c1, e, t, c2, h, hreal, helem, ht, hne => by
    obtain ⟨x, c0, vs', hx, hrest, hvs⟩ := (codegenArguments_cons first pre parents c c1 _).mp h
    cases es with
    | nil => simp at hvs
    | cons e0 es' =>
      simp only [List.map_cons, List.cons.injEq] at hvs
      obtain ⟨hxe, hvs'⟩ := hvs
      subst hxe hvs'
      have he := hreal e0 (List.mem_cons_self _ _)
      have ih := codegenElements_mismatch pre element post parents (i + 1)
        (.InsertElement v i e0) c0 es' c1 e t c2 hrest
        (fun a ha => hreal a (List.mem_cons_of_mem _ ha)) helem ht hne
      simp [codegenElements, M.bind, hx, checkType_same _ _ e0 c0 he, ih]

/-- The loop of `ASTVectorSplat::codegen` sets the lanes a literal of `count`
copies sets. -/
theorem setElements_eq : ∀ (count : Nat) (e : Val) (i : Nat) (v : Val),
    setElements e i count v = insertElements (List.replicate count e) i v
  | 0, _, _, _ => rfl
  | count + 1, e, i, v => by
    rw [setElements, List.replicate_succ, insertElements, setElements_eq count]

/-! ## C17 -/

/-- C17: for a vector literal of `n` elements, when the elements, generated from
left to right, yield the values `es`, all of type Real, `ASTVector::codegen`
returns in the state that generation left a value of the type `Vector<n>` (`n`
the element count) whose lane `i` is `es[i]` for every `i < n`; when the elements
before some element yield Real values and that element yields a value of another
type `t`, it throws the type error "type mismatch: expected a real, but got a
<t>" at that element's position, in the state that element's generation left (no
later element is generated). -/
theorem ASTVector_codegen_lanes (position : Position) (elements : List ASTNode)
    (parents : List Ancestor) (c : Compiler) :
    (∀ (es : List Val) (c' : Compiler), codegenArguments elements (.Node :: parents) c = (.ok (es.map some), c') →
      (∀ e ∈ es, TypeRegistry.find e.getType = some .RealType) →
      codegen (.ASTVector position elements) parents c =
        (.ok (some (insertElements es 0 (.Undef (CalcType.VectorType elements.length).llvm))),
          c') ∧
      TypeRegistry.find (insertElements es 0
        (.Undef (CalcType.VectorType elements.length).llvm)).getType =
        some (.VectorType elements.length) ∧
      es.length = elements.length ∧
      ∀ i, i < elements.length →
        (insertElements es 0 (.Undef (CalcType.VectorType elements.length).llvm)).lane i =
          es[i]?) ∧
    (∀ (pre : List ASTNode) (element : ASTNode) (post : List ASTNode) (es : List Val)
      (c1 : Compiler) (e : Val) (t : CalcType) (c2 : Compiler), elements = pre ++ element :: post →
      codegenArguments pre (.Node :: parents) c = (.ok (es.map some), c1) →
      (∀ e ∈ es, TypeRegistry.find e.getType = some .RealType) →
      codegen element (.Node :: parents) c1 = (.ok (some e), c2) →
      TypeRegistry.find e.getType = some t → t ≠ .RealType →
      codegen (.ASTVector position elements) parents c =
        (.thrown (.TypeException
          ("type mismatch: expected a real, but got a " ++ t.name) element.position), c2)) := by
  refine ⟨?_, ?_⟩
  · intro es c' h hreal
    have hlen : es.length = elements.length := by
      simpa using codegenArguments_length elements _ c c' _ h
    refine ⟨?_, ?_, hlen, ?_⟩
    · simp [codegen, M.bind, M.pure, codegenElements_ok elements _ 0 _ c es c' h hreal]
    · simp [insertElements_getType, Val.getType, CalcType.llvm, TypeRegistry.find]
    · intro i hi
      have := insertElements_lane es 0 (.Undef (CalcType.VectorType elements.length).llvm) i
        (by omega)
      simpa using this
  · intro pre element post es c1 e t c2 hel h hreal helem ht hne
    subst hel
    simp [codegen, M.bind, M.pure,
      codegenElements_mismatch pre element post _ 0 _ c es c1 e t c2 h hreal helem ht hne]

/-- C17 at the literals `[1.0, 2.0]` and `[1.0, true]`. -/
theorem ASTVector_codegen_lanes_witness :
    codegen (.ASTVector ⟨1, 1⟩ [.ASTConstant ⟨1, 2⟩ 1, .ASTConstant ⟨1, 7⟩ 2]) [] toplevelOnly =
      (.ok (some (.InsertElement (.InsertElement (.Undef (.vector 2)) 0 (.ConstantFP 1)) 1
        (.ConstantFP 2))), toplevelOnly) ∧
    codegen (.ASTVector ⟨1, 1⟩ [.ASTConstant ⟨1, 2⟩ 1, .ASTBoolean ⟨1, 7⟩ "true"]) []
        toplevelOnly =
      (.thrown (.TypeException "type mismatch: expected a real, but got a boolean" ⟨1, 7⟩),
        toplevelOnly) :=
  ⟨((ASTVector_codegen_lanes ⟨1, 1⟩ [.ASTConstant ⟨1, 2⟩ 1, .ASTConstant ⟨1, 7⟩ 2] []
      toplevelOnly).1 [.ConstantFP 1, .ConstantFP 2] toplevelOnly rfl (by decide)).1,
    (ASTVector_codegen_lanes ⟨1, 1⟩ [.ASTConstant ⟨1, 2⟩ 1, .ASTBoolean ⟨1, 7⟩ "true"] []
      toplevelOnly).2 [.ASTConstant ⟨1, 2⟩ 1] (.ASTBoolean ⟨1, 7⟩ "true") [] [.ConstantFP 1]
      toplevelOnly (.ConstantInt true) .BooleanType toplevelOnly rfl rfl (by decide) rfl rfl
      (by decide)⟩

/-! ## C18 -/

/-- C18: when the operand generates a Real value `e`, `ASTVectorSplat::codegen`
returns, in the state the one generation of the operand left, a value of type
`Vector<N>` whose lanes `0..N-1` all hold `e`, and a vector literal whose
elements generate `N` copies of `e` returns that same value; when the operand
generates a value of another type `t` it throws the type error "type mismatch:
expected a real, but got a <t>" at the operand's position.  In
`let f() : real = 1.0 in let v = [*3 f()] in return` one call is emitted and the
three lanes hold its result. -/
theorem ASTVectorSplat_codegen_lanes (position : Position) (value : ASTNode) (size : Nat)
    (parents : List Ancestor) (c : Compiler) :
    (∀ (e : Val) (c' : Compiler), codegen value (.Node :: parents) c = (.ok (some e), c') →
      TypeRegistry.find e.getType = some .RealType →
      codegen (.ASTVectorSplat position value size) parents c =
        (.ok (some (setElements e 0 size (.Undef (CalcType.VectorType size).llvm))), c') ∧
      TypeRegistry.find (setElements e 0 size (.Undef (CalcType.VectorType size).llvm)).getType =
        some (.VectorType size) ∧
      (∀ i, i < size →
        (setElements e 0 size (.Undef (CalcType.VectorType size).llvm)).lane i = some e) ∧
      (∀ (p : Position) (elements : List ASTNode) (c0 c1 : Compiler),
        codegenArguments elements (.Node :: parents) c0 =
          (.ok ((List.replicate size e).map some), c1) →
        codegen (.ASTVector p elements) parents c0 =
          (.ok (some (setElements e 0 size (.Undef (CalcType.VectorType size).llvm))), c1))) ∧
    (∀ (e : Val) (t : CalcType) (c' : Compiler),
      codegen value (.Node :: parents) c = (.ok (some e), c') →
      TypeRegistry.find e.getType = some t → t ≠ .RealType →
      codegen (.ASTVectorSplat position value size) parents c =
        (.thrown (.TypeException
          ("type mismatch: expected a real, but got a " ++ t.name) value.position), c')) ∧
    ((resolveAndGenerate splatOfCall noParameterFunction).2.calls =
        [.Call (.Function 1) []] ∧
      (resolveAndGenerate splatOfCall noParameterFunction).2.valueOf 0 =
        some (.InsertElement (.InsertElement (.InsertElement (.Undef (.vector 3)) 0
          (.Instruction 1 .double)) 1 (.Instruction 1 .double)) 2 (.Instruction 1 .double))) := by
  refine ⟨?_, ?_, by decide!⟩
  · intro e c' h hreal
    refine ⟨?_, ?_, ?_, ?_⟩
    · simp [codegen, M.bind, M.pure, h, checkType_same _ _ e c' hreal]
    · simp [setElements_eq, insertElements_getType, Val.getType, CalcType.llvm, TypeRegistry.find]
    · intro i hi
      have := insertElements_lane (List.replicate size e) 0
        (.Undef (CalcType.VectorType size).llvm) i (by simpa using hi)
      rw [setElements_eq]
      simpa [hi] using this
    · intro p elements c0 c1 hargs
      have hlen : elements.length = size := by
        simpa using (codegenArguments_length elements _ c0 c1 _ hargs).symm
      have hreal' : ∀ x ∈ List.replicate size e,
          TypeRegistry.find x.getType = some .RealType := by
        intro x hx
        rw [(List.mem_replicate.mp hx).2]
        exact hreal
      simp [codegen, M.bind, M.pure, hlen, setElements_eq,
        codegenElements_ok elements _ 0 _ c0 _ c1 hargs hreal']
  · intro e t c' h ht hne
    simp [codegen, M.bind, M.pure, h, checkType_mismatch _ _ t e c' ht hne, CalcType.name]

/-- C18 at the splats of `2.0` and of `true` to three lanes. -/
theorem ASTVectorSplat_codegen_lanes_witness :
    codegen (.ASTVectorSplat ⟨1, 1⟩ (.ASTConstant ⟨1, 5⟩ 2) 3) [] toplevelOnly =
      (.ok (some (.InsertElement (.InsertElement (.InsertElement (.Undef (.vector 3)) 0
        (.ConstantFP 2)) 1 (.ConstantFP 2)) 2 (.ConstantFP 2))), toplevelOnly) ∧
    codegen (.ASTVectorSplat ⟨1, 1⟩ (.ASTBoolean ⟨1, 5⟩ "true") 3) [] toplevelOnly =
      (.thrown (.TypeException "type mismatch: expected a real, but got a boolean" ⟨1, 5⟩),
        toplevelOnly) :=
  ⟨((ASTVectorSplat_codegen_lanes ⟨1, 1⟩ (.ASTConstant ⟨1, 5⟩ 2) 3 [] toplevelOnly).1
      (.ConstantFP 2) toplevelOnly rfl rfl).1,
    (ASTVectorSplat_codegen_lanes ⟨1, 1⟩ (.ASTBoolean ⟨1, 5⟩ "true") 3 [] toplevelOnly).2.1
      (.ConstantInt true) .BooleanType toplevelOnly rfl rfl (by decide)⟩

/-! ## Copying the outputs -/

/-- Emitting an instruction changes no output's store. -/
theorem outputStore_emitted (i : Instr) (c : Compiler) (table : SymbolTable) (out : Symbol) :
    outputStore (emitted i c) table out = outputStore c table out := rfl

/-- Emitting an instruction changes no lookup of an output's name. -/
theorem unsetOutput_emitted (i : Instr) (c : Compiler) (table : SymbolTable) (out : Symbol) :
    unsetOutput (emitted i c) table out = unsetOutput c table out := rfl

/-- One turn of the loop of `ASTReturn::codegen` for an output that has a
store: that store is emitted and the loop goes on. -/
theorem copyOutputs_found (position : Position) (table : SymbolTable) (out : Symbol)
    (rest : List Symbol) (c : Compiler) (i : Instr) (h : outputStore c table out = some i) :
    copyOutputs position (some table) (out :: rest) c =
      copyOutputs position (some table) rest (emitted i c) := by
  unfold outputStore at h
  cases hv : out.isVariable with
  | none => simp [hv] at h
  | some id =>
    cases ho : c.variableSymbols[id]? with
    | none => simp [hv, ho] at h
    | some o =>
      cases hr : table.resolve o.name with
      | none => simp [hv, ho, hr] at h
      | some insym =>
        cases hval : insym.isValued with
        | none => simp [hv, ho, hr, hval] at h
        | some valued =>
          cases hcur : c.currentValue valued with
          | none => simp [hv, ho, hr, hval, hcur] at h
          | some value =>
            have hemit : emitValue valued c = (.ok value, c) := by
              cases valued with
              | Variable v =>
                simp only [Compiler.currentValue, Option.map_eq_some'] at hcur
                obtain ⟨s, hs, hsv⟩ := hcur
                simp [emitValue, M.bind, getVariable, hs, deref, M.pure, hsv]
              | Valued x =>
                simp only [Compiler.currentValue, Option.some.injEq] at hcur
                simp [emitValue, M.pure, hcur]
            cases ht : o.type with
            | none => simp [hv, ho, hr, hval, hcur, ht] at h
            | some type =>
              cases type with
              | VectorType n =>
                simp [hv, ho, hr, hval, hcur, ht] at h
                subst h
                simp [copyOutputs, M.bind, hv, assertSome, M.pure, getVariable, ho, deref, hr,
                  hval, hemit, ht, emit, emitted]
              | RealType =>
                simp [hv, ho, hr, hval, hcur, ht] at h
                subst h
                simp [copyOutputs, M.bind, hv, assertSome, M.pure, getVariable, ho, deref, hr,
                  hval, hemit, ht, emit, emitted]
              | BooleanType =>
                simp [hv, ho, hr, hval, hcur, ht] at h
                subst h
                simp [copyOutputs, M.bind, hv, assertSome, M.pure, getVariable, ho, deref, hr,
                  hval, hemit, ht, emit, emitted]

/-- One turn of the loop for an output whose name is not in scope: the
compilation error, and nothing is emitted. -/
theorem copyOutputs_unset (position : Position) (table : SymbolTable) (out : Symbol)
    (rest : List Symbol) (c : Compiler) (name : String)
    (h : unsetOutput c table out = some name) :
    copyOutputs position (some table) (out :: rest) c =
      (.thrown (.CompilationException (position.formatError
        ("output value '" ++ name ++ "' was not set"))), c) := by
  unfold unsetOutput at h
  cases hv : out.isVariable with
  | none => simp [hv] at h
  | some id =>
    cases ho : c.variableSymbols[id]? with
    | none => simp [hv, ho] at h
    | some o =>
      cases hr : table.resolve o.name with
      | some insym => simp [hv, ho, hr] at h
      | none =>
        simp [hv, ho, hr] at h
        subst h
        simp [copyOutputs, M.bind, hv, assertSome, M.pure, getVariable, ho, deref, hr, throwEx]

/-- An output that has a store is not unset. -/
theorem outputStore_not_unset (c : Compiler) (table : SymbolTable) (out : Symbol) (i : Instr)
    (h : outputStore c table out = some i) : unsetOutput c table out = none := by
  unfold outputStore at h
  unfold unsetOutput
  cases hv : out.isVariable with
  | none => rfl
  | some id =>
    cases ho : c.variableSymbols[id]? with
    | none => simp [ho]
    | some o =>
      cases hr : table.resolve o.name with
      | none => simp [hv, ho, hr] at h
      | some insym => simp [ho, hr]

/-- When every output has a store the loop emits the stores in the order of the
outputs and returns. -/
theorem copyOutputs_all (position : Position) (table : SymbolTable) :
    ∀ (returns : List Symbol) (stores : List Instr) (c : Compiler),
    returns.map (outputStore c table) = stores.map some →
    copyOutputs position (some table) returns c = (.ok (), emittedAll stores c)
  | [], stores, c, h => by
    have : stores = [] := by simpa using h.symm
    subst this
    rfl
  | out :: rest, [], c, h => by simp at h
  | out :: rest, i :: stores, c, h => by
    simp only [List.map_cons, List.cons.injEq] at h
    rw [copyOutputs_found position table out rest c i h.1]
    exact copyOutputs_all position table rest stores (emitted i c) h.2

/-- The loop stops at the first output whose name is not in scope, after the
stores of the outputs before it. -/
theorem copyOutputs_first_unset (position : Position) (table : SymbolTable) (out : Symbol)
    (post : List Symbol) (name : String) :
    ∀ (pre : List Symbol) (stores : List Instr) (c : Compiler),
    pre.map (outputStore c table) = stores.map some →
    unsetOutput c table out = some name →
    copyOutputs position (some table) (pre ++ out :: post) c =
      (.thrown (.CompilationException (position.formatError
        ("output value '" ++ name ++ "' was not set"))), emittedAll stores c)
  | [], stores, c, h, hu => by
    have : stores = [] := by simpa using h.symm
    subst this
    exact copyOutputs_unset position table out post c name hu
  | first :: pre, [], c, h, _ => by simp at h
  | first :: pre, i :: stores, c, h, hu => by
    simp only [List.map_cons, List.cons.injEq] at h
    rw [List.cons_append, copyOutputs_found position table first _ c i h.1]
    exact copyOutputs_first_unset position table out post name pre stores (emitted i c) h.2 hu

/-- When every symbol found is valued, the loop throws exactly when the name of
some output is not in scope. -/
theorem copyOutputs_thrown_iff (position : Position) (table : SymbolTable) :
    ∀ (returns : List Symbol) (c : Compiler),
    (∀ out ∈ returns, unsetOutput c table out ≠ none ∨ outputStore c table out ≠ none) →
    ((∃ e c', copyOutputs position (some table) returns c = (.thrown e, c')) ↔
      ∃ out ∈ returns, unsetOutput c table out ≠ none)
  | [], c, _ => by simp [copyOutputs, M.pure]
  | out :: rest, c, h => by
    cases hu : unsetOutput c table out with
    | some name =>
      rw [copyOutputs_unset position table out rest c name hu]
      constructor
      · intro _
        exact ⟨out, List.mem_cons_self _ _, by simp [hu]⟩
      · intro _
        exact ⟨_, c, rfl⟩
    | none =>
      have hs : outputStore c table out ≠ none := by
        rcases h out (List.mem_cons_self _ _) with h1 | h1
        · exact absurd hu h1
        · exact h1
      obtain ⟨i, hi⟩ := Option.ne_none_iff_exists'.mp hs
      rw [copyOutputs_found position table out rest c i hi]
      have ih := copyOutputs_thrown_iff position table rest (emitted i c)
        (fun o ho => h o (List.mem_cons_of_mem _ ho))
      rw [ih]
      constructor
      · rintro ⟨o, ho, hne⟩
        exact ⟨o, List.mem_cons_of_mem _ ho, hne⟩
      · rintro ⟨o, ho, hne⟩
        rcases List.mem_cons.mp ho with rfl | ho'
        · exact absurd hu hne
        · exact ⟨o, ho', hne⟩

/-- The instructions are appended to the code, in order, in the current block. -/
theorem emittedAll_code : ∀ (stores : List Instr) (c : Compiler),
    (emittedAll stores c).builder.code =
      c.builder.code ++ stores.map (fun i => (c.builder.insertBlock, i))
  | [], c => by simp [emittedAll]
  | i :: rest, c => by
    rw [emittedAll, emittedAll_code rest (emitted i c)]
    simp [emitted]

/-! ## C11 -/

/-- C11: at a `return` in the top-level function with declared outputs `returns`,
in a frame with the scope chain `table`: when every output has its store (a
symbol of the output's name is found in `table`, innermost scope first, it is
valued, and its current value is stored to the output's destination, lane by lane
for a vector output and directly otherwise), `ASTReturn::codegen` emits exactly
these stores, one per output in declaration order, and yields the absent value;
at the first output whose name no scope binds it throws "output value '<name>'
was not set", after the stores of the outputs before it; and when every symbol
found is valued it throws if and only if the name of some output is bound in no
scope.  In `let x = 1.0 in let v = [x, x] in let x = 2.0 in return` the output
`x` receives `2.0`, the value of the innermost `x`. -/
theorem ASTReturn_codegen_copies_outputs (position : Position) (parents : List Ancestor)
    (function : SymId) (F : FunctionSymbol) (returns : List Symbol) (table : SymbolTable)
    (c : Compiler)
    (hfun : getFunction parents = some function) (hF : c.functionSymbols[function]? = some F)
    (htop : F.toplevel = some returns) (hframe : getFrame parents = some (some table)) :
    (∀ stores : List Instr, returns.map (outputStore c table) = stores.map some →
      codegen (.ASTReturn position) parents c = (.ok none, emittedAll stores c) ∧
      (emittedAll stores c).builder.code =
        c.builder.code ++ stores.map (fun i => (c.builder.insertBlock, i)) ∧
      stores.length = returns.length) ∧
    (∀ (pre : List Symbol) (out : Symbol) (post : List Symbol) (stores : List Instr)
      (name : String), returns = pre ++ out :: post →
      pre.map (outputStore c table) = stores.map some → unsetOutput c table out = some name →
      codegen (.ASTReturn position) parents c =
        (.thrown (.CompilationException (position.formatError
          ("output value '" ++ name ++ "' was not set"))), emittedAll stores c)) ∧
    ((∀ out ∈ returns, unsetOutput c table out ≠ none ∨ outputStore c table out ≠ none) →
      ((∃ e c', codegen (.ASTReturn position) parents c = (.thrown e, c')) ↔
        ∃ out ∈ returns, unsetOutput c table out ≠ none)) ∧
    ((resolveAndGenerate shadowedOutput twoOutputs).1 = .ok none ∧
      (resolveAndGenerate shadowedOutput twoOutputs).2.builder.code =
        [(some 0, .Store (some (.ConstantFP 2)) (some (.Argument 0 0 .pointer))),
          (some 0, .StoreToArray (.VectorType 2)
            (some (.InsertElement (.InsertElement (.Undef (.vector 2)) 0 (.ConstantFP 1)) 1
              (.ConstantFP 1))) (some (.Argument 0 1 .pointer))),
          (some 0, .Ret none)] ∧
      (resolveAndGenerate missingOutput twoOutputs).1 =
        .thrown (.CompilationException "output value 'v' was not set at 2:1")) := by
  have hcg : codegen (.ASTReturn position) parents c =
      M.bind (copyOutputs position (some table) returns) (fun _ => M.pure none) c := by
    simp [codegen, M.bind, hfun, deref, M.pure, getFunctionSymbol, hF, htop, assertSome, hframe]
  refine ⟨?_, ?_, ?_, by decide!⟩
  · intro stores h
    refine ⟨?_, emittedAll_code stores c, ?_⟩
    · rw [hcg]
      simp [M.bind, copyOutputs_all position table returns stores c h, M.pure]
    · simpa using (congrArg List.length h).symm
  · intro pre out post stores name hret hpre hu
    subst hret
    rw [hcg]
    simp [M.bind, copyOutputs_first_unset position table out post name pre stores c hpre hu]
  · intro h
    rw [hcg, ← copyOutputs_thrown_iff position table returns c h]
    constructor
    · rintro ⟨e, c', he⟩
      cases hco : copyOutputs position (some table) returns c with
      | mk o c1 =>
        cases o with
        | ok u => simp [M.bind, hco, M.pure] at he
        | thrown e1 => exact ⟨e1, c1, rfl⟩
        | fault f => simp [M.bind, hco] at he
    · rintro ⟨e, c', he⟩
      exact ⟨e, c', by simp [M.bind, he]⟩

/-- C11 at the `return` of `let x = 1.0 in return` with the outputs `x` and `v`:
the store of `x` is emitted, then `v` is found missing. -/
theorem ASTReturn_codegen_copies_outputs_witness :
    codegen (.ASTReturn ⟨2, 1⟩)
        [.Frame (some [Scope.Singleton (some ("x", .Variable 2)), Scope.Multiple []]),
          .FunctionBody (some [Scope.Multiple []]) 0] atReturn =
      (.thrown (.CompilationException "output value 'v' was not set at 2:1"),
        emitted (.Store (some (.ConstantFP 1)) (some (.Argument 0 0 .pointer))) atReturn) :=
  (ASTReturn_codegen_copies_outputs ⟨2, 1⟩
    [.Frame (some [Scope.Singleton (some ("x", .Variable 2)), Scope.Multiple []]),
      .FunctionBody (some [Scope.Multiple []]) 0] 0
    (FunctionSymbol.new "toplevel" [] .RealType (some [.Variable 0, .Variable 1]))
    [.Variable 0, .Variable 1] [Scope.Singleton (some ("x", .Variable 2)), Scope.Multiple []]
    atReturn rfl rfl rfl rfl).2.1 [.Variable 0] (.Variable 1) []
    [.Store (some (.ConstantFP 1)) (some (.Argument 0 0 .pointer))] "v" rfl (by decide)
    (by decide)

/-! ## C12 -/

/-- The arity check of `ASTFunctionCall::codegen` on a function called with
another number of arguments than it declares: the error is thrown in the state
the call was entered with, and its position is the `compiler.position` of that
state. -/
theorem ASTFunctionCall_codegen_wrong_count (position : Position) (id : String)
    (arguments : List ASTNode) (function : SymId) (F : FunctionSymbol)
    (parents : List Ancestor) (c : Compiler)
    (hF : c.functionSymbols[function]? = some F)
    (hcount : F.arguments.length ≠ arguments.length) :
    codegen (.ASTFunctionCall position id arguments (some (.Function function))) parents c =
      (.thrown (.CompilationException (c.position.formatError
        ("attempt to call function '" ++ F.name ++
          "' with the wrong number of parameters"))), c) := by
  simp [codegen, M.bind, deref, M.pure, checkParameterCount, getCompiler, getFunctionSymbol, hF,
    hcount, throwEx]

/-- C12, the code at the failing input: in
`let g() : real = 1.0 in let f(a : real, b : real) : real = a in
 let r = g() in let s = f(1.0, 2.0, 3.0) in return`
the call of the two-parameter `f` with three arguments, at 4:9, fails before any
of its arguments is generated and the error names `f`, but the position it
carries is 3:9, that of the call of `g` generated before: the check reads
`compiler.position`, which `ASTFunctionCall::codegen` assigns only after the
check (with the correct call `f(1.0, 2.0)` it is 4:9 afterwards). -/
theorem ASTFunctionCall_arity_error_position :
    (resolveAndGenerate wrongArityAfterCall twoParameterFunction).1 =
      .thrown (.CompilationException
        "attempt to call function 'f' with the wrong number of parameters at 3:9") ∧
    (resolveAndGenerate wrongArityAfterCall twoParameterFunction).1 ≠
      .thrown (.CompilationException
        "attempt to call function 'f' with the wrong number of parameters at 4:9") ∧
    (resolveAndGenerate wrongArityAfterCall twoParameterFunction).2.calls =
      [.Call (.Function 1) []] ∧
    (resolveAndGenerate wrongArityAfterCall twoParameterFunction).2.position = ⟨3, 9⟩ ∧
    (resolveAndGenerate rightArityAfterCall twoParameterFunction).2.position = ⟨4, 9⟩ := by
  decide!

/-! ## The interface function -/

namespace Instance

/-- The three type codes of a settings class are different characters. -/
theorem Settings_codes_distinct (S : Settings) :
    S.REAL ≠ S.VECTOR ∧ S.REAL ≠ S.BOOLEAN ∧ S.VECTOR ≠ S.BOOLEAN := by
  cases S <;> decide

/-- On a type code `getExternalType` returns the external representation and
leaves the state alone. -/
theorem getExternalType_eq (S : Settings) (c : Char) (s : CompilerState)
    (hc : isTypeCode S c) : getExternalType S c s = (.ok (externalTypeOf S s c), s) := by
  obtain ⟨h1, h2, h3⟩ := Settings_codes_distinct S
  unfold getExternalType getInternalType externalTypeOf
  rcases hc with h | h | h
  · subst h
    simp [h1]
  · subst h
    simp
  · subst h
    simp [Ne.symm h2, Ne.symm h3]

/-- The loop over `arguments` appends the external type of every parameter, in
order. -/
theorem pushExternalTypes_eq (S : Settings) (s : CompilerState) :
    ∀ (arguments : List VariableSymbol) (externaltypes : List (Option LType)),
    (∀ p ∈ arguments, isTypeCode S p.type) →
    pushExternalTypes S arguments externaltypes s =
      (.ok (externaltypes ++ arguments.map (fun p => externalTypeOf S s p.type)), s)
  | [], externaltypes, _ => by simp [pushExternalTypes, pure, IM.pure]
  | p :: rest, externaltypes, h => by
    have hp := getExternalType_eq S p.type s (h p (List.mem_cons_self _ _))
    have ih := pushExternalTypes_eq S s rest (externaltypes ++ [externalTypeOf S s p.type])
      (fun q hq => h q (List.mem_cons_of_mem _ hq))
    simp [pushExternalTypes, bind, IM.bind, hp, ih]

/-- A function has one formal argument per parameter type. -/
theorem formalArguments_length : ∀ (k : Nat) (ts : List (Option LType)),
    (formalArguments k ts).length = ts.length
  | _, [] => rfl
  | k, t :: ts => by simp [formalArguments, formalArguments_length (k + 1) ts]

/-- Writing back what a list holds at an index changes nothing. -/
theorem set_same {α : Type} : ∀ (l : List α) (i : Nat) (a : α), l[i]? = some a → l.set i a = l
  | [], _, _, h => by simp at h
  | x :: xs, 0, a, h => by
    simp at h
    simp [h]
  | x :: xs, i + 1, a, h => by
    simp at h
    simp [set_same xs i a h]

/-- Giving no names changes nothing. -/
theorem withNames_nil (function : Nat) (s : CompilerState) : withNames function [] s = s := by
  unfold withNames
  cases h : s.module[function]? with
  | none => rfl
  | some f =>
    have hset : s.module.set function { f with names := f.names ++ [] } = s.module := by
      rw [List.append_nil]
      exact set_same _ _ _ h
    simp only [hset]

/-- Names given one after the other add up. -/
theorem withNames_cons (function : Nat) (n : Nat × String) (names : List (Nat × String))
    (s : CompilerState) :
    withNames function names (withNames function [n] s) = withNames function (n :: names) s := by
  unfold withNames
  cases h : s.module[function]? with
  | none => simp [h]
  | some f =>
    have hlt : function < s.module.length := (List.getElem?_eq_some_iff.mp h).1
    simp [List.getElem?_set, hlt, List.set_set]

/-- `setName` on a formal argument records the name. -/
theorem setName_eq (function k : Nat) (t : Option LType) (name : String) (s : CompilerState) :
    setName function (.Argument k t) name s = (.ok (), withNames function [(k, name)] s) := by
  unfold setName withNames
  cases h : s.module[function]? <;> rfl

/-- The marshalling loop, entered at turn `done.length` with as many formal
arguments left as there are parameters left: it takes one turn per parameter,
`arguments[i]` is in range at every turn, and the values pushed are the formal
arguments, loaded when the parameter is a vector. -/
theorem marshal_eq (S : Settings) (function : Nat) :
    ∀ (rest : List VariableSymbol) (ts : List (Option LType)) (done : List VariableSymbol)
      (k : Nat) (params : List Value) (s : CompilerState),
    ts.length = rest.length →
    marshal S function (done ++ rest) (formalArguments k ts) done.length params s =
      (.ok (params ++ forwarded S k rest ts), withNames function (namesFrom k rest) s)
  | [], ts, done, k, params, s, h => by
    have : ts = [] := List.length_eq_zero.mp h
    subst this
    simp [formalArguments, marshal, pure, IM.pure, forwarded, namesFrom, withNames_nil]
  | p :: rest, [], done, k, params, s, h => by simp at h
  | p :: rest, t :: ts, done, k, params, s, h => by
    have hlen : ts.length = rest.length := by simpa using h
    have ih := marshal_eq S function rest ts (done ++ [p]) (k + 1)
    simp only [List.append_assoc, List.singleton_append, List.length_append, List.length_singleton]
      at ih
    have hget : (done ++ p :: rest)[done.length]? = some p := by
      rw [List.getElem?_append_right (le_refl _)]
      simp
    by_cases hv : p.type = S.VECTOR
    · simp only [formalArguments, marshal, bind, IM.bind, hget, setName_eq, hv, if_true,
        loadVector, pure, IM.pure, forwarded, namesFrom]
      rw [ih _ _ hlen, withNames_cons]
      simp
    · simp only [formalArguments, marshal, bind, IM.bind, hget, setName_eq, hv, if_false,
        pure, IM.pure, forwarded, namesFrom]
      rw [ih _ _ hlen, withNames_cons]
      simp

/-- The marshalling loop from its start. -/
theorem marshal_all (S : Settings) (function : Nat) (arguments : List VariableSymbol)
    (ts : List (Option LType)) (k : Nat) (s : CompilerState) (h : ts.length = arguments.length) :
    marshal S function arguments (formalArguments k ts) 0 [] s =
      (.ok (forwarded S k arguments ts), withNames function (namesFrom k arguments) s) := by
  have := marshal_eq S function arguments ts [] k [] s h
  simpa using this

/-- The names go to the function just created. -/
theorem withNames_created (s : CompilerState) (F : Function) (names : List (Nat × String))
    (insertPoint : Option Nat) :
    withNames s.module.length names
        { s with module := s.module ++ [F], insertPoint := insertPoint } =
      { s with
        module := s.module ++ [{ F with names := F.names ++ names }]
        insertPoint := insertPoint } := by
  simp [withNames]

/-- One value is forwarded per parameter. -/
theorem forwarded_length (S : Settings) : ∀ (k : Nat) (ps : List VariableSymbol)
    (ts : List (Option LType)), ts.length = ps.length → (forwarded S k ps ts).length = ps.length
  | _, [], [], _ => rfl
  | _, [], _ :: _, h => by simp at h
  | _, _ :: _, [], h => by simp at h
  | k, p :: ps, t :: ts, h => by
    simp [forwarded, forwarded_length S (k + 1) ps ts (by simpa using h)]

/-- The `i`-th value forwarded is the formal argument `k + i`, loaded when the
`i`-th parameter is a vector. -/
theorem forwarded_getElem (S : Settings) (s : CompilerState) :
    ∀ (ps : List VariableSymbol) (k i : Nat) (p : VariableSymbol), ps[i]? = some p →
    (forwarded S k ps (ps.map (fun p => externalTypeOf S s p.type)))[i]? =
      some (if p.type = S.VECTOR then .LoadVector (.Argument (k + i) (externalTypeOf S s p.type))
        else .Argument (k + i) (externalTypeOf S s p.type))
  | [], _, _, _, h => by simp at h
  | q :: ps, k, 0, p, h => by
    simp at h
    subst h
    simp [forwarded]
  | q :: ps, k, i + 1, p, h => by
    simp at h
    have ih := forwarded_getElem S s ps (k + 1) i p h
    simp only [List.map_cons, forwarded, List.getElem?_cons_succ, ih]
    have : k + 1 + i = k + (i + 1) := by omega
    rw [this]

end Instance

/-! ## C20 -/

namespace Instance

/-- C20: `CompilerState::getExternalType` returns the field `pointerType` for the
code VECTOR, and for the codes REAL and BOOLEAN exactly what `getInternalType`
returns, the fields `realType` and `booleanType`: on the three type codes it
returns.  It leaves the state as it was, and its result is the same in any two
states that agree on the four type fields. -/
theorem getExternalType_total_pure (S : Settings) (c : Char) (s : CompilerState) :
    (c = S.VECTOR → getExternalType S c s = (.ok s.pointerType, s)) ∧
    (c = S.REAL → getExternalType S c s = getInternalType S c s ∧
      getInternalType S c s = (.ok s.realType, s)) ∧
    (c = S.BOOLEAN → getExternalType S c s = getInternalType S c s ∧
      getInternalType S c s = (.ok s.booleanType, s)) ∧
    (getExternalType S c s).2 = s ∧
    (∀ s' : CompilerState, s'.realType = s.realType → s'.vectorType = s.vectorType →
      s'.pointerType = s.pointerType → s'.booleanType = s.booleanType →
      (getExternalType S c s').1 = (getExternalType S c s).1) := by
  obtain ⟨h1, h2, h3⟩ := Settings_codes_distinct S
  refine ⟨?_, ?_, ?_, ?_, ?_⟩
  · intro h
    simp [getExternalType, h]
  · intro h
    subst h
    simp [getExternalType, getInternalType, h1]
  · intro h
    subst h
    simp [getExternalType, getInternalType, Ne.symm h2, Ne.symm h3]
  · unfold getExternalType getInternalType
    split_ifs <;> rfl
  · intro s' hr hv hp hb
    unfold getExternalType getInternalType
    split_ifs <;> simp [hr, hv, hp, hb]

/-- C20 at the codes of a vector and of a real in the settings `RealIsDouble`. -/
theorem getExternalType_total_pure_witness :
    getExternalType .RealIsDouble 'V' compiled = (.ok (some .pointer), compiled) ∧
    getExternalType .RealIsDouble 'D' compiled = getInternalType .RealIsDouble 'D' compiled ∧
    getInternalType .RealIsDouble 'D' compiled = (.ok (some .double), compiled) :=
  ⟨(getExternalType_total_pure .RealIsDouble 'V' compiled).1 rfl,
    (getExternalType_total_pure .RealIsDouble 'D' compiled).2.1 rfl⟩

end Instance

/-! ## C19 -/

namespace Instance

/-- C19: for a compiled function `f` whose parameter and result types are type
codes, `Program::init` returns, having created the function `Entrypoint`.  When
the result is a vector its parameter types are the pointer type followed by the
external type of every declared parameter in order, and its return type is void;
otherwise they are the external types of the declared parameters and the return
type is the external type of the result.  The marshalling loop takes one turn per
declared parameter without running past the end of `arguments` (it names one
formal argument per turn), and the one call emitted forwards exactly `n` values
in declaration order, the `i`-th being the formal argument `i` after the optional
output pointer, loaded into an aggregate when the `i`-th parameter is a vector
and unchanged otherwise; a vector result is stored through the formal argument 0
and nothing is returned, any other result is returned. -/
theorem Program_init_entry_point (S : Settings) (f : FunctionSymbol) (s : CompilerState)
    (hret : isTypeCode S f.returntype) (hargs : ∀ p ∈ f.arguments, isTypeCode S p.type) :
    (f.returntype = S.VECTOR →
      Program.init S f s =
        (.ok s.module.length,
          { s with
            module := s.module ++
              [{ name := "Entrypoint", returntype := some .void,
                 params := s.pointerType ::
                   f.arguments.map (fun p => externalTypeOf S s p.type),
                 names := namesFrom 1 f.arguments }]
            insertPoint := some s.module.length
            code := s.code ++
              [.Call f.name (forwarded S 1 f.arguments
                  (f.arguments.map (fun p => externalTypeOf S s p.type))),
                .StoreVector (some (.Call s.code.length)) (some (.Argument 0 s.pointerType)),
                .Ret none] })) ∧
    (f.returntype ≠ S.VECTOR →
      Program.init S f s =
        (.ok s.module.length,
          { s with
            module := s.module ++
              [{ name := "Entrypoint", returntype := externalTypeOf S s f.returntype,
                 params := f.arguments.map (fun p => externalTypeOf S s p.type),
                 names := namesFrom 0 f.arguments }]
            insertPoint := some s.module.length
            code := s.code ++
              [.Call f.name (forwarded S 0 f.arguments
                  (f.arguments.map (fun p => externalTypeOf S s p.type))),
                .Ret (some (.Call s.code.length))] })) ∧
    (∀ k : Nat,
      (forwarded S k f.arguments
        (f.arguments.map (fun p => externalTypeOf S s p.type))).length = f.arguments.length ∧
      (namesFrom k f.arguments).length = f.arguments.length ∧
      ∀ (i : Nat) (p : VariableSymbol), f.arguments[i]? = some p →
        (forwarded S k f.arguments (f.arguments.map (fun p => externalTypeOf S s p.type)))[i]? =
          some (if p.type = S.VECTOR
            then .LoadVector (.Argument (k + i) (externalTypeOf S s p.type))
            else .Argument (k + i) (externalTypeOf S s p.type))) := by
  have hlen : (f.arguments.map (fun p => externalTypeOf S s p.type)).length =
      f.arguments.length := by simp
  have hr := getExternalType_eq S f.returntype s hret
  refine ⟨?_, ?_, ?_⟩
  · intro hv
    have hptr : externalTypeOf S s S.VECTOR = s.pointerType := by simp [externalTypeOf]
    have hpv := getExternalType_eq S S.VECTOR s (Or.inr (Or.inl rfl))
    simp only [Program.init, bind, IM.bind, hr, hv, if_true, hpv, pure, IM.pure,
      pushExternalTypes_eq S s f.arguments _ hargs, createFunction, hptr, List.singleton_append,
      formalArguments, List.drop_succ_cons, List.drop_zero, Nat.zero_add, List.head?_cons,
      marshal_all S _ f.arguments _ 1 _ hlen, withNames_created, emitCall, emit, storeVector]
    simp
  · intro hv
    simp only [Program.init, bind, IM.bind, hr, hv, if_false, pure, IM.pure,
      pushExternalTypes_eq S s f.arguments _ hargs, createFunction, List.nil_append,
      marshal_all S _ f.arguments _ 0 _ hlen, withNames_created, emitCall, emit, Bool.false_eq_true]
    simp
  · intro k
    refine ⟨forwarded_length S k _ _ hlen, ?_, forwarded_getElem S s f.arguments k⟩
    induction f.arguments generalizing k with
    | nil => rfl
    | cons p ps ih => simp [namesFrom, ih]

/-- C19 at `f(a : real, v : vector, b : boolean)` with a vector and with a real
result. -/
theorem Program_init_entry_point_witness :
    Program.init .RealIsDouble vectorResult compiled =
      (.ok 0,
        { compiled with
          module := [
            { name := "Entrypoint", returntype := some .void,
              params := [some .pointer, some .double, some .pointer, some .i1],
              names := [(1, "a"), (2, "v"), (3, "b")] }]
          insertPoint := some 0
          code := [.Call "f" [.Argument 1 (some .double),
              .LoadVector (.Argument 2 (some .pointer)), .Argument 3 (some .i1)],
            .StoreVector (some (.Call 0)) (some (.Argument 0 (some .pointer))),
            .Ret none] }) ∧
    Program.init .RealIsDouble realResult compiled =
      (.ok 0,
        { compiled with
          module := [
            { name := "Entrypoint", returntype := some .double,
              params := [some .double, some .pointer, some .i1],
              names := [(0, "a"), (1, "v"), (2, "b")] }]
          insertPoint := some 0
          code := [.Call "f" [.Argument 0 (some .double),
              .LoadVector (.Argument 1 (some .pointer)), .Argument 2 (some .i1)],
            .Ret (some (.Call 0))] }) :=
  ⟨(Program_init_entry_point .RealIsDouble vectorResult compiled (by decide)
      (by decide)).1 rfl,
    (Program_init_entry_point .RealIsDouble realResult compiled (by decide)
      (by decide)).2.1 (by decide)⟩

end Instance

/-! ## C21 -/

/-- A `return` that returns yields the absent value. -/
theorem ASTReturn_codegen_absent (position : Position) (parents : List Ancestor)
    (c c1 : Compiler) (v : Option Val)
    (h : codegen (.ASTReturn position) parents c = (.ok v, c1)) : v = none := by
  unfold codegen at h
  simp only [bind_eq, M.bind, pure_eq, M.pure] at h
  repeat' split at h
  all_goals first
    | (simp only [Prod.mk.injEq, Outcome.ok.injEq] at h; exact h.1.symm)
    | simp at h

/-- C21, as stated, fails: `let f() : real = 1.0 in let v = return in f()` ends in a
`TypeException`, which is no `CompilationException`; the body, a call, is not
generated. -/
theorem ASTDefineVariable_assign_return_not_structural :
    (resolveAndGenerate assignedReturn noParameterFunction).1 =
      .thrown (.TypeException "you can't assign 'return' to anything" ⟨2, 1⟩) ∧
    (¬ ∃ what, (resolveAndGenerate assignedReturn noParameterFunction).1 =
      .thrown (.CompilationException what)) ∧
    (resolveAndGenerate assignedReturn noParameterFunction).2.calls = [] := by
  have h : (resolveAndGenerate assignedReturn noParameterFunction).1 =
      .thrown (.TypeException "you can't assign 'return' to anything" ⟨2, 1⟩) := by decide!
  refine ⟨h, ?_, by decide!⟩
  rintro ⟨what, h2⟩
  rw [h] at h2
  cases h2

/-- C21 (amended): for a variable definition whose initializer yields the absent
value, as a `return` does, `ASTDefineVariable::codegen` throws the type error
(`TypeException`) "you can't assign 'return' to anything" at the position of the
definition, in the state the initializer left with the absent value assigned to
the symbol of the variable; the body is not generated: whatever the body is, the
outcome and the state are the same. -/
theorem ASTDefineVariable_codegen_absent_value (position : Position)
    (symbolTable : Option SymbolTable) (id : String) (type : Option CalcType)
    (value body : ASTNode) (symbol : SymId) (parents : List Ancestor) (c c1 : Compiler)
    (s : VariableSymbol)
    (hvalue : codegen value parents c = (.ok none, c1))
    (hs : c1.variableSymbols[symbol]? = some s) :
    codegen (.ASTDefineVariable position symbolTable id type value body (some symbol))
        parents c =
      (.thrown (.TypeException "you can't assign 'return' to anything" position),
        withVariable symbol { s with value := none } c1) ∧
    (∀ body' : ASTNode,
      codegen (.ASTDefineVariable position symbolTable id type value body' (some symbol))
          parents c =
        codegen (.ASTDefineVariable position symbolTable id type value body (some symbol))
          parents c) ∧
    (∀ (p : Position) (ps : List Ancestor) (c0 c0' : Compiler) (v : Option Val),
      codegen (.ASTReturn p) ps c0 = (.ok v, c0') → v = none) := by
  have hm := modifyVariable_eq symbol s (fun s => { s with value := none }) c1 hs
  have key : ∀ b : ASTNode,
      codegen (.ASTDefineVariable position symbolTable id type value b (some symbol))
          parents c =
        (.thrown (.TypeException "you can't assign 'return' to anything" position),
          withVariable symbol { s with value := none } c1) := by
    intro b
    simp [codegen, M.bind, hvalue, ASTDefineVariable.assign, deref, M.pure, hm, throwEx]
  refine ⟨key body, fun b => ?_, fun p ps c0 c0' v h => ASTReturn_codegen_absent p ps c0 c0' v h⟩
  rw [key b, key body]

/-- C21 (amended) at `let v = return in 1.0` in the top-level function. -/
theorem ASTDefineVariable_codegen_absent_value_witness :
    codegen (.ASTDefineVariable ⟨1, 1⟩ (some [Scope.Singleton (some ("v", .Variable 0)),
        Scope.Multiple []]) "v" none (.ASTReturn ⟨1, 9⟩) (.ASTConstant ⟨2, 1⟩ 1) (some 0))
        [.FunctionBody (some [Scope.Multiple []]) 0] beforeAssignment =
      (.thrown (.TypeException "you can't assign 'return' to anything" ⟨1, 1⟩),
        beforeAssignment) :=
  (ASTDefineVariable_codegen_absent_value ⟨1, 1⟩ (some [Scope.Singleton (some ("v", .Variable 0)),
      Scope.Multiple []]) "v" none (.ASTReturn ⟨1, 9⟩) (.ASTConstant ⟨2, 1⟩ 1) 0
    [.FunctionBody (some [Scope.Multiple []]) 0] beforeAssignment beforeAssignment
    { name := "v", type := none, function := some 0, value := none } rfl rfl).1

/-! ## The function a function body creates -/

/-- Assigning to a variable symbol leaves the builder alone. -/
theorem modifyVariable_builder (symbol : SymId) (g : VariableSymbol → VariableSymbol)
    (c c' : Compiler) (o : Outcome Unit) (h : modifyVariable symbol g c = (o, c')) :
    c'.builder = c.builder := by
  cases hs : c.variableSymbols[symbol]? with
  | none =>
    simp [modifyVariable, M.bind, getVariable, deref, hs, crash] at h
    simp [← h.2]
  | some s =>
    simp [modifyVariable, M.bind, getVariable, deref, hs, M.pure, modifyCompiler] at h
    simp [← h.2]

/-- Binding the normal parameters leaves the builder alone. -/
theorem bindArguments_builder (f : FnId) (params : List LType) :
    ∀ (symbols : List SymId) (vi : Nat) (c c' : Compiler) (o : Outcome Nat),
    bindArguments f params symbols vi c = (o, c') → c'.builder = c.builder
  | [], vi, c, c', o, h => by
    simp [bindArguments, M.pure] at h
    simp [← h.2]
  | symbol :: rest, vi, c, c', o, h => by
    cases ht : params[vi]? with
    | none =>
      simp [bindArguments, M.bind, ht, assertSome, crash] at h
      simp [← h.2]
    | some t =>
      cases hm : modifyVariable symbol (fun s => { s with value := some (.Argument f vi t) }) c with
      | mk om cm =>
        have hb := modifyVariable_builder _ _ _ _ _ hm
        cases om with
        | ok u =>
          simp [bindArguments, M.bind, ht, assertSome, M.pure, hm] at h
          rw [bindArguments_builder f params rest (vi + 1) cm c' o h, hb]
        | thrown e =>
          simp [bindArguments, M.bind, ht, assertSome, M.pure, hm] at h
          rw [← h.2]
          exact hb
        | fault e =>
          simp [bindArguments, M.bind, ht, assertSome, M.pure, hm] at h
          rw [← h.2]
          exact hb

/-- Binding the upvalues leaves the builder alone. -/
theorem bindUpvalues_builder (f : FnId) (params : List LType) :
    ∀ (locals : List (SymId × SymId)) (vi : Nat) (c c' : Compiler) (o : Outcome Nat),
    bindUpvalues f params locals vi c = (o, c') → c'.builder = c.builder
  | [], vi, c, c', o, h => by
    simp [bindUpvalues, M.pure] at h
    simp [← h.2]
  | li :: rest, vi, c, c', o, h => by
    by_cases hne : li.1 = li.2
    · simp only [bindUpvalues, hne, ne_eq, not_true_eq_false, if_false] at h
      exact bindUpvalues_builder f params rest vi c c' o h
    · cases ht : params[vi]? with
      | none =>
        simp [bindUpvalues, hne, M.bind, ht, assertSome, crash] at h
        simp [← h.2]
      | some t =>
        cases hm : modifyVariable li.2
            (fun s => { s with value := some (.Argument f vi t) }) c with
        | mk om cm =>
          have hb := modifyVariable_builder _ _ _ _ _ hm
          cases om with
          | ok u =>
            simp [bindUpvalues, hne, M.bind, ht, assertSome, M.pure, hm] at h
            rw [bindUpvalues_builder f params rest (vi + 1) cm c' o h, hb]
          | thrown e =>
            simp [bindUpvalues, hne, M.bind, ht, assertSome, M.pure, hm] at h
            rw [← h.2]
            exact hb
          | fault e =>
            simp [bindUpvalues, hne, M.bind, ht, assertSome, M.pure, hm] at h
            rw [← h.2]
            exact hb

/-- When `ASTFunctionBody::codegen` gets as far as binding the parameters: the
function created is the next one of the module, its return type is the native
type of the declared one, the function symbol records it, and the builder is as
it was. -/
theorem ASTFunctionBody_create_ok (function : SymId) (F : FunctionSymbol)
    (c c1 : Compiler) (f : FnId) (returntype : LType)
    (hF : c.functionSymbols[function]? = some F)
    (h : ASTFunctionBody.create function c = (.ok (f, returntype), c1)) :
    f = c.module.length ∧ returntype = F.returntype.llvm ∧ c1.builder = c.builder ∧
      c1.functionSymbols = c.functionSymbols.set function { F with function := some f } := by
  cases h1 : argumentTypes F.arguments c with
  | mk o1 c1' =>
    cases o1 with
    | ok normal =>
      obtain ⟨_, hc1⟩ := argumentTypes_length F.arguments c c1' normal h1
      subst hc1
      cases h2 : upvalueTypes F.locals c1' with
      | mk o2 c2 =>
        cases o2 with
        | ok imported =>
          obtain ⟨_, hc2⟩ := upvalueTypes_length F.locals c1' c2 imported h2
          subst hc2
          simp only [ASTFunctionBody.create, bind_eq, M.bind, getFunctionSymbol_eq function F c2 hF,
            h1, h2, createFunction, modifyFunctionSymbol, modifyCompiler, pure_eq, M.pure,
            getFunctionSymbol, deref, hF] at h
          cases h3 : bindArguments c2.module.length (normal ++ imported) F.arguments 0
              { c2 with
                module := c2.module ++ [⟨F.name, F.returntype.llvm, normal ++ imported⟩]
                functionSymbols :=
                  c2.functionSymbols.set function { F with function := some c2.module.length } } with
          | mk o3 c3 =>
            obtain ⟨_, hf3⟩ := bindArguments_frame _ _ _ _ _ _ _ h3
            have hb3 := bindArguments_builder _ _ _ _ _ _ _ h3
            rw [h3] at h
            have hlt : function < c2.functionSymbols.length :=
              (List.getElem?_eq_some_iff.mp hF).1
            cases o3 with
            | ok vi =>
              have hF3 : c3.functionSymbols[function]? =
                  some { F with function := some c2.module.length } := by
                rw [hf3]
                simp [List.getElem?_set, hlt]
              simp only [getFunctionSymbol, deref, hF3, pure_eq, M.pure] at h
              cases h4 : bindUpvalues c2.module.length (normal ++ imported) F.locals vi c3 with
              | mk o4 c4 =>
                obtain ⟨_, hf4⟩ := bindUpvalues_frame _ _ _ _ _ _ _ h4
                have hb4 := bindUpvalues_builder _ _ _ _ _ _ _ h4
                rw [h4] at h
                cases o4 with
                | ok vi' =>
                  by_cases hvi : vi' = (normal ++ imported).length
                  · simp only [ne_eq, hvi, not_true_eq_false, if_false, M.bind, M.pure] at h
                    simp at h
                    obtain ⟨⟨hf, hrt⟩, hc⟩ := h
                    subst hc
                    refine ⟨hf.symm, hrt.symm, ?_, ?_⟩
                    · rw [hb4, hb3]
                    · rw [hf4, hf3, ← hf]
                  · simp only [ne_eq, hvi, not_false_eq_true, if_true, M.bind, crash] at h
                    simp at h
                | thrown e => simp at h
                | fault e => simp at h
            | thrown e => simp at h
            | fault e => simp at h
        | thrown e =>
          simp [ASTFunctionBody.create, M.bind, getFunctionSymbol_eq function F c1' hF, h1, h2] at h
        | fault e =>
          simp [ASTFunctionBody.create, M.bind, getFunctionSymbol_eq function F c1' hF, h1, h2] at h
    | thrown e =>
      simp [ASTFunctionBody.create, M.bind, getFunctionSymbol_eq function F c hF, h1] at h
    | fault e =>
      simp [ASTFunctionBody.create, M.bind, getFunctionSymbol_eq function F c hF, h1] at h

/-- Every catalogue entry is found by its native type. -/
theorem find_llvm_self (T : CalcType) : TypeRegistry.find T.llvm = some T := by
  cases T <;> rfl

/-- `ASTFunctionBody::codegen` split at `body->codegen`. -/
theorem ASTFunctionBody_codegen_eq (position : Position) (symbolTable : Option SymbolTable)
    (function : SymId) (body : ASTNode) (parents : List Ancestor) (c c1 : Compiler)
    (f : FnId) (returntype : LType)
    (h : ASTFunctionBody.create function c = (.ok (f, returntype), c1)) :
    codegen (.ASTFunctionBody position symbolTable function body) parents c =
      M.bind (codegen body (.FunctionBody symbolTable function :: parents))
        (fun v => ASTFunctionBody.finish position f returntype c1.builder.insertBlock v)
        (ASTFunctionBody.entered f c1) := by
  simp only [codegen, bind_eq, M.bind, h, createBlock, getInsertBlock, setInsertPoint,
    modifyCompiler, ASTFunctionBody.entered]

/-! ## C22 -/

/-- C22: for a function body whose function is created and whose parameters are
bound (state `c1`, created function `f`), and whose body then generates a value
of the catalogue type `T`: `ASTFunctionBody::codegen` throws a type error exactly
when `T` is not the declared return type, namely "function is declared to return
a <declared> but actually returns a <T>" at the position of the function body;
when `T` is the declared return type it returns the function `f`, which is the
function just added to the module and which the function symbol records from its
creation on, and the builder inserts where it inserted when the function body
was entered. -/
theorem ASTFunctionBody_codegen_return_type (position : Position)
    (symbolTable : Option SymbolTable) (function : SymId) (body : ASTNode)
    (parents : List Ancestor) (F : FunctionSymbol) (c c1 c3 : Compiler) (f : FnId)
    (returntype : LType) (v : Val) (T : CalcType)
    (hF : c.functionSymbols[function]? = some F)
    (hcreate : ASTFunctionBody.create function c = (.ok (f, returntype), c1))
    (hbody : codegen body (.FunctionBody symbolTable function :: parents)
      (ASTFunctionBody.entered f c1) = (.ok (some v), c3))
    (hT : TypeRegistry.find v.getType = some T) :
    ((∃ what c', codegen (.ASTFunctionBody position symbolTable function body) parents c =
        (.thrown (.TypeException what position), c')) ↔ T ≠ F.returntype) ∧
    (T ≠ F.returntype →
      codegen (.ASTFunctionBody position symbolTable function body) parents c =
        (.thrown (.TypeException
          ("function is declared to return a " ++ F.returntype.name ++
            " but actually returns a " ++ T.name) position),
          emitted (.Ret (some v)) c3)) ∧
    (T = F.returntype →
      codegen (.ASTFunctionBody position symbolTable function body) parents c =
        (.ok (some (.Function f)),
          { emitted (.Ret (some v)) c3 with
            builder := { (emitted (.Ret (some v)) c3).builder with
              insertBlock := c.builder.insertBlock } })) ∧
    f = c.module.length ∧
    c1.functionSymbols[function]? = some { F with function := some f } := by
  obtain ⟨hf, hrt, hb, hfs⟩ := ASTFunctionBody_create_ok function F c c1 f returntype hF hcreate
  have hlt : function < c.functionSymbols.length := (List.getElem?_eq_some_iff.mp hF).1
  have heq := ASTFunctionBody_codegen_eq position symbolTable function body parents c c1 f
    returntype hcreate
  have hvt : v.getType = T.llvm := (find_llvm _ _ hT).symm
  have hne : T ≠ F.returntype →
      codegen (.ASTFunctionBody position symbolTable function body) parents c =
        (.thrown (.TypeException
          ("function is declared to return a " ++ F.returntype.name ++
            " but actually returns a " ++ T.name) position),
          emitted (.Ret (some v)) c3) := by
    intro hdiff
    have hll : ¬ T.llvm = F.returntype.llvm := fun e => hdiff (llvm_injective _ _ e)
    rw [heq]
    simp [M.bind, hbody, ASTFunctionBody.finish, emit, emitted, deref, M.pure, hrt, hvt, hll,
      find_llvm_self, throwEx]
  have heqT : T = F.returntype →
      codegen (.ASTFunctionBody position symbolTable function body) parents c =
        (.ok (some (.Function f)),
          { emitted (.Ret (some v)) c3 with
            builder := { (emitted (.Ret (some v)) c3).builder with
              insertBlock := c.builder.insertBlock } }) := by
    intro hsame
    rw [heq]
    simp [M.bind, hbody, ASTFunctionBody.finish, emit, emitted, deref, M.pure, hrt, hvt, hsame,
      setInsertPoint, modifyCompiler, hb]
  refine ⟨⟨?_, ?_⟩, hne, heqT, hf, ?_⟩
  · rintro ⟨what, c', h⟩ hsame
    rw [heqT hsame] at h
    cases h
  · intro hdiff
    exact ⟨_, _, hne hdiff⟩
  · rw [hfs]
    simp [List.getElem?_set, hlt]

/-- C22 at `f() : real` with the bodies `1.0` and `true`. -/
theorem ASTFunctionBody_codegen_return_type_witness :
    codegen (.ASTFunctionBody ⟨1, 5⟩ (some [Scope.Multiple []]) 1 (.ASTConstant ⟨1, 18⟩ 1)) []
        noParameterFunction =
      (.ok (some (.Function 1)),
        { emitted (.Ret (some (.ConstantFP 1))) (ASTFunctionBody.entered 1 createdF) with
          builder := { (emitted (.Ret (some (.ConstantFP 1)))
              (ASTFunctionBody.entered 1 createdF)).builder with
            insertBlock := noParameterFunction.builder.insertBlock } }) ∧
    codegen (.ASTFunctionBody ⟨1, 5⟩ (some [Scope.Multiple []]) 1 (.ASTBoolean ⟨1, 18⟩ "true")) []
        noParameterFunction =
      (.thrown (.TypeException
        "function is declared to return a real but actually returns a boolean" ⟨1, 5⟩),
        emitted (.Ret (some (.ConstantInt true))) (ASTFunctionBody.entered 1 createdF)) :=
  ⟨(ASTFunctionBody_codegen_return_type ⟨1, 5⟩ (some [Scope.Multiple []]) 1
      (.ASTConstant ⟨1, 18⟩ 1) [] (FunctionSymbol.new "f" [] .RealType none)
      noParameterFunction createdF (ASTFunctionBody.entered 1 createdF) 1 .double
      (.ConstantFP 1) .RealType rfl rfl rfl rfl).2.2.1 rfl,
    (ASTFunctionBody_codegen_return_type ⟨1, 5⟩ (some [Scope.Multiple []]) 1
      (.ASTBoolean ⟨1, 18⟩ "true") [] (FunctionSymbol.new "f" [] .RealType none)
      noParameterFunction createdF (ASTFunctionBody.entered 1 createdF) 1 .double
      (.ConstantInt true) .BooleanType rfl rfl rfl rfl).2.1 (by decide)⟩

/-! ## C24 -/

/-- One turn of the loop of `ASTReturn::codegen` for an output under whose name a
symbol is found that is not valued: `insym->isValued()` is null and is
dereferenced. -/
theorem copyOutputs_not_valued (position : Position) (table : SymbolTable) (id : SymId)
    (rest : List Symbol) (c : Compiler) (o : VariableSymbol) (insym : Symbol)
    (ho : c.variableSymbols[id]? = some o)
    (hr : table.resolve o.name = some insym) (hv : insym.isValued = none) :
    copyOutputs position (some table) (.Variable id :: rest) c = (.fault .nullDereference, c) := by
  simp [copyOutputs, M.bind, Symbol.isVariable, assertSome, M.pure, getVariable, ho, deref, hr,
    hv, crash]

/-- C24, the code at the failing input: with the declared output `x`,
`let x = 1.0 in let x() : real = 2.0 in return` resolves; at the `return` the
lookup of `x` finds the function, which is not valued, and code generation ends
in the dereference of the null pointer `insym->isValued()`.  Without the function
definition the output is stored. -/
theorem ASTReturn_codegen_output_not_valued :
    (resolveVariables outputHiddenByFunction [] functionNamedAsOutput).1.isOk = true ∧
    (resolveAndGenerate outputHiddenByFunction functionNamedAsOutput).1 =
      .fault .nullDereference ∧
    SymbolTable.resolve "x"
      (SymbolTable.newSingleton
        (some (SymbolTable.newSingleton (some [Scope.Multiple []]) "x" (.Variable 1)))
        "x" (.Function 1)) = some (.Function 1) ∧
    (Symbol.Function 1).isValued = none ∧
    (resolveAndGenerate outputSet functionNamedAsOutput).1 = .ok none ∧
    (resolveAndGenerate outputSet functionNamedAsOutput).2.builder.code =
      [(some 0, .Store (some (.ConstantFP 1)) (some (.Argument 0 0 .pointer))),
        (some 0, .Ret none)] := by
  decide!

/-! ## Symbols of a table -/

theorem variablesIn_append (a b : List Symbol) :
    variablesIn (a ++ b) = variablesIn a ++ variablesIn b := by
  induction a with
  | nil => rfl
  | cons s rest ih => cases s <;> simp [variablesIn, ih]

/-- The function symbols of two lists of symbols. -/
theorem functionsIn_append (a b : List Symbol) :
    functionsIn (a ++ b) = functionsIn a ++ functionsIn b := by
  induction a with
  | nil => rfl
  | cons s rest ih => cases s <;> simp [functionsIn, ih]

/-- A variable is among the variables of a list exactly when its symbol is in the list. -/
theorem mem_variablesIn (V : SymId) (l : List Symbol) :
    V ∈ variablesIn l ↔ Symbol.Variable V ∈ l := by
  induction l with
  | nil => simp [variablesIn]
  | cons s rest ih => cases s <;> simp [variablesIn, ih]

/-- A function is among the functions of a list exactly when its symbol is in the list. -/
theorem mem_functionsIn (G : SymId) (l : List Symbol) :
    G ∈ functionsIn l ↔ Symbol.Function G ∈ l := by
  induction l with
  | nil => simp [functionsIn]
  | cons s rest ih => cases s <;> simp [functionsIn, ih]

/-- What a scope finds under a name is one of its symbols. -/
theorem Scope_find_mem (name : String) (scope : Scope) (s : Symbol)
    (h : scope.find name = some s) : s ∈ scope.symbols := by
  cases scope with
  | Singleton o =>
    cases o with
    | none => simp [Scope.find] at h
    | some e =>
      obtain ⟨n, s'⟩ := e
      by_cases hn : n = name
      · simp [Scope.find, hn] at h
        simp [Scope.symbols, h]
      · simp [Scope.find, hn] at h
  | Multiple symbols =>
    simp only [Scope.find, Option.map_eq_some'] at h
    obtain ⟨e, he, hs⟩ := h
    simp only [Scope.symbols, List.mem_map]
    exact ⟨e, List.mem_of_find?_eq_some he, hs⟩

/-- What `resolve` finds is a symbol of some scope of the chain. -/
theorem resolve_mem (name : String) : ∀ (table : SymbolTable) (s : Symbol),
    SymbolTable.resolve name table = some s → s ∈ SymbolTable.symbols table
  | [], _, h => by simp [SymbolTable.resolve] at h
  | scope :: next, s, h => by
    simp only [SymbolTable.symbols, List.mem_append]
    cases hf : scope.find name with
    | some s' =>
      simp [SymbolTable.resolve, hf] at h
      subst h
      exact Or.inl (Scope_find_mem name scope _ hf)
    | none =>
      simp [SymbolTable.resolve, hf] at h
      exact Or.inr (resolve_mem name next s h)

/-- The symbols of a new one-symbol scope on top of a table. -/
theorem symbols_newSingleton (frame : Option SymbolTable) (name : String) (s : Symbol) :
    SymbolTable.symbols (SymbolTable.newSingleton frame name s) =
      s :: SymbolTable.symbols (frame.getD []) := by
  simp [SymbolTable.newSingleton, SymbolTable.symbols, Scope.symbols]

/-- A new scope without symbols adds nothing. -/
theorem symbols_newMultiple (frame : Option SymbolTable) :
    SymbolTable.symbols (SymbolTable.newMultiple frame) = SymbolTable.symbols (frame.getD []) := by
  simp [SymbolTable.newMultiple, SymbolTable.symbols, Scope.symbols]

/-- The parameters are added to the innermost scope: the table holds, besides
what it held, at most the parameters, and it holds every symbol of the outer
scopes. -/
theorem addAll_symbols (c : Compiler) : ∀ (l : List SymId) (syms : List (String × Symbol))
    (rest : SymbolTable),
    ∃ syms', addAll c l (Scope.Multiple syms :: rest) = Scope.Multiple syms' :: rest ∧
      ∀ e ∈ syms', e ∈ syms ∨ ∃ a ∈ l, e.2 = Symbol.Variable a
  | [], syms, rest => ⟨syms, rfl, fun e he => Or.inl he⟩
  | a :: l, syms, rest => by
    simp only [addAll, SymbolTable.add]
    obtain ⟨syms', heq, hmem⟩ := addAll_symbols c l
      ((c.nameOf a, Symbol.Variable a) :: syms.filter (fun e => e.1 ≠ c.nameOf a)) rest
    refine ⟨syms', heq, fun e he => ?_⟩
    rcases hmem e he with h | ⟨b, hb, hv⟩
    · rcases List.mem_cons.mp h with h1 | h1
      · exact Or.inr ⟨a, List.mem_cons_self _ _, by rw [h1]⟩
      · exact Or.inl (List.mem_of_mem_filter h1)
    · exact Or.inr ⟨b, List.mem_cons_of_mem _ hb, hv⟩

/-! ## `locals` after an assignment or an import -/

theorem mem_assign (n : SymId) (locals : List (SymId × SymId)) (e : SymId × SymId)
    (h : e ∈ LocalsMap.assign n n locals) : e ∈ locals ∨ e = (n, n) := by
  unfold LocalsMap.assign at h
  cases hf : LocalsMap.find n locals with
  | none =>
    simp only [hf, List.mem_append, List.mem_singleton] at h
    exact h
  | some l =>
    simp only [hf, List.mem_map] at h
    obtain ⟨e0, he0, heq⟩ := h
    by_cases hk : e0.1 = n
    · simp only [hk, if_true] at heq
      exact Or.inr heq.symm
    · simp only [hk, if_false] at heq
      exact Or.inl (heq ▸ he0)

/-- A key found in `locals` is found after more entries were appended. -/
theorem find_append_some (key l : SymId) (locals more : List (SymId × SymId))
    (h : LocalsMap.find key locals = some l) :
    LocalsMap.find key (locals ++ more) = some l := by
  simp only [LocalsMap.find, Option.map_eq_some'] at h ⊢
  obtain ⟨e, he, hl⟩ := h
  exact ⟨e, by simp [List.find?_append, he], hl⟩

/-! ## Enclosure -/

theorem Encloses_mono (c c' : Compiler)
    (hp : ∀ F P, c.parentOf F = some P → c'.parentOf F = some P) (E F : SymId)
    (h : Encloses c E F) : Encloses c' E F := by
  induction h with
  | refl => exact Encloses.refl _
  | step F P hpar _ ih => exact Encloses.step _ F P (hp F P hpar) ih

/-- Enclosure persists when no parent is taken back. -/
theorem StrictlyEncloses_mono (c c' : Compiler)
    (hp : ∀ F P, c.parentOf F = some P → c'.parentOf F = some P) (E F : SymId)
    (h : StrictlyEncloses c E F) : StrictlyEncloses c' E F := by
  obtain ⟨P, hpar, he⟩ := h
  exact ⟨P, hp F P hpar, Encloses_mono c c' hp E P he⟩

/-- A function that encloses another one and is not that one encloses it strictly. -/
theorem Encloses_strict (c : Compiler) (E F : SymId) (h : Encloses c E F) (hne : E ≠ F) :
    StrictlyEncloses c E F := by
  cases h with
  | refl => exact absurd rfl hne
  | step _ P hpar he => exact ⟨P, hpar, he⟩

/-! ## The relations between states -/

theorem Extends_refl (c : Compiler) : Extends c c :=
  ⟨fun _ _ h => h, fun _ _ h => h, fun _ => rfl, fun _ _ => rfl, le_refl _, rfl⟩

/-- What is never taken back composes. -/
theorem Extends_trans (c c1 c2 : Compiler) (h1 : Extends c c1) (h2 : Extends c1 c2) :
    Extends c c2 :=
  ⟨fun V E h => h2.owner V E (h1.owner V E h),
    fun F P h => h2.parent F P (h1.parent F P h),
    fun F => (h2.arguments F).trans (h1.arguments F),
    fun V hV => (h2.value V (lt_of_lt_of_le hV h1.grows)).trans (h1.value V hV),
    le_trans h1.grows h2.grows,
    h2.count.trans h1.count⟩

/-- Nothing is touched when nothing happens. -/
theorem Untouched_refl (D : List SymId) (U : SymId) (c : Compiler) : Untouched D U c c :=
  ⟨fun _ _ => rfl, fun _ _ _ => rfl, fun _ _ h _ => h⟩

/-- What two steps in sequence leave alone. -/
theorem Untouched_trans (D : List SymId) (U : SymId) (c c1 c2 : Compiler)
    (he : Extends c c1) (h1 : Untouched D U c c1) (h2 : Untouched D U c1 c2) :
    Untouched D U c c2 :=
  ⟨fun G hG => (h2.parent G hG).trans (h1.parent G hG),
    fun G hG hU => (h2.locals G hG hU).trans (h1.locals G hG hU),
    fun V hV ho hargs =>
      h2.owner V (lt_of_lt_of_le hV he.grows) (h1.owner V hV ho hargs)
        (fun G hG => by rw [he.arguments G]; exact hargs G hG)⟩

/-- A step that defines fewer functions leaves more alone. -/
theorem Untouched_mono (D D' : List SymId) (U : SymId) (c c' : Compiler)
    (hsub : ∀ x ∈ D, x ∈ D') (h : Untouched D U c c') : Untouched D' U c c' :=
  ⟨fun G hG => h.parent G (fun hx => hG (hsub G hx)),
    fun G hG hU => h.locals G (fun hx => hG (hsub G hx)) hU,
    fun V hV ho hargs => h.owner V hV ho (fun G hG => hargs G (hsub G hG))⟩

/-- Resolving inside a function `F` defined here leaves alone, seen from the
function `U` that holds the definition, everything but `F` and what the tree in
`F` defines. -/
theorem Untouched_nested (D : List SymId) (F U : SymId) (c c' : Compiler)
    (h : Untouched D F c c') : Untouched (F :: D) U c c' :=
  ⟨fun G hG => h.parent G (fun hx => hG (List.mem_cons_of_mem _ hx)),
    fun G hG _ => h.locals G (fun hx => hG (List.mem_cons_of_mem _ hx))
      (fun hx => hG (hx ▸ List.mem_cons_self _ _)),
    fun V hV ho hargs => h.owner V hV ho (fun G hG => hargs G (List.mem_cons_of_mem _ hG))⟩

/-- The state reached by doing nothing. -/
theorem Resolved_refl (D : List SymId) (parents : List Ancestor) (U : SymId) (c : Compiler)
    (hinv : LocalsInvariant c) (hchain : Chain parents U c) : Resolved D parents U c c :=
  ⟨hinv, Extends_refl c, Untouched_refl D U c, hchain.captured⟩

/-- The state reached by two steps in sequence. -/
theorem Resolved_trans (D : List SymId) (parents : List Ancestor) (U : SymId)
    (c c1 c2 : Compiler) (h1 : Resolved D parents U c c1) (h2 : Resolved D parents U c1 c2) :
    Resolved D parents U c c2 :=
  ⟨h2.invariant, Extends_trans c c1 c2 h1.extends_ h2.extends_,
    Untouched_trans D U c c1 c2 h1.extends_ h1.untouched h2.untouched, h2.captured⟩

/-- A state reached by defining some functions is reached by defining more. -/
theorem Resolved_mono (D D' : List SymId) (parents : List Ancestor) (U : SymId)
    (c c' : Compiler) (hsub : ∀ x ∈ D, x ∈ D') (h : Resolved D parents U c c') :
    Resolved D' parents U c c' :=
  ⟨h.invariant, h.extends_, Untouched_mono D D' U c c' hsub h.untouched, h.captured⟩

/-- The same state, seen from ancestors with the same nearest function body. -/
theorem Resolved_outer (D : List SymId) (parents parents' : List Ancestor) (U : SymId)
    (c c' : Compiler) (houter : outerVariables parents' = outerVariables parents)
    (h : Resolved D parents' U c c') : Resolved D parents U c c' :=
  ⟨h.invariant, h.extends_, h.untouched, fun e he hne => houter ▸ h.captured e he hne⟩

/-- A function symbol whose definition is still to come stays as the parser made
it while other definitions are resolved. -/
theorem Fresh_mono (D : List SymId) (U F : SymId) (c c' : Compiler) (hfresh : Fresh c F)
    (hinv : LocalsInvariant c) (he : Extends c c') (hu : Untouched D U c c')
    (hD : F ∉ D) (hU : F ≠ U) : Fresh c' F := by
  have hl : c'.localsOf F = c.localsOf F := hu.locals F hD hU
  refine ⟨(hu.parent F hD).trans hfresh.parent, he.count ▸ hfresh.valid, ?_, ?_⟩
  · rw [hl]
    exact hfresh.locals
  · intro a ha
    rw [he.arguments F] at ha
    obtain ⟨hlt, hown, hfind⟩ := hfresh.arguments a ha
    refine ⟨lt_of_lt_of_le hlt he.grows, ?_, hl ▸ hfind⟩
    exact hu.owner a hlt hown
      (fun G hG hmem => hinv.disjoint F G a (fun e => hD (e ▸ hG)) ha hmem)

/-- The ancestors of a node keep what holds of them while a tree below is
resolved that defines none of the functions visible from the node. -/
theorem Chain_later (D : List SymId) (parents : List Ancestor) (U : SymId) (c c' : Compiler)
    (hchain : Chain parents U c) (hres : Resolved D parents U c c')
    (hvis : ∀ G ∈ visibleFunctions parents, G ∉ D) : Chain parents U c' := by
  have hp := hres.extends_.parent
  refine ⟨hchain.function, hres.extends_.count ▸ hchain.valid, ?_, ?_, ?_, ?_, hres.captured,
    hchain.nested⟩
  · intro V hV
    obtain ⟨E, ho, he⟩ := hchain.vars V hV
    exact ⟨E, hres.extends_.owner V E ho, Encloses_mono c c' hp E U he⟩
  · intro G hG
    obtain ⟨P, hpar, he⟩ := hchain.funcs G hG
    exact ⟨P, hp G P hpar, Encloses_mono c c' hp P U he⟩
  · intro G hG e he hne
    by_cases hGU : G = U
    · subst hGU
      exact hchain.nested _ (hres.captured e he hne)
    · rw [hres.untouched.locals G (hvis G hG) hGU] at he
      exact hchain.homes G hG e he hne
  · intro V hV
    rcases hchain.own V hV with h | h
    · exact Or.inl (hres.extends_.owner V U h)
    · exact Or.inr h

/-- A function symbol whose definition is still to come is not visible. -/
theorem Fresh_not_visible (parents : List Ancestor) (U F : SymId) (c : Compiler)
    (hchain : Chain parents U c) (hfresh : Fresh c F) : F ∉ visibleFunctions parents := by
  intro hmem
  obtain ⟨P, hpar, _⟩ := hchain.funcs F hmem
  rw [hfresh.parent] at hpar
  cases hpar

/-- The ancestors of a node keep what holds of them while a tree below is resolved whose
function symbols are still as the parser made them. -/
theorem Chain_mono (D : List SymId) (parents : List Ancestor) (U : SymId) (c c' : Compiler)
    (hchain : Chain parents U c) (hres : Resolved D parents U c c')
    (hfresh : ∀ F ∈ D, Fresh c F) : Chain parents U c' :=
  Chain_later D parents U c c' hchain hres
    (fun G hG hD => Fresh_not_visible parents U G c hchain (hfresh G hD) hG)

/-- A node that is no frame sees what its parent sees. -/
theorem Chain_node (parents : List Ancestor) (U : SymId) (c : Compiler)
    (h : Chain parents U c) : Chain (.Node :: parents) U c :=
  ⟨h.function, h.valid, h.vars, h.funcs, h.homes, h.own, h.captured, h.nested⟩

/-- Inside a function there is a frame. -/
theorem getFrame_of_getFunction : ∀ (parents : List Ancestor) (U : SymId),
    getFunction parents = some U → ∃ frame, getFrame parents = some frame
  | [], _, h => by simp [getFunction] at h
  | .Node :: parents, U, h => getFrame_of_getFunction parents U h
  | .Frame st :: _, _, _ => ⟨st, rfl⟩
  | .FunctionBody st _ :: _, _, _ => ⟨st, rfl⟩

/-! ## The fields after an assignment to a symbol -/

theorem parentOf_set (c c1 : Compiler) (U : SymId) (Fs Fs' : FunctionSymbol)
    (hU : c.functionSymbols[U]? = some Fs)
    (hset : c1.functionSymbols = c.functionSymbols.set U Fs') (G : SymId) :
    c1.parentOf G = if G = U then Fs'.parent else c.parentOf G := by
  have hlt : U < c.functionSymbols.length := (List.getElem?_eq_some_iff.mp hU).1
  unfold Compiler.parentOf
  rw [hset]
  by_cases hG : G = U
  · subst hG
    simp [List.getElem?_set, hlt]
  · simp [List.getElem?_set, hG, Ne.symm hG]

/-- The `locals` after one function symbol was assigned. -/
theorem localsOf_set (c c1 : Compiler) (U : SymId) (Fs Fs' : FunctionSymbol)
    (hU : c.functionSymbols[U]? = some Fs)
    (hset : c1.functionSymbols = c.functionSymbols.set U Fs') (G : SymId) :
    c1.localsOf G = if G = U then Fs'.locals else c.localsOf G := by
  have hlt : U < c.functionSymbols.length := (List.getElem?_eq_some_iff.mp hU).1
  unfold Compiler.localsOf
  rw [hset]
  by_cases hG : G = U
  · subst hG
    simp [List.getElem?_set, hlt]
  · simp [List.getElem?_set, hG, Ne.symm hG]

/-- The parameters after one function symbol was assigned. -/
theorem argumentsOf_set (c c1 : Compiler) (U : SymId) (Fs Fs' : FunctionSymbol)
    (hU : c.functionSymbols[U]? = some Fs)
    (hset : c1.functionSymbols = c.functionSymbols.set U Fs') (G : SymId) :
    c1.argumentsOf G = if G = U then Fs'.arguments else c.argumentsOf G := by
  have hlt : U < c.functionSymbols.length := (List.getElem?_eq_some_iff.mp hU).1
  unfold Compiler.argumentsOf
  rw [hset]
  by_cases hG : G = U
  · subst hG
    simp [List.getElem?_set, hlt]
  · simp [List.getElem?_set, hG, Ne.symm hG]

/-- The owners after a variable symbol was created. -/
theorem ownerOf_append (c c1 : Compiler) (v : VariableSymbol)
    (happ : c1.variableSymbols = c.variableSymbols ++ [v]) (X : SymId) :
    c1.ownerOf X = if X = c.variableSymbols.length then v.function else c.ownerOf X := by
  unfold Compiler.ownerOf
  rw [happ]
  by_cases hX : X = c.variableSymbols.length
  · subst hX
    simp
  · rcases Nat.lt_or_gt_of_ne hX with hlt | hgt
    · simp [List.getElem?_append_left hlt, hX]
    · have h1 : (c.variableSymbols ++ [v])[X]? = none := by
        apply List.getElem?_eq_none
        simp
        omega
      have h2 : c.variableSymbols[X]? = none := by
        apply List.getElem?_eq_none
        omega
      simp [h1, h2, hX]

/-- The values after a variable symbol was created. -/
theorem valueOf_append (c c1 : Compiler) (v : VariableSymbol)
    (happ : c1.variableSymbols = c.variableSymbols ++ [v]) (X : SymId)
    (hX : X < c.variableSymbols.length) : c1.valueOf X = c.valueOf X := by
  unfold Compiler.valueOf
  rw [happ, List.getElem?_append_left hX]

/-- No variable symbol beyond the last one has an owner. -/
theorem ownerOf_none_of_ge (c : Compiler) (X : SymId) (h : c.variableSymbols.length ≤ X) :
    c.ownerOf X = none := by
  unfold Compiler.ownerOf
  rw [List.getElem?_eq_none h]
  rfl

/-- A variable that has an owner is a valid pointer. -/
theorem ownerOf_valid (c : Compiler) (X E : SymId) (h : c.ownerOf X = some E) :
    ∃ v, c.variableSymbols[X]? = some v := by
  unfold Compiler.ownerOf at h
  cases hv : c.variableSymbols[X]? with
  | none => simp [hv] at h
  | some v => exact ⟨v, rfl⟩

/-- A function that has a parent is a valid pointer. -/
theorem parentOf_valid (c : Compiler) (G P : SymId) (h : c.parentOf G = some P) :
    ∃ f, c.functionSymbols[G]? = some f := by
  unfold Compiler.parentOf at h
  cases hv : c.functionSymbols[G]? with
  | none => simp [hv] at h
  | some f => exact ⟨f, rfl⟩

/-- The `locals` of a function symbol that is there. -/
theorem localsOf_eq (c : Compiler) (F : SymId) (Fs : FunctionSymbol)
    (h : c.functionSymbols[F]? = some Fs) : c.localsOf F = Fs.locals := by
  simp [Compiler.localsOf, h]

/-- The parameters of a function symbol that is there. -/
theorem argumentsOf_eq (c : Compiler) (F : SymId) (Fs : FunctionSymbol)
    (h : c.functionSymbols[F]? = some Fs) : c.argumentsOf F = Fs.arguments := by
  simp [Compiler.argumentsOf, h]

/-- The parent of a function symbol that is there. -/
theorem parentOf_eq (c : Compiler) (F : SymId) (Fs : FunctionSymbol)
    (h : c.functionSymbols[F]? = some Fs) : c.parentOf F = Fs.parent := by
  simp [Compiler.parentOf, h]

/-! ## The steps of the resolution pass -/

/-- Importing a visible variable into the function of the node. -/
theorem importUpvalue_resolved (parents : List Ancestor) (U V : SymId) (c c' : Compiler)
    (o : Outcome SymId) (hinv : LocalsInvariant c) (hchain : Chain parents U c)
    (hV : V ∈ visibleVariables parents) (h : importUpvalue U V c = (o, c')) :
    Resolved [] parents U c c' := by
  obtain ⟨Fs, hFs⟩ : ∃ Fs, c.functionSymbols[U]? = some Fs :=
    ⟨_, List.getElem?_eq_getElem hchain.valid⟩
  have hloc : c.localsOf U = Fs.locals := localsOf_eq c U Fs hFs
  cases hfind : LocalsMap.find V Fs.locals with
  | some l =>
    rw [importUpvalue_known U V l Fs c hFs hfind] at h
    simp only [Prod.mk.injEq] at h
    rw [← h.2]
    exact Resolved_refl [] parents U c hinv hchain
  | none =>
    obtain ⟨E, hown, henc⟩ := hchain.vars V hV
    obtain ⟨vs, hvs⟩ := ownerOf_valid c V E hown
    rw [importUpvalue_new U V Fs vs c hFs hfind hvs] at h
    simp only [Prod.mk.injEq] at h
    obtain ⟨_, hc'⟩ := h
    have happ : c'.variableSymbols = c.variableSymbols ++
        [{ name := vs.name, type := vs.type, function := none, value := none }] := by
      rw [← hc']
    have hset : c'.functionSymbols = c.functionSymbols.set U
        { Fs with locals := Fs.locals ++ [(V, c.variableSymbols.length)] } := by
      rw [← hc']
    have hown' : ∀ X, c'.ownerOf X = c.ownerOf X := by
      intro X
      rw [ownerOf_append c c' _ happ X]
      by_cases hX : X = c.variableSymbols.length
      · simp [hX, ownerOf_none_of_ge c _ (le_refl _)]
      · simp [hX]
    have hpar : ∀ G, c'.parentOf G = c.parentOf G := by
      intro G
      rw [parentOf_set c c' U Fs _ hFs hset G]
      by_cases hG : G = U
      · simp [hG, parentOf_eq c U Fs hFs]
      · simp [hG]
    have hargs : ∀ G, c'.argumentsOf G = c.argumentsOf G := by
      intro G
      rw [argumentsOf_set c c' U Fs _ hFs hset G]
      by_cases hG : G = U
      · simp [hG, argumentsOf_eq c U Fs hFs]
      · simp [hG]
    have hlocU : c'.localsOf U = c.localsOf U ++ [(V, c.variableSymbols.length)] := by
      rw [localsOf_set c c' U Fs _ hFs hset U, hloc]
      simp
    have hlocG : ∀ G, G ≠ U → c'.localsOf G = c.localsOf G := by
      intro G hG
      rw [localsOf_set c c' U Fs _ hFs hset G]
      simp [hG]
    have hEU : E ≠ U := by
      intro hE
      subst hE
      have := hinv.own V E hown
      rw [hloc, hfind] at this
      cases this
    have hpmono : ∀ F P, c.parentOf F = some P → c'.parentOf F = some P :=
      fun F P hp => (hpar F).trans hp
    have hVlt : V < c.variableSymbols.length := (List.getElem?_eq_some_iff.mp hvs).1
    refine ⟨⟨?_, ?_, ?_⟩, ⟨?_, hpmono, hargs, ?_, ?_, ?_⟩, ⟨?_, ?_, ?_⟩, ?_⟩
    · intro X F hX
      rw [hown' X] at hX
      have hf := hinv.own X F hX
      by_cases hFU : F = U
      · subst hFU
        rw [hlocU]
        exact find_append_some X X _ _ hf
      · rw [hlocG F hFU]
        exact hf
    · intro F e he hne
      by_cases hFU : F = U
      · subst hFU
        rw [hlocU, List.mem_append, List.mem_singleton] at he
        rcases he with he | he
        · obtain ⟨E', ho, hn, hs⟩ := hinv.captured F e he hne
          exact ⟨E', (hown' _).trans ho, hn, StrictlyEncloses_mono c c' hpmono E' F hs⟩
        · subst he
          exact ⟨E, (hown' V).trans hown, hEU,
            StrictlyEncloses_mono c c' hpmono E F (Encloses_strict c E F henc hEU)⟩
      · rw [hlocG F hFU] at he
        obtain ⟨E', ho, hn, hs⟩ := hinv.captured F e he hne
        exact ⟨E', (hown' _).trans ho, hn, StrictlyEncloses_mono c c' hpmono E' F hs⟩
    · intro F G a hFG ha
      rw [hargs F] at ha
      rw [hargs G]
      exact hinv.disjoint F G a hFG ha
    · intro X F hX
      exact (hown' X).trans hX
    · intro X hX
      exact valueOf_append c c' _ happ X hX
    · rw [happ]
      simp
    · rw [hset]
      simp
    · intro G _
      exact hpar G
    · intro G _ hG
      exact hlocG G hG
    · intro X _ hX _
      exact (hown' X).trans hX
    · intro e he hne
      rw [hlocU, List.mem_append, List.mem_singleton] at he
      rcases he with he | he
      · exact hchain.captured e he hne
      · subst he
        rcases hchain.own V hV with ho | ho
        · rw [hown] at ho
          exact absurd (Option.some.inj ho) hEU
        · exact ho

/-- One turn of the loop of `ASTFunctionCall::resolveVariables` over `callee->locals`. -/
theorem importUpvaluesOf_cons (caller : SymId) (i : SymId × SymId)
    (rest : List (SymId × SymId)) (c : Compiler) :
    importUpvaluesOf caller (i :: rest) c =
      if i.1 ≠ i.2 then
        M.bind (importUpvalue caller i.1) (fun _ => importUpvaluesOf caller rest) c
      else importUpvaluesOf caller rest c := by
  rw [importUpvaluesOf]
  by_cases h : i.1 = i.2
  · simp [h, M.bind, M.pure]
  · simp [h, M.bind, M.pure]

/-- Importing what a visible function has captured into the function of the
node. -/
theorem importUpvaluesOf_resolved (parents : List Ancestor) (U : SymId) :
    ∀ (locals : List (SymId × SymId)) (c c' : Compiler) (o : Outcome Unit),
    (∀ e ∈ locals, e.1 ≠ e.2 → e.1 ∈ visibleVariables parents) →
    LocalsInvariant c → Chain parents U c → importUpvaluesOf U locals c = (o, c') →
    Resolved [] parents U c c'
  | [], c, c', o, _, hinv, hchain, h => by
    simp [importUpvaluesOf, M.pure] at h
    rw [← h.2]
    exact Resolved_refl [] parents U c hinv hchain
  | i :: rest, c, c', o, hvis, hinv, hchain, h => by
    rw [importUpvaluesOf_cons] at h
    have hrest : ∀ e ∈ rest, e.1 ≠ e.2 → e.1 ∈ visibleVariables parents :=
      fun e he => hvis e (List.mem_cons_of_mem _ he)
    by_cases hne : i.1 = i.2
    · simp only [hne, ne_eq, not_true_eq_false, if_false] at h
      exact importUpvaluesOf_resolved parents U rest c c' o hrest hinv hchain h
    · simp only [hne, ne_eq, not_false_eq_true, if_true] at h
      cases h1 : importUpvalue U i.1 c with
      | mk o1 c1 =>
        have hr1 := importUpvalue_resolved parents U i.1 c c1 o1 hinv hchain
          (hvis i (List.mem_cons_self _ _) hne) h1
        cases o1 with
        | ok l =>
          simp only [M.bind, h1] at h
          have hchain1 := Chain_mono [] parents U c c1 hchain hr1 (fun F hF => by simp at hF)
          exact Resolved_trans [] parents U c c1 c' hr1
            (importUpvaluesOf_resolved parents U rest c1 c' o hrest hr1.invariant hchain1 h)
        | thrown e =>
          simp only [M.bind, h1, Prod.mk.injEq] at h
          rw [← h.2]
          exact hr1
        | fault e =>
          simp only [M.bind, h1, Prod.mk.injEq] at h
          rw [← h.2]
          exact hr1

/-- The new variable of a definition, entered into the `locals` of its
function. -/
theorem declared_resolved (parents : List Ancestor) (U : SymId) (id : String)
    (type : Option CalcType) (Fs : FunctionSymbol) (c : Compiler)
    (hinv : LocalsInvariant c) (hchain : Chain parents U c)
    (hFs : c.functionSymbols[U]? = some Fs) :
    Resolved [] parents U c (ASTDefineVariable.declared id type U Fs c) ∧
      (ASTDefineVariable.declared id type U Fs c).ownerOf c.variableSymbols.length = some U := by
  have hloc : c.localsOf U = Fs.locals := localsOf_eq c U Fs hFs
  have happ : (ASTDefineVariable.declared id type U Fs c).variableSymbols =
      c.variableSymbols ++ [{ name := id, type := type, function := some U, value := none }] :=
    rfl
  have hset : (ASTDefineVariable.declared id type U Fs c).functionSymbols =
      c.functionSymbols.set U
        { Fs with
          locals :=
            LocalsMap.assign c.variableSymbols.length c.variableSymbols.length Fs.locals } :=
    rfl
  generalize ASTDefineVariable.declared id type U Fs c = c' at happ hset ⊢
  have hnew : c'.ownerOf c.variableSymbols.length = some U := by
    rw [ownerOf_append c c' _ happ]
    simp
  have hold : ∀ X, X ≠ c.variableSymbols.length → c'.ownerOf X = c.ownerOf X := by
    intro X hX
    rw [ownerOf_append c c' _ happ X]
    simp [hX]
  have hownE : ∀ X E, c.ownerOf X = some E → X ≠ c.variableSymbols.length := by
    intro X E hX hlen
    rw [hlen, ownerOf_none_of_ge c _ (le_refl _)] at hX
    cases hX
  have hpar : ∀ G, c'.parentOf G = c.parentOf G := by
    intro G
    rw [parentOf_set c c' U Fs _ hFs hset G]
    by_cases hG : G = U
    · simp [hG, parentOf_eq c U Fs hFs]
    · simp [hG]
  have hargs : ∀ G, c'.argumentsOf G = c.argumentsOf G := by
    intro G
    rw [argumentsOf_set c c' U Fs _ hFs hset G]
    by_cases hG : G = U
    · simp [hG, argumentsOf_eq c U Fs hFs]
    · simp [hG]
  have hlocU : c'.localsOf U =
      LocalsMap.assign c.variableSymbols.length c.variableSymbols.length (c.localsOf U) := by
    rw [localsOf_set c c' U Fs _ hFs hset U, hloc]
    simp
  have hlocG : ∀ G, G ≠ U → c'.localsOf G = c.localsOf G := by
    intro G hG
    rw [localsOf_set c c' U Fs _ hFs hset G]
    simp [hG]
  have hpmono : ∀ F P, c.parentOf F = some P → c'.parentOf F = some P :=
    fun F P hp => (hpar F).trans hp
  have hcap : ∀ F e, e ∈ c'.localsOf F → e.1 ≠ e.2 → e ∈ c.localsOf F := by
    intro F e he hne
    by_cases hFU : F = U
    · subst hFU
      rw [hlocU] at he
      rcases mem_assign _ _ e he with h | h
      · exact h
      · subst h
        exact absurd rfl hne
    · rw [hlocG F hFU] at he
      exact he
  refine ⟨⟨⟨?_, ?_, ?_⟩, ⟨?_, hpmono, hargs, ?_, ?_, ?_⟩, ⟨?_, ?_, ?_⟩, ?_⟩, hnew⟩
  · intro X F hX
    by_cases hXn : X = c.variableSymbols.length
    · subst hXn
      rw [hnew] at hX
      cases hX
      rw [hlocU]
      exact LocalsMap_find_assign_self _ _
    · rw [hold X hXn] at hX
      have hf := hinv.own X F hX
      by_cases hFU : F = U
      · subst hFU
        rw [hlocU, LocalsMap_find_assign_ne X _ _ hXn]
        exact hf
      · rw [hlocG F hFU]
        exact hf
  · intro F e he hne
    obtain ⟨E', ho, hn, hs⟩ := hinv.captured F e (hcap F e he hne) hne
    exact ⟨E', (hold _ (hownE _ E' ho)).trans ho, hn, StrictlyEncloses_mono c c' hpmono E' F hs⟩
  · intro F G a hFG ha
    rw [hargs F] at ha
    rw [hargs G]
    exact hinv.disjoint F G a hFG ha
  · intro X F hX
    exact (hold X (hownE X F hX)).trans hX
  · intro X hX
    exact valueOf_append c c' _ happ X hX
  · rw [happ]
    simp
  · rw [hset]
    simp
  · intro G _
    exact hpar G
  · intro G _ hG
    exact hlocG G hG
  · intro X hlt hX _
    exact (hold X (Nat.ne_of_lt hlt)).trans hX
  · intro e he hne
    exact hchain.captured e (hcap U e he hne) hne

/-- Claiming the parameters creates no variable symbol. -/
theorem claimAll_length (F : SymId) : ∀ (arguments : List SymId) (vars : List VariableSymbol),
    (claimAll F arguments vars).length = vars.length
  | [], _ => rfl
  | a :: rest, vars => by
    rw [claimAll, claimAll_length F rest]
    cases vars[a]? <;> simp

/-- The variable symbols after the parameters were claimed. -/
theorem claimAll_getElem (F : SymId) : ∀ (arguments : List SymId) (vars : List VariableSymbol)
    (X : SymId),
    (claimAll F arguments vars)[X]? =
      (vars[X]?).map (fun v => if X ∈ arguments then { v with function := some F } else v)
  | [], vars, X => by simp [claimAll]
  | a :: rest, vars, X => by
    rw [claimAll, claimAll_getElem F rest]
    cases ha : vars[a]? with
    | none =>
      by_cases hX : X = a
      · subst hX
        simp [ha]
      · simp [hX]
    | some v =>
      have hlt : a < vars.length := (List.getElem?_eq_some_iff.mp ha).1
      by_cases hX : X = a
      · subst hX
        simp [List.getElem?_set, hlt, ha]
      · simp [List.getElem?_set, hX, Ne.symm hX]

/-- The owners after the parameters were claimed. -/
theorem ownerOf_claimed (F : SymId) (arguments : List SymId) (c : Compiler) (X : SymId) :
    (ASTFunctionBody.claimed F arguments c).ownerOf X =
      if X ∈ arguments ∧ X < c.variableSymbols.length then some F else c.ownerOf X := by
  unfold Compiler.ownerOf ASTFunctionBody.claimed
  simp only [claimAll_getElem]
  cases hX : c.variableSymbols[X]? with
  | none =>
    have : ¬ X < c.variableSymbols.length := by
      intro hlt
      rw [List.getElem?_eq_getElem hlt] at hX
      cases hX
    simp [this]
  | some v =>
    have hlt : X < c.variableSymbols.length := (List.getElem?_eq_some_iff.mp hX).1
    by_cases hmem : X ∈ arguments <;> simp [hmem, hlt]

/-- Claiming the parameters assigns no value. -/
theorem valueOf_claimed (F : SymId) (arguments : List SymId) (c : Compiler) (X : SymId) :
    (ASTFunctionBody.claimed F arguments c).valueOf X = c.valueOf X := by
  unfold Compiler.valueOf ASTFunctionBody.claimed
  simp only [claimAll_getElem]
  cases hX : c.variableSymbols[X]? with
  | none => rfl
  | some v => by_cases hmem : X ∈ arguments <;> simp [hmem]

/-- Claiming the parameters assigns no name. -/
theorem nameOf_claimed (F : SymId) (arguments : List SymId) (c : Compiler) (X : SymId) :
    (ASTFunctionBody.claimed F arguments c).nameOf X = c.nameOf X := by
  unfold Compiler.nameOf ASTFunctionBody.claimed
  simp only [claimAll_getElem]
  cases hX : c.variableSymbols[X]? with
  | none => rfl
  | some v => by_cases hmem : X ∈ arguments <;> simp [hmem]

/-- The parent of a function symbol is assigned. -/
theorem adopted_resolved (parents : List Ancestor) (U F : SymId) (Fs : FunctionSymbol)
    (c : Compiler) (hinv : LocalsInvariant c) (hchain : Chain parents U c)
    (hFs : c.functionSymbols[F]? = some Fs) (hpar : c.parentOf F = none) :
    Resolved [F] parents U c (ASTDefineFunction.adopted F U Fs c) ∧
      (ASTDefineFunction.adopted F U Fs c).parentOf F = some U := by
  have hset : (ASTDefineFunction.adopted F U Fs c).functionSymbols =
      c.functionSymbols.set F { Fs with parent := some U } := rfl
  have hvars : (ASTDefineFunction.adopted F U Fs c).variableSymbols = c.variableSymbols := rfl
  generalize ASTDefineFunction.adopted F U Fs c = c' at hset hvars ⊢
  have hown : ∀ X, c'.ownerOf X = c.ownerOf X := by
    intro X
    unfold Compiler.ownerOf
    rw [hvars]
  have hval : ∀ X, c'.valueOf X = c.valueOf X := by
    intro X
    unfold Compiler.valueOf
    rw [hvars]
  have hparF : c'.parentOf F = some U := by
    rw [parentOf_set c c' F Fs _ hFs hset F]
    simp
  have hparG : ∀ G, G ≠ F → c'.parentOf G = c.parentOf G := by
    intro G hG
    rw [parentOf_set c c' F Fs _ hFs hset G]
    simp [hG]
  have hargs : ∀ G, c'.argumentsOf G = c.argumentsOf G := by
    intro G
    rw [argumentsOf_set c c' F Fs _ hFs hset G]
    by_cases hG : G = F
    · simp [hG, argumentsOf_eq c F Fs hFs]
    · simp [hG]
  have hloc : ∀ G, c'.localsOf G = c.localsOf G := by
    intro G
    rw [localsOf_set c c' F Fs _ hFs hset G]
    by_cases hG : G = F
    · simp [hG, localsOf_eq c F Fs hFs]
    · simp [hG]
  have hpmono : ∀ G P, c.parentOf G = some P → c'.parentOf G = some P := by
    intro G P hp
    by_cases hG : G = F
    · subst hG
      rw [hpar] at hp
      cases hp
    · exact (hparG G hG).trans hp
  refine ⟨⟨⟨?_, ?_, ?_⟩, ⟨?_, hpmono, hargs, ?_, ?_, ?_⟩, ⟨?_, ?_, ?_⟩, ?_⟩, hparF⟩
  · intro X E hX
    rw [hown X] at hX
    rw [hloc E]
    exact hinv.own X E hX
  · intro G e he hne
    rw [hloc G] at he
    obtain ⟨E', ho, hn, hs⟩ := hinv.captured G e he hne
    exact ⟨E', (hown _).trans ho, hn, StrictlyEncloses_mono c c' hpmono E' G hs⟩
  · intro G H a hGH ha
    rw [hargs G] at ha
    rw [hargs H]
    exact hinv.disjoint G H a hGH ha
  · intro X E hX
    exact (hown X).trans hX
  · intro X _
    exact hval X
  · rw [hvars]
  · rw [hset]
    simp
  · intro G hG
    exact hparG G (fun e => hG (by simp [e]))
  · intro G _ _
    exact hloc G
  · intro X _ hX _
    exact (hown X).trans hX
  · intro e he hne
    rw [hloc U] at he
    exact hchain.captured e he hne

/-- The declared parameters of a function get the function as their owner. -/
theorem claimed_resolved (parents : List Ancestor) (U F : SymId) (c : Compiler)
    (hinv : LocalsInvariant c) (hchain : Chain parents U c)
    (hargs : ∀ a ∈ c.argumentsOf F, a < c.variableSymbols.length ∧ c.ownerOf a = none ∧
      LocalsMap.find a (c.localsOf F) = some a) :
    Resolved [F] parents U c (ASTFunctionBody.claimed F (c.argumentsOf F) c) := by
  have hfun : (ASTFunctionBody.claimed F (c.argumentsOf F) c).functionSymbols =
      c.functionSymbols := rfl
  have hlen : (ASTFunctionBody.claimed F (c.argumentsOf F) c).variableSymbols.length =
      c.variableSymbols.length := claimAll_length F _ _
  have hown := ownerOf_claimed F (c.argumentsOf F) c
  have hval := valueOf_claimed F (c.argumentsOf F) c
  generalize ASTFunctionBody.claimed F (c.argumentsOf F) c = c' at hfun hlen hown hval ⊢
  have hpar : ∀ G, c'.parentOf G = c.parentOf G := by
    intro G
    unfold Compiler.parentOf
    rw [hfun]
  have hloc : ∀ G, c'.localsOf G = c.localsOf G := by
    intro G
    unfold Compiler.localsOf
    rw [hfun]
  have harg : ∀ G, c'.argumentsOf G = c.argumentsOf G := by
    intro G
    unfold Compiler.argumentsOf
    rw [hfun]
  have hpmono : ∀ G P, c.parentOf G = some P → c'.parentOf G = some P :=
    fun G P hp => (hpar G).trans hp
  have hkeep : ∀ X E, c.ownerOf X = some E → c'.ownerOf X = some E := by
    intro X E hX
    rw [hown X]
    by_cases hmem : X ∈ c.argumentsOf F
    · rw [(hargs X hmem).2.1] at hX
      cases hX
    · simp [hmem, hX]
  refine ⟨⟨?_, ?_, ?_⟩, ⟨hkeep, hpmono, harg, ?_, ?_, ?_⟩, ⟨?_, ?_, ?_⟩, ?_⟩
  · intro X E hX
    rw [hown X] at hX
    rw [hloc E]
    by_cases hmem : X ∈ c.argumentsOf F
    · have hlt := (hargs X hmem).1
      simp only [hmem, hlt, and_self, if_true, Option.some.injEq] at hX
      subst hX
      exact (hargs X hmem).2.2
    · simp only [hmem, false_and, if_false] at hX
      exact hinv.own X E hX
  · intro G e he hne
    rw [hloc G] at he
    obtain ⟨E', ho, hn, hs⟩ := hinv.captured G e he hne
    exact ⟨E', hkeep _ _ ho, hn, StrictlyEncloses_mono c c' hpmono E' G hs⟩
  · intro G H a hGH ha
    rw [harg G] at ha
    rw [harg H]
    exact hinv.disjoint G H a hGH ha
  · intro X _
    exact hval X
  · rw [hlen]
  · rw [hfun]
  · intro G _
    exact hpar G
  · intro G _ _
    exact hloc G
  · intro X _ hX hnot
    rw [hown X]
    have : X ∉ c.argumentsOf F := hnot F (List.mem_cons_self _ _)
    simp [this, hX]
  · intro e he hne
    rw [hloc U] at he
    exact hchain.captured e he hne

/-! ## What is visible in a new frame -/

theorem frameTable_of (parents : List Ancestor) (frame : Option SymbolTable)
    (h : getFrame parents = some frame) : frameTable parents = frame.getD [] := by
  unfold frameTable
  rw [h]
  cases frame <;> rfl

/-- The variables visible below a frame are those of its table. -/
theorem visibleVariables_frame (st : SymbolTable) (parents : List Ancestor) :
    visibleVariables (.Frame (some st) :: parents) = variablesIn (SymbolTable.symbols st) := rfl

/-- The functions visible below a frame are those of its table. -/
theorem visibleFunctions_frame (st : SymbolTable) (parents : List Ancestor) :
    visibleFunctions (.Frame (some st) :: parents) = functionsIn (SymbolTable.symbols st) := rfl

/-- The variables visible below a function body are those of its table. -/
theorem visibleVariables_body (st : SymbolTable) (F : SymId) (parents : List Ancestor) :
    visibleVariables (.FunctionBody (some st) F :: parents) =
      variablesIn (SymbolTable.symbols st) := rfl

/-- The functions visible below a function body are those of its table. -/
theorem visibleFunctions_body (st : SymbolTable) (F : SymId) (parents : List Ancestor) :
    visibleFunctions (.FunctionBody (some st) F :: parents) =
      functionsIn (SymbolTable.symbols st) := rfl

/-- The body of a variable definition sees the new variable and what the
definition sees. -/
theorem Chain_defineVariable (parents : List Ancestor) (U : SymId) (c : Compiler)
    (frame : Option SymbolTable) (id : String) (n : SymId) (hchain : Chain parents U c)
    (hframe : getFrame parents = some frame) (hn : c.ownerOf n = some U) :
    Chain (.Frame (some (SymbolTable.newSingleton frame id (.Variable n))) :: parents) U c := by
  have hv : ∀ V, V ∈ visibleVariables
      (.Frame (some (SymbolTable.newSingleton frame id (.Variable n))) :: parents) ↔
      V = n ∨ V ∈ visibleVariables parents := by
    intro V
    rw [visibleVariables_frame, symbols_newSingleton]
    simp [variablesIn, visibleVariables, frameTable_of parents frame hframe]
  have hf : visibleFunctions
      (.Frame (some (SymbolTable.newSingleton frame id (.Variable n))) :: parents) =
      visibleFunctions parents := by
    rw [visibleFunctions_frame, symbols_newSingleton]
    simp [functionsIn, visibleFunctions, frameTable_of parents frame hframe]
  refine ⟨hchain.function, hchain.valid, ?_, ?_, ?_, ?_, hchain.captured, ?_⟩
  · intro V hV
    rcases (hv V).mp hV with h | h
    · subst h
      exact ⟨U, hn, Encloses.refl U⟩
    · exact hchain.vars V h
  · intro G hG
    rw [hf] at hG
    exact hchain.funcs G hG
  · intro G hG e he hne
    rw [hf] at hG
    exact (hv _).mpr (Or.inr (hchain.homes G hG e he hne))
  · intro V hV
    rcases (hv V).mp hV with h | h
    · subst h
      exact Or.inl hn
    · exact hchain.own V h
  · intro V hV
    exact (hv V).mpr (Or.inr (hchain.nested V hV))

/-- The frame of a function definition sees the function and what the definition
sees. -/
theorem Chain_defineFunction (parents : List Ancestor) (U F : SymId) (c : Compiler)
    (frame : Option SymbolTable) (name : String) (hchain : Chain parents U c)
    (hframe : getFrame parents = some frame) (hpar : c.parentOf F = some U)
    (hhomes : ∀ e ∈ c.localsOf F, e.1 ≠ e.2 → e.1 ∈ visibleVariables parents) :
    Chain (.Frame (some (SymbolTable.newSingleton frame name (.Function F))) :: parents) U c := by
  have hv : visibleVariables
      (.Frame (some (SymbolTable.newSingleton frame name (.Function F))) :: parents) =
      visibleVariables parents := by
    rw [visibleVariables_frame, symbols_newSingleton]
    simp [variablesIn, visibleVariables, frameTable_of parents frame hframe]
  have hf : ∀ G, G ∈ visibleFunctions
      (.Frame (some (SymbolTable.newSingleton frame name (.Function F))) :: parents) ↔
      G = F ∨ G ∈ visibleFunctions parents := by
    intro G
    rw [visibleFunctions_frame, symbols_newSingleton]
    simp [functionsIn, visibleFunctions, frameTable_of parents frame hframe]
  refine ⟨hchain.function, hchain.valid, ?_, ?_, ?_, ?_, hchain.captured, ?_⟩
  · intro V hV
    rw [hv] at hV
    exact hchain.vars V hV
  · intro G hG
    rcases (hf G).mp hG with h | h
    · subst h
      exact ⟨U, hpar, Encloses.refl U⟩
    · exact hchain.funcs G h
  · intro G hG e he hne
    rw [hv]
    rcases (hf G).mp hG with h | h
    · subst h
      exact hhomes e he hne
    · exact hchain.homes G h e he hne
  · intro V hV
    rw [hv] at hV
    exact hchain.own V hV
  · intro V hV
    rw [hv]
    exact hchain.nested V hV

/-- The table of a function body: the parameters in a new innermost scope. -/
theorem bodyTable_symbols (c0 : Compiler) (arguments : List SymId) (outer : SymbolTable) :
    (∀ V, V ∈ variablesIn (SymbolTable.symbols
        (addAll c0 arguments (SymbolTable.newMultiple (some outer)))) →
      V ∈ arguments ∨ V ∈ variablesIn (SymbolTable.symbols outer)) ∧
    (∀ V, V ∈ variablesIn (SymbolTable.symbols outer) →
      V ∈ variablesIn (SymbolTable.symbols
        (addAll c0 arguments (SymbolTable.newMultiple (some outer))))) ∧
    (∀ G, G ∈ functionsIn (SymbolTable.symbols
        (addAll c0 arguments (SymbolTable.newMultiple (some outer)))) ↔
      G ∈ functionsIn (SymbolTable.symbols outer)) := by
  obtain ⟨syms', heq, hmem⟩ := addAll_symbols c0 arguments [] outer
  have heq' : addAll c0 arguments (SymbolTable.newMultiple (some outer)) =
      Scope.Multiple syms' :: outer := heq
  rw [heq']
  simp only [SymbolTable.symbols, Scope.symbols, variablesIn_append, functionsIn_append,
    List.mem_append]
  refine ⟨?_, fun V hV => Or.inr hV, ?_⟩
  · intro V hV
    rcases hV with h | h
    · rw [mem_variablesIn, List.mem_map] at h
      obtain ⟨e, he, hs⟩ := h
      rcases hmem e he with h1 | ⟨a, ha, hv⟩
      · simp at h1
      · rw [hv] at hs
        cases hs
        exact Or.inl ha
    · exact Or.inr h
  · intro G
    constructor
    · intro hG
      rcases hG with h | h
      · rw [mem_functionsIn, List.mem_map] at h
        obtain ⟨e, he, hs⟩ := h
        rcases hmem e he with h1 | ⟨a, _, hv⟩
        · simp at h1
        · rw [hv] at hs
          cases hs
      · exact h
    · intro hG
      exact Or.inr hG

/-- The body of a function sees its parameters and what the frame of its
definition sees; it has captured nothing yet. -/
theorem Chain_functionBody (parents : List Ancestor) (U F : SymId) (c c0 : Compiler)
    (frame : Option SymbolTable) (name : String) (arguments : List SymId)
    (hchain : Chain parents U c) (hframe : getFrame parents = some frame)
    (hvalid : F < c.functionSymbols.length) (hpar : c.parentOf F = some U)
    (hlocals : ∀ e ∈ c.localsOf F, e.1 = e.2)
    (hargs : ∀ a ∈ arguments, c.ownerOf a = some F) :
    Chain (.FunctionBody (some (addAll c0 arguments (SymbolTable.newMultiple
        (some (SymbolTable.newSingleton frame name (.Function F)))))) F ::
      .Frame (some (SymbolTable.newSingleton frame name (.Function F))) :: parents) F c := by
  have houter := Chain_defineFunction parents U F c frame name hchain hframe hpar
    (fun e he hne => absurd (hlocals e he) hne)
  obtain ⟨hsub, hsup, hfun⟩ := bodyTable_symbols c0 arguments
    (SymbolTable.newSingleton frame name (.Function F))
  have hstep : ∀ E, Encloses c E U → Encloses c E F := fun E he => Encloses.step E F U hpar he
  refine ⟨rfl, hvalid, ?_, ?_, ?_, ?_, ?_, ?_⟩
  · intro V hV
    rw [visibleVariables_body] at hV
    rcases hsub V hV with h | h
    · exact ⟨F, hargs V h, Encloses.refl F⟩
    · obtain ⟨E, ho, he⟩ := houter.vars V h
      exact ⟨E, ho, hstep E he⟩
  · intro G hG
    rw [visibleFunctions_body] at hG
    obtain ⟨P, hp, he⟩ := houter.funcs G ((hfun G).mp hG)
    exact ⟨P, hp, hstep P he⟩
  · intro G hG e he hne
    rw [visibleFunctions_body] at hG
    rw [visibleVariables_body]
    exact hsup _ (houter.homes G ((hfun G).mp hG) e he hne)
  · intro V hV
    rw [visibleVariables_body] at hV
    rcases hsub V hV with h | h
    · exact Or.inl (hargs V h)
    · exact Or.inr h
  · intro e he hne
    exact absurd (hlocals e he) hne
  · intro V hV
    rw [visibleVariables_body]
    exact hsup V hV

/-- `ASTDefineFunction::resolveVariables` with the function body as definition, up
to the two recursive calls: the parent is assigned, the parameters are claimed
and entered into the scope of the body. -/
theorem resolveVariables_defineFunction (position : Position) (st : Option SymbolTable)
    (F : SymId) (p2 : Position) (b body : ASTNode) (parents : List Ancestor)
    (frame : Option SymbolTable) (U : SymId) (Fs : FunctionSymbol) (c : Compiler)
    (hframe : getFrame parents = some frame) (hfun : getFunction parents = some U)
    (hFs : c.functionSymbols[F]? = some Fs)
    (hvalid : ∀ a ∈ Fs.arguments, a < c.variableSymbols.length) :
    resolveVariables (.ASTDefineFunction position st F (.ASTFunctionBody p2 none F b) body)
        parents c =
      M.bind (resolveVariables b
        (.FunctionBody (some (addAll c Fs.arguments (SymbolTable.newMultiple
            (some (SymbolTable.newSingleton frame Fs.name (.Function F)))))) F ::
          .Frame (some (SymbolTable.newSingleton frame Fs.name (.Function F))) :: parents))
        (fun b' =>
          M.bind (resolveVariables body
            (.Frame (some (SymbolTable.newSingleton frame Fs.name (.Function F))) :: parents))
            (fun body' => M.pure (.ASTDefineFunction position
              (some (SymbolTable.newSingleton frame Fs.name (.Function F))) F
              (.ASTFunctionBody p2 (some (addAll c Fs.arguments (SymbolTable.newMultiple
                (some (SymbolTable.newSingleton frame Fs.name (.Function F)))))) F b')
              body')))
        (ASTFunctionBody.claimed F Fs.arguments (ASTDefineFunction.adopted F U Fs c)) := by
  have hlt : F < c.functionSymbols.length := (List.getElem?_eq_some_iff.mp hFs).1
  have hF1 : (ASTDefineFunction.adopted F U Fs c).functionSymbols[F]? =
      some { Fs with parent := some U } := by
    simp [ASTDefineFunction.adopted, List.getElem?_set, hlt]
  have hadd := addArguments_eq F Fs.arguments
    (SymbolTable.newMultiple (some (SymbolTable.newSingleton frame Fs.name (.Function F))))
    (ASTDefineFunction.adopted F U Fs c) hvalid
  have hcongr := addAll_congr c (ASTDefineFunction.adopted F U Fs c) (fun _ => rfl) Fs.arguments
    (SymbolTable.newMultiple (some (SymbolTable.newSingleton frame Fs.name (.Function F))))
  rw [hcongr] at hadd
  simp only [resolveVariables, bind_eq, M.bind, hframe, deref, pure_eq, M.pure,
    getFunctionSymbol, hFs, hfun, modifyFunctionSymbol, modifyCompiler, getFrame]
  simp only [ASTDefineFunction.adopted] at hF1 hadd
  simp only [hF1, M.pure, hadd, ASTFunctionBody.claimed, ASTDefineFunction.adopted]
  cases resolveVariables b _ _ with
  | mk o1 c1 => cases o1 <;> rfl

/-! ## Composing the steps of the resolution pass -/

theorem Resolves_pure {α : Type} (D : List SymId) (parents : List Ancestor) (U : SymId)
    (c : Compiler) (a : α) (Q : α → Compiler → Prop) (hinv : LocalsInvariant c)
    (hcap : ∀ e ∈ c.localsOf U, e.1 ≠ e.2 → e.1 ∈ outerVariables parents) (hQ : Q a c) :
    Resolves D parents U c (M.pure a) Q := by
  intro o c' h
  simp only [M.pure, Prod.mk.injEq] at h
  obtain ⟨ho, hc⟩ := h
  subst hc
  subst ho
  exact ⟨⟨hinv, Extends_refl c, Untouched_refl D U c, hcap⟩, fun a' ha => by cases ha; exact hQ⟩

/-- A step that keeps the state and does not return. -/
theorem Resolves_fail {α : Type} (D : List SymId) (parents : List Ancestor) (U : SymId)
    (c : Compiler) (x : M α) (Q : α → Compiler → Prop) (hinv : LocalsInvariant c)
    (hcap : ∀ e ∈ c.localsOf U, e.1 ≠ e.2 → e.1 ∈ outerVariables parents)
    (hx : ∀ o c', x c = (o, c') → c' = c ∧ ∀ a, o ≠ .ok a) :
    Resolves D parents U c x Q := by
  intro o c' h
  obtain ⟨hc, ho⟩ := hx o c' h
  subst hc
  exact ⟨⟨hinv, Extends_refl c', Untouched_refl D U c', hcap⟩, fun a ha => absurd ha (ho a)⟩

/-- Two steps in sequence: the second runs in the state the first left, where what the first
returned holds. -/
theorem Resolves_bind {α β : Type} (D1 D2 D : List SymId) (parents : List Ancestor) (U : SymId)
    (c : Compiler) (x : M α) (f : α → M β) (Q : α → Compiler → Prop)
    (R : β → Compiler → Prop) (h1 : ∀ F ∈ D1, F ∈ D) (h2 : ∀ F ∈ D2, F ∈ D)
    (hx : Resolves D1 parents U c x Q)
    (hf : ∀ a c1, Resolved D1 parents U c c1 → Q a c1 → Resolves D2 parents U c1 (f a) R) :
    Resolves D parents U c (M.bind x f) R := by
  intro o c' h
  cases hxc : x c with
  | mk o1 c1 =>
    obtain ⟨hr1, hq1⟩ := hx o1 c1 hxc
    cases o1 with
    | ok a =>
      simp only [M.bind, hxc] at h
      obtain ⟨hr2, hq2⟩ := hf a c1 hr1 (hq1 a rfl) o c' h
      exact ⟨Resolved_trans D parents U c c1 c' (Resolved_mono D1 D parents U c c1 h1 hr1)
        (Resolved_mono D2 D parents U c1 c' h2 hr2), hq2⟩
    | thrown e =>
      simp only [M.bind, hxc, Prod.mk.injEq] at h
      obtain ⟨ho, hc⟩ := h
      subst hc
      subst ho
      exact ⟨Resolved_mono D1 D parents U c c1 h1 hr1, fun a ha => by cases ha⟩
    | fault e =>
      simp only [M.bind, hxc, Prod.mk.injEq] at h
      obtain ⟨ho, hc⟩ := h
      subst hc
      subst ho
      exact ⟨Resolved_mono D1 D parents U c c1 h1 hr1, fun a ha => by cases ha⟩

/-- A method that first takes the state from `c` to `c1` and then goes on as `y`. -/
theorem Resolves_from {α : Type} (D1 D2 D : List SymId) (parents : List Ancestor) (U : SymId)
    (c c1 : Compiler) (x y : M α) (Q : α → Compiler → Prop) (h1 : ∀ F ∈ D1, F ∈ D)
    (h2 : ∀ F ∈ D2, F ∈ D) (heq : x c = y c1) (hr : Resolved D1 parents U c c1)
    (hy : Resolves D2 parents U c1 y Q) : Resolves D parents U c x Q := by
  intro o c' h
  rw [heq] at h
  obtain ⟨hr2, hq⟩ := hy o c' h
  exact ⟨Resolved_trans D parents U c c1 c' (Resolved_mono D1 D parents U c c1 h1 hr)
    (Resolved_mono D2 D parents U c1 c' h2 hr2), hq⟩

/-- The same step, seen from ancestors with the same nearest function body. -/
theorem Resolves_outer {α : Type} (D : List SymId) (parents parents' : List Ancestor)
    (U : SymId) (c : Compiler) (x : M α) (Q : α → Compiler → Prop)
    (houter : outerVariables parents' = outerVariables parents)
    (hx : Resolves D parents' U c x Q) : Resolves D parents U c x Q := by
  intro o c' h
  obtain ⟨hr, hq⟩ := hx o c' h
  exact ⟨Resolved_outer D parents parents' U c c' houter hr, hq⟩

/-- A weaker statement about what the step returns. -/
theorem Resolves_post {α : Type} (D : List SymId) (parents : List Ancestor)
    (U : SymId) (c : Compiler) (x : M α) (Q R : α → Compiler → Prop)
    (hx : Resolves D parents U c x Q)
    (hQR : ∀ a c', Resolved D parents U c c' → Q a c' → R a c') :
    Resolves D parents U c x R := by
  intro o c' h
  obtain ⟨hr, hq⟩ := hx o c' h
  exact ⟨hr, fun a ha => hQR a c' hr (hq a ha)⟩

/-- The body of a function `F` defined inside `U`, seen from `U`: besides `F` and
what its body defines nothing of the other functions has changed, and what `F`
has captured is visible where its body stands. -/
theorem Resolves_function {α : Type} (D : List SymId) (parents parents' : List Ancestor)
    (U F : SymId) (c : Compiler) (x : M α) (Q : α → Compiler → Prop)
    (hchain : Chain parents U c) (hUD : U ∉ D) (hUF : U ≠ F)
    (hx : Resolves D parents' F c x Q) :
    Resolves (F :: D) parents U c x (fun a c' => Q a c' ∧
      ∀ e ∈ c'.localsOf F, e.1 ≠ e.2 → e.1 ∈ outerVariables parents') := by
  intro o c' h
  obtain ⟨hr, hq⟩ := hx o c' h
  refine ⟨⟨hr.invariant, hr.extends_, Untouched_nested D F U c c' hr.untouched, ?_⟩,
    fun a ha => ⟨hq a ha, hr.captured⟩⟩
  intro e he hne
  rw [hr.untouched.locals U hUD hUF] at he
  exact hchain.captured e he hne

/-- The function symbols a later tree defines are still as the parser made
them. -/
theorem Fresh_after (D1 D2 : List SymId) (parents : List Ancestor) (U : SymId)
    (c c1 : Compiler) (hfresh : ∀ F ∈ D2, Fresh c F) (hinv : LocalsInvariant c)
    (hr : Resolved D1 parents U c c1) (hdisj : ∀ F ∈ D2, F ∉ D1) (hU : U ∉ D2) :
    ∀ F ∈ D2, Fresh c1 F :=
  fun F hF => Fresh_mono D1 U F c c1 (hfresh F hF) hinv hr.extends_ hr.untouched (hdisj F hF)
    (fun e => hU (e ▸ hF))

mutual
/-- Being well scoped depends on the `locals` and parameters of the functions
whose bodies are in the tree only. -/
theorem Scoped_congr (l l' : SymId → List (SymId × SymId)) (a a' : SymId → List SymId) :
    ∀ (node : ASTNode) (visible : List SymId),
    (∀ F ∈ definedFunctions node, l' F = l F ∧ a' F = a F) →
    Scoped l a visible node → Scoped l' a' visible node
  | .ASTConstant _ _, _, _, _ => by simp [Scoped]
  | .ASTBoolean _ _, _, _, _ => by simp [Scoped]
  | .ASTVariable _ _ _, _, _, _ => by simp [Scoped]
  | .ASTVector _ elements, visible, hD, h => by
    simp only [Scoped, definedFunctions] at h hD ⊢
    exact ScopedList_congr l l' a a' elements visible hD h
  | .ASTVectorSplat _ value _, visible, hD, h => by
    simp only [Scoped, definedFunctions] at h hD ⊢
    exact Scoped_congr l l' a a' value visible hD h
  | .ASTDefineVariable _ _ _ _ value body _, visible, hD, h => by
    simp only [Scoped, definedFunctions, List.mem_append] at h hD ⊢
    exact ⟨Scoped_congr l l' a a' value visible (fun F hF => hD F (Or.inl hF)) h.1, h.2.1,
      Scoped_congr l l' a a' body _ (fun F hF => hD F (Or.inr hF)) h.2.2⟩
  | .ASTFunctionBody _ _ function body, visible, hD, h => by
    simp only [Scoped, definedFunctions, List.mem_cons] at h hD ⊢
    rw [(hD function (Or.inl rfl)).1, (hD function (Or.inl rfl)).2]
    exact ⟨h.1, h.2.1, Scoped_congr l l' a a' body _ (fun F hF => hD F (Or.inr hF)) h.2.2⟩
  | .ASTToplevel _ _ _ body, visible, hD, h => by
    simp only [Scoped, definedFunctions] at h hD ⊢
    exact ⟨h.1, Scoped_congr l l' a a' body _ hD h.2⟩
  | .ASTReturn _, _, _, _ => by simp [Scoped]
  | .ASTDefineFunction _ _ _ definition body, visible, hD, h => by
    simp only [Scoped, definedFunctions, List.mem_append] at h hD ⊢
    exact ⟨h.1, Scoped_congr l l' a a' definition _ (fun F hF => hD F (Or.inl hF)) h.2.1,
      Scoped_congr l l' a a' body _ (fun F hF => hD F (Or.inr hF)) h.2.2⟩
  | .ASTFunctionCall _ _ arguments _, visible, hD, h => by
    simp only [Scoped, definedFunctions] at h hD ⊢
    exact ScopedList_congr l l' a a' arguments visible hD h
  | .ASTCondition _ condition trueval falseval, visible, hD, h => by
    simp only [Scoped, definedFunctions, List.mem_append] at h hD ⊢
    exact ⟨Scoped_congr l l' a a' condition visible (fun F hF => hD F (Or.inl hF)) h.1,
      Scoped_congr l l' a a' trueval visible (fun F hF => hD F (Or.inr (Or.inl hF))) h.2.1,
      Scoped_congr l l' a a' falseval visible (fun F hF => hD F (Or.inr (Or.inr hF))) h.2.2⟩
/-- The same for a list of trees. -/
theorem ScopedList_congr (l l' : SymId → List (SymId × SymId)) (a a' : SymId → List SymId) :
    ∀ (nodes : List ASTNode) (visible : List SymId),
    (∀ F ∈ definedFunctionsList nodes, l' F = l F ∧ a' F = a F) →
    ScopedList l a visible nodes → ScopedList l' a' visible nodes
  | [], _, _, _ => by simp [ScopedList]
  | node :: rest, visible, hD, h => by
    simp only [ScopedList, definedFunctionsList, List.mem_append] at h hD ⊢
    exact ⟨Scoped_congr l l' a a' node visible (fun F hF => hD F (Or.inl hF)) h.1,
      ScopedList_congr l l' a a' rest visible (fun F hF => hD F (Or.inr hF)) h.2⟩
end

/-- A resolved tree stays well scoped while trees that define other functions
are resolved. -/
theorem Scoped_later (D : List SymId) (parents : List Ancestor) (U : SymId) (c c' : Compiler)
    (node : ASTNode) (visible : List SymId) (hr : Resolved D parents U c c')
    (hD : ∀ F ∈ definedFunctions node, F ∉ D ∧ F ≠ U)
    (h : Scoped c.localsOf c.argumentsOf visible node) :
    Scoped c'.localsOf c'.argumentsOf visible node :=
  Scoped_congr c.localsOf c'.localsOf c.argumentsOf c'.argumentsOf node visible
    (fun F hF => ⟨hr.untouched.locals F (hD F hF).1 (hD F hF).2, hr.extends_.arguments F⟩) h

/-- The same for a list of trees. -/
theorem ScopedList_later (D : List SymId) (parents : List Ancestor) (U : SymId)
    (c c' : Compiler) (nodes : List ASTNode) (visible : List SymId)
    (hr : Resolved D parents U c c')
    (hD : ∀ F ∈ definedFunctionsList nodes, F ∉ D ∧ F ≠ U)
    (h : ScopedList c.localsOf c.argumentsOf visible nodes) :
    ScopedList c'.localsOf c'.argumentsOf visible nodes :=
  ScopedList_congr c.localsOf c'.localsOf c.argumentsOf c'.argumentsOf nodes visible
    (fun F hF => ⟨hr.untouched.locals F (hD F hF).1 (hD F hF).2, hr.extends_.arguments F⟩) h


/-- The frame of a function definition shows the variables its parent frame
shows. -/
theorem visibleVariables_defineFunction (parents : List Ancestor) (frame : Option SymbolTable)
    (name : String) (F : SymId) (hframe : getFrame parents = some frame) :
    variablesIn (SymbolTable.symbols (SymbolTable.newSingleton frame name (.Function F))) =
      visibleVariables parents := by
  rw [symbols_newSingleton]
  unfold visibleVariables
  rw [frameTable_of parents frame hframe]
  rfl

/-- The frame of a variable definition shows the new variable and the variables
its parent frame shows. -/
theorem visibleVariables_defineVariable (parents : List Ancestor) (frame : Option SymbolTable)
    (name : String) (n : SymId) (hframe : getFrame parents = some frame) :
    variablesIn (SymbolTable.symbols (SymbolTable.newSingleton frame name (.Variable n))) =
      n :: visibleVariables parents := by
  rw [symbols_newSingleton]
  unfold visibleVariables
  rw [frameTable_of parents frame hframe]
  rfl

/-- What is owned stays owned. -/
theorem Owned_later (c c' : Compiler) (definitions : List (SymId × Option SymId))
    (he : Extends c c') (h : Owned c definitions) : Owned c' definitions := by
  intro p hp
  obtain ⟨V, hV, ho⟩ := h p hp
  exact ⟨V, hV, he.owner V p.1 ho⟩

/-- Two lists of definitions together. -/
theorem Owned_append (c : Compiler) (l1 l2 : List (SymId × Option SymId))
    (h1 : Owned c l1) (h2 : Owned c l2) : Owned c (l1 ++ l2) := by
  intro p hp
  rcases List.mem_append.mp hp with h | h
  · exact h1 p h
  · exact h2 p h

/-- No definition, nothing to own. -/
theorem Owned_nil (c : Compiler) : Owned c [] := by
  intro p hp
  cases hp

/-! ## The invariant of the resolution pass -/

mutual
/-- The invariant of the resolution pass, by class. -/
theorem resolveVariables_resolves : ∀ (node : ASTNode) (parents : List Ancestor) (U : SymId)
    (c : Compiler), wellFormed node = true → (definedFunctions node).Nodup →
    U ∉ definedFunctions node → (∀ F ∈ definedFunctions node, Fresh c F) →
    LocalsInvariant c → Chain parents U c →
    Resolves (definedFunctions node) parents U c (resolveVariables node parents)
      (Settled (visibleVariables parents) U node)
  | .ASTConstant position value, parents, U, c, _, _, _, _, hinv, hchain => by
    simp only [resolveVariables, pure_eq]
    exact Resolves_pure _ parents U c _ _ hinv hchain.captured
      ⟨by simp [Scoped], rfl, by simp [definedVariables, Owned]⟩
  | .ASTBoolean position id, parents, U, c, _, _, _, _, hinv, hchain => by
    simp only [resolveVariables, pure_eq]
    exact Resolves_pure _ parents U c _ _ hinv hchain.captured
      ⟨by simp [Scoped], rfl, by simp [definedVariables, Owned]⟩
  | .ASTVariable position id sym, parents, U, c, _, _, _, _, hinv, hchain => by
    obtain ⟨frame, hframe⟩ := getFrame_of_getFunction parents U hchain.function
    have hrefl : Resolved (definedFunctions (.ASTVariable position id sym)) parents U c c :=
      Resolved_refl _ parents U c hinv hchain
    have hpost : ∀ (s : Option ValuedSymbol) (k : Compiler),
        Settled (visibleVariables parents) U (.ASTVariable position id sym)
          (.ASTVariable position id s) k :=
      fun s k => ⟨by simp [Scoped], by simp [definedFunctions], by simp [definedVariables, Owned]⟩
    intro o c' h
    simp only [resolveVariables, bind_eq, pure_eq, M.bind, hframe, deref, M.pure] at h
    cases frame with
    | none =>
      simp only [crash, Prod.mk.injEq] at h
      obtain ⟨ho, hc⟩ := h
      subst hc
      subst ho
      exact ⟨hrefl, fun a ha => by cases ha⟩
    | some table =>
      simp only [M.pure] at h
      cases hres : table.resolve id with
      | none =>
        simp only [hres, throwEx, Prod.mk.injEq] at h
        obtain ⟨ho, hc⟩ := h
        subst hc
        subst ho
        exact ⟨hrefl, fun a ha => by cases ha⟩
      | some s =>
        cases s with
        | Variable v =>
          have hV : v ∈ visibleVariables parents := by
            unfold visibleVariables
            rw [frameTable_of parents (some table) hframe, mem_variablesIn]
            exact resolve_mem id table _ hres
          simp only [hres, Symbol.isValued, ValuedSymbol.isVariable, hchain.function, deref, pure_eq,
            M.bind, M.pure] at h
          cases himp : importUpvalue U v c with
          | mk o1 c1 =>
            have hr := importUpvalue_resolved parents U v c c1 o1 hinv hchain hV himp
            rw [himp] at h
            cases o1 with
            | ok l =>
              simp only [Prod.mk.injEq] at h
              obtain ⟨ho, hc⟩ := h
              subst hc
              subst ho
              exact ⟨Resolved_mono [] _ parents U c c1 (by simp) hr,
                fun a ha => by cases ha; exact hpost _ _⟩
            | thrown e =>
              simp only [Prod.mk.injEq] at h
              obtain ⟨ho, hc⟩ := h
              subst hc
              subst ho
              exact ⟨Resolved_mono [] _ parents U c c1 (by simp) hr, fun a ha => by cases ha⟩
            | fault e =>
              simp only [Prod.mk.injEq] at h
              obtain ⟨ho, hc⟩ := h
              subst hc
              subst ho
              exact ⟨Resolved_mono [] _ parents U c c1 (by simp) hr, fun a ha => by cases ha⟩
        | Valued v =>
          simp only [hres, Symbol.isValued, ValuedSymbol.isVariable, M.pure, Prod.mk.injEq] at h
          obtain ⟨ho, hc⟩ := h
          subst hc
          subst ho
          exact ⟨hrefl, fun a ha => by cases ha; exact hpost _ _⟩
        | Function g =>
          simp only [hres, Symbol.isValued, throwEx, Prod.mk.injEq] at h
          obtain ⟨ho, hc⟩ := h
          subst hc
          subst ho
          exact ⟨hrefl, fun a ha => by cases ha⟩
        | Intrinsic g =>
          simp only [hres, Symbol.isValued, throwEx, Prod.mk.injEq] at h
          obtain ⟨ho, hc⟩ := h
          subst hc
          subst ho
          exact ⟨hrefl, fun a ha => by cases ha⟩
  | .ASTVector position elements, parents, U, c, hwf, hnd, hU, hfresh, hinv, hchain => by
    simp only [wellFormed, definedFunctions] at hwf hnd hU hfresh ⊢
    simp only [resolveVariables, bind_eq, pure_eq]
    refine Resolves_bind (definedFunctionsList elements) [] _ parents U c _ _
      (SettledList (visibleVariables parents) U elements) _ (fun _ h => h) (by simp)
      (Resolves_outer _ parents (.Node :: parents) U c _ _ rfl
        (resolveVariablesList_resolves elements (.Node :: parents) U c hwf hnd hU hfresh hinv
          (Chain_node _ _ _ hchain))) ?_
    intro es c1 hr hq
    exact Resolves_pure [] parents U c1 _ _ hr.invariant hr.captured
      ⟨by simpa [Scoped] using hq.1, by simpa [definedFunctions] using hq.2.1,
        by simpa [definedVariables] using hq.2.2⟩
  | .ASTVectorSplat position value size, parents, U, c, hwf, hnd, hU, hfresh, hinv, hchain => by
    simp only [wellFormed, definedFunctions] at hwf hnd hU hfresh ⊢
    simp only [resolveVariables, bind_eq, pure_eq]
    refine Resolves_bind (definedFunctions value) [] _ parents U c _ _
      (Settled (visibleVariables parents) U value) _ (fun _ h => h) (by simp)
      (Resolves_outer _ parents (.Node :: parents) U c _ _ rfl
        (resolveVariables_resolves value (.Node :: parents) U c hwf hnd hU hfresh hinv
          (Chain_node _ _ _ hchain))) ?_
    intro v c1 hr hq
    exact Resolves_pure [] parents U c1 _ _ hr.invariant hr.captured
      ⟨by simpa [Scoped] using hq.1, by simpa [definedFunctions] using hq.2.1,
        by simpa [definedVariables] using hq.2.2⟩
  | .ASTReturn position, parents, U, c, _, _, _, _, hinv, hchain => by
    simp only [definedFunctions]
    obtain ⟨Fs, hFs⟩ : ∃ Fs, c.functionSymbols[U]? = some Fs :=
      ⟨_, List.getElem?_eq_getElem hchain.valid⟩
    intro o c' h
    simp only [resolveVariables, bind_eq, pure_eq, M.bind, hchain.function, deref, M.pure,
      getFunctionSymbol, hFs] at h
    cases ht : Fs.toplevel with
    | none =>
      simp only [ht, throwEx, Prod.mk.injEq] at h
      obtain ⟨ho, hc⟩ := h
      subst hc
      subst ho
      exact ⟨Resolved_refl _ parents U c hinv hchain, fun a ha => by cases ha⟩
    | some r =>
      simp only [ht, M.pure, Prod.mk.injEq] at h
      obtain ⟨ho, hc⟩ := h
      subst hc
      subst ho
      exact ⟨Resolved_refl _ parents U c hinv hchain, fun a ha => by
        cases ha
        exact ⟨by simp [Scoped], rfl, by simp [definedVariables, Owned]⟩⟩
  | .ASTFunctionBody _ _ _ _, _, _, _, hwf, _, _, _, _, _ => by
    simp [wellFormed] at hwf
  | .ASTToplevel _ _ _ _, _, _, _, hwf, _, _, _, _, _ => by
    simp [wellFormed] at hwf
  | .ASTCondition position condition trueval falseval, parents, U, c, hwf, hnd, hU, hfresh,
      hinv, hchain => by
    simp only [wellFormed, Bool.and_eq_true, definedFunctions, List.nodup_append,
      List.mem_append, not_or, List.disjoint_append_right] at hwf hnd hU hfresh
    simp only [resolveVariables, bind_eq, pure_eq, definedFunctions]
    have hnode := Chain_node parents U c hchain
    refine Resolves_bind (definedFunctions condition)
      (definedFunctions trueval ++ definedFunctions falseval) _ parents U c _ _
      (Settled (visibleVariables parents) U condition) _ (fun _ h => List.mem_append_left _ h)
      (fun _ h => List.mem_append_right _ h)
      (Resolves_outer _ parents (.Node :: parents) U c _ _ rfl
        (resolveVariables_resolves condition (.Node :: parents) U c hwf.1.1 hnd.1 hU.1
          (fun F hF => hfresh F (Or.inl hF)) hinv hnode)) ?_
    intro n1 c1 hr1 hq1
    have hfresh1 : ∀ F ∈ definedFunctions trueval ++ definedFunctions falseval, Fresh c1 F :=
      Fresh_after (definedFunctions condition) _ parents U c c1
        (fun F hF => hfresh F (Or.inr (List.mem_append.mp hF))) hinv hr1
        (fun F hF hF1 => by
          rcases List.mem_append.mp hF with h | h
          · exact hnd.2.2.1 hF1 h
          · exact hnd.2.2.2 hF1 h)
        (fun h => by
          rcases List.mem_append.mp h with h | h
          · exact hU.2.1 h
          · exact hU.2.2 h)
    have hchain1 := Chain_mono (definedFunctions condition) parents U c c1 hchain hr1
      (fun F hF => hfresh F (Or.inl hF))
    refine Resolves_bind (definedFunctions trueval) (definedFunctions falseval) _ parents U c1
      _ _ (Settled (visibleVariables parents) U trueval) _
      (fun _ h => List.mem_append_left _ h) (fun _ h => List.mem_append_right _ h)
      (Resolves_outer _ parents (.Node :: parents) U c1 _ _ rfl
        (resolveVariables_resolves trueval (.Node :: parents) U c1 hwf.1.2 hnd.2.1.1 hU.2.1
          (fun F hF => hfresh1 F (List.mem_append_left _ hF)) hr1.invariant
          (Chain_node parents U c1 hchain1))) ?_
    intro n2 c2 hr2 hq2
    have hfresh2 : ∀ F ∈ definedFunctions falseval, Fresh c2 F :=
      Fresh_after (definedFunctions trueval) _ parents U c1 c2
        (fun F hF => hfresh1 F (List.mem_append_right _ hF)) hr1.invariant hr2
        (fun F hF hF1 => hnd.2.1.2.2 hF1 hF) hU.2.2
    have hchain2 := Chain_mono (definedFunctions trueval) parents U c1 c2 hchain1 hr2
      (fun F hF => hfresh1 F (List.mem_append_left _ hF))
    refine Resolves_bind (definedFunctions falseval) [] _ parents U c2
      _ _ (Settled (visibleVariables parents) U falseval) _
      (fun _ h => h) (by simp)
      (Resolves_outer _ parents (.Node :: parents) U c2 _ _ rfl
        (resolveVariables_resolves falseval (.Node :: parents) U c2 hwf.2 hnd.2.1.2.1 hU.2.2
          hfresh2 hr2.invariant (Chain_node parents U c2 hchain2))) ?_
    intro n3 c3 hr3 hq3
    refine Resolves_pure [] parents U c3 _ _ hr3.invariant hr3.captured ⟨?_, ?_, ?_⟩
    · simp only [Scoped]
      refine ⟨Scoped_later (definedFunctions falseval) parents U c2 c3 n1 _ hr3 ?_
          (Scoped_later (definedFunctions trueval) parents U c1 c2 n1 _ hr2 ?_ hq1.1),
        Scoped_later (definedFunctions falseval) parents U c2 c3 n2 _ hr3 ?_ hq2.1, hq3.1⟩
      · intro F hF
        rw [hq1.2.1] at hF
        exact ⟨fun hF2 => hnd.2.2.2 hF hF2, fun e => hU.1 (e ▸ hF)⟩
      · intro F hF
        rw [hq1.2.1] at hF
        exact ⟨fun hF2 => hnd.2.2.1 hF hF2, fun e => hU.1 (e ▸ hF)⟩
      · intro F hF
        rw [hq2.2.1] at hF
        exact ⟨fun hF2 => hnd.2.1.2.2 hF hF2, fun e => hU.2.1 (e ▸ hF)⟩
    · simp only [definedFunctions, hq1.2.1, hq2.2.1, hq3.2.1]
    · simp only [definedVariables]
      exact Owned_append _ _ _
        (Owned_later c1 c3 _ (Extends_trans c1 c2 c3 hr2.extends_ hr3.extends_) hq1.2.2)
        (Owned_append _ _ _ (Owned_later c2 c3 _ hr3.extends_ hq2.2.2) hq3.2.2)
  | .ASTFunctionCall position id arguments function, parents, U, c, hwf, hnd, hU, hfresh,
      hinv, hchain => by
    simp only [wellFormed, definedFunctions] at hwf hnd hU hfresh ⊢
    obtain ⟨frame, hframe⟩ := getFrame_of_getFunction parents U hchain.function
    cases frame with
    | none =>
      refine Resolves_fail _ parents U c _ _ hinv hchain.captured ?_
      intro o c' h
      simp only [resolveVariables, bind_eq, pure_eq, M.bind, hframe, deref, M.pure, crash,
        Prod.mk.injEq] at h
      exact ⟨h.2.symm, fun a ha => by rw [← h.1] at ha; cases ha⟩
    | some table =>
      cases hres : table.resolve id with
      | none =>
        refine Resolves_fail _ parents U c _ _ hinv hchain.captured ?_
        intro o c' h
        simp only [resolveVariables, bind_eq, pure_eq, M.bind, hframe, deref, M.pure, hres,
          throwEx, Prod.mk.injEq] at h
        exact ⟨h.2.symm, fun a ha => by rw [← h.1] at ha; cases ha⟩
      | some symbol =>
        cases hcall : symbol.isCallable with
        | none =>
          refine Resolves_fail _ parents U c _ _ hinv hchain.captured ?_
          intro o c' h
          simp only [resolveVariables, bind_eq, pure_eq, M.bind, hframe, deref, M.pure, hres,
            hcall, throwEx, Prod.mk.injEq] at h
          exact ⟨h.2.symm, fun a ha => by rw [← h.1] at ha; cases ha⟩
        | some callable =>
          have heq : resolveVariables (.ASTFunctionCall position id arguments function) parents
              c = M.bind (resolveVariablesList arguments (.Node :: parents)) (fun args =>
                match callable.isFunction with
                | some callee =>
                  M.bind (getFunctionSymbol callee) (fun f =>
                    M.bind (importUpvaluesOf U f.locals) (fun _ =>
                      M.pure (.ASTFunctionCall position id args (some callable))))
                | none => M.pure (.ASTFunctionCall position id args (some callable))) c := by
            simp only [resolveVariables, bind_eq, pure_eq, M.bind, hframe, deref, M.pure, hres,
              hcall, hchain.function]
            cases resolveVariablesList arguments (.Node :: parents) c with
            | mk o1 c1 =>
              cases o1 with
              | ok args => cases callable.isFunction <;> rfl
              | thrown e => rfl
              | fault e => rfl
          refine Resolves_from [] (definedFunctionsList arguments) _ parents U c c _ _ _
            (by simp) (fun _ h => h) heq (Resolved_refl [] parents U c hinv hchain) ?_
          refine Resolves_bind (definedFunctionsList arguments) [] _ parents U c _ _
            (SettledList (visibleVariables parents) U arguments) _ (fun _ h => h) (by simp)
            (Resolves_outer _ parents (.Node :: parents) U c _ _ rfl
              (resolveVariablesList_resolves arguments (.Node :: parents) U c hwf hnd hU hfresh
                hinv (Chain_node _ _ _ hchain))) ?_
          intro args c1 hr1 hq1
          have hchain1 := Chain_mono (definedFunctionsList arguments) parents U c c1 hchain hr1
            hfresh
          have hpost : ∀ k, Extends c1 k → Resolved [] parents U c1 k →
              Settled (visibleVariables parents) U
                (.ASTFunctionCall position id arguments function)
                (.ASTFunctionCall position id args (some callable)) k := by
            intro k hk hrk
            refine ⟨?_, ?_, ?_⟩
            · simp only [Scoped]
              exact ScopedList_later [] parents U c1 k args _ hrk
                (fun F hF => ⟨by simp, fun e => hU (by rw [← hq1.2.1]; exact e ▸ hF)⟩) hq1.1
            · simp only [definedFunctions, hq1.2.1]
            · simp only [definedVariables]
              exact Owned_later c1 k _ hk hq1.2.2
          cases hfn : callable.isFunction with
          | none =>
            simp only []
            exact Resolves_pure [] parents U c1 _ _ hr1.invariant hr1.captured
              (hpost c1 (Extends_refl c1)
                (Resolved_refl [] parents U c1 hr1.invariant hchain1))
          | some callee =>
            simp only []
            have hG : callee ∈ visibleFunctions parents := by
              cases symbol with
              | Function g =>
                simp only [Symbol.isCallable, Option.some.injEq] at hcall
                subst hcall
                simp only [CallableSymbol.isFunction, Option.some.injEq] at hfn
                subst hfn
                unfold visibleFunctions
                rw [frameTable_of parents (some table) hframe, mem_functionsIn]
                exact resolve_mem id table _ hres
              | Intrinsic g =>
                simp only [Symbol.isCallable, Option.some.injEq] at hcall
                subst hcall
                simp [CallableSymbol.isFunction] at hfn
              | Variable v => simp [Symbol.isCallable] at hcall
              | Valued v => simp [Symbol.isCallable] at hcall
            intro o c' h
            cases hf : c1.functionSymbols[callee]? with
            | none =>
              simp only [M.bind, getFunctionSymbol, deref, hf, crash, Prod.mk.injEq] at h
              obtain ⟨ho, hc⟩ := h
              subst hc
              subst ho
              exact ⟨Resolved_refl [] parents U c1 hr1.invariant hchain1,
                fun a ha => by cases ha⟩
            | some f =>
              simp only [M.bind, getFunctionSymbol, deref, hf, pure_eq, M.pure] at h
              have hloc : c1.localsOf callee = f.locals := localsOf_eq c1 callee f hf
              cases himp : importUpvaluesOf U f.locals c1 with
              | mk o2 c2 =>
                have hr2 := importUpvaluesOf_resolved parents U f.locals c1 c2 o2
                  (fun e he hne => hchain1.homes callee hG e (hloc ▸ he) hne)
                  hr1.invariant hchain1 himp
                rw [himp] at h
                cases o2 with
                | ok u =>
                  simp only [Prod.mk.injEq] at h
                  obtain ⟨ho, hc⟩ := h
                  subst hc
                  subst ho
                  exact ⟨hr2, fun a ha => by
                    cases ha
                    exact hpost c2 hr2.extends_ hr2⟩
                | thrown e =>
                  simp only [Prod.mk.injEq] at h
                  obtain ⟨ho, hc⟩ := h
                  subst hc
                  subst ho
                  exact ⟨hr2, fun a ha => by cases ha⟩
                | fault e =>
                  simp only [Prod.mk.injEq] at h
                  obtain ⟨ho, hc⟩ := h
                  subst hc
                  subst ho
                  exact ⟨hr2, fun a ha => by cases ha⟩
  | .ASTDefineVariable position st id type value body sym, parents, U, c, hwf, hnd, hU, hfresh,
      hinv, hchain => by
    simp only [wellFormed, Bool.and_eq_true, definedFunctions, List.nodup_append,
      List.mem_append, not_or] at hwf hnd hU hfresh
    simp only [definedFunctions]
    obtain ⟨frame, hframe⟩ := getFrame_of_getFunction parents U hchain.function
    obtain ⟨Fs, hFs⟩ : ∃ Fs, c.functionSymbols[U]? = some Fs :=
      ⟨_, List.getElem?_eq_getElem hchain.valid⟩
    have heq := resolveVariables_defineVariable position st id type value body sym parents frame
      U Fs c hframe hchain.function hFs
    obtain ⟨hr0, hown0⟩ := declared_resolved parents U id type Fs c hinv hchain hFs
    have hall : ∀ F ∈ definedFunctions value ++ definedFunctions body, Fresh c F :=
      fun F hF => hfresh F (List.mem_append.mp hF)
    refine Resolves_from [] (definedFunctions value ++ definedFunctions body) _ parents U c
      (ASTDefineVariable.declared id type U Fs c) _ _ _ (by simp) (fun _ h => h) heq hr0 ?_
    generalize ASTDefineVariable.declared id type U Fs c = c1 at hr0 hown0
    have hchain1 := Chain_mono [] parents U c c1 hchain hr0 (fun F hF => by simp at hF)
    have hfresh1 : ∀ F ∈ definedFunctions value ++ definedFunctions body, Fresh c1 F :=
      Fresh_after [] _ parents U c c1 hall hinv hr0 (fun F _ => by simp)
        (fun h => by
          rcases List.mem_append.mp h with h | h
          · exact hU.1 h
          · exact hU.2 h)
    refine Resolves_bind (definedFunctions value) (definedFunctions body) _ parents U c1 _ _
      (Settled (visibleVariables parents) U value) _ (fun _ h => List.mem_append_left _ h)
      (fun _ h => List.mem_append_right _ h)
      (resolveVariables_resolves value parents U c1 hwf.1 hnd.1 hU.1
        (fun F hF => hfresh1 F (List.mem_append_left _ hF)) hr0.invariant hchain1) ?_
    intro v' c2 hr2 hq2
    have hfresh2 : ∀ F ∈ definedFunctions body, Fresh c2 F :=
      Fresh_after (definedFunctions value) _ parents U c1 c2
        (fun F hF => hfresh1 F (List.mem_append_right _ hF)) hr0.invariant hr2
        (fun F hF hF1 => hnd.2.2 hF1 hF) hU.2
    have hchain2 := Chain_mono (definedFunctions value) parents U c1 c2 hchain1 hr2
      (fun F hF => hfresh1 F (List.mem_append_left _ hF))
    have hown2 := hr2.extends_.owner _ _ hown0
    refine Resolves_bind (definedFunctions body) [] _ parents U c2 _ _
      (Settled (visibleVariables (.Frame (some (SymbolTable.newSingleton frame id
        (.Variable c.variableSymbols.length))) :: parents)) U body) _ (fun _ h => h) (by simp)
      (Resolves_outer _ parents (.Frame (some (SymbolTable.newSingleton frame id
          (.Variable c.variableSymbols.length))) :: parents) U c2 _ _ rfl
        (resolveVariables_resolves body _ U c2 hwf.2 hnd.2.1 hU.2 hfresh2 hr2.invariant
          (Chain_defineVariable parents U c2 frame id _ hchain2 hframe hown2))) ?_
    intro b' c3 hr3 hq3
    refine Resolves_pure [] parents U c3 _ _ hr3.invariant hr3.captured ⟨?_, ?_, ?_⟩
    · simp only [Scoped, Option.getD_some]
      refine ⟨Scoped_later (definedFunctions body) parents U c2 c3 v' _ hr3 ?_ hq2.1,
        ⟨_, rfl, ?_⟩, hq3.1⟩
      · intro F hF
        rw [hq2.2.1] at hF
        exact ⟨fun hF2 => hnd.2.2 hF hF2, fun e => hU.1 (e ▸ hF)⟩
      · intro V hV
        rw [visibleVariables_defineVariable parents frame id _ hframe] at hV
        exact List.mem_cons.mp hV
    · simp only [definedFunctions, hq2.2.1, hq3.2.1]
    · simp only [definedVariables]
      intro p hp
      rcases List.mem_cons.mp hp with h | h
      · subst h
        exact ⟨_, rfl, hr3.extends_.owner _ _ hown2⟩
      · exact Owned_append _ _ _ (Owned_later c2 c3 _ hr3.extends_ hq2.2.2) hq3.2.2 p h
  | .ASTDefineFunction position st F (.ASTFunctionBody p2 bst F' b) body, parents, U, c, hwf, hnd,
      hU, hfresh, hinv, hchain => by
    simp only [wellFormed, Bool.and_eq_true, Option.isNone_iff_eq_none, decide_eq_true_eq] at hwf
    obtain ⟨⟨⟨hbst, hFF⟩, hwfb⟩, hwfbody⟩ := hwf
    subst hbst
    have hFF' := hFF.symm
    subst hFF'
    have hD : definedFunctions (.ASTDefineFunction position st F (.ASTFunctionBody p2 none F b)
        body) = F :: (definedFunctions b ++ definedFunctions body) := by
      simp [definedFunctions]
    rw [hD] at hnd hU hfresh ⊢
    obtain ⟨hFnot, hnd'⟩ := List.nodup_cons.mp hnd
    obtain ⟨hndb, hndbody, hdisj⟩ := List.nodup_append.mp hnd'
    have hFb : F ∉ definedFunctions b := fun h => hFnot (List.mem_append_left _ h)
    have hFbody : F ∉ definedFunctions body := fun h => hFnot (List.mem_append_right _ h)
    have hUF : U ≠ F := fun e => hU (e ▸ List.mem_cons_self _ _)
    have hUb : U ∉ definedFunctions b :=
      fun h => hU (List.mem_cons_of_mem _ (List.mem_append_left _ h))
    have hUbody : U ∉ definedFunctions body :=
      fun h => hU (List.mem_cons_of_mem _ (List.mem_append_right _ h))
    have hfF : Fresh c F := hfresh F (List.mem_cons_self _ _)
    have hfb : ∀ G ∈ definedFunctions b, Fresh c G :=
      fun G hG => hfresh G (List.mem_cons_of_mem _ (List.mem_append_left _ hG))
    have hfbody : ∀ G ∈ definedFunctions body, Fresh c G :=
      fun G hG => hfresh G (List.mem_cons_of_mem _ (List.mem_append_right _ hG))
    have hvisF : ∀ G ∈ visibleFunctions parents, G ∉ [F] := by
      intro G hG hmem
      rw [List.mem_singleton] at hmem
      subst hmem
      exact Fresh_not_visible parents U _ c hchain hfF hG
    have hvisb : ∀ G ∈ visibleFunctions parents, G ∉ F :: definedFunctions b := by
      intro G hG hmem
      rcases List.mem_cons.mp hmem with h | h
      · subst h
        exact Fresh_not_visible parents U _ c hchain hfF hG
      · exact Fresh_not_visible parents U _ c hchain (hfb G h) hG
    obtain ⟨frame, hframe⟩ := getFrame_of_getFunction parents U hchain.function
    obtain ⟨Fs, hFs⟩ : ∃ Fs, c.functionSymbols[F]? = some Fs :=
      ⟨_, List.getElem?_eq_getElem hfF.valid⟩
    have hargsF : c.argumentsOf F = Fs.arguments := argumentsOf_eq c F Fs hFs
    have hlocF : c.localsOf F = Fs.locals := localsOf_eq c F Fs hFs
    have hvalid : ∀ a ∈ Fs.arguments, a < c.variableSymbols.length :=
      fun a ha => (hfF.arguments a (hargsF ▸ ha)).1
    have heq := resolveVariables_defineFunction position st F p2 b body parents frame U Fs c
      hframe hchain.function hFs hvalid
    obtain ⟨hr1, hpar1⟩ := adopted_resolved parents U F Fs c hinv hchain hFs hfF.parent
    have hset1 : (ASTDefineFunction.adopted F U Fs c).functionSymbols =
        c.functionSymbols.set F { Fs with parent := some U } := rfl
    have hargs1 : (ASTDefineFunction.adopted F U Fs c).argumentsOf F = Fs.arguments := by
      rw [argumentsOf_set c _ F Fs _ hFs hset1 F]
      simp
    have hloc1 : (ASTDefineFunction.adopted F U Fs c).localsOf F = c.localsOf F := by
      rw [localsOf_set c _ F Fs _ hFs hset1 F]
      simp [hlocF]
    have hchain1 := Chain_later [F] parents U c _ hchain hr1 hvisF
    have hr2 := claimed_resolved parents U F (ASTDefineFunction.adopted F U Fs c) hr1.invariant
      hchain1 (by
        intro a ha
        rw [hargs1] at ha
        rw [hloc1]
        exact hfF.arguments a (hargsF ▸ ha))
    rw [hargs1] at hr2
    have hr02 := Resolved_trans [F] parents U c _ _ hr1 hr2
    have hown2 : ∀ a ∈ Fs.arguments, (ASTFunctionBody.claimed F Fs.arguments
        (ASTDefineFunction.adopted F U Fs c)).ownerOf a = some F := by
      intro a ha
      rw [ownerOf_claimed]
      have hlt : a < (ASTDefineFunction.adopted F U Fs c).variableSymbols.length := hvalid a ha
      simp [ha, hlt]
    have hloc2 : (ASTFunctionBody.claimed F Fs.arguments
        (ASTDefineFunction.adopted F U Fs c)).localsOf F = c.localsOf F := hloc1
    have hargs2 : (ASTFunctionBody.claimed F Fs.arguments
        (ASTDefineFunction.adopted F U Fs c)).argumentsOf F = Fs.arguments := hargs1
    have hpar2 := hr2.extends_.parent F U hpar1
    refine Resolves_from [F] (F :: (definedFunctions b ++ definedFunctions body)) _ parents U c
      (ASTFunctionBody.claimed F Fs.arguments (ASTDefineFunction.adopted F U Fs c)) _ _ _
      (by simp) (fun _ h => h) heq hr02 ?_
    generalize ASTFunctionBody.claimed F Fs.arguments (ASTDefineFunction.adopted F U Fs c) = c2
      at hr02 hown2 hloc2 hargs2 hpar2
    have hvalid2 : F < c2.functionSymbols.length := hr02.extends_.count ▸ hfF.valid
    have hchain2 := Chain_later [F] parents U c c2 hchain hr02 hvisF
    have hfb2 : ∀ G ∈ definedFunctions b, Fresh c2 G :=
      Fresh_after [F] _ parents U c c2 hfb hinv hr02
        (fun G hG hm => hFb (List.mem_singleton.mp hm ▸ hG)) hUb
    have hfbody2 : ∀ G ∈ definedFunctions body, Fresh c2 G :=
      Fresh_after [F] _ parents U c c2 hfbody hinv hr02
        (fun G hG hm => hFbody (List.mem_singleton.mp hm ▸ hG)) hUbody
    have hchainb := Chain_functionBody parents U F c2 c frame Fs.name Fs.arguments hchain2 hframe
      hvalid2 hpar2 (hloc2 ▸ hfF.locals) hown2
    have hb := Resolves_function (definedFunctions b) parents _ U F c2 _ _ hchain2 hUb hUF
      (resolveVariables_resolves b _ F c2 hwfb hndb hFb hfb2 hr02.invariant hchainb)
    refine Resolves_bind (F :: definedFunctions b) (definedFunctions body) _ parents U c2 _ _ _ _
      (fun G hG => by
        rcases List.mem_cons.mp hG with h | h
        · exact h ▸ List.mem_cons_self _ _
        · exact List.mem_cons_of_mem _ (List.mem_append_left _ h))
      (fun G hG => List.mem_cons_of_mem _ (List.mem_append_right _ hG)) hb ?_
    intro b' c3 hr3 hq3
    obtain ⟨hq3, hcapF⟩ := hq3
    have hchain3 := Chain_later (F :: definedFunctions b) parents U c2 c3 hchain2 hr3 hvisb
    have houter : ∀ V, V ∈ variablesIn (SymbolTable.symbols
        (SymbolTable.newSingleton frame Fs.name (.Function F))) ↔ V ∈ visibleVariables parents := by
      intro V
      rw [visibleVariables_defineFunction parents frame Fs.name F hframe]
    have hpar3 := hr3.extends_.parent F U hpar2
    have hchainf := Chain_defineFunction parents U F c3 frame Fs.name hchain3 hframe hpar3
      (fun e he hne => (houter e.1).mp (hcapF e he hne))
    have hfbody3 : ∀ G ∈ definedFunctions body, Fresh c3 G :=
      Fresh_after (F :: definedFunctions b) _ parents U c2 c3 hfbody2 hr02.invariant hr3
        (fun G hG hm => by
          rcases List.mem_cons.mp hm with h | h
          · exact hFbody (h ▸ hG)
          · exact hdisj h hG) hUbody
    refine Resolves_bind (definedFunctions body) [] _ parents U c3 _ _
      (Settled (visibleVariables (.Frame (some (SymbolTable.newSingleton frame Fs.name
        (.Function F))) :: parents)) U body) _ (fun _ h => h) (by simp)
      (Resolves_outer _ parents (.Frame (some (SymbolTable.newSingleton frame Fs.name
          (.Function F))) :: parents) U c3 _ _ rfl
        (resolveVariables_resolves body _ U c3 hwfbody hndbody hUbody hfbody3 hr3.invariant
          hchainf)) ?_
    intro body' c4 hr4 hq4
    refine Resolves_pure [] parents U c4 _ _ hr4.invariant hr4.captured ⟨?_, ?_, ?_⟩
    · simp only [Scoped, Option.getD_some]
      refine ⟨fun V hV => (houter V).mp hV, ⟨?_, ?_, ?_⟩, hq4.1⟩
      · intro e he hne
        rw [hr4.untouched.locals F hFbody (Ne.symm hUF)] at he
        exact hcapF e he hne
      · intro V hV
        rw [hr4.extends_.arguments F, hr3.extends_.arguments F, hargs2]
        exact (bodyTable_symbols c Fs.arguments _).1 V hV
      · refine Scoped_later (definedFunctions body) parents U c3 c4 b' _ hr4 ?_ hq3.1
        intro G hG
        rw [hq3.2.1] at hG
        exact ⟨fun hG2 => hdisj hG hG2, fun e => hUb (e ▸ hG)⟩
    · simp only [definedFunctions, hq3.2.1, hq4.2.1, List.cons_append]
    · simp only [definedVariables]
      exact Owned_append _ _ _ (Owned_later c3 c4 _ hr4.extends_ hq3.2.2) hq4.2.2
  | .ASTDefineFunction _ _ _ (.ASTConstant _ _) _, _, _, _, hwf, _, _, _, _, _ => by
    simp [wellFormed] at hwf
  | .ASTDefineFunction _ _ _ (.ASTBoolean _ _) _, _, _, _, hwf, _, _, _, _, _ => by
    simp [wellFormed] at hwf
  | .ASTDefineFunction _ _ _ (.ASTVariable _ _ _) _, _, _, _, hwf, _, _, _, _, _ => by
    simp [wellFormed] at hwf
  | .ASTDefineFunction _ _ _ (.ASTVector _ _) _, _, _, _, hwf, _, _, _, _, _ => by
    simp [wellFormed] at hwf
  | .ASTDefineFunction _ _ _ (.ASTVectorSplat _ _ _) _, _, _, _, hwf, _, _, _, _, _ => by
    simp [wellFormed] at hwf
  | .ASTDefineFunction _ _ _ (.ASTDefineVariable _ _ _ _ _ _ _) _, _, _, _, hwf, _, _, _, _, _ => by
    simp [wellFormed] at hwf
  | .ASTDefineFunction _ _ _ (.ASTToplevel _ _ _ _) _, _, _, _, hwf, _, _, _, _, _ => by
    simp [wellFormed] at hwf
  | .ASTDefineFunction _ _ _ (.ASTReturn _) _, _, _, _, hwf, _, _, _, _, _ => by
    simp [wellFormed] at hwf
  | .ASTDefineFunction _ _ _ (.ASTDefineFunction _ _ _ _ _) _, _, _, _, hwf, _, _, _, _, _ => by
    simp [wellFormed] at hwf
  | .ASTDefineFunction _ _ _ (.ASTFunctionCall _ _ _ _) _, _, _, _, hwf, _, _, _, _, _ => by
    simp [wellFormed] at hwf
  | .ASTDefineFunction _ _ _ (.ASTCondition _ _ _ _) _, _, _, _, hwf, _, _, _, _, _ => by
    simp [wellFormed] at hwf
/-- The same for the loops over children. -/
theorem resolveVariablesList_resolves : ∀ (nodes : List ASTNode) (parents : List Ancestor)
    (U : SymId) (c : Compiler), wellFormedList nodes = true →
    (definedFunctionsList nodes).Nodup → U ∉ definedFunctionsList nodes →
    (∀ F ∈ definedFunctionsList nodes, Fresh c F) → LocalsInvariant c → Chain parents U c →
    Resolves (definedFunctionsList nodes) parents U c (resolveVariablesList nodes parents)
      (SettledList (visibleVariables parents) U nodes)
  | [], parents, U, c, _, _, _, _, hinv, hchain => by
    simp only [resolveVariablesList, pure_eq]
    exact Resolves_pure _ parents U c _ _ hinv hchain.captured
      ⟨by simp [ScopedList], rfl, by simp [definedVariablesList, Owned]⟩
  | node :: rest, parents, U, c, hwf, hnd, hU, hfresh, hinv, hchain => by
    simp only [wellFormedList, Bool.and_eq_true, definedFunctionsList, List.nodup_append,
      List.mem_append, not_or] at hwf hnd hU hfresh
    simp only [resolveVariablesList, bind_eq, pure_eq, definedFunctionsList]
    refine Resolves_bind (definedFunctions node) (definedFunctionsList rest) _ parents U c _ _
      (Settled (visibleVariables parents) U node) _ (fun _ h => List.mem_append_left _ h)
      (fun _ h => List.mem_append_right _ h)
      (resolveVariables_resolves node parents U c hwf.1 hnd.1 hU.1
        (fun F hF => hfresh F (Or.inl hF)) hinv hchain) ?_
    intro n' c1 hr1 hq1
    have hfresh1 : ∀ F ∈ definedFunctionsList rest, Fresh c1 F :=
      Fresh_after (definedFunctions node) (definedFunctionsList rest) parents U c c1
        (fun F hF => hfresh F (Or.inr hF)) hinv hr1 (fun F hF hF1 => hnd.2.2 hF1 hF) hU.2
    have hchain1 := Chain_mono (definedFunctions node) parents U c c1 hchain hr1
      (fun F hF => hfresh F (Or.inl hF))
    refine Resolves_bind (definedFunctionsList rest) [] _ parents U c1 _ _
      (SettledList (visibleVariables parents) U rest) _ (fun _ h => h) (by simp)
      (resolveVariablesList_resolves rest parents U c1 hwf.2 hnd.2.1 hU.2 hfresh1 hr1.invariant
        hchain1) ?_
    intro r' c2 hr2 hq2
    refine Resolves_pure [] parents U c2 _ _ hr2.invariant hr2.captured ⟨?_, ?_, ?_⟩
    · simp only [ScopedList]
      refine ⟨Scoped_later (definedFunctionsList rest) parents U c1 c2 n' _ hr2 ?_ hq1.1, hq2.1⟩
      intro F hF
      rw [hq1.2.1] at hF
      exact ⟨fun hF2 => hnd.2.2 hF hF2, fun e => hU.1 (e ▸ hF)⟩
    · simp only [definedFunctionsList, hq1.2.1, hq2.2.1]
    · simp only [definedVariablesList]
      exact Owned_append _ _ _ (Owned_later c1 c2 _ hr2.extends_ hq1.2.2) hq2.2.2
end

/-! ## Code generation takes no value away -/

/-- Returning a value takes no value away. -/
theorem values_pure {α : Type} (a : α) : KeepsValues (pure a : M α) := by
  intro c b c' h V hV
  simp [M.pure] at h
  rw [← h.2]
  exact hV

/-- A `throw` does not return. -/
theorem values_throwEx {α : Type} (e : Exception) : KeepsValues (throwEx e : M α) := by
  intro c b c' h
  simp [throwEx] at h

/-- A crash does not return. -/
theorem values_crash {α : Type} (f : Fault) : KeepsValues (crash f : M α) := by
  intro c b c' h
  simp [crash] at h

/-- Two steps in sequence take no value away. -/
theorem values_bind {α β : Type} (x : M α) (f : α → M β) (hx : KeepsValues x)
    (hf : ∀ a, KeepsValues (f a)) : KeepsValues (x >>= f) := by
  intro c b c' h V hV
  simp only [bind_eq, M.bind] at h
  cases hxc : x c with
  | mk o1 c1 =>
    rw [hxc] at h
    cases o1 with
    | ok a => exact hf a c1 b c' h V (hx c a c1 hxc V hV)
    | thrown e => simp at h
    | fault e => simp at h

/-- Dereferencing a pointer takes no value away. -/
theorem values_deref {α : Type} (o : Option α) : KeepsValues (deref o) := by
  cases o with
  | none => exact values_crash _
  | some a => exact values_pure a

/-- An `assert` on a pointer takes no value away. -/
theorem values_assertSome {α : Type} (o : Option α) : KeepsValues (assertSome o) := by
  cases o with
  | none => exact values_crash _
  | some a => exact values_pure a

/-- Any step that does not assign to a variable symbol takes no value away. -/
theorem values_of_state {α : Type} (x : M α)
    (h : ∀ c, (x c).2.variableSymbols = c.variableSymbols) : KeepsValues x := by
  intro c b c' hx V hV
  have := h c
  rw [hx] at this
  simp only at this
  rw [Compiler.valueOf, this]
  exact hV

/-- Reading the compiler takes no value away. -/
theorem values_getCompiler : KeepsValues getCompiler :=
  values_of_state _ (fun _ => rfl)

/-- Following a `VariableSymbol*` takes no value away. -/
theorem values_getVariable (id : SymId) : KeepsValues (getVariable id) := by
  intro c o c' h
  exact values_deref _ c o c' h

/-- Following a `FunctionSymbol*` takes no value away. -/
theorem values_getFunctionSymbol (id : SymId) : KeepsValues (getFunctionSymbol id) := by
  intro c o c' h
  exact values_deref _ c o c' h

/-- Following a pointer to an intrinsic takes no value away. -/
theorem values_getIntrinsic (id : Nat) : KeepsValues (getIntrinsic id) := by
  intro c o c' h
  exact values_deref _ c o c' h

/-- Emitting an instruction takes no value away. -/
theorem values_emit (i : Instr) : KeepsValues (emit i) :=
  values_of_state _ (fun _ => rfl)

/-- Creating a block takes no value away. -/
theorem values_createBlock (p : FnId) : KeepsValues (createBlock p) :=
  values_of_state _ (fun _ => rfl)

/-- Reading the insertion block takes no value away. -/
theorem values_getInsertBlock : KeepsValues getInsertBlock :=
  values_of_state _ (fun _ => rfl)

/-- Moving the insertion point takes no value away. -/
theorem values_setInsertPoint (b : Option BlockId) : KeepsValues (setInsertPoint b) :=
  values_of_state _ (fun _ => rfl)

/-- Creating a function in the module takes no value away. -/
theorem values_createFunction (n : String) (r : LType) (p : List LType) :
    KeepsValues (createFunction n r p) :=
  values_of_state _ (fun _ => rfl)

/-- Assigning to a variable symbol takes no value away when the symbol keeps a
value it has. -/
theorem values_modifyVariable (id : SymId) (g : VariableSymbol → VariableSymbol)
    (hg : ∀ v, v.value ≠ none → (g v).value ≠ none) : KeepsValues (modifyVariable id g) := by
  intro c b c' h V hV
  cases hv : c.variableSymbols[id]? with
  | none => simp [modifyVariable, M.bind, getVariable, deref, hv, crash] at h
  | some v =>
    simp [modifyVariable, M.bind, getVariable, deref, hv, M.pure, modifyCompiler] at h
    rw [← h]
    have hlt : id < c.variableSymbols.length := (List.getElem?_eq_some_iff.mp hv).1
    unfold Compiler.valueOf at hV ⊢
    by_cases hi : V = id
    · subst hi
      simp only [hv, Option.bind_some] at hV
      simp [List.getElem?_set, hlt]
      exact hg v hV
    · simpa [List.getElem?_set, Ne.symm hi] using hV

/-- A branch takes no value away. -/
theorem values_ite {α : Type} (p : Prop) [Decidable p] (x y : M α)
    (hx : KeepsValues x) (hy : KeepsValues y) : KeepsValues (if p then x else y) := by
  by_cases h : p
  · simpa [h] using hx
  · simpa [h] using hy

/-- Assigning to a function symbol takes no value away. -/
theorem values_modifyFunctionSymbol (id : SymId) (g : FunctionSymbol → FunctionSymbol) :
    KeepsValues (modifyFunctionSymbol id g) := by
  unfold modifyFunctionSymbol
  exact values_bind _ _ (values_getFunctionSymbol id)
    (fun v => values_of_state _ (fun _ => rfl))

/-- `emitValue` takes no value away. -/
theorem values_emitValue (s : ValuedSymbol) : KeepsValues (emitValue s) := by
  cases s with
  | Variable id =>
    exact values_bind _ _ (values_getVariable id) (fun v => values_pure _)
  | Valued v => exact values_pure _

/-- `codegen_to_type` after `codegen` takes no value away. -/
theorem values_checkType (position : Position) (type : CalcType) (v : Option Val) :
    KeepsValues (checkType position type v) := by
  unfold checkType
  refine values_bind _ _ (values_deref _) (fun v => ?_)
  refine values_bind _ _ (values_deref _) (fun t => ?_)
  dsimp only
  exact values_ite _ _ _ (values_bind _ _ (values_throwEx _) (fun _ => values_pure _))
    (values_bind _ _ (values_pure _) (fun _ => values_pure _))

/-- `ASTDefineVariable::codegen` before the body takes no value away. -/
theorem values_assign (position : Position) (type : Option CalcType)
    (symbol : Option SymId) (v : Option Val) :
    KeepsValues (ASTDefineVariable.assign position type symbol v) := by
  unfold ASTDefineVariable.assign
  refine values_bind _ _ (values_deref _) (fun s => ?_)
  cases v with
  | none =>
    intro c b c' h
    cases hm : modifyVariable s (fun s => { s with value := none }) c with
    | mk o1 c1 => cases o1 <;> simp [bind_eq, M.bind, hm, throwEx] at h
  | some v =>
    refine values_bind _ _ (values_modifyVariable _ _ (fun _ _ => by simp)) (fun _ => ?_)
    have hjp : ∀ t : CalcType, KeepsValues (α := CalcType)
        (if v.getType ≠ t.llvm then do
          let actual ← deref (TypeRegistry.find v.getType)
          let y ← (throwEx (.TypeException
            ("variable is declared to return a " ++ t.name ++ " but has been set to a "
              ++ actual.name) position) : M PUnit)
          pure t
        else do
          let y ← (pure PUnit.unit : M PUnit)
          pure t) := by
      intro t
      refine values_ite _ _ _ ?_ (values_bind _ _ (values_pure _) (fun _ => values_pure _))
      exact values_bind _ _ (values_deref _)
        (fun _ => values_bind _ _ (values_throwEx _) (fun _ => values_pure _))
    cases type with
    | some t =>
      dsimp only
      exact values_bind _ _ (values_pure _) hjp
    | none =>
      dsimp only
      exact values_bind _ _ (values_modifyVariable _ _ (fun _ h => h))
        (fun _ => values_bind _ _ (values_deref _) hjp)

/-- The loop over the normal parameters takes no value away. -/
theorem values_argumentTypes : ∀ (l : List SymId), KeepsValues (argumentTypes l)
  | [] => values_pure _
  | i :: rest => by
    unfold argumentTypes
    refine values_bind _ _ (values_getVariable _) (fun s => ?_)
    refine values_bind _ _ (values_deref _) (fun t => ?_)
    exact values_bind _ _ (values_argumentTypes rest) (fun _ => values_pure _)

/-- The loop over the imported upvalues takes no value away. -/
theorem values_upvalueTypes : ∀ (l : List (SymId × SymId)), KeepsValues (upvalueTypes l)
  | [] => values_pure _
  | i :: rest => by
    unfold upvalueTypes
    refine values_ite _ _ _ ?_ (values_upvalueTypes rest)
    refine values_bind _ _ (values_getVariable _) (fun s => ?_)
    refine values_bind _ _ (values_assertSome _) (fun t => ?_)
    exact values_bind _ _ (values_upvalueTypes rest) (fun _ => values_pure _)

/-- Binding the normal parameters takes no value away. -/
theorem values_bindArguments (f : FnId) (params : List LType) :
    ∀ (l : List SymId) (vi : Nat), KeepsValues (bindArguments f params l vi)
  | [], _ => values_pure _
  | s :: rest, vi => by
    unfold bindArguments
    refine values_bind _ _ (values_assertSome _) (fun t => ?_)
    exact values_bind _ _ (values_modifyVariable _ _ (fun _ _ => by simp))
      (fun _ => values_bindArguments f params rest (vi + 1))

/-- Binding the upvalues takes no value away. -/
theorem values_bindUpvalues (f : FnId) (params : List LType) :
    ∀ (l : List (SymId × SymId)) (vi : Nat), KeepsValues (bindUpvalues f params l vi)
  | [], _ => values_pure _
  | li :: rest, vi => by
    unfold bindUpvalues
    refine values_ite _ _ _ ?_ (values_bindUpvalues f params rest vi)
    refine values_bind _ _ (values_assertSome _) (fun t => ?_)
    exact values_bind _ _ (values_modifyVariable _ _ (fun _ _ => by simp))
      (fun _ => values_bindUpvalues f params rest (vi + 1))

/-- `ASTFunctionBody::codegen` before the body takes no value away. -/
theorem values_create (function : SymId) :
    KeepsValues (ASTFunctionBody.create function) := by
  unfold ASTFunctionBody.create
  refine values_bind _ _ (values_getFunctionSymbol _) (fun fs => ?_)
  refine values_bind _ _ (values_argumentTypes _) (fun normal => ?_)
  refine values_bind _ _ (values_upvalueTypes _) (fun imported => ?_)
  refine values_bind _ _ (values_createFunction _ _ _) (fun f => ?_)
  refine values_bind _ _ (values_modifyFunctionSymbol _ _) (fun _ => ?_)
  refine values_bind _ _ (values_bindArguments _ _ _ _) (fun vi => ?_)
  refine values_bind _ _ (values_getFunctionSymbol _) (fun fs => ?_)
  refine values_bind _ _ (values_bindUpvalues _ _ _ _) (fun vi => ?_)
  dsimp only
  exact values_ite _ _ _ (values_bind _ _ (values_crash _) (fun _ => values_pure _))
    (values_bind _ _ (values_pure _) (fun _ => values_pure _))


/-- `ASTFunctionBody::codegen` after the body takes no value away. -/
theorem values_finishBody (position : Position) (f : FnId) (returntype : LType)
    (bb : Option BlockId) (v : Option Val) :
    KeepsValues (ASTFunctionBody.finish position f returntype bb v) := by
  unfold ASTFunctionBody.finish
  repeat' first
    | exact values_pure _ | exact values_throwEx _ | exact values_crash _ | exact values_deref _
    | exact values_assertSome _ | exact values_getCompiler | exact values_getVariable _
    | exact values_getFunctionSymbol _ | exact values_getIntrinsic _ | exact values_emit _
    | exact values_createBlock _ | exact values_getInsertBlock | exact values_setInsertPoint _
    | exact values_emitValue _
    | exact values_of_state _ (fun _ => rfl)
    | refine values_bind _ _ ?_ (fun _ => ?_) | refine values_ite _ _ _ ?_ ?_

/-- `ASTToplevel::codegen` after the body takes no value away. -/
theorem values_finishToplevel (position : Position) (v : Option Val) :
    KeepsValues (ASTToplevel.finish position v) := by
  unfold ASTToplevel.finish
  cases v with
  | some v => exact values_throwEx _
  | none => exact values_bind _ _ (values_emit _) (fun _ => values_pure _)

/-- The loop of `ASTReturn::codegen` takes no value away. -/
theorem values_copyOutputs (position : Position) (symbolTable : Option SymbolTable) :
    ∀ (returns : List Symbol), KeepsValues (copyOutputs position symbolTable returns)
  | [] => values_pure _
  | out :: rest => by
    unfold copyOutputs
    refine values_bind _ _ (values_assertSome _) (fun outsym => ?_)
    refine values_bind _ _ (values_getVariable _) (fun o => ?_)
    dsimp only
    refine values_bind _ _ (values_deref _) (fun table => ?_)
    cases hres : table.resolve o.name with
    | none => exact values_throwEx _
    | some insym =>
      dsimp only
      refine values_bind _ _ (values_deref _) (fun valued => ?_)
      refine values_bind _ _ (values_emitValue _) (fun value => ?_)
      refine values_bind _ _ (values_deref _) (fun type => ?_)
      have ih := values_copyOutputs position symbolTable rest
      cases type with
      | RealType =>
        exact values_bind _ _ (values_emit _) (fun _ => values_bind _ _ (values_pure _) (fun _ => ih))
      | BooleanType =>
        exact values_bind _ _ (values_emit _) (fun _ => values_bind _ _ (values_pure _) (fun _ => ih))
      | VectorType n =>
        exact values_bind _ _ (values_emit _) (fun _ => values_bind _ _ (values_pure _) (fun _ => ih))

/-- The upvalue loop of `ASTFunctionCall::codegen` takes no value away. -/
theorem values_pushUpvalues (caller : SymId) :
    ∀ (locals : List (SymId × SymId)) (parameters : List (Option Val)),
    KeepsValues (pushUpvalues caller locals parameters)
  | [], _ => values_pure _
  | i :: rest, parameters => by
    unfold pushUpvalues
    refine values_ite _ _ _ ?_ (values_pushUpvalues caller rest parameters)
    refine values_bind _ _ (values_getFunctionSymbol _) (fun f => ?_)
    refine values_bind _ _ (values_assertSome _) (fun s => ?_)
    exact values_bind _ _ (values_getVariable _) (fun _ => values_pushUpvalues caller rest _)

/-- `checkParameterCount` takes no value away. -/
theorem values_checkParameterCount (function : CallableSymbol) (calledwith : Nat) :
    KeepsValues (checkParameterCount function calledwith) := by
  unfold checkParameterCount
  refine values_bind _ _ values_getCompiler (fun c => ?_)
  cases function with
  | Function id =>
    dsimp only
    refine values_bind _ _ (values_getFunctionSymbol _) (fun f => ?_)
    exact values_ite _ _ _ (values_throwEx _) (values_pure _)
  | Intrinsic id =>
    dsimp only
    refine values_bind _ _ (values_getIntrinsic _) (fun f => ?_)
    exact values_ite _ _ _ (values_throwEx _) (values_pure _)

/-- `emitCall` takes no value away. -/
theorem values_emitCall (function : CallableSymbol) (parameters : List (Option Val)) :
    KeepsValues (emitCall function parameters) := by
  unfold emitCall
  cases function with
  | Function id =>
    dsimp only
    refine values_bind _ _ (values_getFunctionSymbol _) (fun f => ?_)
    refine values_bind _ _ (values_deref _) (fun fn => ?_)
    refine values_bind _ _ values_getCompiler (fun c => ?_)
    refine values_bind _ _ (values_deref _) (fun llvmf => ?_)
    exact values_bind _ _ (values_emit _) (fun _ => values_pure _)
  | Intrinsic id =>
    dsimp only
    refine values_bind _ _ (values_getIntrinsic _) (fun f => ?_)
    exact values_bind _ _ (values_emit _) (fun _ => values_pure _)

/-- `ASTFunctionCall::codegen` after the arguments takes no value away. -/
theorem values_finishCall (position : Position) (function : CallableSymbol)
    (parents : List Ancestor) (parameters : List (Option Val)) :
    KeepsValues (ASTFunctionCall.finish position function parents parameters) := by
  unfold ASTFunctionCall.finish
  dsimp only
  cases function.isFunction with
  | none =>
    dsimp only
    exact values_bind _ _ (values_pure _)
      (fun _ => values_bind _ _ (values_of_state _ (fun _ => rfl)) (fun _ => values_emitCall _ _))
  | some callee =>
    dsimp only
    refine values_bind _ _ (values_deref _) (fun caller => ?_)
    refine values_bind _ _ (values_getFunctionSymbol _) (fun f => ?_)
    refine values_bind _ _ (values_pushUpvalues _ _ _) (fun ps => ?_)
    exact values_bind _ _ (values_of_state _ (fun _ => rfl)) (fun _ => values_emitCall _ _)

/-- `ASTCondition::codegen` after the branches takes no value away. -/
theorem values_finishCondition (position : Position) (mergeblock : BlockId)
    (tr : Option Val) (tb : Option BlockId) (fr : Option Val) (fb : Option BlockId) :
    KeepsValues (ASTCondition.finish position mergeblock tr tb fr fb) := by
  intro c o c' h V hV
  rw [ASTCondition_finish_eq] at h
  cases tr with
  | none => simp at h
  | some t =>
    cases fr with
    | none => simp at h
    | some f =>
      by_cases hty : t.getType = f.getType
      · simp [hty] at h
        rw [← h.2]
        exact hV
      · simp [hty] at h

mutual
/-- Code generation of any tree, when it returns, has taken the current value of
no variable symbol away: a variable that had a value has one. -/
theorem values_codegen : ∀ (node : ASTNode) (parents : List Ancestor),
    KeepsValues (codegen node parents)
  | .ASTConstant _ _, _ => by
    unfold codegen
    exact values_pure _
  | .ASTBoolean _ id, _ => by
    unfold codegen
    exact values_ite _ _ _ (values_pure _) (values_pure _)
  | .ASTVariable _ _ symbol, _ => by
    unfold codegen
    exact values_bind _ _ (values_deref _) (fun s => values_emitValue s)
  | .ASTVector _ elements, parents => by
    unfold codegen
    dsimp only
    exact values_bind _ _ (values_codegenElements elements _ _ _) (fun _ => values_pure _)
  | .ASTVectorSplat _ value size, parents => by
    unfold codegen
    dsimp only
    refine values_bind _ _ (values_codegen value _) (fun e => ?_)
    exact values_bind _ _ (values_checkType _ _ _) (fun _ => values_pure _)
  | .ASTDefineVariable position symbolTable _ type value body symbol, parents => by
    unfold codegen
    refine values_bind _ _ (values_codegen value _) (fun v => ?_)
    exact values_bind _ _ (values_assign _ _ _ _) (fun _ => values_codegen body _)
  | .ASTFunctionBody position symbolTable function body, parents => by
    unfold codegen
    refine values_bind _ _ (values_create _) (fun p => ?_)
    dsimp only
    refine values_bind _ _ (values_createBlock _) (fun toplevel => ?_)
    refine values_bind _ _ values_getInsertBlock (fun bb => ?_)
    refine values_bind _ _ (values_setInsertPoint _) (fun _ => ?_)
    exact values_bind _ _ (values_codegen body _) (fun v => values_finishBody _ _ _ _ _)
  | .ASTToplevel position symbolTable toplevel body, parents => by
    unfold codegen
    exact values_bind _ _ (values_codegen body _) (fun v => values_finishToplevel _ _)
  | .ASTReturn position, parents => by
    unfold codegen
    refine values_bind _ _ (values_deref _) (fun function => ?_)
    refine values_bind _ _ (values_getFunctionSymbol _) (fun f => ?_)
    refine values_bind _ _ (values_assertSome _) (fun returns => ?_)
    refine values_bind _ _ (values_deref _) (fun symbolTable => ?_)
    exact values_bind _ _ (values_copyOutputs _ _ _) (fun _ => values_pure _)
  | .ASTDefineFunction _ symbolTable _ definition body, parents => by
    unfold codegen
    exact values_bind _ _ (values_codegen definition _) (fun _ => values_codegen body _)
  | .ASTFunctionCall position _ arguments function, parents => by
    unfold codegen
    refine values_bind _ _ (values_deref _) (fun function => ?_)
    refine values_bind _ _ (values_checkParameterCount _ _) (fun _ => ?_)
    exact values_bind _ _ (values_codegenArguments arguments _) (fun _ => values_finishCall _ _ _ _)
  | .ASTCondition position condition trueval falseval, parents => by
    unfold codegen
    refine values_bind _ _ (values_codegen condition _) (fun cv => ?_)
    refine values_bind _ _ (values_checkType _ _ _) (fun cv => ?_)
    refine values_bind _ _ values_getInsertBlock (fun bb => ?_)
    refine values_bind _ _ (values_deref _) (fun bb => ?_)
    refine values_bind _ _ values_getCompiler (fun c => ?_)
    refine values_bind _ _ (values_deref _) (fun parent => ?_)
    refine values_bind _ _ (values_createBlock _) (fun trueblock => ?_)
    refine values_bind _ _ (values_createBlock _) (fun falseblock => ?_)
    refine values_bind _ _ (values_createBlock _) (fun mergeblock => ?_)
    refine values_bind _ _ (values_emit _) (fun _ => ?_)
    refine values_bind _ _ (values_setInsertPoint _) (fun _ => ?_)
    refine values_bind _ _ (values_codegen trueval _) (fun trueresult => ?_)
    refine values_bind _ _ values_getInsertBlock (fun trueblock => ?_)
    refine values_bind _ _ (values_emit _) (fun _ => ?_)
    refine values_bind _ _ (values_setInsertPoint _) (fun _ => ?_)
    refine values_bind _ _ (values_codegen falseval _) (fun falseresult => ?_)
    refine values_bind _ _ values_getInsertBlock (fun falseblock => ?_)
    exact values_bind _ _ (values_emit _) (fun _ => values_finishCondition _ _ _ _ _ _)
/-- The element loop of `ASTVector::codegen` takes no value away either. -/
theorem values_codegenElements : ∀ (elements : List ASTNode) (parents : List Ancestor)
    (i : Nat) (v : Val), KeepsValues (codegenElements elements parents i v)
  | [], _, _, _ => by
    unfold codegenElements
    exact values_pure _
  | element :: rest, parents, i, v => by
    unfold codegenElements
    refine values_bind _ _ (values_codegen element _) (fun e => ?_)
    exact values_bind _ _ (values_checkType _ _ _) (fun e => values_codegenElements rest _ _ _)
/-- The argument loop of `ASTFunctionCall::codegen` takes no value away either. -/
theorem values_codegenArguments : ∀ (arguments : List ASTNode) (parents : List Ancestor),
    KeepsValues (codegenArguments arguments parents)
  | [], _ => by
    unfold codegenArguments
    exact values_pure _
  | argument :: rest, parents => by
    unfold codegenArguments
    refine values_bind _ _ (values_codegen argument _) (fun v => ?_)
    exact values_bind _ _ (values_codegenArguments rest _) (fun _ => values_pure _)
end

/-! ## The steps of code generation between the children of a node -/

/-- A sequence that returns: its first step returned, and the rest did from the
state the first step left. -/
theorem bind_ok {α β : Type} (x : M α) (f : α → M β) (c c' : Compiler) (b : β)
    (h : (x >>= f) c = (.ok b, c')) : ∃ a c1, x c = (.ok a, c1) ∧ f a c1 = (.ok b, c') := by
  simp only [bind_eq, M.bind] at h
  cases hxc : x c with
  | mk o1 c1 =>
    rw [hxc] at h
    cases o1 with
    | ok a => exact ⟨a, c1, rfl, h⟩
    | thrown e => simp at h
    | fault e => simp at h

/-- Code generation reads the `locals` resolution left. -/
theorem localsOf_of_captures (c c' : Compiler) (h : c'.captures = c.captures) (F : SymId) :
    c'.localsOf F = c.localsOf F := by
  have hF := congrArg (fun l => l[F]?) h
  simp only [Compiler.captures, List.getElem?_map] at hF
  unfold Compiler.localsOf
  cases h1 : c'.functionSymbols[F]? with
  | none =>
    cases h2 : c.functionSymbols[F]? with
    | none => rfl
    | some f2 => simp [h1, h2] at hF
  | some f1 =>
    cases h2 : c.functionSymbols[F]? with
    | none => simp [h1, h2] at hF
    | some f2 =>
      simp only [h1, h2, Option.map_some', Option.some.injEq, Prod.mk.injEq] at hF
      exact hF.2

/-- Code generation reads the declared parameters resolution left. -/
theorem argumentsOf_of_captures (c c' : Compiler) (h : c'.captures = c.captures) (F : SymId) :
    c'.argumentsOf F = c.argumentsOf F := by
  have hF := congrArg (fun l => l[F]?) h
  simp only [Compiler.captures, List.getElem?_map] at hF
  unfold Compiler.argumentsOf
  cases h1 : c'.functionSymbols[F]? with
  | none =>
    cases h2 : c.functionSymbols[F]? with
    | none => rfl
    | some f2 => simp [h1, h2] at hF
  | some f1 =>
    cases h2 : c.functionSymbols[F]? with
    | none => simp [h1, h2] at hF
    | some f2 =>
      simp only [h1, h2, Option.map_some', Option.some.injEq, Prod.mk.injEq] at hF
      exact hF.1

/-- A resolved tree stays well scoped while code is generated. -/
theorem Scoped_kept {α : Type} (x : M α) (hx : KeepsCaptures x) (c c' : Compiler)
    (o : Outcome α) (h : x c = (o, c')) (node : ASTNode) (visible : List SymId)
    (hs : Scoped c.localsOf c.argumentsOf visible node) :
    Scoped c'.localsOf c'.argumentsOf visible node :=
  Scoped_congr c.localsOf c'.localsOf c.argumentsOf c'.argumentsOf node visible
    (fun F _ => ⟨localsOf_of_captures c c' (hx c o c' h) F,
      argumentsOf_of_captures c c' (hx c o c' h) F⟩) hs

/-- The same for a list of trees. -/
theorem ScopedList_kept {α : Type} (x : M α) (hx : KeepsCaptures x) (c c' : Compiler)
    (o : Outcome α) (h : x c = (o, c')) (nodes : List ASTNode) (visible : List SymId)
    (hs : ScopedList c.localsOf c.argumentsOf visible nodes) :
    ScopedList c'.localsOf c'.argumentsOf visible nodes :=
  ScopedList_congr c.localsOf c'.localsOf c.argumentsOf c'.argumentsOf nodes visible
    (fun F _ => ⟨localsOf_of_captures c c' (hx c o c' h) F,
      argumentsOf_of_captures c c' (hx c o c' h) F⟩) hs

/-- `ASTDefineVariable::codegen` before the body leaves the parameters and `locals` of every
function symbol alone. -/
theorem keeps_generate (position : Position) (type : Option CalcType)
    (symbol : Option SymId) (value : ASTNode) (parents : List Ancestor) :
    KeepsCaptures (ASTDefineVariable.generate position type symbol value parents) := by
  unfold ASTDefineVariable.generate
  exact keeps_bind _ _ (keeps_codegen value _) (fun v => keeps_assign _ _ _ _)

/-- `ASTDefineVariable::codegen` before the body takes no value away. -/
theorem values_generate (position : Position) (type : Option CalcType)
    (symbol : Option SymId) (value : ASTNode) (parents : List Ancestor) :
    KeepsValues (ASTDefineVariable.generate position type symbol value parents) := by
  unfold ASTDefineVariable.generate
  exact values_bind _ _ (values_codegen value _) (fun v => values_assign _ _ _ _)

/-- `ASTFunctionBody::codegen` before the body leaves the parameters and `locals` of every
function symbol alone. -/
theorem keeps_enter (function : SymId) : KeepsCaptures (ASTFunctionBody.enter function) := by
  unfold ASTFunctionBody.enter
  refine keeps_bind _ _ (keeps_create _) (fun p => ?_)
  dsimp only
  refine keeps_bind _ _ (keeps_createBlock _) (fun toplevel => ?_)
  refine keeps_bind _ _ keeps_getInsertBlock (fun bb => ?_)
  exact keeps_bind _ _ (keeps_setInsertPoint _) (fun _ => keeps_pure _)

/-- Putting the builder at the entry block of the created function takes no value away. -/
theorem values_enterRest (p : FnId × LType) : KeepsValues (do
    let toplevel ← createBlock p.1
    let bb ← getInsertBlock
    setInsertPoint (some toplevel)
    pure (p.1, p.2, bb)) := by
  refine values_bind _ _ (values_createBlock _) (fun toplevel => ?_)
  refine values_bind _ _ values_getInsertBlock (fun bb => ?_)
  exact values_bind _ _ (values_setInsertPoint _) (fun _ => values_pure _)

/-- `ASTFunctionBody::codegen` before the body takes no value away. -/
theorem values_enter (function : SymId) : KeepsValues (ASTFunctionBody.enter function) := by
  unfold ASTFunctionBody.enter
  refine values_bind _ _ (values_create _) (fun p => ?_)
  dsimp only
  exact values_enterRest p

/-- The check of the parameter count leaves the parameters and `locals` of every function symbol
alone. -/
theorem keeps_check (function : Option CallableSymbol) (count : Nat) :
    KeepsCaptures (ASTFunctionCall.check function count) := by
  unfold ASTFunctionCall.check
  exact keeps_bind _ _ (keeps_deref _) (fun f => keeps_checkParameterCount _ _)

/-- The check of the parameter count takes no value away. -/
theorem values_check (function : Option CallableSymbol) (count : Nat) :
    KeepsValues (ASTFunctionCall.check function count) := by
  unfold ASTFunctionCall.check
  exact values_bind _ _ (values_deref _) (fun f => values_checkParameterCount _ _)

/-- `ASTCondition::codegen` before the true branch leaves the parameters and `locals` of every
function symbol alone. -/
theorem keeps_toTrue (condition : ASTNode) (parents : List Ancestor) :
    KeepsCaptures (ASTCondition.toTrue condition parents) := by
  unfold ASTCondition.toTrue
  refine keeps_bind _ _ (keeps_codegen condition _) (fun cv => ?_)
  refine keeps_bind _ _ (keeps_checkType _ _ _) (fun cv => ?_)
  refine keeps_bind _ _ keeps_getInsertBlock (fun bb => ?_)
  refine keeps_bind _ _ (keeps_deref _) (fun bb => ?_)
  refine keeps_bind _ _ keeps_getCompiler (fun c => ?_)
  refine keeps_bind _ _ (keeps_deref _) (fun parent => ?_)
  refine keeps_bind _ _ (keeps_createBlock _) (fun trueblock => ?_)
  refine keeps_bind _ _ (keeps_createBlock _) (fun falseblock => ?_)
  refine keeps_bind _ _ (keeps_createBlock _) (fun mergeblock => ?_)
  refine keeps_bind _ _ (keeps_emit _) (fun _ => ?_)
  exact keeps_bind _ _ (keeps_setInsertPoint _) (fun _ => keeps_pure _)

/-- `ASTCondition::codegen` before the true branch takes no value away. -/
theorem values_toTrue (condition : ASTNode) (parents : List Ancestor) :
    KeepsValues (ASTCondition.toTrue condition parents) := by
  unfold ASTCondition.toTrue
  refine values_bind _ _ (values_codegen condition _) (fun cv => ?_)
  refine values_bind _ _ (values_checkType _ _ _) (fun cv => ?_)
  refine values_bind _ _ values_getInsertBlock (fun bb => ?_)
  refine values_bind _ _ (values_deref _) (fun bb => ?_)
  refine values_bind _ _ values_getCompiler (fun c => ?_)
  refine values_bind _ _ (values_deref _) (fun parent => ?_)
  refine values_bind _ _ (values_createBlock _) (fun trueblock => ?_)
  refine values_bind _ _ (values_createBlock _) (fun falseblock => ?_)
  refine values_bind _ _ (values_createBlock _) (fun mergeblock => ?_)
  refine values_bind _ _ (values_emit _) (fun _ => ?_)
  exact values_bind _ _ (values_setInsertPoint _) (fun _ => values_pure _)

/-- `ASTCondition::codegen` between the branches leaves the parameters and `locals` of every
function symbol alone. -/
theorem keeps_toFalse (trueval : ASTNode) (parents : List Ancestor)
    (falseblock mergeblock : BlockId) :
    KeepsCaptures (ASTCondition.toFalse trueval parents falseblock mergeblock) := by
  unfold ASTCondition.toFalse
  refine keeps_bind _ _ (keeps_codegen trueval _) (fun cv => ?_)
  refine keeps_bind _ _ keeps_getInsertBlock (fun bb => ?_)
  refine keeps_bind _ _ (keeps_emit _) (fun _ => ?_)
  exact keeps_bind _ _ (keeps_setInsertPoint _) (fun _ => keeps_pure _)

/-- `ASTCondition::codegen` between the branches takes no value away. -/
theorem values_toFalse (trueval : ASTNode) (parents : List Ancestor)
    (falseblock mergeblock : BlockId) :
    KeepsValues (ASTCondition.toFalse trueval parents falseblock mergeblock) := by
  unfold ASTCondition.toFalse
  refine values_bind _ _ (values_codegen trueval _) (fun cv => ?_)
  refine values_bind _ _ values_getInsertBlock (fun bb => ?_)
  refine values_bind _ _ (values_emit _) (fun _ => ?_)
  exact values_bind _ _ (values_setInsertPoint _) (fun _ => values_pure _)

/-- `codegen_to_real` leaves the parameters and `locals` of every function symbol alone. -/
theorem keeps_codegen_to_real (node : ASTNode) (parents : List Ancestor) :
    KeepsCaptures (codegen_to_real node parents) := by
  unfold codegen_to_real codegen_to_type
  exact keeps_bind _ _ (keeps_codegen node _) (fun v => keeps_checkType _ _ _)

/-- `codegen_to_real` takes no value away. -/
theorem values_codegen_to_real (node : ASTNode) (parents : List Ancestor) :
    KeepsValues (codegen_to_real node parents) := by
  unfold codegen_to_real codegen_to_type
  exact values_bind _ _ (values_codegen node _) (fun v => values_checkType _ _ _)

/-! ## The values code generation assigns -/

/-- An assignment to a variable symbol that returns: the symbol was there. -/
theorem modifyVariable_ok (id : SymId) (g : VariableSymbol → VariableSymbol) (c c' : Compiler)
    (u : Unit) (h : modifyVariable id g c = (.ok u, c')) :
    ∃ v, c.variableSymbols[id]? = some v ∧
      c'.variableSymbols = c.variableSymbols.set id (g v) := by
  cases hv : c.variableSymbols[id]? with
  | none => simp [modifyVariable, M.bind, getVariable, deref, hv, crash] at h
  | some v =>
    simp [modifyVariable, M.bind, getVariable, deref, hv, M.pure, modifyCompiler] at h
    exact ⟨v, rfl, by rw [← h]⟩

/-- The value of the symbol assigned to. -/
theorem modifyVariable_valueOf (id : SymId) (g : VariableSymbol → VariableSymbol)
    (c c' : Compiler) (u : Unit) (h : modifyVariable id g c = (.ok u, c')) (w : Val)
    (hg : ∀ v, (g v).value = some w) : c'.valueOf id = some w := by
  obtain ⟨v, hv, hset⟩ := modifyVariable_ok id g c c' u h
  have hlt : id < c.variableSymbols.length := (List.getElem?_eq_some_iff.mp hv).1
  unfold Compiler.valueOf
  rw [hset]
  simp [List.getElem?_set, hlt, hg]

/-- After `ASTDefineVariable::codegen` assigned the initializer, the variable has
a value. -/
theorem assign_valued (position : Position) (type : Option CalcType) (s : SymId)
    (v : Option Val) (c c' : Compiler) (t : CalcType)
    (h : ASTDefineVariable.assign position type (some s) v c = (.ok t, c')) :
    c'.valueOf s ≠ none := by
  cases v with
  | none =>
    exfalso
    unfold ASTDefineVariable.assign at h
    cases hm : modifyVariable s (fun s => { s with value := none }) c with
    | mk o1 c1 => cases o1 <;> simp [bind_eq, M.bind, hm, throwEx, deref, M.pure] at h
  | some w =>
    unfold ASTDefineVariable.assign at h
    obtain ⟨s', c0, h0, hrest⟩ := bind_ok _ _ _ _ _ h
    simp only [deref, pure_eq, M.pure, Prod.mk.injEq, Outcome.ok.injEq] at h0
    obtain ⟨hs, hc⟩ := h0
    subst hs
    subst hc
    obtain ⟨u, c1, h1, hrest⟩ := bind_ok _ _ _ _ _ hrest
    have hval := modifyVariable_valueOf s _ c c1 u h1 w (fun _ => rfl)
    have hjp : ∀ t0 : CalcType, KeepsValues (α := CalcType)
        (if w.getType ≠ t0.llvm then do
          let actual ← deref (TypeRegistry.find w.getType)
          let y ← (throwEx (.TypeException
            ("variable is declared to return a " ++ t0.name ++ " but has been set to a "
              ++ actual.name) position) : M PUnit)
          pure t0
        else do
          let y ← (pure PUnit.unit : M PUnit)
          pure t0) := by
      intro t0
      refine values_ite _ _ _ ?_ (values_bind _ _ (values_pure _) (fun _ => values_pure _))
      exact values_bind _ _ (values_deref _)
        (fun _ => values_bind _ _ (values_throwEx _) (fun _ => values_pure _))
    have hne : c1.valueOf s ≠ none := by simp [hval]
    cases type with
    | some t0 =>
      dsimp only at hrest
      exact values_bind _ _ (values_pure _) hjp c1 t c' hrest s hne
    | none =>
      dsimp only at hrest
      exact values_bind _ _
        (values_modifyVariable s (fun s => { s with type := TypeRegistry.find w.getType })
          (fun _ h => h))
        (fun _ => values_bind _ _ (values_deref (TypeRegistry.find w.getType)) hjp)
        c1 t c' hrest s hne

/-- After `ASTFunctionBody::codegen` bound the normal parameters, each has a
value. -/
theorem bindArguments_valued (f : FnId) (params : List LType) :
    ∀ (l : List SymId) (vi : Nat) (c c' : Compiler) (vi' : Nat),
    bindArguments f params l vi c = (.ok vi', c') → ∀ a ∈ l, c'.valueOf a ≠ none
  | [], _, _, _, _, _, a, ha => by cases ha
  | s :: rest, vi, c, c', vi', h, a, ha => by
    unfold bindArguments at h
    obtain ⟨type, c0, h0, hrest0⟩ := bind_ok _ _ _ _ _ h
    obtain ⟨u, c1, h1, hrest⟩ := bind_ok _ _ _ _ _ hrest0
    rcases List.mem_cons.mp ha with hs | hr
    · have hval := modifyVariable_valueOf s _ c0 c1 u h1 (.Argument f vi type) (fun _ => rfl)
      rw [hs]
      exact values_bindArguments f params rest (vi + 1) c1 vi' c' hrest s (by simp [hval])
    · exact bindArguments_valued f params rest (vi + 1) c1 c' vi' hrest a hr

/-- After `ASTFunctionBody::codegen` created the function, every declared
parameter has a value. -/
theorem create_valued (function : SymId) (c c' : Compiler) (r : FnId × LType)
    (h : ASTFunctionBody.create function c = (.ok r, c')) :
    ∀ a ∈ c.argumentsOf function, c'.valueOf a ≠ none := by
  unfold ASTFunctionBody.create at h
  obtain ⟨fs, c1, h1, k1⟩ := bind_ok _ _ _ _ _ h
  have hfs : c.functionSymbols[function]? = some fs ∧ c1 = c := by
    cases hf : c.functionSymbols[function]? with
    | none => simp [getFunctionSymbol, deref, hf, crash] at h1
    | some f0 =>
      simp [getFunctionSymbol, deref, hf, M.pure] at h1
      exact ⟨by rw [h1.1], h1.2.symm⟩
  rw [argumentsOf_eq c function fs hfs.1]
  obtain ⟨normal, c2, h2, k2⟩ := bind_ok _ _ _ _ _ k1
  obtain ⟨imported, c3, h3, k3⟩ := bind_ok _ _ _ _ _ k2
  obtain ⟨f, c4, h4, k4⟩ := bind_ok _ _ _ _ _ k3
  obtain ⟨u, c5, h5, k5⟩ := bind_ok _ _ _ _ _ k4
  obtain ⟨vi, c6, h6, k6⟩ := bind_ok _ _ _ _ _ k5
  intro a ha
  have hval := bindArguments_valued f _ fs.arguments 0 c5 c6 vi h6 a ha
  refine values_bind _ _ (values_getFunctionSymbol _) (fun fs' => ?_) c6 r c' k6 a hval
  refine values_bind _ _ (values_bindUpvalues _ _ _ _) (fun vi => ?_)
  dsimp only
  exact values_ite _ _ _ (values_bind _ _ (values_crash _) (fun _ => values_pure _))
    (values_bind _ _ (values_pure _) (fun _ => values_pure _))

/-- When the body of a function is generated, every declared parameter has a
value. -/
theorem enter_valued (function : SymId) (c c' : Compiler)
    (u : FnId × LType × Option BlockId)
    (h : ASTFunctionBody.enter function c = (.ok u, c')) :
    ∀ a ∈ c.argumentsOf function, c'.valueOf a ≠ none := by
  unfold ASTFunctionBody.enter at h
  obtain ⟨p, c1, h1, k1⟩ := bind_ok _ _ _ _ _ h
  intro a ha
  exact values_enterRest p c1 u c' k1 a (create_valued function c c1 p h1 a ha)

/-! ## Code generation, split where a child is generated -/

/-- Sequencing is associative. -/
theorem M_bind_assoc {α β γ : Type} (x : M α) (f : α → M β) (g : β → M γ) :
    M.bind (M.bind x f) g = M.bind x (fun a => M.bind (f a) g) := by
  funext c
  simp only [M.bind]
  cases x c with
  | mk o c1 => cases o <;> rfl

/-- Returning a value and going on. -/
theorem M_pure_bind {α β : Type} (a : α) (f : α → M β) : M.bind (M.pure a) f = f a := rfl

/-- `ASTDefineVariable::codegen` is the initializer generated and assigned, then
the body. -/
theorem codegen_defineVariable (position : Position) (st : Option SymbolTable) (id : String)
    (type : Option CalcType) (value body : ASTNode) (sym : Option SymId)
    (parents : List Ancestor) :
    codegen (.ASTDefineVariable position st id type value body sym) parents =
      (ASTDefineVariable.generate position type sym value parents >>= fun _ =>
        codegen body (.Frame st :: parents)) := by
  simp only [codegen, ASTDefineVariable.generate, bind_eq, M_bind_assoc]

/-- `ASTFunctionBody::codegen` is the function created and entered, then the body,
then the return instruction and its check. -/
theorem codegen_functionBody (position : Position) (st : Option SymbolTable) (function : SymId)
    (body : ASTNode) (parents : List Ancestor) :
    codegen (.ASTFunctionBody position st function body) parents =
      (ASTFunctionBody.enter function >>= fun p =>
        codegen body (.FunctionBody st function :: parents) >>= fun v =>
          ASTFunctionBody.finish position p.1 p.2.1 p.2.2 v) := by
  simp only [codegen, ASTFunctionBody.enter, bind_eq, pure_eq, M_bind_assoc, M_pure_bind]

/-- `ASTFunctionCall::codegen` is the check of the parameter count, then the
arguments, then the upvalues and the call. -/
theorem codegen_functionCall (position : Position) (id : String) (arguments : List ASTNode)
    (function : Option CallableSymbol) (parents : List Ancestor) :
    codegen (.ASTFunctionCall position id arguments function) parents =
      (ASTFunctionCall.check function arguments.length >>= fun _ =>
        codegenArguments arguments (.Node :: parents) >>= fun parameters =>
          deref function >>= fun function =>
            ASTFunctionCall.finish position function parents parameters) := by
  cases function with
  | none =>
    funext c
    simp [codegen, ASTFunctionCall.check, M.bind, deref, crash]
  | some f =>
    simp only [codegen, ASTFunctionCall.check, bind_eq, pure_eq, M_bind_assoc, deref,
      M_pure_bind]

/-- `ASTCondition::codegen` is the condition and the branch instruction, then the
true branch and the jump to the merge block, then the false branch, then the merge. -/
theorem codegen_condition (position : Position) (condition trueval falseval : ASTNode)
    (parents : List Ancestor) :
    codegen (.ASTCondition position condition trueval falseval) parents =
      (ASTCondition.toTrue condition parents >>= fun blocks =>
        ASTCondition.toFalse trueval parents blocks.1 blocks.2 >>= fun p =>
          codegen falseval (.Node :: parents) >>= fun falseresult =>
            getInsertBlock >>= fun falseblock =>
              emit (.Br blocks.2) >>= fun _ =>
                ASTCondition.finish position blocks.2 p.1 p.2 falseresult falseblock) := by
  simp only [codegen, ASTCondition.toTrue, ASTCondition.toFalse, bind_eq, pure_eq,
    M_bind_assoc, M_pure_bind]

/-- One turn of the loop of `ASTVector::codegen` is `codegen_to_real` of the
element, then the rest. -/
theorem codegenElements_cons_eq (element : ASTNode) (rest : List ASTNode)
    (parents : List Ancestor) (i : Nat) (v : Val) :
    codegenElements (element :: rest) parents i v =
      (codegen_to_real element parents >>= fun e =>
        codegenElements rest parents (i + 1) (.InsertElement v i e)) := by
  simp only [codegenElements, codegen_to_real, codegen_to_type, bind_eq, M_bind_assoc]

/-! ## Every home has a value where a function body is entered -/

mutual
/-- Code generation of a well scoped tree, started where every visible variable
has a value, enters every function body in a state in which the home of each
non-self entry of the function's `locals` has a value. -/
theorem functionEntries_valued : ∀ (node : ASTNode) (parents : List Ancestor)
    (visible : List SymId) (c : Compiler),
    Scoped c.localsOf c.argumentsOf visible node → (∀ V ∈ visible, c.valueOf V ≠ none) →
    ∀ p ∈ functionEntries node parents c, ∀ e ∈ p.2.localsOf p.1, e.1 ≠ e.2 →
      p.2.valueOf e.1 ≠ none
  | .ASTConstant _ _, _, _, _, _, _, p, hp => by simp [functionEntries] at hp
  | .ASTBoolean _ _, _, _, _, _, _, p, hp => by simp [functionEntries] at hp
  | .ASTVariable _ _ _, _, _, _, _, _, p, hp => by simp [functionEntries] at hp
  | .ASTReturn _, _, _, _, _, _, p, hp => by simp [functionEntries] at hp
  | .ASTVector _ elements, parents, visible, c, hs, hv, p, hp => by
    simp only [Scoped] at hs
    simp only [functionEntries] at hp
    exact functionEntriesElements_valued elements _ visible c hs hv p hp
  | .ASTVectorSplat _ value _, parents, visible, c, hs, hv, p, hp => by
    simp only [Scoped] at hs
    simp only [functionEntries] at hp
    exact functionEntries_valued value _ visible c hs hv p hp
  | .ASTDefineVariable position st id type value body sym, parents, visible, c, hs, hv, p,
      hp => by
    simp only [Scoped] at hs
    obtain ⟨hsv, ⟨s, hsym, hvars⟩, hsb⟩ := hs
    subst hsym
    simp only [functionEntries, List.mem_append] at hp
    rcases hp with hp | hp
    · exact functionEntries_valued value parents visible c hsv hv p hp
    · cases hx : ASTDefineVariable.generate position type (some s) value parents c with
      | mk o c1 =>
        rw [hx] at hp
        cases o with
        | ok t =>
          simp only at hp
          refine functionEntries_valued body _ _ c1
            (Scoped_kept _ (keeps_generate position type (some s) value parents) c c1 _ hx
              body _ hsb) ?_ p hp
          intro V hV
          rcases hvars V hV with h | h
          · have hx' := hx
            unfold ASTDefineVariable.generate at hx'
            obtain ⟨v, c0, _, h1⟩ := bind_ok _ _ _ _ _ hx'
            rw [h]
            exact assign_valued position type s v c0 c1 t h1
          · exact values_generate position type (some s) value parents c t c1 hx V (hv V h)
        | thrown e => simp at hp
        | fault e => simp at hp
  | .ASTFunctionBody position st function body, parents, visible, c, hs, hv, p, hp => by
    simp only [Scoped] at hs
    obtain ⟨hhomes, hvars, hsb⟩ := hs
    simp only [functionEntries, List.mem_cons] at hp
    rcases hp with hp | hp
    · subst hp
      intro e he hne
      exact hv e.1 (hhomes e he hne)
    · cases hx : ASTFunctionBody.enter function c with
      | mk o c1 =>
        rw [hx] at hp
        cases o with
        | ok u =>
          simp only at hp
          refine functionEntries_valued body _ _ c1
            (Scoped_kept _ (keeps_enter function) c c1 _ hx body _ hsb) ?_ p hp
          intro V hV
          rcases hvars V hV with h | h
          · exact enter_valued function c c1 u hx V h
          · exact values_enter function c u c1 hx V (hv V h)
        | thrown e => simp at hp
        | fault e => simp at hp
  | .ASTToplevel position st toplevel body, parents, visible, c, hs, hv, p, hp => by
    simp only [Scoped] at hs
    simp only [functionEntries] at hp
    exact functionEntries_valued body _ _ c hs.2 (fun V hV => hv V (hs.1 V hV)) p hp
  | .ASTDefineFunction position st function definition body, parents, visible, c, hs, hv, p,
      hp => by
    simp only [Scoped] at hs
    obtain ⟨hvars, hsd, hsb⟩ := hs
    simp only [functionEntries, List.mem_append] at hp
    rcases hp with hp | hp
    · exact functionEntries_valued definition _ _ c hsd (fun V hV => hv V (hvars V hV)) p hp
    · cases hx : codegen definition (.Frame st :: parents) c with
      | mk o c1 =>
        rw [hx] at hp
        cases o with
        | ok u =>
          simp only at hp
          exact functionEntries_valued body _ _ c1
            (Scoped_kept _ (keeps_codegen definition _) c c1 _ hx body _ hsb)
            (fun V hV => values_codegen definition _ c u c1 hx V (hv V (hvars V hV))) p hp
        | thrown e => simp at hp
        | fault e => simp at hp
  | .ASTFunctionCall position id arguments function, parents, visible, c, hs, hv, p, hp => by
    simp only [Scoped] at hs
    simp only [functionEntries] at hp
    cases hx : ASTFunctionCall.check function arguments.length c with
    | mk o c1 =>
      rw [hx] at hp
      cases o with
      | ok u =>
        simp only at hp
        exact functionEntriesArguments_valued arguments _ visible c1
          (ScopedList_kept _ (keeps_check function arguments.length) c c1 _ hx arguments _ hs)
          (fun V hV => values_check function arguments.length c u c1 hx V (hv V hV)) p hp
      | thrown e => simp at hp
      | fault e => simp at hp
  | .ASTCondition position condition trueval falseval, parents, visible, c, hs, hv, p, hp => by
    simp only [Scoped] at hs
    obtain ⟨hs1, hs2, hs3⟩ := hs
    simp only [functionEntries, List.mem_append] at hp
    rcases hp with hp | hp
    · exact functionEntries_valued condition _ visible c hs1 hv p hp
    · cases hx : ASTCondition.toTrue condition parents c with
      | mk o c1 =>
        rw [hx] at hp
        cases o with
        | ok blocks =>
          obtain ⟨falseblock, mergeblock⟩ := blocks
          simp only [List.mem_append] at hp
          have hv1 : ∀ V ∈ visible, c1.valueOf V ≠ none :=
            fun V hV => values_toTrue condition parents c _ c1 hx V (hv V hV)
          have hk1 := keeps_toTrue condition parents
          rcases hp with hp | hp
          · exact functionEntries_valued trueval _ visible c1
              (Scoped_kept _ hk1 c c1 _ hx trueval _ hs2) hv1 p hp
          · cases hy : ASTCondition.toFalse trueval parents falseblock mergeblock c1 with
            | mk o2 c2 =>
              rw [hy] at hp
              cases o2 with
              | ok u =>
                simp only at hp
                exact functionEntries_valued falseval _ visible c2
                  (Scoped_kept _ (keeps_toFalse trueval parents falseblock mergeblock) c1 c2 _
                    hy falseval _ (Scoped_kept _ hk1 c c1 _ hx falseval _ hs3))
                  (fun V hV => values_toFalse trueval parents falseblock mergeblock c1 u c2 hy V
                    (hv1 V hV)) p hp
              | thrown e => simp at hp
              | fault e => simp at hp
        | thrown e => simp at hp
        | fault e => simp at hp
/-- The same for the loop of `ASTVector::codegen`. -/
theorem functionEntriesElements_valued : ∀ (nodes : List ASTNode) (parents : List Ancestor)
    (visible : List SymId) (c : Compiler),
    ScopedList c.localsOf c.argumentsOf visible nodes → (∀ V ∈ visible, c.valueOf V ≠ none) →
    ∀ p ∈ functionEntriesElements nodes parents c, ∀ e ∈ p.2.localsOf p.1, e.1 ≠ e.2 →
      p.2.valueOf e.1 ≠ none
  | [], _, _, _, _, _, p, hp => by simp [functionEntriesElements] at hp
  | node :: rest, parents, visible, c, hs, hv, p, hp => by
    simp only [ScopedList] at hs
    simp only [functionEntriesElements, List.mem_append] at hp
    rcases hp with hp | hp
    · exact functionEntries_valued node parents visible c hs.1 hv p hp
    · cases hx : codegen_to_real node parents c with
      | mk o c1 =>
        rw [hx] at hp
        cases o with
        | ok u =>
          simp only at hp
          exact functionEntriesElements_valued rest parents visible c1
            (ScopedList_kept _ (keeps_codegen_to_real node parents) c c1 _ hx rest _ hs.2)
            (fun V hV => values_codegen_to_real node parents c u c1 hx V (hv V hV)) p hp
        | thrown e => simp at hp
        | fault e => simp at hp
/-- The same for the first loop of `ASTFunctionCall::codegen`. -/
theorem functionEntriesArguments_valued : ∀ (nodes : List ASTNode) (parents : List Ancestor)
    (visible : List SymId) (c : Compiler),
    ScopedList c.localsOf c.argumentsOf visible nodes → (∀ V ∈ visible, c.valueOf V ≠ none) →
    ∀ p ∈ functionEntriesArguments nodes parents c, ∀ e ∈ p.2.localsOf p.1, e.1 ≠ e.2 →
      p.2.valueOf e.1 ≠ none
  | [], _, _, _, _, _, p, hp => by simp [functionEntriesArguments] at hp
  | node :: rest, parents, visible, c, hs, hv, p, hp => by
    simp only [ScopedList] at hs
    simp only [functionEntriesArguments, List.mem_append] at hp
    rcases hp with hp | hp
    · exact functionEntries_valued node parents visible c hs.1 hv p hp
    · cases hx : codegen node parents c with
      | mk o c1 =>
        rw [hx] at hp
        cases o with
        | ok u =>
          simp only at hp
          exact functionEntriesArguments_valued rest parents visible c1
            (ScopedList_kept _ (keeps_codegen node parents) c c1 _ hx rest _ hs.2)
            (fun V hV => values_codegen node parents c u c1 hx V (hv V hV)) p hp
        | thrown e => simp at hp
        | fault e => simp at hp
end

/-! ## The whole program -/

/-- When the home of every non-self entry has a value, the loop of
`ASTFunctionBody::codegen` over the imported upvalues passes every
`assert(symbol->value)`. -/
theorem upvalueTypes_ok : ∀ (l : List (SymId × SymId)) (c : Compiler),
    (∀ e ∈ l, e.1 ≠ e.2 → c.valueOf e.1 ≠ none) →
    ∃ types, upvalueTypes l c = (.ok types, c)
  | [], c, _ => ⟨[], rfl⟩
  | i :: rest, c, h => by
    obtain ⟨types, ht⟩ := upvalueTypes_ok rest c
      (fun e he hne => h e (List.mem_cons_of_mem _ he) hne)
    by_cases hi : i.1 = i.2
    · exact ⟨types, by rw [upvalueTypes]; simp [hi, ht]⟩
    · have hval := h i (List.mem_cons_self _ _) hi
      unfold Compiler.valueOf at hval
      cases hv : c.variableSymbols[i.1]? with
      | none => simp [hv] at hval
      | some s =>
        cases hs : s.value with
        | none => simp [hv, hs] at hval
        | some v =>
          refine ⟨v.getType :: types, ?_⟩
          rw [upvalueTypes]
          simp [hi, M.bind, getVariable, deref, hv, M.pure, assertSome, hs, ht]

/-- The symbol table of the root is what is visible below it. -/
theorem visibleVariables_root (st : Option SymbolTable) (top : SymId) :
    visibleVariables [.FunctionBody st top] = variablesIn (SymbolTable.symbols (st.getD [])) := by
  cases st <;> rfl

/-- The function symbols of the root table are what is visible below it. -/
theorem visibleFunctions_root (st : Option SymbolTable) (top : SymId) :
    visibleFunctions [.FunctionBody st top] = functionsIn (SymbolTable.symbols (st.getD [])) := by
  cases st <;> rfl

/-- No function symbol has `locals` or parameters beyond the last one. -/
theorem localsOf_nil (c : Compiler) (F : SymId) (h : ¬ F < c.functionSymbols.length) :
    c.localsOf F = [] := by
  unfold Compiler.localsOf
  rw [List.getElem?_eq_none (Nat.le_of_not_lt h)]

/-- No function symbol beyond the last one has parameters. -/
theorem argumentsOf_nil (c : Compiler) (F : SymId) (h : ¬ F < c.functionSymbols.length) :
    c.argumentsOf F = [] := by
  unfold Compiler.argumentsOf
  rw [List.getElem?_eq_none (Nat.le_of_not_lt h)]

/-- What the parser hands over satisfies the invariant of the resolution pass. -/
theorem Parsed_invariant (c : Compiler) (st : Option SymbolTable) (top : SymId)
    (body : ASTNode) (h : Parsed c st top body) : LocalsInvariant c := by
  obtain ⟨_, _, _, _, _, hloc, hown, _, _⟩ := h
  refine ⟨?_, ?_, ?_⟩
  · intro V E ho
    obtain ⟨v, hv⟩ := ownerOf_valid c V E ho
    exact hown V (List.getElem?_eq_some_iff.mp hv).1 E ho
  · intro F e he hne
    by_cases hF : F < c.functionSymbols.length
    · exact absurd ((hloc F hF).1 e he) hne
    · rw [localsOf_nil c F hF] at he
      cases he
  · intro F G a hFG ha hG
    by_cases hF : F < c.functionSymbols.length
    · by_cases hG' : G < c.functionSymbols.length
      · exact hFG ((hloc F hF).2.2 G hG' a ha hG)
      · rw [argumentsOf_nil c G hG'] at hG
        cases hG
    · rw [argumentsOf_nil c F hF] at ha
      cases ha

/-- The function symbols the tree defines are as the parser made them. -/
theorem Parsed_fresh (c : Compiler) (st : Option SymbolTable) (top : SymId)
    (body : ASTNode) (h : Parsed c st top body) : ∀ F ∈ definedFunctions body, Fresh c F := by
  obtain ⟨_, _, _, _, hdef, hloc, _, _, _⟩ := h
  intro F hF
  obtain ⟨hlt, hpar, hargs⟩ := hdef F hF
  exact ⟨hpar, hlt, (hloc F hlt).1,
    fun a ha => ⟨(hargs a ha).1, (hargs a ha).2, (hloc F hlt).2.1 a ha⟩⟩

/-- The root of the tree is the body of the top-level function. -/
theorem Parsed_chain (c : Compiler) (st : Option SymbolTable) (top : SymId)
    (body : ASTNode) (h : Parsed c st top body) : Chain [.FunctionBody st top] top c := by
  obtain ⟨_, _, _, hlt, _, hloc, _, hvars, hfuns⟩ := h
  refine ⟨rfl, hlt, ?_, ?_, ?_, ?_, ?_, ?_⟩
  · intro V hV
    rw [visibleVariables_root] at hV
    exact ⟨top, hvars V hV, Encloses.refl top⟩
  · intro G hG
    rw [visibleFunctions_root, hfuns] at hG
    cases hG
  · intro G hG
    rw [visibleFunctions_root, hfuns] at hG
    cases hG
  · intro V hV
    rw [visibleVariables_root] at hV
    exact Or.inl (hvars V hV)
  · intro e he hne
    exact absurd ((hloc top hlt).1 e he) hne
  · intro V hV
    cases hV

/-- A variable that has a value is a valid pointer. -/
theorem valueOf_valid (c : Compiler) (V : SymId) (h : c.valueOf V ≠ none) :
    V < c.variableSymbols.length := by
  by_contra hlt
  apply h
  unfold Compiler.valueOf
  rw [List.getElem?_eq_none (Nat.le_of_not_lt hlt)]
  rfl

/-! ## C23 -/

/-- C23: whatever state `resolveVariables` leaves for a program as the parser
hands it over, in every function symbol's `locals` each variable the function
owns is a key mapped to itself, and the home of every non-self entry is owned by
a function that lexically encloses the function of the entry and is not that
function, so that no function receives one of its own variables as an upvalue.
When the pass returns, every variable definition of the tree has its symbol,
owned by the function the definition is in and mapped to itself in that
function's `locals`; and if the variables of the root's symbol table have
values, code generation enters every function body in a state in which the loop
of `ASTFunctionBody::codegen` over the imported upvalues finds a value at every
home (no `assert(symbol->value)` fails). -/
theorem resolveVariables_locals_invariant (position : Position) (st : Option SymbolTable)
    (top : SymId) (body : ASTNode) (c c' : Compiler) (o : Outcome ASTNode)
    (hparsed : Parsed c st top body)
    (hvalued : ∀ V ∈ variablesIn (SymbolTable.symbols (st.getD [])), c.valueOf V ≠ none)
    (h : resolveVariables (.ASTToplevel position st top body) [] c = (o, c')) :
    (∀ V F, c'.ownerOf V = some F → LocalsMap.find V (c'.localsOf F) = some V) ∧
    (∀ F e, e ∈ c'.localsOf F → e.1 ≠ e.2 →
      ∃ E, c'.ownerOf e.1 = some E ∧ E ≠ F ∧ StrictlyEncloses c' E F) ∧
    ∀ tree, o = .ok tree →
      (∀ p ∈ definedVariables top tree, ∃ V, p.2 = some V ∧ c'.ownerOf V = some p.1 ∧
        LocalsMap.find V (c'.localsOf p.1) = some V) ∧
      ∀ p ∈ functionEntries tree [] c',
        ∃ types, upvalueTypes (p.2.localsOf p.1) p.2 = (.ok types, p.2) := by
  have hinv := Parsed_invariant c st top body hparsed
  have hchain := Parsed_chain c st top body hparsed
  have hfresh := Parsed_fresh c st top body hparsed
  obtain ⟨hwf, hnd, htop, _⟩ := hparsed
  have hres := resolveVariables_resolves body [.FunctionBody st top] top c hwf hnd htop hfresh
    hinv hchain
  simp only [resolveVariables, bind_eq, pure_eq, M.bind] at h
  cases hb : resolveVariables body [.FunctionBody st top] c with
  | mk o1 c1 =>
    obtain ⟨hr, hq⟩ := hres o1 c1 hb
    rw [hb] at h
    have hc : c' = c1 := by
      cases o1 <;> simp only [M.pure, Prod.mk.injEq] at h <;> exact h.2.symm
    subst hc
    refine ⟨hr.invariant.own, hr.invariant.captured, ?_⟩
    intro tree ho
    cases o1 with
    | ok body' =>
      simp only [M.pure, Prod.mk.injEq] at h
      rw [← h.1] at ho
      cases ho
      obtain ⟨hscoped, _, howned⟩ := hq body' rfl
      refine ⟨?_, ?_⟩
      · intro p hp
        simp only [definedVariables] at hp
        obtain ⟨V, hV, ho⟩ := howned p hp
        exact ⟨V, hV, ho, hr.invariant.own V p.1 ho⟩
      · intro p hp
        simp only [functionEntries] at hp
        refine upvalueTypes_ok _ _ (functionEntries_valued body' _ _ c' hscoped ?_ p hp)
        intro V hV
        rw [visibleVariables_root] at hV
        have hv := hvalued V hV
        rw [hr.extends_.value V (valueOf_valid c V hv)]
        exact hv
    | thrown e =>
      simp only [Prod.mk.injEq] at h
      rw [← h.1] at ho
      cases ho
    | fault e =>
      simp only [Prod.mk.injEq] at h
      rw [← h.1] at ho
      cases ho

/-- The program `let y = a in let f() : vector*2 = [a, y] in return` resolved:
the top-level function owns `a` and `y`, `f` captured both through the proxies 2
and 3, and code generation enters the body of `f` once. -/
theorem capturedInputResolved_locals :
    capturedInputResolved.2.localsOf 0 = [(0, 0), (1, 1)] ∧
    capturedInputResolved.2.localsOf 1 = [(0, 2), (1, 3)] ∧
    capturedInputResolved.2.ownerOf 0 = some 0 ∧ capturedInputResolved.2.ownerOf 1 = some 0 ∧
    capturedInputResolved.2.parentOf 1 = some 0 ∧
    (match capturedInputResolved with
      | (.ok tree, c) => (functionEntries tree [] c).map Prod.fst
      | _ => []) = [1] := by
  decide!

/-- C23 at `let y = a in let f() : vector*2 = [a, y] in return`, where `a` is an
input of the top-level function and `f` captures both `a` and `y`. -/
theorem resolveVariables_locals_invariant_witness :
    Parsed toplevelInput inputTable 0 capturedInput ∧
    (∀ V ∈ variablesIn (SymbolTable.symbols (inputTable.getD [])),
      toplevelInput.valueOf V ≠ none) ∧
    (∀ V F, capturedInputResolved.2.ownerOf V = some F →
      LocalsMap.find V (capturedInputResolved.2.localsOf F) = some V) ∧
    (∀ F e, e ∈ capturedInputResolved.2.localsOf F → e.1 ≠ e.2 →
      ∃ E, capturedInputResolved.2.ownerOf e.1 = some E ∧ E ≠ F ∧
        StrictlyEncloses capturedInputResolved.2 E F) ∧
    ∀ tree, capturedInputResolved.1 = .ok tree →
      (∀ p ∈ definedVariables 0 tree, ∃ V, p.2 = some V ∧
        capturedInputResolved.2.ownerOf V = some p.1 ∧
        LocalsMap.find V (capturedInputResolved.2.localsOf p.1) = some V) ∧
      ∀ p ∈ functionEntries tree [] capturedInputResolved.2,
        ∃ types, upvalueTypes (p.2.localsOf p.1) p.2 = (.ok types, p.2) :=
  ⟨by decide, by decide,
    resolveVariables_locals_invariant ⟨1, 1⟩ inputTable 0 capturedInput toplevelInput
      capturedInputResolved.2 capturedInputResolved.1 (by decide) (by decide) rfl⟩

end Calculon
